import Mathlib

/-! A shallow embedding of the URI library (`src/index.js`, `src/lib/utils.js`).

JavaScript strings are sequences of UTF-16 code units and are modelled as lists of natural
numbers.  Regular expressions of the source are modelled by hand-written matchers that follow
the backtracking order of the pattern; each matcher quotes the pattern it embeds.
Loops whose termination is not evident carry a fuel argument.
-/

namespace Uri

/-- A JavaScript string: the list of its UTF-16 code units. -/
abbrev Str := List Nat

/-- UTF-16 code units of one Unicode scalar value. -/
def utf16 (c : Char) : List Nat :=
  if c.toNat < 0x10000 then [c.toNat]
  else [0xD800 + (c.toNat - 0x10000) / 1024, 0xDC00 + (c.toNat - 0x10000) % 1024]

/-- The JavaScript string written as the Lean string literal `s`. -/
def lit (s : String) : Str := s.toList.flatMap utf16

/-- Errors that the library (or a built-in it calls) raises. -/
inductive Exn where
  /-- `URIError` raised by the built-in `decodeURI`. -/
  | uriError
  /-- `new Error('Unexpected dot segment condition')`. -/
  | dotSegment
  /-- `new Error('Invalid URI')`. -/
  | invalidURI
  deriving DecidableEq, Repr

/-- Outcome of running a piece of the program: a value, a raised error, or no result because
the fuel of a loop ran out. -/
inductive Res (α : Type) where
  | ok (a : α)
  | throw (e : Exn)
  | diverge
  deriving DecidableEq, Repr

namespace Res

/-- Sequencing of outcomes. -/
def bind {α β : Type} (r : Res α) (f : α → Res β) : Res β :=
  match r with
  | ok a => f a
  | throw e => throw e
  | diverge => diverge

/-- Post-processing of a returned value. -/
def map {α β : Type} (f : α → β) (r : Res α) : Res β :=
  match r with
  | ok a => ok (f a)
  | throw e => throw e
  | diverge => diverge

end Res

instance : Monad Res where
  pure := Res.ok
  bind := Res.bind

/-! ## String helpers -/

/-- Does `s` start with `p`?  When it does, the rest of `s`. -/
def stripStart (p s : Str) : Option Str :=
  if p.isPrefixOf s then some (s.drop p.length) else none

/-- `str.slice(a, b)` for `0 ≤ a`, `0 ≤ b`. -/
def slice (s : Str) (a b : Nat) : Str := (s.take b).drop a

/-- `str.charCodeAt(i)`; `none` stands for `NaN`. -/
def charCodeAt (s : Str) (i : Nat) : Option Nat := s.get? i

/-! ## Dot-segment removal (`src/lib/utils.js`, lines 155–185) -/

/-- `RDS1 = /^\.\.?\//`: the input with the matched prefix removed. -/
def matchRDS1 (input : Str) : Option Str :=
  match stripStart [46, 46, 47] input with
  | some rest => some rest
  | none => stripStart [46, 47] input

/-- `RDS2 = /^\/\.(\/|$)/`: the input after the matched prefix; `$` is the end of input. -/
def matchRDS2 (input : Str) : Option Str :=
  match stripStart [47, 46, 47] input with
  | some rest => some rest
  | none => if input = [47, 46] then some [] else none

/-- `RDS3 = /^\/\.\.(\/|$)/`: the input after the matched prefix. -/
def matchRDS3 (input : Str) : Option Str :=
  match stripStart [47, 46, 46, 47] input with
  | some rest => some rest
  | none => if input = [47, 46, 46] then some [] else none

/-- The class `(?:.|\n)`: `.` (no `s` flag) excludes LF, CR, U+2028, U+2029; `\n` adds LF. -/
def dotOrLF (c : Nat) : Bool := c ≠ 13 && c ≠ 0x2028 && c ≠ 0x2029

/-- The part `(?:.|\n)*?(?=\/|$)` of `RDS5`: the shortest run of `(?:.|\n)` that is followed
by `/` or by the end of input; `none` when the run hits a character outside the class. -/
def lazySegment : Str → Option Str
  | [] => some []
  | c :: rest =>
    if c = 47 then some []
    else if dotOrLF c then (lazySegment rest).map (c :: ·)
    else none

/-- `RDS5 = /^\/?(?:.|\n)*?(?=\/|$)/`: element 0 of the match.  The greedy `\/?` first takes
a leading slash; when the rest then fails, the matcher backtracks to `\/?` matching nothing. -/
def matchRDS5 (input : Str) : Option Str :=
  match input with
  | c :: rest =>
    if c = 47 then
      match lazySegment rest with
      | some s => some (47 :: s)
      | none => lazySegment input
    else lazySegment input
  | [] => lazySegment input

/-- The `while (input.length)` loop of `removeDotSegments`, with fuel. -/
def rdsLoop : Nat → Str → List Str → Res Str
  | 0, _, _ => Res.diverge
  | fuel + 1, input, output =>
    if input.length = 0 then Res.ok output.flatten
    else
      match matchRDS1 input with
      | some rest => rdsLoop fuel rest output
      | none =>
        match matchRDS2 input with
        | some rest => rdsLoop fuel (47 :: rest) output
        | none =>
          match matchRDS3 input with
          | some rest => rdsLoop fuel (47 :: rest) output.dropLast
          | none =>
            if input = [46] ∨ input = [46, 46] then rdsLoop fuel [] output
            else
              match matchRDS5 input with
              | some s => rdsLoop fuel (input.drop s.length) (output ++ [s])
              | none => Res.throw Exn.dotSegment

/-- `removeDotSegments(input)`.  Every iteration that shortens the input can happen at most
`input.length` times, so this fuel is exhausted only by a run that never ends
(`rdsLoop_diverge_of_fuel`). -/
def removeDotSegments (input : Str) : Res Str := rdsLoop (input.length + 1) input []

/-! ## Percent-encoding codec (`src/index.js`, lines 100–143 and 339–402) -/

/-- The table `escapedCodes`, row by row as in the source (126 entries). -/
def escapedCodes : List Str :=
  /- 0 - 9 -/ [[], [], [], [], [], [], [], [], [], lit "%09",
  /- 10 - 19 -/ lit "%0A", [], [], lit "%0D", [], [], [], [], [], [],
  /- 20 - 29 -/ [], [], [], [], [], [], [], [], [], [],
  /- 30 - 39 -/ [], [], lit "%20", [], lit "%22", [], [], [], [], lit "%27",
  /- 40 - 49 -/ [], [], [], [], [], [], [], [], [], [],
  /- 50 - 59 -/ [], [], [], [], [], [], [], [], [], [],
  /- 60 - 69 -/ lit "%3C", [], lit "%3E", [], [], [], [], [], [], [],
  /- 70 - 79 -/ [], [], [], [], [], [], [], [], [], [],
  /- 80 - 89 -/ [], [], [], [], [], [], [], [], [], [],
  /- 90 - 99 -/ [], [], lit "%5C", [], lit "%5E", [], lit "%60", [], [], [],
  /- 100 - 109 -/ [], [], [], [], [], [], [], [], [], [],
  /- 110 - 119 -/ [], [], [], [], [], [], [], [], [], [],
  /- 120 - 125 -/ [], [], [], lit "%7B", lit "%7C", lit "%7D"]

/-- `escapedCodes[code]`; an index past the table gives `undefined`, which is as falsy as the
empty string and is modelled by it. -/
def escapedChar (code : Nat) : Str := escapedCodes.getD code []

/-- One iteration of the `for` loop of `escapeString`; the state is `(escaped, lastEscapedPos)`. -/
def escapeStep (rest : Str) (st : Str × Nat) (i : Nat) : Str × Nat :=
  let e := escapedChar (rest.getD i 0)
  if e ≠ [] then
    ((if i > st.2 then st.1 ++ slice rest st.2 i else st.1) ++ e, i + 1)
  else st

/-- `escapeString(rest)`. -/
def escapeString (rest : Str) : Str :=
  let st := (List.range rest.length).foldl (escapeStep rest) ([], 0)
  if st.2 = 0 then rest
  else if st.2 < rest.length then st.1 ++ rest.drop st.2
  else st.1

/-- Value of a hexadecimal digit. -/
def hexVal (c : Nat) : Option Nat :=
  if 48 ≤ c ∧ c ≤ 57 then some (c - 48)
  else if 65 ≤ c ∧ c ≤ 70 then some (c - 55)
  else if 97 ≤ c ∧ c ≤ 102 then some (c - 87)
  else none

/-- ECMAScript `ParseHexOctet` on the two code units after a `%`. -/
def parseHexOctet (h l : Nat) : Option Nat :=
  match hexVal h, hexVal l with
  | some a, some b => some (16 * a + b)
  | _, _ => none

/-- A continuation escape `%XX` of a multi-byte sequence: its six low bits, when the octet is
of the form `10xxxxxx`. -/
def contOctet (p h l : Nat) : Option Nat :=
  if p = 37 then
    match parseHexOctet h l with
    | some b => if 0x80 ≤ b ∧ b < 0xC0 then some (b - 0x80) else none
    | none => none
  else none

/-- ECMAScript `UTF16EncodeCodePoint`. -/
def utf16EncodeCodePoint (v : Nat) : Str :=
  if v < 0x10000 then [v]
  else [0xD800 + (v - 0x10000) / 1024, 0xDC00 + (v - 0x10000) % 1024]

/-- The reserved set `;/?:@&=+$,#` that `decodeURI` leaves escaped. -/
def uriReserved (c : Nat) : Bool := [59, 47, 63, 58, 64, 38, 61, 43, 36, 44, 35].contains c

/-- One round of the loop of ECMA-262 `Decode` on the rest `s` of the string, with the
reserved set of `decodeURI`: the code units appended to the result and the rest that
remains; `none` when `URIError` is raised.  A code unit other than `%` is copied; `%XX` with
an ASCII octet gives the character, or the escape itself for a reserved character; `%XX` with
a leading octet `110xxxxx`, `1110xxxx` or `11110xxx` takes one, two or three continuation
escapes and gives the UTF-16 form of the code point, provided the octets are well-formed
UTF-8. -/
def decodeStep (s : Str) : Option (Str × Str) :=
  match s with
  | [] => none
  | c :: rest =>
    if c ≠ 37 then some ([c], rest)
    else
      match rest with
      | h :: l :: rest1 =>
        match parseHexOctet h l with
        | none => none
        | some b =>
          if b < 0x80 then
            if uriReserved b then some ([37, h, l], rest1) else some ([b], rest1)
          else if b < 0xC0 then none
          else if b < 0xE0 then
            match rest1 with
            | p1 :: h1 :: l1 :: rest2 =>
              match contOctet p1 h1 l1 with
              | some b1 =>
                let v := (b - 0xC0) * 64 + b1
                if 0x80 ≤ v then some (utf16EncodeCodePoint v, rest2) else none
              | none => none
            | _ => none
          else if b < 0xF0 then
            match rest1 with
            | p1 :: h1 :: l1 :: p2 :: h2 :: l2 :: rest2 =>
              match contOctet p1 h1 l1, contOctet p2 h2 l2 with
              | some b1, some b2 =>
                let v := (b - 0xE0) * 4096 + b1 * 64 + b2
                if 0x800 ≤ v ∧ ¬ (0xD800 ≤ v ∧ v < 0xE000) then
                  some (utf16EncodeCodePoint v, rest2)
                else none
              | _, _ => none
            | _ => none
          else if b < 0xF8 then
            match rest1 with
            | p1 :: h1 :: l1 :: p2 :: h2 :: l2 :: p3 :: h3 :: l3 :: rest2 =>
              match contOctet p1 h1 l1, contOctet p2 h2 l2, contOctet p3 h3 l3 with
              | some b1, some b2, some b3 =>
                let v := (b - 0xF0) * 262144 + b1 * 4096 + b2 * 64 + b3
                if 0x10000 ≤ v ∧ v < 0x110000 then some (utf16EncodeCodePoint v, rest2)
                else none
              | _, _, _ => none
            | _ => none
          else none
      | _ => none

/-- The loop of `Decode`, with fuel; every round consumes at least one code unit. -/
def decodeLoop : Nat → Str → Res Str
  | _, [] => Res.ok []
  | 0, _ :: _ => Res.diverge
  | fuel + 1, c :: rest =>
    match decodeStep (c :: rest) with
    | none => Res.throw Exn.uriError
    | some r => (decodeLoop fuel r.2).map (r.1 ++ ·)

/-- The built-in `decodeURI`. -/
def decodeURI (s : Str) : Res Str := decodeLoop s.length s

/-- `decodeComponentChar(highCharCode, lowCharCode)`; an argument `none` is `NaN`. -/
def decodeComponentChar (highCharCode lowCharCode : Option Nat) : Option Nat :=
  if highCharCode = some 50 then
    if lowCharCode = some 53 then some 37
    else if lowCharCode = some 51 then some 35
    else if lowCharCode = some 52 then some 36
    else if lowCharCode = some 54 then some 38
    else if lowCharCode = some 66 then some 43
    else if lowCharCode = some 98 then some 43
    else if lowCharCode = some 67 then some 44
    else if lowCharCode = some 99 then some 44
    else if lowCharCode = some 70 then some 47
    else if lowCharCode = some 102 then some 47
    else none
  else if highCharCode = some 51 then
    if lowCharCode = some 65 then some 58
    else if lowCharCode = some 97 then some 58
    else if lowCharCode = some 66 then some 59
    else if lowCharCode = some 98 then some 59
    else if lowCharCode = some 68 then some 61
    else if lowCharCode = some 100 then some 61
    else if lowCharCode = some 70 then some 63
    else if lowCharCode = some 102 then some 63
    else none
  else if highCharCode = some 52 ∧ lowCharCode = some 48 then some 64
  else none

/-- The scanning loop of `safeDecodeURI` from index `i`, with fuel; the state is the (possibly
rewritten) `path` and `shouldDecode`.  `path.length - i` drops in every iteration, so
`path.length` is fuel enough. -/
def safeDecodeLoop : Nat → Str → Nat → Bool → Str × Bool
  | 0, path, _, shouldDecode => (path, shouldDecode)
  | fuel + 1, path, i, shouldDecode =>
    if i < path.length then
      let charCode := charCodeAt path i
      if charCode = some 37 then
        let highCharCode := charCodeAt path (i + 1)
        let lowCharCode := charCodeAt path (i + 2)
        if decodeComponentChar highCharCode lowCharCode = none then
          safeDecodeLoop fuel path (i + 1) true
        else if highCharCode = some 50 ∧ lowCharCode = some 53 then
          safeDecodeLoop fuel (slice path 0 (i + 1) ++ [50, 53] ++ path.drop (i + 1)) (i + 2 + 2 + 1)
            true
        else safeDecodeLoop fuel path (i + 2 + 1) shouldDecode
      else if charCode = some 63 ∨ charCode = some 59 ∨ charCode = some 35 then
        (path, shouldDecode)
      else safeDecodeLoop fuel path (i + 1) shouldDecode
    else (path, shouldDecode)

/-- `safeDecodeURI(path)`. -/
def safeDecodeURI (path : Str) : Res Str :=
  let st := safeDecodeLoop path.length path 1 false
  if st.2 then decodeURI st.1 else Res.ok st.1

/-! ## Host normaliser (`src/lib/utils.js`, lines 6–153) -/

/-- `findToken(str, token)`: the number of occurrences of `token`. -/
def findToken (str : Str) (token : Nat) : Nat :=
  (List.range str.length).foldl (fun ind i => if str.get? i = some token then ind + 1 else ind) 0

/-- The class `[0-9]`, also `\d`. -/
def isDigit (c : Nat) : Bool := 48 ≤ c && c ≤ 57

/-- `[0-9][0-9]?` at the start of `s`: the possible remainders, the greedy choice first. -/
def digitOptDigitRests (s : Str) : List Str :=
  match s with
  | d :: r =>
    if isDigit d then
      match r with
      | d2 :: r2 => if isDigit d2 then [r2, r] else [r]
      | [] => [r]
    else []
  | [] => []

/-- One octet `25[0-5]|2[0-4][0-9]|[01]?[0-9][0-9]?` at the start of `s`: the possible
remainders in the order in which a backtracking matcher tries them.  (The `\b` that the first
octet carries holds at index 0 as soon as a digit follows.) -/
def octetRests (s : Str) : List Str :=
  (match s with
    | a :: b :: c :: r => if a = 50 ∧ b = 53 ∧ 48 ≤ c ∧ c ≤ 53 then [r] else []
    | _ => []) ++
  (match s with
    | a :: b :: c :: r => if a = 50 ∧ 48 ≤ b ∧ b ≤ 52 ∧ isDigit c then [r] else []
    | _ => []) ++
  (match s with
    | a :: r => if a = 48 ∨ a = 49 then digitOptDigitRests r else []
    | [] => []) ++
  digitOptDigitRests s

/-- The group `\.(octet)` at the start of `s`. -/
def dotOctetRests (s : Str) : List Str :=
  match s with
  | c :: r => if c = 46 then octetRests r else []
  | [] => []

/-- Does the pattern
`/^(\b25[0-5]|\b2[0-4][0-9]|\b[01]?[0-9][0-9]?)(\.(25[0-5]|2[0-4][0-9]|[01]?[0-9][0-9]?)){3}$/`
match `host`?  (When it does, element 0 of the match is `host` itself.) -/
def ipv4Regex (host : Str) : Bool :=
  ((((octetRests host).flatMap dotOctetRests).flatMap dotOctetRests).flatMap dotOctetRests).any
    (fun r => r.isEmpty)

/-- One iteration of the loop of `stripLeadingZeros`; the state is `(out, skip)`. -/
def stripZerosStep (str : Str) (token : Nat) (st : Str × Bool) (i : Nat) : Str × Bool :=
  let c := str.getD i 0
  if c = 48 ∧ st.2 = true then
    if str.get? (i + 1) = some token ∨ i + 1 = str.length then (st.1 ++ [c], false) else st
  else
    (st.1 ++ [c], if c = token then true else false)

/-- `stripLeadingZeros(str, token)`. -/
def stripLeadingZeros (str : Str) (token : Nat) : Str :=
  ((List.range str.length).foldl (stripZerosStep str token) ([], true)).1

/-- Result of `normalizeIPv4`. -/
structure IPv4Result where
  host : Str
  isIPV4 : Bool
  deriving DecidableEq, Repr

/-- `normalizeIPv4(host)`. -/
def normalizeIPv4 (host : Str) : IPv4Result :=
  if findToken host 46 < 3 then { host := host, isIPV4 := false }
  else if ipv4Regex host ∧ host ≠ [] then
    { host := stripLeadingZeros host 46, isIPV4 := true }
  else { host := host, isIPV4 := false }

/-- Modelled from the spec: the table `HEX` of `lib/hex.js`, which is not among the sources;
the spec speaks of a hextet that "contains non-hex characters", so the table is taken to be
defined exactly on the hexadecimal digits `0-9`, `a-f`, `A-F`. -/
def HEX (c : Nat) : Option Nat := hexVal c

/-- The loop of `stringToHexStripped`; the state is `(acc, strip)`. -/
def hexStrippedLoop : Str → Str → Bool → Option Str
  | [], acc, _ => some acc
  | c :: rest, acc, strip =>
    let strip1 := if c ≠ 48 ∧ strip = true then false else strip
    if HEX c = none then none
    else hexStrippedLoop rest (if strip1 = false then acc ++ [c] else acc) strip1

/-- `stringToHexStripped(input)`; `none` is `undefined`. -/
def stringToHexStripped (input : Str) : Option Str := hexStrippedLoop input [] true

/-- The variables of `getIPV6`; `stopped` records that the loop was left by `break`.  The
elements of `address` are strings: the one place that pushes `undefined` is the last one,
and `join` renders `undefined` as the empty string. -/
structure V6State where
  tokenCount : Nat := 0
  error : Bool := false
  address : List Str := []
  zone : Str := []
  buffer : Str := []
  isZone : Bool := false
  endipv6Encountered : Bool := false
  endIpv6 : Bool := false
  stopped : Bool := false
  deriving DecidableEq, Repr

/-- The inner function `consume` of `getIPV6`: the returned flag and the new state. -/
def v6Consume (st : V6State) : Bool × V6State :=
  if st.buffer.length ≠ 0 then
    if st.isZone = false then
      match stringToHexStripped st.buffer with
      | some hex => (true, { st with address := st.address ++ [hex], buffer := [] })
      | none => (false, { st with error := true })
    else (true, { st with buffer := [] })
  else (true, st)

/-- The branch `cursor === ':'` of the loop of `getIPV6`; `afterColon` tells whether
`i - 1 >= 0 && input[i - 1] === ':'`. -/
def v6Colon (afterColon : Bool) (st : V6State) : V6State :=
  let st1 : V6State := if st.endipv6Encountered = true then { st with endIpv6 := true } else st
  let r := v6Consume st1
  if r.1 = false then { r.2 with stopped := true }
  else
    let st2 : V6State := { r.2 with tokenCount := r.2.tokenCount + 1, address := r.2.address ++ [[58]] }
    if st2.tokenCount > 7 then { st2 with error := true, stopped := true }
    else if afterColon then { st2 with endipv6Encountered := true }
    else st2

/-- The branch `cursor === '%'` of the loop of `getIPV6`. -/
def v6Percent (st : V6State) : V6State :=
  let r := v6Consume st
  if r.1 = false then { r.2 with stopped := true }
  else { r.2 with isZone := true }

/-- One iteration of the `for` loop of `getIPV6`. -/
def v6Step (input : Str) (st : V6State) (i : Nat) : V6State :=
  if st.stopped then st
  else
    let cursor := input.getD i 0
    if cursor = 91 ∨ cursor = 93 then st
    else if cursor = 58 then v6Colon (decide (i ≥ 1 ∧ input.get? (i - 1) = some 58)) st
    else if cursor = 37 then v6Percent st
    else { st with buffer := st.buffer ++ [cursor] }

/-- Result of `getIPV6`. -/
structure IPv6Parts where
  error : Bool
  address : Str
  zone : Str
  deriving DecidableEq, Repr

/-- `getIPV6(input)`. -/
def getIPV6 (input : Str) : IPv6Parts :=
  let st := (List.range input.length).foldl (v6Step input) {}
  let st1 : V6State :=
    if st.buffer.length ≠ 0 then
      if st.isZone then { st with zone := st.buffer }
      else if st.endIpv6 then { st with address := st.address ++ [st.buffer] }
      else { st with address := st.address ++ [(stringToHexStripped st.buffer).getD []] }
    else st
  { error := st1.error, address := st1.address.flatten, zone := st1.zone }

/-- Result of `normalizeIPv6`; `escapedHost` is present exactly when `isIPV6` holds. -/
structure IPv6Result where
  host : Str
  escapedHost : Option Str
  isIPV6 : Bool
  deriving DecidableEq, Repr

/-- `normalizeIPv6(host)`. -/
def normalizeIPv6 (host : Str) : IPv6Result :=
  if findToken host 58 < 2 then { host := host, escapedHost := none, isIPV6 := false }
  else
    let ipv6 := getIPV6 host
    if ipv6.error = false then
      if ipv6.zone ≠ [] then
        { host := ipv6.address ++ [37] ++ ipv6.zone,
          escapedHost := some (ipv6.address ++ lit "%25" ++ ipv6.zone), isIPV6 := true }
      else { host := ipv6.address, escapedHost := some ipv6.address, isIPV6 := true }
    else { host := host, escapedHost := none, isIPV6 := false }

/-! ## Records, options and the external collaborators -/

/-- A port: `parse` stores a number when the digits parse and the matched text otherwise.
A number is given by the natural that is its value; the conversions between numbers and
text (`toDouble`, `numberToString`, `parseInt10`) follow the 64-bit Number values. -/
inductive Port where
  | num (n : Nat)
  | str (s : Str)
  deriving DecidableEq, Repr

/-- The component record; `none` is `undefined`. -/
structure Components where
  scheme : Option Str := none
  userinfo : Option Str := none
  host : Option Str := none
  port : Option Port := none
  path : Option Str := none
  query : Option Str := none
  fragment : Option Str := none
  reference : Option Str := none
  error : Option Str := none
  nid : Option Str := none
  nss : Option Str := none
  uuid : Option Str := none
  resourceName : Option Str := none
  secure : Option Bool := none
  deriving DecidableEq, Repr

/-- The recognised options; an absent string option is `none`, an absent flag is `false`. -/
structure Options where
  reference : Option Str := none
  scheme : Option Str := none
  unicodeSupport : Bool := false
  domainHost : Bool := false
  skipEscape : Bool := false
  absolutePath : Bool := false
  tolerant : Bool := false
  deriving DecidableEq, Repr

/-- A scheme handler: its flags and its two hooks, which rewrite the record. -/
structure SchemeHandler where
  unicodeSupport : Bool := false
  domainHost : Bool := false
  absolutePath : Bool := false
  skipNormalize : Bool := false
  parse : Option (Components → Options → Components) := none
  serialize : Option (Components → Options → Components) := none

/-- What the library imports and the sources do not contain: the registry `SCHEMES` of
`lib/schemes.js`, as a lookup by key, and the built-in `Url.domainToASCII`, which returns the
converted host or fails with the text of an exception. -/
structure Env where
  schemes : Str → Option SchemeHandler
  domainToASCII : Str → Except Str Str

/-- The environment without any scheme handler. -/
def noHandlers : Env := { schemes := fun _ => none, domainToASCII := fun h => Except.ok h }

/-- `String.prototype.toLowerCase` on one code unit; exact for ASCII, other code units are
left as they are. -/
def lowerUnit (c : Nat) : Nat := if 65 ≤ c ∧ c ≤ 90 then c + 32 else c

/-- `str.toLowerCase()` (exact on ASCII strings). -/
def toLowerCase (s : Str) : Str := s.map lowerUnit

/-- Truthiness of an optional string: defined and not empty. -/
def truthy (s : Option Str) : Bool :=
  match s with
  | some (_ :: _) => true
  | _ => false

/-- `(a || b || '')` on optional strings. -/
def orElse (a b : Option Str) : Str :=
  if truthy a then a.getD [] else if truthy b then b.getD [] else []

/-- The key of the handler lookup, `(a || b || '').toLowerCase()`. -/
def schemeKey (a b : Option Str) : Str := toLowerCase (orElse a b)

/-- The decimal digits of `n`, most significant first, in front of `acc`. -/
def decimalDigits : Nat → Nat → Str → Str
  | 0, _, acc => acc
  | fuel + 1, n, acc =>
    if n < 10 then (48 + n) :: acc else decimalDigits fuel (n / 10) ((48 + n % 10) :: acc)

/-- The decimal expansion of a natural. -/
def decimalString (n : Nat) : Str := decimalDigits (n + 1) n []

/-- The number of binary digits of `n` (with fuel `n`). -/
def bitLength : Nat → Nat → Nat
  | 0, _ => 0
  | fuel + 1, n => if n = 0 then 0 else bitLength fuel (n / 2) + 1

/-- The Number value of a natural: the natural itself below `2 ^ 53`, else the natural
rounded to 53 significant bits, a tie going to the even significand. The natural `2 ^ 1024`
stands for `Infinity`. -/
def toDouble (n : Nat) : Nat :=
  if n < 2 ^ 53 then n
  else
    let sh := bitLength n n - 53
    let q := n / 2 ^ sh
    let r := n % 2 ^ sh
    let half := 2 ^ (sh - 1)
    let q1 := if r > half ∨ (r = half ∧ q % 2 = 1) then q + 1 else q
    if q1 * 2 ^ sh ≥ 2 ^ 1024 then 2 ^ 1024 else q1 * 2 ^ sh

/-- The digits that ECMAScript `Number::toString` chooses for the Number value `x`: the pair
`(s, e)` with the Number value of `s × 10 ^ e` equal to `x` and `s` of the fewest digits, the
closest to `x` when two fit, the even one on a tie. The search goes from the exponent given
down to `0`, where `s = x` fits. -/
def shortestDigits (x : Nat) : Nat → Nat × Nat
  | 0 => (x, 0)
  | e + 1 =>
    let lo := x / 10 ^ (e + 1)
    let hi := lo + 1
    let okLo : Bool := decide (lo ≠ 0 ∧ toDouble (lo * 10 ^ (e + 1)) = x)
    let okHi : Bool := decide (toDouble (hi * 10 ^ (e + 1)) = x)
    let below := x - lo * 10 ^ (e + 1)
    let above := hi * 10 ^ (e + 1) - x
    if okLo = true ∧ okHi = true then
      if below < above ∨ (below = above ∧ lo % 2 = 0) then (lo, e + 1) else (hi, e + 1)
    else if okLo = true then (lo, e + 1)
    else if okHi = true then (hi, e + 1)
    else shortestDigits x e

/-- `String(n)` for a number whose value is the natural `n` (ECMAScript `Number::toString`):
below `2 ^ 53` every natural is a Number value and prints as its decimal expansion; from
there on the shortest digits that denote the same Number value are printed, followed by
zeros up to 21 digits and in exponent form beyond. -/
def numberToString (n : Nat) : Str :=
  if n < 2 ^ 53 then decimalString n
  else
    let x := toDouble n
    if x ≥ 2 ^ 1024 then lit "Infinity"
    else
      let se := shortestDigits x (decimalString x).length
      let digits := decimalString se.1
      let k := digits.length
      let n := k + se.2
      if n ≤ 21 then digits ++ List.replicate se.2 48
      else if k = 1 then digits ++ lit "e+" ++ decimalString (n - 1)
      else digits.take 1 ++ [46] ++ digits.drop 1 ++ lit "e+" ++ decimalString (n - 1)

/-- `String(components.port)`. -/
def portToString (p : Port) : Str :=
  match p with
  | Port.num n => numberToString n
  | Port.str s => s

/-! ## Serialiser (`src/lib/utils.js`, lines 210–244; `src/index.js`, lines 145–224) -/

/-- The body of `recomposeAuthority` on the three fields that it reads; the value `none` is
`undefined`. -/
def authorityOf (userinfo host : Option Str) (port : Option Port) : Res (Option Str) := do
  let t1 : List Str :=
    match userinfo with
    | some u => [u, [64]]
    | none => []
  let t2 : List Str ←
    match host with
    | some h => do
      let decoded ← safeDecodeURI h
      let ipV4res := normalizeIPv4 decoded
      if ipV4res.isIPV4 then pure (t1 ++ [ipV4res.host])
      else
        let ipV6res := normalizeIPv6 ipV4res.host
        if ipV6res.isIPV6 = true then pure (t1 ++ [[91] ++ ipV6res.escapedHost.getD [] ++ [93]])
        else pure (t1 ++ [h])
    | none => pure t1
  let t3 : List Str :=
    match port with
    | some p => t2 ++ [[58], portToString p]
    | none => t2
  pure (if t3.length ≠ 0 then some t3.flatten else none)

/-- `recomposeAuthority(components, options)`. -/
def recomposeAuthority (components : Components) : Res (Option Str) :=
  authorityOf components.userinfo components.host components.port

/-- `s.split('%3A').join(':')`. -/
def splitJoin3A : Str → Str
  | [] => []
  | c :: rest =>
    match rest with
    | c2 :: c3 :: rest3 =>
      if c = 37 ∧ c2 = 51 ∧ c3 = 65 then 58 :: splitJoin3A rest3
      else c :: splitJoin3A (c2 :: c3 :: rest3)
    | [c2] => [c, c2]
    | [] => [c]

/-- `s.replace(/^\/\//, '/%2F')`. -/
def guardDoubleSlash (s : Str) : Str :=
  match stripStart [47, 47] s with
  | some rest => lit "/%2F" ++ rest
  | none => s

/-- Lines 168–169 of `index.js`: the `serialize` hook of the handler, when there is one. -/
def serializeHook (schemeHandler : Option SchemeHandler) (components : Components)
    (options : Options) : Components :=
  match schemeHandler with
  | some h =>
    match h.serialize with
    | some f => f components options
    | none => components
  | none => components

/-- Lines 171–181: the path is escaped (and `%3A` turned back into `:` behind a scheme), or
with `skipEscape` decoded. -/
def serializePath (components : Components) (options : Options) : Res (Option Str) :=
  match components.path with
  | some p =>
    if options.skipEscape = false then
      pure (some (if components.scheme ≠ none then splitJoin3A (escapeString p)
        else escapeString p))
    else (safeDecodeURI p).map some
  | none => pure none

/-- Lines 183–199: the tokens pushed for the scheme and the authority. -/
def serializeHead (components : Components) (options : Options) (authority : Option Str) : Str :=
  (if options.reference ≠ some (lit "suffix") ∧ truthy components.scheme then
      components.scheme.getD [] ++ [58]
    else []) ++
  (match authority with
    | some a =>
      (if options.reference ≠ some (lit "suffix") then [47, 47] else []) ++ a ++
        (if truthy components.path ∧ (components.path.getD []).head? ≠ some 47 then [47] else [])
    | none => [])

/-- Lines 200–212: the token pushed for the path. -/
def serializeTail (schemeHandler : Option SchemeHandler) (components : Components)
    (options : Options) (authority : Option Str) : Res Str :=
  match components.path with
  | some p => do
    let absolutePath := match schemeHandler with
      | some h => h.absolutePath
      | none => false
    let s1 ← if options.absolutePath = false ∧ absolutePath = false then removeDotSegments p
      else pure p
    pure (if authority = none then guardDoubleSlash s1 else s1)
  | none => pure []

/-- Lines 214–222: the tokens pushed for the query and the fragment. -/
def serializeQueryFragment (components : Components) : Str :=
  (match components.query with
    | some q => [63] ++ q
    | none => []) ++
  (match components.fragment with
    | some f => [35] ++ f
    | none => [])

/-- `serialize(cmpts, opts)`. -/
def serialize (env : Env) (cmpts : Components) (opts : Options) : Res Str := do
  let components0 : Components := { cmpts with error := some [] }
  let options := opts
  -- find scheme handler
  let schemeHandler := env.schemes (schemeKey options.scheme components0.scheme)
  -- perform scheme specific serialization
  let components1 := serializeHook schemeHandler components0 options
  let path1 ← serializePath components1 options
  let components : Components := { components1 with path := path1 }
  let authority ← recomposeAuthority components
  let tail ← serializeTail schemeHandler components options authority
  pure (serializeHead components options authority ++ tail ++ serializeQueryFragment components)

/-! ## Parser (`src/index.js`, lines 226–337) -/

/-- The capture groups 1, 3, 4, 5, 6, 7, 8 of `URI_PARSE`; `none` is a group that did not
take part in the match.  Group 6 always takes part. -/
structure UriMatch where
  m1 : Option Str
  m3 : Option Str
  m4 : Option Str
  m5 : Option Str
  m6 : Str
  m7 : Option Str
  m8 : Option Str
  deriving DecidableEq, Repr

/-- A negated character class `[^…]`. -/
def notIn (cs : List Nat) (c : Nat) : Bool := !cs.contains c

/-- The alternative `\[[^/?#\]]+\]` of group 4: the matched text and the rest. -/
def bracketHost (s : Str) : Option (Str × Str) :=
  match s with
  | c :: r =>
    if c = 91 then
      let run := r.takeWhile (notIn [47, 63, 35, 93])
      let rest := r.dropWhile (notIn [47, 63, 35, 93])
      if run ≠ [] ∧ rest.head? = some 93 then some ([91] ++ run ++ [93], rest.tail) else none
    else none
  | [] => none

/-- The class `(?:.|\n|\r)` of group 8: every code unit but U+2028 and U+2029. -/
def dotOrNewline (c : Nat) : Bool := c ≠ 0x2028 && c ≠ 0x2029

/-- The group `(?:([^:/?#]+):)?`: group 1 and the rest of the input. -/
def matchScheme (uri : Str) : Option Str × Str :=
  let run := uri.takeWhile (notIn [58, 47, 63, 35])
  let rest := uri.dropWhile (notIn [58, 47, 63, 35])
  if run ≠ [] ∧ rest.head? = some 58 then (some run, rest.tail) else (none, uri)

/-- The group `(?:([^/?#@]*)@)?`: group 3 and the rest. -/
def matchUserinfo (s : Str) : Option Str × Str :=
  let run := s.takeWhile (notIn [47, 63, 35, 64])
  let rest := s.dropWhile (notIn [47, 63, 35, 64])
  if rest.head? = some 64 then (some run, rest.tail) else (none, s)

/-- The group `(\[[^/?#\]]+\]|[^/?#:]*)`: group 4 and the rest. -/
def matchHost (s : Str) : Str × Str :=
  match bracketHost s with
  | some r => r
  | none => (s.takeWhile (notIn [47, 63, 35, 58]), s.dropWhile (notIn [47, 63, 35, 58]))

/-- The group `(?::(\d*))?`: group 5 and the rest. -/
def matchPort (s : Str) : Option Str × Str :=
  match s with
  | c :: r => if c = 58 then (some (r.takeWhile isDigit), r.dropWhile isDigit) else (none, s)
  | [] => (none, s)

/-- The group `(?:\/\/((?:([^/?#@]*)@)?(\[[^/?#\]]+\]|[^/?#:]*)(?::(\d*))?))?`: groups 3, 4
and 5 and the rest. -/
def matchAuthority (s : Str) : Option Str × Option Str × Option Str × Str :=
  match stripStart [47, 47] s with
  | some a =>
    let g3 := matchUserinfo a
    let g4 := matchHost g3.2
    let g5 := matchPort g4.2
    (g3.1, some g4.1, g5.1, g5.2)
  | none => (none, none, none, s)

/-- The group `(?:\?([^#]*))?`: group 7 and the rest. -/
def matchQuery (s : Str) : Option Str × Str :=
  match s with
  | c :: r =>
    if c = 63 then (some (r.takeWhile (notIn [35])), r.dropWhile (notIn [35])) else (none, s)
  | [] => (none, s)

/-- The group `(?:#((?:.|\n|\r)*))?`: group 8. -/
def matchFragment (s : Str) : Option Str :=
  match s with
  | c :: r => if c = 35 then some (r.takeWhile dotOrNewline) else none
  | [] => none

/-- The match of
`/^(?:([^:/?#]+):)?(?:\/\/((?:([^/?#@]*)@)?(\[[^/?#\]]+\]|[^/?#:]*)(?::(\d*))?))?([^?#]*)(?:\?([^#]*))?(?:#((?:.|\n|\r)*))?/i`
against `uri`.  Every part after an optional group can match the empty string, so the
pattern always matches and each greedy group keeps its first (longest) local match; a run of
a negated class cannot be shortened to make the delimiter that follows it match.  None of
the classes contains a letter, so the flag `i` changes nothing. -/
def uriParse (uri : Str) : UriMatch :=
  let g1 := matchScheme uri
  let g2 := matchAuthority g1.2
  -- ([^?#]*)
  let run6 := g2.2.2.2.takeWhile (notIn [63, 35])
  let rest6 := g2.2.2.2.dropWhile (notIn [63, 35])
  let g7 := matchQuery rest6
  let g8 := matchFragment g7.2
  { m1 := g1.1, m3 := g2.1, m4 := g2.2.1, m5 := g2.2.2.1, m6 := run6, m7 := g7.1, m8 := g8 }

/-- `parseInt(text, 10)` on the text of group 5, which consists of decimal digits: the
Number value of the integer that the digits denote; `none` is `NaN` (for `undefined` and for
the empty string). From the 21st significant digit on the standard lets an implementation
read a digit as `0`; the model rounds the exact integer. -/
def parseInt10 (text : Option Str) : Option Nat :=
  match text with
  | some (c :: r) => some (toDouble ((c :: r).foldl (fun n d => 10 * n + (d - 48)) 0))
  | _ => none

/-- The table `hexLookUp`: entry `k` (for `k < 127`) tells that the character `k` is outside
`[!"$&'()*+,.;=_\x60a-z{}~-]`. -/
def hexLookUp (k : Nat) : Bool :=
  !([33, 34, 36, 38, 39, 40, 41, 42, 43, 44, 46, 59, 61, 95, 96, 123, 125, 126, 45].contains k
    || (97 ≤ k && k ≤ 122))

/-- `nonSimpleDomain(value)`. -/
def nonSimpleDomain (value : Str) : Bool := value.any (fun code => code > 126 || hexLookUp code)

/-- The reference kind computed by `parse`. -/
def referenceKind (scheme userinfo host : Option Str) (port : Option Port) (path : Str)
    (query fragment : Option Str) : Str :=
  if scheme = none ∧ userinfo = none ∧ host = none ∧ port = none ∧ path = [] ∧ query = none then
    lit "same-document"
  else if scheme = none then lit "relative"
  else if fragment = none then lit "absolute"
  else lit "uri"

/-- `func(x)` applied to a component that may be `undefined`, when `cond` holds. -/
def decodeIf (cond : Bool) (x : Option Str) : Res (Option Str) :=
  match x with
  | some v => if cond then (safeDecodeURI v).map some else pure (some v)
  | none => pure none

/-- The string that `parse` matches: in suffix mode the input behind `scheme:` and `//`. -/
def parseInput (uri : Str) (options : Options) : Str :=
  if options.reference = some (lit "suffix") then
    (if truthy options.scheme then options.scheme.getD [] ++ [58] else []) ++ [47, 47] ++ uri
  else uri

/-- Lines 262–270: the port is the number `parseInt` gives, or the matched text when that is
`NaN`. -/
def parsePort (m5 : Option Str) : Option Port :=
  match parseInt10 m5 with
  | some n => some (Port.num n)
  | none => m5.map Port.str

/-- Lines 271–278: a non-empty host goes through the host normaliser. -/
def parseHost (m4 : Option Str) : Option Str :=
  if truthy m4 then
    let ipv4result := normalizeIPv4 (m4.getD [])
    if ipv4result.isIPV4 = false then some (toLowerCase (normalizeIPv6 ipv4result.host).host)
    else some ipv4result.host
  else m4

/-- Lines 289–292: the error of a reference kind that is not the expected one. -/
def referenceError (options : Options) (reference : Str) : Option Str :=
  if truthy options.reference ∧ options.reference ≠ some (lit "suffix")
      ∧ options.reference ≠ some reference then
    some (lit "URI is not a " ++ options.reference.getD [] ++ lit " reference.")
  else none

/-- Lines 297–309: the conversion of a non-simple domain name; the result is the host and the
error. -/
def convertDomain (env : Env) (options : Options) (schemeHandler : Option SchemeHandler)
    (host error : Option Str) : Option Str × Option Str :=
  let handlerUnicode := match schemeHandler with
    | some h => h.unicodeSupport
    | none => false
  let handlerDomain := match schemeHandler with
    | some h => h.domainHost
    | none => false
  if options.unicodeSupport = false ∧ handlerUnicode = false ∧ truthy host = true
      ∧ (options.domainHost || handlerDomain) = true ∧ nonSimpleDomain (host.getD []) = true then
    match env.domainToASCII (toLowerCase (host.getD [])) with
    | Except.ok h => (some h, error)
    | Except.error e =>
      (host, if truthy error then error
        else some (lit "Host's domain name can not be converted to ASCII: " ++ e))
  else (host, error)

/-- Lines 311–327: unless the handler opts out, scheme, userinfo and host are decoded when
the input had a `%`, the path is escaped and the fragment decoded and escaped. -/
def normalizeParsed (schemeHandler : Option SchemeHandler) (gotEncoding : Bool)
    (parsed : Components) : Res Components :=
  let handlerSkip := match schemeHandler with
    | some h => h.skipNormalize
    | none => false
  if handlerSkip = false then do
    let scheme ← decodeIf gotEncoding parsed.scheme
    let userinfo ← decodeIf gotEncoding parsed.userinfo
    let host ← decodeIf gotEncoding parsed.host
    let path := parsed.path.map (fun p => if p.length ≠ 0 then escapeString p else p)
    let fragment : Option Str ←
      (match parsed.fragment with
        | some f =>
          if f.length ≠ 0 then (decodeURI f).map (fun d => some (escapeString d))
          else pure (some f)
        | none => pure none)
    pure { parsed with scheme := scheme, userinfo := userinfo, host := host, path := path,
                       fragment := fragment }
  else pure parsed

/-- Lines 329–332: the `parse` hook of the handler, when there is one. -/
def parseHook (schemeHandler : Option SchemeHandler) (parsed : Components) (options : Options) :
    Components :=
  match schemeHandler with
  | some h =>
    match h.parse with
    | some f => f parsed options
    | none => parsed
  | none => parsed

/-- `parse(uri, opts)`. -/
def parse (env : Env) (uri : Str) (opts : Options) : Res Components := do
  let options := opts
  let gotEncoding : Bool := uri.contains 37
  let m := uriParse (parseInput uri options)
  -- store each component
  let port := parsePort m.m5
  let host := parseHost m.m4
  let reference := referenceKind m.m1 m.m3 host port m.m6 m.m7 m.m8
  -- check for reference errors
  let error := referenceError options reference
  -- find scheme handler
  let schemeHandler := env.schemes (schemeKey options.scheme m.m1)
  -- check if scheme can't handle IRIs
  let idn := convertDomain env options schemeHandler host error
  let parsed0 : Components :=
    { scheme := m.m1, userinfo := m.m3, host := idn.1, port := port, path := some m.m6,
      query := m.m7, fragment := m.m8, reference := some reference, error := idn.2 }
  let parsed1 ← normalizeParsed schemeHandler gotEncoding parsed0
  -- perform scheme specific parsing
  pure (parseHook schemeHandler parsed1 options)

/-! ## Resolver, comparator, normaliser (`src/index.js`, lines 7–98; `utils.js`, 187–208) -/

/-- `str.lastIndexOf('/') + 1`. -/
def lastSlashEnd (s : Str) : Nat :=
  (List.range s.length).foldl (fun r i => if s.get? i = some 47 then i + 1 else r) 0

/-- The authority test `x.userinfo !== undefined || x.host !== undefined || x.port !== undefined`. -/
def hasAuthority (c : Components) : Bool :=
  c.userinfo.isSome || c.host.isSome || c.port.isSome

/-- Lines 24–27: unless normalisation is skipped, a record is serialised and parsed again. -/
def normalizeRecord (env : Env) (c : Components) (options : Options) (skipNormalization : Bool) :
    Res Components :=
  if skipNormalization = false then (serialize env c options).bind (fun s => parse env s options)
  else pure c

/-- Lines 30–75: the path that the target gets, before dot-segment removal where the source
applies it; `none` where the base path is taken over as it is. -/
def mergePaths (base relative : Components) : Str :=
  if hasAuthority base ∧ truthy base.path = false then [47] ++ relative.path.getD []
  else if truthy base.path = false then relative.path.getD []
  else slice (base.path.getD []) 0 (lastSlashEnd (base.path.getD [])) ++ relative.path.getD []

/-- Lines 30–79: the decision tree of `resolveComponents` on the two (normalised) records. -/
def resolveTarget (base relative : Components) (options : Options) : Res Components :=
  if options.tolerant = false ∧ truthy relative.scheme then
    (removeDotSegments (orElse relative.path none)).map (fun path =>
      { scheme := relative.scheme, userinfo := relative.userinfo, host := relative.host,
        port := relative.port, path := some path, query := relative.query,
        fragment := relative.fragment })
  else if hasAuthority relative then
    (removeDotSegments (orElse relative.path none)).map (fun path =>
      { scheme := base.scheme, userinfo := relative.userinfo, host := relative.host,
        port := relative.port, path := some path, query := relative.query,
        fragment := relative.fragment })
  else if truthy relative.path = false then
    pure { scheme := base.scheme, userinfo := base.userinfo, host := base.host,
           port := base.port, path := base.path,
           query := if relative.query ≠ none then relative.query else base.query,
           fragment := relative.fragment }
  else if (relative.path.getD []).head? = some 47 then
    (removeDotSegments (relative.path.getD [])).map (fun path =>
      { scheme := base.scheme, userinfo := base.userinfo, host := base.host,
        port := base.port, path := some path, query := relative.query,
        fragment := relative.fragment })
  else
    (removeDotSegments (mergePaths base relative)).map (fun path =>
      { scheme := base.scheme, userinfo := base.userinfo, host := base.host,
        port := base.port, path := some path, query := relative.query,
        fragment := relative.fragment })

/-- `resolveComponents(base, relative, options, skipNormalization)`. -/
def resolveComponents (env : Env) (base relative : Components) (options : Options)
    (skipNormalization : Bool) : Res Components :=
  (normalizeRecord env base options skipNormalization).bind (fun b =>
    (normalizeRecord env relative options skipNormalization).bind (fun r =>
      resolveTarget b r options))

/-- `resolve(baseURI, relativeURI, options)`. -/
def resolve (env : Env) (baseURI relativeURI : Str) (options : Options) : Res Str := do
  let schemelessOptions : Options :=
    { options with scheme := if options.scheme = none then some (lit "null") else options.scheme }
  let b ← parse env baseURI schemelessOptions
  let r ← parse env relativeURI schemelessOptions
  let resolved ← resolveComponents env b r schemelessOptions true
  serialize env resolved { schemelessOptions with skipEscape := true }

/-- `normalizeComponentEncoding(components, esc)`: `esc === true` selects `safeDecodeURI`,
anything else `escapeString`. -/
def normalizeComponentEncoding (components : Components) (esc : Bool) : Res Components := do
  let func : Option Str → Res (Option Str) := fun x =>
    if esc then decodeIf true x else pure (x.map escapeString)
  let scheme ← func components.scheme
  let userinfo ← func components.userinfo
  let host ← func components.host
  let path ← func components.path
  let query ← func components.query
  let fragment ← func components.fragment
  pure { components with scheme := scheme, userinfo := userinfo, host := host, path := path,
                         query := query, fragment := fragment }

/-- An argument that is either a string or a component record. -/
inductive UriInput where
  | str (s : Str)
  | obj (c : Components)
  deriving DecidableEq, Repr

/-- One operand of `equal` brought to its comparison form. -/
def equalForm (env : Env) (uri : UriInput) (options : Options) : Res Str :=
  match uri with
  | UriInput.str s => do
    let s1 ← safeDecodeURI s
    let c ← parse env s1 options
    let c1 ← normalizeComponentEncoding c true
    serialize env c1 { options with skipEscape := true }
  | UriInput.obj c => do
    let c1 ← normalizeComponentEncoding c true
    serialize env c1 { options with skipEscape := true }

/-- `equal(uriA, uriB, options)`. -/
def equal (env : Env) (uriA uriB : UriInput) (options : Options) : Res Bool := do
  let a ← equalForm env uriA options
  let b ← equalForm env uriB options
  pure (decide (toLowerCase a = toLowerCase b))

/-- `normalize(uri, options)`. -/
def normalize (env : Env) (uri : UriInput) (options : Options) : Res UriInput :=
  match uri with
  | UriInput.str s => do
    let c ← parse env s options
    let r ← serialize env c options
    pure (UriInput.str r)
  | UriInput.obj c => do
    let s ← serialize env c options
    let r ← parse env s options
    pure (UriInput.obj r)

/-! ## Reference procedures from the specification -/

/-- The procedure of RFC 3986 §5.2.4 as spec §4.3 words it, on an input cursor and an output
segment list: (1) a leading `../` or `./` is dropped; (2) a leading `/./`, or an input equal
to `/.`, is replaced by `/`; (3) a leading `/../`, or an input equal to `/..`, is replaced by
`/` and the last output segment is popped (nothing happens when there is none); (4) an input
that is exactly `.` or `..` is cleared; (5) otherwise the first path segment, that is the
first character and everything up to the next `/` or the end, moves to the output.  It ends
when the input is exhausted, with the output segments concatenated in order. -/
def rfcLoop (input : Str) (output : List Str) : Str :=
  if input = [] then output.flatten
  else if [46, 46, 47].isPrefixOf input then rfcLoop (input.drop 3) output
  else if [46, 47].isPrefixOf input then rfcLoop (input.drop 2) output
  else if [47, 46, 47].isPrefixOf input then rfcLoop (47 :: input.drop 3) output
  else if input = [47, 46] then rfcLoop [47] output
  else if [47, 46, 46, 47].isPrefixOf input then rfcLoop (47 :: input.drop 4) output.dropLast
  else if input = [47, 46, 46] then rfcLoop [47] output.dropLast
  else if input = [46] ∨ input = [46, 46] then rfcLoop [] output
  else
    let seg := input.take 1 ++ (input.drop 1).takeWhile (fun c => c ≠ 47)
    rfcLoop (input.drop seg.length) (output ++ [seg])
termination_by input.length
decreasing_by
  all_goals simp_wf
  · rename_i h; have := (List.isPrefixOf_iff_prefix.mp h).length_le; simp at this; omega
  · rename_i h; have := (List.isPrefixOf_iff_prefix.mp h).length_le; simp at this; omega
  · rename_i h; have := (List.isPrefixOf_iff_prefix.mp h).length_le; simp at this; omega
  · rename_i h; subst h; simp
  · rename_i h; have := (List.isPrefixOf_iff_prefix.mp h).length_le; simp at this; omega
  · rename_i h; subst h; simp
  · rename_i h; rcases h with h | h <;> subst h <;> simp
  · rename_i h _ _ _ _ _ _ _
    cases input with
    | nil => exact absurd rfl h
    | cons c r => simp

/-- One iteration of the loop of `removeDotSegments`: the loop ends with a result, or goes on
with a new input and output. -/
inductive RdsNext where
  | done (r : Res Str)
  | next (input : Str) (output : List Str)

/-- The body of the loop of `removeDotSegments` as a function of the loop state. -/
def rdsStep (input : Str) (output : List Str) : RdsNext :=
  if input.length = 0 then RdsNext.done (Res.ok output.flatten)
  else
    match matchRDS1 input with
    | some rest => RdsNext.next rest output
    | none =>
      match matchRDS2 input with
      | some rest => RdsNext.next (47 :: rest) output
      | none =>
        match matchRDS3 input with
        | some rest => RdsNext.next (47 :: rest) output.dropLast
        | none =>
          if input = [46] ∨ input = [46, 46] then RdsNext.next [] output
          else
            match matchRDS5 input with
            | some s => RdsNext.next (input.drop s.length) (output ++ [s])
            | none => RdsNext.done (Res.throw Exn.dotSegment)

/-- The reference dot-segment removal: the procedure started with an empty output. -/
def rfcRemoveDotSegments (input : Str) : Str := rfcLoop input []

/-- Printable ASCII: the code units `0x20` to `0x7E`. -/
def Printable (s : Str) : Prop := ∀ c ∈ s, 32 ≤ c ∧ c ≤ 126

instance (s : Str) : Decidable (Printable s) := by unfold Printable; infer_instance

/-- What `escapeString` puts in the place of one code unit. -/
def escapeUnit (c : Nat) : Str := if escapedChar c ≠ [] then escapedChar c else [c]

/-- Does a scan that stops at `?`, `;` or `#` meet a `%` first? -/
def scanMeetsPercent : Str → Bool
  | [] => false
  | c :: rest =>
    if c = 37 then true
    else if c = 63 ∨ c = 59 ∨ c = 35 then false
    else scanMeetsPercent rest

/-- Does the scan of `safeDecodeURI`, which starts at index 1 and stops at `?`, `;` or `#`,
meet a `%`? -/
def decodeTriggered (path : Str) : Bool := scanMeetsPercent (path.drop 1)

/-- Every `%` of the string is followed by two code units that `decodeComponentChar` does not
protect. -/
def noProtected : Str → Bool
  | [] => true
  | c :: rest =>
    (c ≠ 37 || decodeComponentChar rest.head? rest.tail.head? = none) && noProtected rest

/-- The entry of `escapedCodes` for `c` is empty, or it is an escape `%XX` of an ASCII octet
outside the reserved set whose hexadecimal value is `c` and which `decodeComponentChar` does
not protect. -/
def escapeEntryOK (c : Nat) : Bool :=
  match escapedChar c with
  | [] => true
  | [p, h, l] =>
    decide (p = 37 ∧ h ≠ 37 ∧ l ≠ 37 ∧ parseHexOctet h l = some c ∧ c < 128
      ∧ uriReserved c = false ∧ decodeComponentChar (some h) (some l) = none ∧ c ≠ 37
      ∧ dotOrLF h = true ∧ dotOrLF l = true)
  | _ => false

/-- Lowercase ASCII letters only. -/
def Lower (s : Str) : Prop := ∀ c ∈ s, 97 ≤ c ∧ c ≤ 122

instance (s : Str) : Decidable (Lower s) := by unfold Lower; infer_instance

/-- The state of `getIPV6` with its strings in lower case. -/
def V6State.lower (st : V6State) : V6State :=
  { st with address := st.address.map toLowerCase, zone := toLowerCase st.zone,
            buffer := toLowerCase st.buffer }

/-- The invariant of the loop of `getIPV6` on an input without `%`. -/
def V6Clean (st : V6State) : Prop :=
  st.isZone = false ∧ st.zone = [] ∧ 37 ∉ st.buffer ∧ ∀ s ∈ st.address, 37 ∉ s

/-- What `safeDecodeURI` makes of `escapeString x` when `x` has no `%`. -/
def decodedEscape (x : Str) : Str :=
  if decodeTriggered (escapeString x) then x else escapeString x

/-- The tokens that `serialize` pushes for the scheme. -/
def schemePart (scheme : Option Str) : Str :=
  if truthy scheme then scheme.getD [] ++ [58] else []

/-- The record without its scheme and without the fields that `serialize` does not read. -/
def schemeless (c : Components) : Components :=
  { userinfo := c.userinfo, host := c.host, port := c.port, path := c.path, query := c.query,
    fragment := c.fragment }

/-- The record, less its scheme, that `equal` serialises for a string without `%` whose
match is `m`. -/
def equalBody (m : UriMatch) : Components :=
  { userinfo := m.m3, host := parseHost m.m4, port := parsePort m.m5,
    path := some (decodedEscape m.m6), query := m.m7, fragment := m.m8.map decodedEscape }

/-- The characters of an RFC 3986 path other than `%`: unreserved, sub-delims, `:`, `@`,
and `/`. -/
def isPathChar (c : Nat) : Bool :=
  (65 ≤ c && c ≤ 90) || (97 ≤ c && c ≤ 122) || (48 ≤ c && c ≤ 57)
    || [45, 46, 95, 126, 33, 36, 38, 39, 40, 41, 42, 43, 44, 59, 61, 58, 64, 47].contains c

/-- Every `%` of the string starts the escape `%25`. -/
def onlyEscapedPercent : Str → Bool
  | [] => true
  | c :: rest =>
    (c ≠ 37 || (rest.head? = some 50 && rest.tail.head? = some 53)) && onlyEscapedPercent rest

/-- The string with every `%` followed by an extra `25`, as the scan of `safeDecodeURI`
rewrites an escape `%25`. -/
def doublePercent (s : Str) : Str := s.flatMap (fun c => if c = 37 then [37, 50, 53] else [c])

/-- An uppercase hexadecimal digit (`d < 16`). -/
def upperHexDigit (d : Nat) : Nat := if d < 10 then 48 + d else 55 + d

/-- The entry `hexTable[i]` of `src/lib/utils.js`, lines 250–254, for `i < 256`:
`'%' + ((i < 16 ? '0' : '') + i.toString(16)).toUpperCase()`. -/
def hexTable (i : Nat) : Str :=
  [37] ++ ((if i < 16 then [48] else []) ++
    (if i < 16 then [upperHexDigit i] else [upperHexDigit (i / 16), upperHexDigit (i % 16)]))

/-- The code units for which the table `escapedCodes` has an entry. -/
def escapedSet : List Nat := [9, 10, 13, 32, 34, 39, 60, 62, 92, 94, 96, 123, 124, 125]

/-- The input has a scheme part: it starts with one or more characters none of which is `:`,
`/`, `?` or `#`, followed by a `:`. -/
def HasScheme (s : Str) : Prop :=
  ∃ p r, p ≠ [] ∧ (∀ c ∈ p, c ≠ 58 ∧ c ≠ 47 ∧ c ≠ 63 ∧ c ≠ 35) ∧ s = p ++ 58 :: r

/-- The value of a string of decimal digits. -/
def decVal (g : Str) : Nat := g.foldl (fun n d => 10 * n + (d - 48)) 0

/-- A group of a dotted IPv4 address: one to three decimal digits with a value of at most
255. -/
def IsOctet (g : Str) : Prop :=
  1 ≤ g.length ∧ g.length ≤ 3 ∧ (∀ c ∈ g, isDigit c = true) ∧ decVal g ≤ 255

instance (g : Str) : Decidable (IsOctet g) := by unfold IsOctet; infer_instance

/-- A group with its leading zeros removed, an all-zero group becoming `0`. -/
def stripGroup (g : Str) : Str :=
  if g.dropWhile (fun c => c = 48) = [] then [48] else g.dropWhile (fun c => c = 48)

/-- Four groups separated by `.`. -/
def dotted (g1 g2 g3 g4 : Str) : Str := g1 ++ [46] ++ g2 ++ [46] ++ g3 ++ [46] ++ g4

/-- The loop of `stripLeadingZeros` as a recursion over the rest of the string. -/
def stripRun (token : Nat) : Str → Str × Bool → Str × Bool
  | [], st => st
  | c :: rest, st =>
    stripRun token rest
      (if c = 48 ∧ st.2 = true then
        if rest.head? = some token ∨ rest = [] then (st.1 ++ [c], false) else st
      else (st.1 ++ [c], if c = token then true else false))

/-- The host that the host normaliser produces: that of `normalizeIPv4` when it reports an
IPv4 address, that of `normalizeIPv6` otherwise. -/
def normalizeHost (h : Str) : Str :=
  if (normalizeIPv4 h).isIPV4 then (normalizeIPv4 h).host else (normalizeIPv6 h).host

/-- One iteration of the loop of `getIPV6` on the code unit `cursor`; `afterColon` tells
whether the code unit in front of it is a `:`. -/
def v6Char (afterColon : Bool) (cursor : Nat) (st : V6State) : V6State :=
  if st.stopped then st
  else if cursor = 91 ∨ cursor = 93 then st
  else if cursor = 58 then v6Colon afterColon st
  else if cursor = 37 then v6Percent st
  else { st with buffer := st.buffer ++ [cursor] }

/-- The loop of `getIPV6` as a recursion over the rest of the input; `prev` is the code unit
in front of the rest. -/
def v6Run : Option Nat → Str → V6State → V6State
  | _, [], st => st
  | prev, c :: rest, st => v6Run (some c) rest (v6Char (decide (prev = some 58)) c st)

/-- The variables of `getIPV6` in a run that has met no error; `address` is the
concatenation of the pushed strings. -/
structure V6Live where
  tokenCount : Nat
  address : Str
  buffer : Str
  isZone : Bool
  endipv6Encountered : Bool
  endIpv6 : Bool
  deriving DecidableEq

/-- The state in which `getIPV6` starts. -/
def V6Live.start : V6Live :=
  { tokenCount := 0, address := [], buffer := [], isZone := false, endipv6Encountered := false,
    endIpv6 := false }

/-- The live part of a state of `getIPV6`. -/
def V6State.live (st : V6State) : V6Live :=
  { tokenCount := st.tokenCount, address := st.address.flatten, buffer := st.buffer,
    isZone := st.isZone, endipv6Encountered := st.endipv6Encountered, endIpv6 := st.endIpv6 }

/-- The function `consume` on a live state; `none` when it reports an error. -/
def liveConsume (m : V6Live) : Option V6Live :=
  if m.buffer ≠ [] ∧ m.isZone = false then
    (stringToHexStripped m.buffer).map (fun hex => { m with address := m.address ++ hex, buffer := [] })
  else some { m with buffer := [] }

/-- One iteration of the loop of `getIPV6` on a live state; `none` when the loop is left
with an error. -/
def liveChar (afterColon : Bool) (cursor : Nat) (m : V6Live) : Option V6Live :=
  if cursor = 91 ∨ cursor = 93 then some m
  else if cursor = 58 then
    (liveConsume { m with endIpv6 := m.endIpv6 || m.endipv6Encountered }).bind (fun m1 =>
      if m1.tokenCount + 1 > 7 then none
      else some { m1 with tokenCount := m1.tokenCount + 1, address := m1.address ++ [58],
                          endipv6Encountered := m1.endipv6Encountered || afterColon })
  else if cursor = 37 then (liveConsume m).map (fun m1 => { m1 with isZone := true })
  else some { m with buffer := m.buffer ++ [cursor] }

/-- The loop of `getIPV6` on a live state. -/
def liveRun : Option Nat → Str → V6Live → Option V6Live
  | _, [], m => some m
  | prev, c :: rest, m => (liveChar (decide (prev = some 58)) c m).bind (liveRun (some c) rest)

/-- What `getIPV6` makes of the buffer behind its loop: the address and the zone. -/
def liveFinish (m : V6Live) : Str × Str :=
  if m.buffer ≠ [] then
    if m.isZone then (m.address, m.buffer)
    else if m.endIpv6 then (m.address ++ m.buffer, [])
    else (m.address ++ (stringToHexStripped m.buffer).getD [], [])
  else (m.address, [])

/-- The host that `normalizeIPv6` composes of an address and a zone. -/
def hostOf (p : Str × Str) : Str := if p.2 ≠ [] then p.1 ++ [37] ++ p.2 else p.1

/-- The code unit in front of what follows `x`, when `prev` is in front of `x`. -/
def prevOf (prev : Option Nat) (x : Str) : Option Nat :=
  match x.getLast? with
  | some c => some c
  | none => prev

/-- A code unit that the loop of `getIPV6` appends to its buffer. -/
def v6Plain (c : Nat) : Prop := c ≠ 58 ∧ c ≠ 37 ∧ c ≠ 91 ∧ c ≠ 93

/-- The relation between a run of `getIPV6` (state `m1`, last code unit read `p1`) and the
run on the address that the first has composed so far (state `m2`). -/
def V6Sim (m1 : V6Live) (p1 : Option Nat) (m2 : V6Live) : Prop :=
  m2.isZone = false
  ∧ m2.address ++ m2.buffer = m1.address
  ∧ stringToHexStripped m2.buffer = some m2.buffer
  ∧ (m1.isZone = false → m2.buffer = [])
  ∧ m2.tokenCount = m1.tokenCount
  ∧ (m1.endipv6Encountered = true → m2.endipv6Encountered = true)
  ∧ (m1.endIpv6 = true → m2.endIpv6 = true)
  ∧ (p1 = some 58 → m1.address.getLast? = some 58 ∧ m1.buffer = [])
  ∧ (∀ c ∈ m1.buffer, v6Plain c)
  ∧ (1 ≤ m1.tokenCount → 58 ∈ m1.address)

/-- The `/`-delimited segments of a string. -/
def splitSlash : Str → List Str
  | [] => [[]]
  | c :: r =>
    if c = 47 then [] :: splitSlash r
    else
      match splitSlash r with
      | s :: ss => (c :: s) :: ss
      | [] => [[c]]

/-- No `/`-delimited segment of the string is `.` or `..`. -/
def NoDotSegment (s : Str) : Prop := ∀ x ∈ splitSlash s, x ≠ [46] ∧ x ≠ [46, 46]

instance (s : Str) : Decidable (NoDotSegment s) := by unfold NoDotSegment; infer_instance

/-- The output of the dot-segment procedure while it runs: every element is a segment other
than `.` and `..`, with or without a `/` in front, and every element but the first has the
`/`. -/
def CleanOut (output : List Str) : Prop :=
  (∀ o ∈ output, ∃ s, (o = s ∨ o = 47 :: s) ∧ 47 ∉ s ∧ s ≠ [46] ∧ s ≠ [46, 46])
  ∧ ∀ o ∈ output.tail, o.head? = some 47

/-- The groups joined by single `:`. -/
def colonJoin : List Str → Str
  | [] => []
  | [g] => g
  | g :: g2 :: rest => g ++ 58 :: colonJoin (g2 :: rest)

/-- The number that a string of hexadecimal digits denotes. -/
def hexValue (g : Str) : Nat := g.foldl (fun n d => 16 * n + (hexVal d).getD 0) 0

/-- A group of an IPv6 address as the claim takes it: one to four lowercase hexadecimal
digits. -/
def IsHextet (g : Str) : Prop :=
  1 ≤ g.length ∧ g.length ≤ 4 ∧ ∀ c ∈ g, (48 ≤ c ∧ c ≤ 57) ∨ (97 ≤ c ∧ c ≤ 102)

instance (g : Str) : Decidable (IsHextet g) := by unfold IsHextet; infer_instance

/-- A group without its leading zeros; an all-zero group becomes empty. -/
def dropZeros (g : Str) : Str := g.dropWhile (fun c => c = 48)

/-! ## Percent-encoding (`src/lib/utils.js`, lines 283–344) -/

/-- The variables `i`, `lastPos` and `out` of `encodeStr`. -/
structure EncState where
  i : Nat
  lastPos : Nat
  out : Str
  deriving DecidableEq, Repr

/-- The code unit that `str.charCodeAt(i)` reads in `encodeStr`. Every read there stands
behind a test `i < len`, so that `NaN` does not arise; the model reads `0` for it. -/
def unitAt (str : Str) (i : Nat) : Nat := (charCodeAt str i).getD 0

/-- The value of `out` after `if (lastPos < i) out += str.slice(lastPos, i)`. -/
def flushSlice (str : Str) (st : EncState) : Str :=
  if st.lastPos < st.i then st.out ++ slice str st.lastPos st.i else st.out

/-- The escapes of the two-byte branch: `hexTable[0xc0 | (c >> 6)] + hexTable[0x80 | (c & 0x3f)]`.
The bit operations of JavaScript work on 32-bit integers; the operands here stay below
`2 ^ 21` for code units below `2 ^ 16`, where they agree with the operations on naturals. -/
def twoBytes (hexTable : Nat → Str) (c : Nat) : Str :=
  hexTable (0xc0 ||| (c >>> 6)) ++ hexTable (0x80 ||| (c &&& 0x3f))

/-- The escapes of the three-byte branch. -/
def threeBytes (hexTable : Nat → Str) (c : Nat) : Str :=
  hexTable (0xe0 ||| (c >>> 12)) ++ (hexTable (0x80 ||| ((c >>> 6) &&& 0x3f))
    ++ hexTable (0x80 ||| (c &&& 0x3f)))

/-- The escapes of the surrogate branch, of the code unit `c` and the code unit `d` behind
it: `c2 = d & 0x3ff`, `c = 0x10000 + (((c & 0x3ff) << 10) | c2)`, four escapes. -/
def fourBytes (hexTable : Nat → Str) (c d : Nat) : Str :=
  let c2 := d &&& 0x3ff
  let c := 0x10000 + (((c &&& 0x3ff) <<< 10) ||| c2)
  hexTable (0xf0 ||| (c >>> 18)) ++ (hexTable (0x80 ||| ((c >>> 12) &&& 0x3f))
    ++ (hexTable (0x80 ||| ((c >>> 6) &&& 0x3f)) ++ hexTable (0x80 ||| (c &&& 0x3f))))

/-- The loop `while (c < 0x80)` of `encodeStr`, entered with the code unit `c`. The result is
the state with `none` when the loop leaves by `break outer`, with `some c` when it ends on a
code unit `c ≥ 0x80`; no result when the fuel runs out. An entry of the table counts as
unescaped when it is `1`. -/
def asciiLoop (str : Str) (noEscapeTable : Nat → Nat) (hexTable : Nat → Str) :
    Nat → Nat → EncState → Option (EncState × Option Nat)
  | 0, _, _ => none
  | fuel + 1, c, st =>
    if c < 0x80 then
      let st1 : EncState :=
        if noEscapeTable c ≠ 1 then
          { st with lastPos := st.i + 1, out := flushSlice str st ++ hexTable c }
        else st
      if st1.i + 1 = str.length then some ({ st1 with i := st1.i + 1 }, none)
      else
        asciiLoop str noEscapeTable hexTable fuel (unitAt str (st1.i + 1))
          { st1 with i := st1.i + 1 }
    else some (st, some c)

/-- The three `return` statements behind the loop of `encodeStr`. -/
def encodeReturn (str : Str) (st : EncState) : Str :=
  if st.lastPos = 0 then str
  else if st.lastPos < str.length then st.out ++ slice str st.lastPos str.length
  else st.out

/-- The loop `outer: for (; i < len; i++)` of `encodeStr` and the returns behind it. -/
def encodeLoop (str : Str) (noEscapeTable : Nat → Nat) (hexTable : Nat → Str) :
    Nat → EncState → Res Str
  | 0, _ => Res.diverge
  | fuel + 1, st =>
    if st.i < str.length then
      match asciiLoop str noEscapeTable hexTable (str.length + 1) (unitAt str st.i) st with
      | none => Res.diverge
      | some (st1, none) => Res.ok (encodeReturn str st1)
      | some (st1, some c) =>
        let out := flushSlice str st1
        let i := st1.i
        if c < 0x800 then
          encodeLoop str noEscapeTable hexTable fuel
            { i := i + 1, lastPos := i + 1, out := out ++ twoBytes hexTable c }
        else if c < 0xd800 ∨ c ≥ 0xe000 then
          encodeLoop str noEscapeTable hexTable fuel
            { i := i + 1, lastPos := i + 1, out := out ++ threeBytes hexTable c }
        else
          let i := i + 1
          if i ≥ str.length then Res.throw Exn.invalidURI
          else
            encodeLoop str noEscapeTable hexTable fuel
              { i := i + 1, lastPos := i + 1,
                out := out ++ fourBytes hexTable c (unitAt str i) }
    else Res.ok (encodeReturn str st)

/-- `encodeStr(str, noEscapeTable, hexTable)`. -/
def encodeStr (str : Str) (noEscapeTable : Nat → Nat) (hexTable : Nat → Str) : Res Str :=
  if str.length = 0 then Res.ok []
  else encodeLoop str noEscapeTable hexTable (str.length + 1) { i := 0, lastPos := 0, out := [] }

/-- What `encodeStr` makes of one code unit below `0x80`. -/
def asciiUnit (noEscapeTable : Nat → Nat) (hexTable : Nat → Str) (c : Nat) : Str :=
  if noEscapeTable c ≠ 1 then hexTable c else [c]

/-- The loop of `encodeStr` as a recursion on the code units still to read. -/
def encUnits (noEscapeTable : Nat → Nat) (hexTable : Nat → Str) : Str → Res Str
  | [] => Res.ok []
  | [c] =>
    if c < 0x80 then Res.ok (asciiUnit noEscapeTable hexTable c)
    else if c < 0x800 then Res.ok (twoBytes hexTable c)
    else if c < 0xd800 ∨ c ≥ 0xe000 then Res.ok (threeBytes hexTable c)
    else Res.throw Exn.invalidURI
  | c :: d :: rest =>
    if c < 0x80 then
      (encUnits noEscapeTable hexTable (d :: rest)).map (fun r => asciiUnit noEscapeTable hexTable c ++ r)
    else if c < 0x800 then
      (encUnits noEscapeTable hexTable (d :: rest)).map (fun r => twoBytes hexTable c ++ r)
    else if c < 0xd800 ∨ c ≥ 0xe000 then
      (encUnits noEscapeTable hexTable (d :: rest)).map (fun r => threeBytes hexTable c ++ r)
    else (encUnits noEscapeTable hexTable rest).map (fun r => fourBytes hexTable c d ++ r)

/-- The invariant of the loops of `encodeStr`: `pre` is what has been read, `acc` is what it
has been encoded to. -/
def EncInv (pre : Str) (st : EncState) (acc : Str) : Prop :=
  st.i = pre.length ∧ st.lastPos ≤ st.i ∧ (st.lastPos = 0 → st.out = [])
  ∧ st.out ++ pre.drop st.lastPos = acc

/-! ### UTF-8 percent-encoding as the specification states it -/

/-- A code unit that is no surrogate. -/
def IsScalarUnit (c : Nat) : Prop := c < 0xD800 ∨ (0xE000 ≤ c ∧ c < 0x10000)

instance (c : Nat) : Decidable (IsScalarUnit c) := by unfold IsScalarUnit; infer_instance

/-- A high surrogate. -/
def IsHigh (c : Nat) : Prop := 0xD800 ≤ c ∧ c ≤ 0xDBFF

instance (c : Nat) : Decidable (IsHigh c) := by unfold IsHigh; infer_instance

/-- A low surrogate. -/
def IsLow (c : Nat) : Prop := 0xDC00 ≤ c ∧ c ≤ 0xDFFF

instance (c : Nat) : Decidable (IsLow c) := by unfold IsLow; infer_instance

/-- A string of 16-bit code units whose surrogates are all well-formed pairs: a high
surrogate directly followed by a low one. -/
def wellFormed : Str → Bool
  | [] => true
  | [c] => decide (IsScalarUnit c)
  | c :: d :: rest =>
    if IsScalarUnit c then wellFormed (d :: rest)
    else decide (IsHigh c) && decide (IsLow d) && wellFormed rest

/-- The Unicode code points of a string, in order. -/
def codePoints : Str → List Nat
  | [] => []
  | [c] => [c]
  | c :: d :: rest =>
    if IsHigh c ∧ IsLow d then
      (0x10000 + (c - 0xD800) * 0x400 + (d - 0xDC00)) :: codePoints rest
    else c :: codePoints (d :: rest)

/-- The UTF-8 bytes of a code point. -/
def utf8Bytes (cp : Nat) : List Nat :=
  if cp < 0x80 then [cp]
  else if cp < 0x800 then [0xC0 + cp / 64, 0x80 + cp % 64]
  else if cp < 0x10000 then [0xE0 + cp / 4096, 0x80 + cp / 64 % 64, 0x80 + cp % 64]
  else [0xF0 + cp / 262144, 0x80 + cp / 4096 % 64, 0x80 + cp / 64 % 64, 0x80 + cp % 64]

/-- The uppercase escape `%XX` of a byte. -/
def pctByte (b : Nat) : Str := [37, upperHexDigit (b / 16), upperHexDigit (b % 16)]

/-- The encoding of one code point: the character itself when it is ASCII and the table marks
it unescaped, else the escapes of its UTF-8 bytes. -/
def encodePoint (noEscapeTable : Nat → Nat) (cp : Nat) : Str :=
  if cp < 0x80 ∧ noEscapeTable cp = 1 then [cp] else (utf8Bytes cp).flatMap pctByte

/-- The UTF-8 percent-encoding of a string under a no-escape table. -/
def utf8PercentEncode (noEscapeTable : Nat → Nat) (s : Str) : Str :=
  (codePoints s).flatMap (encodePoint noEscapeTable)

/-! ## The class `URI` (`src/index.js`, lines 404–746) -/

/-- The characters that the built-in `encodeURI` leaves alone: letters, digits and
`; / ? : @ & = + $ , - _ . ! ~ * ' ( ) #`. -/
def uriUnescaped (c : Nat) : Bool :=
  (65 ≤ c && c ≤ 90) || (97 ≤ c && c ≤ 122) || (48 ≤ c && c ≤ 57)
    || [59, 47, 63, 58, 64, 38, 61, 43, 36, 44, 45, 95, 46, 33, 126, 42, 39, 40, 41, 35].contains c

/-- The built-in `encodeURI` (ECMAScript `Encode`): a code unit of the unescaped set is
copied, every other code point is replaced by the escapes of its UTF-8 bytes, and an unpaired
surrogate raises `URIError`. -/
def encodeURI : Str → Res Str
  | [] => Res.ok []
  | [c] =>
    if uriUnescaped c then Res.ok [c]
    else if IsHigh c ∨ IsLow c then Res.throw Exn.uriError
    else Res.ok ((utf8Bytes c).flatMap pctByte)
  | c :: d :: rest =>
    if uriUnescaped c then (encodeURI (d :: rest)).map (fun r => c :: r)
    else if IsHigh c then
      if IsLow d then
        (encodeURI rest).map (fun r =>
          (utf8Bytes (0x10000 + (c - 0xD800) * 0x400 + (d - 0xDC00))).flatMap pctByte ++ r)
      else Res.throw Exn.uriError
    else if IsLow c then Res.throw Exn.uriError
    else (encodeURI (d :: rest)).map (fun r => (utf8Bytes c).flatMap pctByte ++ r)

/-- The value `URIContext.#omitted`. -/
def omitted : Nat := 4294967295

/-- The class `URIContext`: the text `href` and the offsets into it. -/
structure URIContext where
  href : Str := []
  schemeEnd : Nat := omitted
  userinfoEnd : Nat := omitted
  hostStart : Nat := omitted
  hostEnd : Nat := omitted
  pathStart : Nat := omitted
  queryStart : Nat := omitted
  fragmentStart : Nat := omitted
  port : Nat := omitted
  isIPV4 : Nat := 0
  isIPV6 : Nat := 0
  deriving DecidableEq, Repr

/-- The getter `hasUserinfo`. -/
def URIContext.hasUserinfo (c : URIContext) : Bool := decide (c.userinfoEnd ≠ omitted)

/-- The getter `hasHost`. -/
def URIContext.hasHost (c : URIContext) : Bool := decide (c.hostStart ≠ omitted)

/-- The getter `hasScheme`. -/
def URIContext.hasScheme (c : URIContext) : Bool := decide (c.schemeEnd ≠ omitted)

/-- An object of the class `URI`: the fields `#context` and `#reference`. -/
structure URI where
  context : URIContext
  reference : Option Str
  deriving DecidableEq, Repr

/-- Lines 515–526: the conversion of a non-simple domain name in the constructor. An
exception of `domainToASCII` is caught and only sets `parsed.error`, which nothing reads
afterwards. -/
def uriConvertDomain (env : Env) (options : Options) (schemeHandler : Option SchemeHandler)
    (host : Option Str) : Option Str :=
  let handlerDomain := match schemeHandler with
    | some h => h.domainHost
    | none => false
  if options.unicodeSupport = false ∧ truthy host = true
      ∧ (options.domainHost || handlerDomain) = true ∧ nonSimpleDomain (host.getD []) = true then
    match env.domainToASCII (toLowerCase (host.getD [])) with
    | Except.ok h => some h
    | Except.error _ => host
  else host

/-- `encodeURI(safeDecodeURI(x))` on a component that is defined and not empty. -/
def encodeDecoded (x : Option Str) : Res (Option Str) :=
  match x with
  | some v =>
    if v.length ≠ 0 then do
      let d ← safeDecodeURI v
      let e ← encodeURI d
      pure (some e)
    else pure (some v)
  | none => pure none

/-- `Number(parsed.port)` on the text of group 5, which consists of decimal digits: the
Number value of the integer that the digits denote; the empty text gives `0`. -/
def numberOfDigits (text : Str) : Nat := toDouble (text.foldl (fun n d => 10 * n + (d - 48)) 0)

/-- Lines 559–574: scheme, `//` and userinfo are appended to `href`. -/
def contextHead (options : Options) (scheme userinfo host : Option Str) : URIContext :=
  let c0 : URIContext := {}
  let c1 : URIContext :=
    if options.reference ≠ some (lit "suffix") ∧ truthy scheme = true then
      { c0 with href := c0.href ++ scheme.getD [] ++ [58],
                schemeEnd := (c0.href ++ scheme.getD []).length }
    else c0
  let c2 : URIContext :=
    if options.reference ≠ some (lit "suffix") ∧ (userinfo ≠ none ∨ host ≠ none) then
      { c1 with href := c1.href ++ [47, 47] }
    else c1
  match userinfo with
  | some u => { c2 with href := c2.href ++ u ++ [64], userinfoEnd := (c2.href ++ u).length }
  | none => c2

/-- Lines 576–597: the host is appended. -/
def contextHost (c : URIContext) (host : Option Str) : Res URIContext :=
  match host with
  | some h => do
    let decoded ← safeDecodeURI h
    let ipV4res := normalizeIPv4 decoded
    if ipV4res.isIPV4 then
      pure { c with hostStart := c.href.length, isIPV4 := 1, href := c.href ++ ipV4res.host,
                    hostEnd := (c.href ++ ipV4res.host).length }
    else
      let ipV6res := normalizeIPv6 ipV4res.host
      if ipV6res.isIPV6 = true then
        let text := [91] ++ ipV6res.escapedHost.getD [] ++ [93]
        pure { c with hostStart := c.href.length, isIPV6 := 1, href := c.href ++ text,
                      hostEnd := (c.href ++ text).length }
      else
        pure { c with hostStart := c.href.length, href := c.href ++ h,
                      hostEnd := (c.href ++ h).length }
  | none => pure c

/-- Lines 599–605: the port is appended. -/
def contextPort (c : URIContext) (port : Option Str) : URIContext :=
  match port with
  | some p => { c with href := c.href ++ [58] ++ p, port := numberOfDigits p }
  | none => c

/-- Lines 607–631: the path is appended, `s` being what the removal of dot segments has left
of it. The test `hasHost === undefined` of the source is never true, `hasHost` being a
boolean. -/
def contextPath (c : URIContext) (path s : Str) : URIContext :=
  let c6 : URIContext := if path ≠ [] then { c with pathStart := c.href.length } else c
  let hasHost : Bool := c6.hasHost || c6.hasUserinfo
  let c7 : URIContext :=
    if hasHost = true ∧ path ≠ [] ∧ path.head? ≠ some 47 then { c6 with href := c6.href ++ [47] }
    else c6
  { c7 with href := c7.href ++ s }

/-- Lines 633–636: the query is appended. -/
def contextQuery (c : URIContext) (query : Option Str) : URIContext :=
  match query with
  | some q => { c with queryStart := c.href.length, href := c.href ++ [63] ++ q }
  | none => c

/-- Lines 638–641: the fragment is appended. -/
def contextFragment (c : URIContext) (fragment : Option Str) : URIContext :=
  match fragment with
  | some f => { c with fragmentStart := c.href.length, href := c.href ++ [35] ++ f }
  | none => c

/-- Lines 599–641: port, path, query and fragment are appended. -/
def contextTail (options : Options) (schemeHandler : Option SchemeHandler) (c : URIContext)
    (port : Option Str) (path : Str) (query fragment : Option Str) : Res URIContext := do
  let handlerAbsolute := match schemeHandler with
    | some h => h.absolutePath
    | none => false
  let s ← (if options.absolutePath = false ∧ handlerAbsolute = false then removeDotSegments path
    else pure path : Res Str)
  pure (contextFragment (contextQuery (contextPath (contextPort c port) path s) query) fragment)

/-- Lines 539–541: `encodeURI` on a path that is not empty, unless the handler skips the
normalisation. -/
def encodePath (handlerSkip : Bool) (path : Str) : Res Str :=
  if handlerSkip = false ∧ path.length ≠ 0 then encodeURI path else pure path

/-- Lines 542–547: query and fragment are decoded and encoded, unless the handler skips the
normalisation. -/
def encodeQuery (handlerSkip : Bool) (x : Option Str) : Res (Option Str) :=
  if handlerSkip = false then encodeDecoded x else pure x

/-- Lines 550–558: the path is escaped, or decoded under `skipEscape`. -/
def escapePath (options : Options) (scheme : Option Str) (path : Str) : Res Str :=
  if options.skipEscape = false then
    (encodeURI path).map (fun p => if scheme ≠ none then splitJoin3A p else p)
  else safeDecodeURI path

/-- The constructor `new URI(uri, opts)` on a string. The pattern `URI_PARSE` matches every
string, so that the branch without a match is not reached; `parsed.error` is written and
never read. -/
def URI.new (env : Env) (uri : Str) (opts : Options) : Res URI := do
  let options := opts
  let gotEncoding : Bool := uri.contains 37
  let m := uriParse (parseInput uri options)
  let host0 := parseHost m.m4
  let reference := referenceKind m.m1 m.m3 host0 (m.m5.map Port.str) m.m6 m.m7 m.m8
  -- find scheme handler
  let schemeHandler := env.schemes (schemeKey options.scheme m.m1)
  let host1 := uriConvertDomain env options schemeHandler host0
  let handlerSkip := match schemeHandler with
    | some h => h.skipNormalize
    | none => false
  let scheme ← decodeIf (gotEncoding && !handlerSkip) m.m1
  let userinfo ← decodeIf (gotEncoding && !handlerSkip) m.m3
  let host ← decodeIf (gotEncoding && !handlerSkip) host1
  let path1 ← encodePath handlerSkip m.m6
  let query ← encodeQuery handlerSkip m.m7
  let fragment ← encodeQuery handlerSkip m.m8
  let path ← escapePath options scheme path1
  let c4 ← contextHost (contextHead options scheme userinfo host) host
  let c ← contextTail options schemeHandler c4 m.m5 path query fragment
  pure { context := c, reference := some reference }

/-- The getter `userinfo`. -/
def URI.userinfo (u : URI) : Str :=
  if u.context.hasUserinfo = false then []
  else slice u.context.href (u.context.schemeEnd + 3) u.context.userinfoEnd

/-- The getter `scheme`. -/
def URI.scheme (u : URI) : Str :=
  if u.context.hasScheme = false then [] else slice u.context.href 0 u.context.schemeEnd

/-- The getter `host`. -/
def URI.host (u : URI) : Str :=
  if u.context.hasHost = false then []
  else slice u.context.href u.context.hostStart u.context.hostEnd

/-- The method `toString()`. -/
def URI.toString (u : URI) : Str := u.context.href

/-! # Theorems -/

/-! ## Dot-segment removal: lemmas -/

theorem stripStart_eq (p s : Str) :
    stripStart p s = if p.isPrefixOf s then some (s.drop p.length) else none := rfl

theorem lazySegment_of_class (s : Str) (h : ∀ c ∈ s, dotOrLF c = true) :
    lazySegment s = some (s.takeWhile (fun c => c ≠ 47)) := by
  induction s with
  | nil => rfl
  | cons c r ih =>
    have hc := h c (List.mem_cons_self _ _)
    have hr := ih (fun d hd => h d (List.mem_cons_of_mem _ hd))
    by_cases h47 : c = 47
    · simp [lazySegment, h47]
    · simp [lazySegment, h47, hc, hr]

theorem matchRDS5_of_class (input : Str) (h : ∀ c ∈ input, dotOrLF c = true) :
    matchRDS5 input =
      some (input.take 1 ++ (input.drop 1).takeWhile (fun c => c ≠ 47)) := by
  cases input with
  | nil => rfl
  | cons c r =>
    have hr := lazySegment_of_class r (fun d hd => h d (List.mem_cons_of_mem _ hd))
    have hc := h c (List.mem_cons_self _ _)
    by_cases h47 : c = 47
    · simp [matchRDS5, h47, hr]
    · simp [matchRDS5, h47, lazySegment, hc, hr]

theorem rdsLoop_eq_rfcLoop (input : Str) (output : List Str) :
    ∀ fuel, input.length < fuel → (∀ c ∈ input, dotOrLF c = true) →
      rdsLoop fuel input output = Res.ok (rfcLoop input output) := by
  induction input, output using rfcLoop.induct with
  | case1 output =>
    intro fuel hf _
    obtain ⟨n, rfl⟩ : ∃ n, fuel = n + 1 := ⟨fuel - 1, by omega⟩
    simp [rdsLoop, rfcLoop]
  | case2 input output hne h1 ih =>
    intro fuel hf hc
    obtain ⟨n, rfl⟩ : ∃ n, fuel = n + 1 := ⟨fuel - 1, by omega⟩
    have hl := (List.isPrefixOf_iff_prefix.mp h1).length_le
    simp at hl
    rw [rfcLoop]
    simp only [rdsLoop, matchRDS1, stripStart_eq, h1, hne, if_true, if_false]
    simp [hne]
    exact ih n (by simp; omega) (fun c hcm => hc c (List.mem_of_mem_drop hcm))
  | case3 input output hne h1 h2 ih =>
    intro fuel hf hc
    obtain ⟨n, rfl⟩ : ∃ n, fuel = n + 1 := ⟨fuel - 1, by omega⟩
    have hl := (List.isPrefixOf_iff_prefix.mp h2).length_le
    simp at hl
    rw [rfcLoop]
    simp only [rdsLoop, matchRDS1, stripStart_eq, h1, h2, hne, if_true, if_false]
    simp [hne]
    exact ih n (by simp; omega) (fun c hcm => hc c (List.mem_of_mem_drop hcm))
  | case4 input output hne h1 h2 h3 ih =>
    intro fuel hf hc
    obtain ⟨n, rfl⟩ : ∃ n, fuel = n + 1 := ⟨fuel - 1, by omega⟩
    have hl := (List.isPrefixOf_iff_prefix.mp h3).length_le
    simp at hl
    rw [rfcLoop]
    simp only [rdsLoop, matchRDS1, matchRDS2, stripStart_eq, h1, h2, h3, hne, if_true, if_false]
    simp [hne]
    refine ih n (by simp; omega) (fun c hcm => ?_)
    rcases List.mem_cons.mp hcm with rfl | hcm
    · decide
    · exact hc c (List.mem_of_mem_drop hcm)
  | case5 output _ _ _ _ ih =>
    intro fuel hf _
    obtain ⟨n, rfl⟩ : ∃ n, fuel = n + 1 := ⟨fuel - 1, by omega⟩
    rw [rfcLoop]
    have := ih n (by simp at hf ⊢; omega) (by decide)
    simpa [rdsLoop, matchRDS1, matchRDS2, stripStart_eq] using this
  | case6 input output hne h1 h2 h3 h4 h5 ih =>
    intro fuel hf hc
    obtain ⟨n, rfl⟩ : ∃ n, fuel = n + 1 := ⟨fuel - 1, by omega⟩
    have hl := (List.isPrefixOf_iff_prefix.mp h5).length_le
    simp at hl
    rw [rfcLoop]
    simp only [rdsLoop, matchRDS1, matchRDS2, matchRDS3, stripStart_eq, h1, h2, h3, h4, h5, hne,
      if_true, if_false]
    simp [hne]
    refine ih n (by simp; omega) (fun c hcm => ?_)
    rcases List.mem_cons.mp hcm with rfl | hcm
    · decide
    · exact hc c (List.mem_of_mem_drop hcm)
  | case7 output _ _ _ _ _ _ ih =>
    intro fuel hf _
    obtain ⟨n, rfl⟩ : ∃ n, fuel = n + 1 := ⟨fuel - 1, by omega⟩
    rw [rfcLoop]
    have := ih n (by simp at hf ⊢; omega) (by decide)
    simpa [rdsLoop, matchRDS1, matchRDS2, matchRDS3, stripStart_eq] using this
  | case8 input output hne h1 h2 h3 h4 h5 h6 h7 ih =>
    intro fuel hf hc
    obtain ⟨n, rfl⟩ : ∃ n, fuel = n + 1 := ⟨fuel - 1, by omega⟩
    have hpos : 0 < input.length := List.length_pos.mpr hne
    rw [rfcLoop]
    simp only [rdsLoop, matchRDS1, matchRDS2, matchRDS3, stripStart_eq, h1, h2, h3, h4, h5, h6,
      h7, hne, if_true, if_false]
    simp [hne]
    exact ih n (by simp; omega) (by simp)
  | case9 input output hne h1 h2 h3 h4 h5 h6 h7 seg ih =>
    intro fuel hf hc
    obtain ⟨n, rfl⟩ : ∃ n, fuel = n + 1 := ⟨fuel - 1, by omega⟩
    have hpos : 0 < input.length := List.length_pos.mpr hne
    have hseg : 0 < seg.length := by
      cases input with
      | nil => exact absurd rfl hne
      | cons c r => simp [seg]
    rw [rfcLoop]
    simp only [rdsLoop, matchRDS1, matchRDS2, matchRDS3, stripStart_eq, h1, h2, h3, h4, h5, h6,
      h7, hne, if_true, if_false, matchRDS5_of_class input hc]
    have := ih n (by simp; omega) (fun c hcm => hc c (List.mem_of_mem_drop hcm))
    simpa [hne, seg] using this

theorem rdsLoop_succ (fuel : Nat) (input : Str) (output : List Str) :
    rdsLoop (fuel + 1) input output =
      match rdsStep input output with
      | RdsNext.done r => r
      | RdsNext.next i o => rdsLoop fuel i o := by
  simp only [rdsLoop, rdsStep]
  split
  · rfl
  · split
    · rfl
    · split
      · rfl
      · split
        · rfl
        · split
          · rfl
          · split <;> rfl

theorem stripStart_length {p s rest : Str} (h : stripStart p s = some rest) :
    rest.length + p.length = s.length := by
  rw [stripStart_eq] at h
  split at h
  · rename_i hp
    have hl := (List.isPrefixOf_iff_prefix.mp hp).length_le
    injection h with h
    subst h
    simp
    omega
  · cases h

/-- An iteration strictly shortens the input, unless `RDS5` matched the empty string, which
leaves the input as it is. -/
theorem rdsStep_next {input i : Str} {output o : List Str}
    (h : rdsStep input output = RdsNext.next i o) :
    i.length < input.length ∨ (i = input ∧ ∀ out, ∃ out1, rdsStep input out = RdsNext.next input out1) := by
  unfold rdsStep at h
  split at h
  · cases h
  · rename_i hlen
    split at h
    · rename_i rest h1
      injection h with hi ho
      subst hi
      left
      unfold matchRDS1 at h1
      split at h1
      · rename_i r hr
        injection h1 with h1; subst h1
        have := stripStart_length hr; simp at this; omega
      · have := stripStart_length h1; simp at this; omega
    · rename_i h1
      split at h
      · rename_i rest h2
        injection h with hi ho
        subst hi
        left
        unfold matchRDS2 at h2
        split at h2
        · rename_i r hr
          injection h2 with h2; subst h2
          have := stripStart_length hr; simp at this ⊢; omega
        · split at h2
          · rename_i he; injection h2 with h2; subst h2; subst he; simp
          · cases h2
      · rename_i h2
        split at h
        · rename_i rest h3
          injection h with hi ho
          subst hi
          left
          unfold matchRDS3 at h3
          split at h3
          · rename_i r hr
            injection h3 with h3; subst h3
            have := stripStart_length hr; simp at this ⊢; omega
          · split at h3
            · rename_i he; injection h3 with h3; subst h3; subst he; simp
            · cases h3
        · rename_i h3
          split at h
          · injection h with hi ho
            subst hi
            left
            simp
            omega
          · rename_i hdot
            split at h
            · rename_i s h5
              injection h with hi ho
              subst hi
              by_cases hs : s = []
              · right
                subst hs
                refine ⟨by simp, fun out => ⟨out ++ [[]], ?_⟩⟩
                unfold rdsStep
                simp [hlen, h1, h2, h3, hdot, h5]
              · left
                have : 0 < s.length := List.length_pos.mpr hs
                simp
                omega
            · cases h

theorem rdsLoop_stuck {input : Str}
    (h : ∀ out, ∃ out1, rdsStep input out = RdsNext.next input out1) :
    ∀ fuel output, rdsLoop fuel input output = Res.diverge := by
  intro fuel
  induction fuel with
  | zero => intro output; rfl
  | succ n ih =>
    intro output
    obtain ⟨out1, h1⟩ := h output
    rw [rdsLoop_succ, h1]
    exact ih out1

/-- Running out of the fuel `input.length + 1` happens only on a run that never ends: the
loop then has no result for any amount of fuel. -/
theorem rdsLoop_diverge_of_fuel :
    ∀ (fuel : Nat) (input : Str) (output : List Str), input.length < fuel →
      rdsLoop fuel input output = Res.diverge → ∀ n, rdsLoop n input output = Res.diverge := by
  intro fuel
  induction fuel with
  | zero => intro input output hf; omega
  | succ k ih =>
    intro input output hf hd n
    cases n with
    | zero => rfl
    | succ m =>
      rw [rdsLoop_succ] at hd ⊢
      cases hstep : rdsStep input output with
      | done r => rw [hstep] at hd; simpa using hd
      | next i o =>
        rw [hstep] at hd
        simp only at hd ⊢
        rcases rdsStep_next hstep with hlt | ⟨rfl, hst⟩
        · exact ih i o (by omega) hd m
        · exact rdsLoop_stuck hst m o

/-- The loop's result does not change with more fuel. -/
theorem rdsLoop_mono :
    ∀ (fuel : Nat) (input : Str) (output : List Str) (r : Str),
      rdsLoop fuel input output = Res.ok r → ∀ n, fuel ≤ n → rdsLoop n input output = Res.ok r := by
  intro fuel
  induction fuel with
  | zero => intro input output r h; cases h
  | succ k ih =>
    intro input output r h n hn
    obtain ⟨m, rfl⟩ : ∃ m, n = m + 1 := ⟨n - 1, by omega⟩
    rw [rdsLoop_succ] at h ⊢
    cases hstep : rdsStep input output with
    | done r1 => rw [hstep] at h; simpa using h
    | next i o =>
      rw [hstep] at h
      simp only at h ⊢
      exact ih i o r h m (by omega)

/-- C3: on every path of printable ASCII characters `removeDotSegments` returns what the
reference procedure of RFC 3986 §5.2.4 (spec §4.3) returns; in particular
`/a/b/c/./../../g` gives `/a/g` and `mid/content=5/../6` gives `mid/6`. -/
theorem removeDotSegments_refines_rfc :
    (∀ input : Str, Printable input →
      removeDotSegments input = Res.ok (rfcRemoveDotSegments input))
    ∧ removeDotSegments (lit "/a/b/c/./../../g") = Res.ok (lit "/a/g")
    ∧ removeDotSegments (lit "mid/content=5/../6") = Res.ok (lit "mid/6") := by
  refine ⟨fun input hp => ?_, by decide, by decide⟩
  refine rdsLoop_eq_rfcLoop input [] _ (Nat.lt_succ_self _) (fun c hc => ?_)
  have := hp c hc
  simp only [dotOrLF, Bool.and_eq_true, decide_eq_true_eq]
  omega

theorem removeDotSegments_refines_rfc_witness :
    Printable (lit "/a/./b/../c")
    ∧ removeDotSegments (lit "/a/./b/../c") = Res.ok (rfcRemoveDotSegments (lit "/a/./b/../c"))
    ∧ rfcRemoveDotSegments (lit "/a/./b/../c") = lit "/a/c" :=
  ⟨by decide, removeDotSegments_refines_rfc.1 _ (by decide),
    Res.ok.inj ((removeDotSegments_refines_rfc.1 _ (by decide)).symm.trans (by decide))⟩

/-- C4: on the input `/\r` the pattern `RDS5` matches the empty string, the iteration leaves
the input as it is, and the loop of `removeDotSegments` has no result for any amount of fuel;
on the input `\r` the pattern does not match and the error 'Unexpected dot segment condition'
is raised. -/
theorem removeDotSegments_no_result :
    matchRDS5 (lit "/\r") = some []
    ∧ (∀ fuel output, rdsLoop fuel (lit "/\r") output = Res.diverge)
    ∧ removeDotSegments (lit "/\r") = Res.diverge
    ∧ removeDotSegments (lit "\r") = Res.throw Exn.dotSegment := by
  refine ⟨by decide, ?_, by decide, by decide⟩
  refine rdsLoop_stuck (fun out => ⟨out ++ [[]], ?_⟩)
  have h : lit "/\r" = [47, 13] := by decide
  rw [h]
  simp [rdsStep, matchRDS1, matchRDS2, matchRDS3, matchRDS5, lazySegment, stripStart_eq, dotOrLF]

/-- C5: with `n = 1` and the segment `\r`, which is not empty, has no `/` and is neither `.`
nor `..`, `removeDotSegments("../\r")` raises 'Unexpected dot segment condition' instead of
returning the segment; and after `/a/../` the segment is not returned either. -/
theorem removeDotSegments_clamp_fails :
    removeDotSegments (lit "../\r") = Res.throw Exn.dotSegment
    ∧ removeDotSegments (lit "/a/../\r") = Res.diverge := by
  refine ⟨by decide, by decide⟩

/-! ## Percent-encoding codec: lemmas -/

theorem escapeEntryOK_table : ∀ c, c < 126 → escapeEntryOK c = true := by decide

theorem escapedChar_of_le {c : Nat} (h : 126 ≤ c) : escapedChar c = [] := by
  unfold escapedChar
  exact List.getD_eq_default _ _ (by simpa [escapedCodes] using h)

theorem escapeEntryOK_all (c : Nat) : escapeEntryOK c = true := by
  by_cases h : c < 126
  · exact escapeEntryOK_table c h
  · simp [escapeEntryOK, escapedChar_of_le (Nat.le_of_not_lt h)]

/-- The shape of `escapeUnit c`. -/
theorem escapeUnit_cases (c : Nat) :
    escapeUnit c = [c] ∧ escapedChar c = [] ∨
    ∃ h l, escapeUnit c = [37, h, l] ∧ escapedChar c = [37, h, l] ∧ h ≠ 37 ∧ l ≠ 37
      ∧ parseHexOctet h l = some c ∧ c < 128 ∧ uriReserved c = false
      ∧ decodeComponentChar (some h) (some l) = none ∧ c ≠ 37
      ∧ dotOrLF h = true ∧ dotOrLF l = true := by
  have hok := escapeEntryOK_all c
  unfold escapeEntryOK at hok
  split at hok
  · rename_i he
    left
    simp [escapeUnit, he]
  · rename_i p h l he
    right
    simp only [decide_eq_true_eq] at hok
    obtain ⟨rfl, h1, h2, h3, h4, h5, h6, h7, h8, h9⟩ := hok
    exact ⟨h, l, by simp [escapeUnit, he], he, h1, h2, h3, h4, h5, h6, h7, h8, h9⟩
  · cases hok

theorem flatMap_escapeUnit_id (l : Str) (h : ∀ c ∈ l, escapedChar c = []) :
    l.flatMap escapeUnit = l := by
  induction l with
  | nil => rfl
  | cons c r ih =>
    have hc := h c (List.mem_cons_self _ _)
    simp only [List.flatMap_cons, escapeUnit, hc, ne_eq, not_true_eq_false, if_false]
    rw [ih (fun d hd => h d (List.mem_cons_of_mem _ hd))]
    rfl

/-- The invariant of the loop of `escapeString` after `n` iterations. -/
theorem escapeString_loop (rest : Str) (n : Nat) (hn : n ≤ rest.length) :
    let st := (List.range n).foldl (escapeStep rest) ([], 0)
    st.2 ≤ n ∧ (∀ c ∈ slice rest st.2 n, escapedChar c = [])
      ∧ st.1 = (rest.take st.2).flatMap escapeUnit := by
  induction n with
  | zero => simp [slice]
  | succ n ih =>
    obtain ⟨h1, h2, h3⟩ := ih (Nat.le_of_succ_le hn)
    have hlt : n < rest.length := hn
    rw [List.range_succ, List.foldl_append]
    simp only [List.foldl_cons, List.foldl_nil]
    generalize (List.range n).foldl (escapeStep rest) ([], 0) = st at h1 h2 h3
    have hget : rest.getD n 0 = rest[n] := by
      simp [List.getD_eq_getElem?_getD, List.getElem?_eq_getElem hlt]
    have htake : rest.take (n + 1) = rest.take st.2 ++ slice rest st.2 n ++ [rest[n]] := by
      rw [List.take_succ, List.getElem?_eq_getElem hlt]
      simp only [Option.toList_some, slice]
      congr 1
      have : rest.take st.2 = (rest.take n).take st.2 := by
        rw [List.take_take, Nat.min_eq_left h1]
      rw [this, List.take_append_drop]
    have hslice : slice rest st.2 (n + 1) = slice rest st.2 n ++ [rest[n]] := by
      unfold slice
      rw [List.take_succ, List.getElem?_eq_getElem hlt, List.drop_append_of_le_length]
      · rfl
      · simp; omega
    unfold escapeStep
    rw [hget]
    by_cases he : escapedChar rest[n] = []
    · simp only [he, ne_eq, not_true_eq_false, if_false]
      refine ⟨Nat.le_succ_of_le h1, ?_, h3⟩
      intro c hc
      rw [hslice] at hc
      rcases List.mem_append.mp hc with hc | hc
      · exact h2 c hc
      · simp at hc; rw [hc]; exact he
    · simp only [he, ne_eq, not_false_eq_true, if_true]
      refine ⟨Nat.le_refl _, ?_, ?_⟩
      · intro c hc
        rw [slice, List.drop_eq_nil_of_le (by simp)] at hc
        cases hc
      · have hsl : (if n > st.2 then st.1 ++ slice rest st.2 n else st.1)
            = st.1 ++ slice rest st.2 n := by
          by_cases hgt : n > st.2
          · rw [if_pos hgt]
          · rw [if_neg hgt]
            have : st.2 = n := by omega
            simp [slice, this]
        rw [hsl, htake, List.flatMap_append, List.flatMap_append, h3, flatMap_escapeUnit_id _ h2]
        simp [escapeUnit, he]

/-- `escapeString` replaces every code unit by its entry of the table, when it has one. -/
theorem escapeString_eq_flatMap (rest : Str) : escapeString rest = rest.flatMap escapeUnit := by
  obtain ⟨h1, h2, h3⟩ := escapeString_loop rest rest.length (Nat.le_refl _)
  unfold escapeString
  simp only
  generalize (List.range rest.length).foldl (escapeStep rest) ([], 0) = st at h1 h2 h3
  have hsplit : rest = rest.take st.2 ++ slice rest st.2 rest.length := by
    simp [slice]
  split
  · rename_i h0
    rw [h0] at h2
    simp only [slice, List.take_length, List.drop_zero] at h2
    exact (flatMap_escapeUnit_id _ h2).symm
  · split
    · conv_rhs => rw [hsplit]
      rw [List.flatMap_append, flatMap_escapeUnit_id _ h2, h3]
      simp [slice]
    · have : st.2 = rest.length := by omega
      rw [h3, this, List.take_length]

theorem noProtected_drop (path : Str) (h : noProtected path = true) (i : Nat) :
    noProtected (path.drop i) = true := by
  induction i generalizing path with
  | zero => simpa using h
  | succ n ih =>
    cases path with
    | nil => simp [noProtected]
    | cons c r =>
      simp only [noProtected, Bool.and_eq_true] at h
      simpa using ih r h.2

/-- On a string without protected escapes the scanning loop of `safeDecodeURI` leaves the
string as it is and sets `shouldDecode` when it meets a `%`. -/
theorem safeDecodeLoop_noProtected (path : Str) (h : noProtected path = true) :
    ∀ fuel i sd, path.length ≤ i + fuel →
      safeDecodeLoop fuel path i sd = (path, sd || scanMeetsPercent (path.drop i)) := by
  intro fuel
  induction fuel with
  | zero =>
    intro i sd hl
    simp [safeDecodeLoop, List.drop_eq_nil_of_le (show path.length ≤ i by omega), scanMeetsPercent]
  | succ n ih =>
    intro i sd hl
    unfold safeDecodeLoop
    by_cases hi : i < path.length
    · have hd : path.drop i = path[i] :: path.drop (i + 1) := List.drop_eq_getElem_cons hi
      have hnp := noProtected_drop path h i
      rw [hd] at hnp
      simp only [noProtected, Bool.and_eq_true, Bool.or_eq_true, decide_eq_true_eq] at hnp
      have hc : charCodeAt path i = some path[i] := by
        simp [charCodeAt, List.getElem?_eq_getElem hi]
      have h1 : charCodeAt path (i + 1) = (path.drop (i + 1)).head? := by
        simp [charCodeAt, List.head?_drop]
      have h2 : charCodeAt path (i + 2) = (path.drop (i + 1)).tail.head? := by
        simp [charCodeAt, List.head?_drop, List.tail_drop]
      simp only [hi, if_true, hc, hd, Option.some.injEq]
      by_cases h37 : path[i] = 37
      · have hnone : decodeComponentChar (charCodeAt path (i + 1)) (charCodeAt path (i + 2)) = none := by
          rw [h1, h2]
          rcases hnp.1 with hne | hn
          · exact absurd h37 (by simpa using hne)
          · exact hn
        simp only [h37, if_true, hnone]
        rw [ih (i + 1) true (by omega)]
        simp [scanMeetsPercent]
      · simp only [h37, if_false]
        by_cases hb : path[i] = 63 ∨ path[i] = 59 ∨ path[i] = 35
        · simp [hb, scanMeetsPercent, h37]
        · simp only [hb, if_false]
          rw [ih (i + 1) sd (by omega)]
          simp [scanMeetsPercent, h37, hb]
    · simp [hi, List.drop_eq_nil_of_le (Nat.le_of_not_lt hi), scanMeetsPercent]

theorem noProtected_flatMap_escapeUnit (x : Str) (hx : 37 ∉ x) :
    noProtected (x.flatMap escapeUnit) = true := by
  induction x with
  | nil => rfl
  | cons c r ih =>
    have hr := ih (fun hm => hx (List.mem_cons_of_mem _ hm))
    have hc : c ≠ 37 := fun hc => hx (hc ▸ List.mem_cons_self _ _)
    rw [List.flatMap_cons]
    rcases escapeUnit_cases c with ⟨he, _⟩ | ⟨h, l, he, _, h1, h2, _, _, _, h6, _, _, _⟩
    · rw [he]
      simp [noProtected, hc, hr]
    · rw [he]
      simp [noProtected, h1, h2, h6, hr]

theorem decodeStep_cons_ne (c : Nat) (rest : Str) (hc : c ≠ 37) :
    decodeStep (c :: rest) = some ([c], rest) := by
  simp [decodeStep, hc]

theorem decodeStep_escape_ascii (h l b : Nat) (rest : Str) (hb : parseHexOctet h l = some b)
    (h128 : b < 128) (hres : uriReserved b = false) :
    decodeStep (37 :: h :: l :: rest) = some ([b], rest) := by
  simp [decodeStep, hb, h128, hres]

theorem decodeLoop_flatMap_escapeUnit (x : Str) (hx : 37 ∉ x) :
    ∀ fuel, (x.flatMap escapeUnit).length ≤ fuel →
      decodeLoop fuel (x.flatMap escapeUnit) = Res.ok x := by
  induction x with
  | nil => intro fuel _; cases fuel <;> rfl
  | cons c r ih =>
    intro fuel hf
    have hr := ih (fun hm => hx (List.mem_cons_of_mem _ hm))
    have hc : c ≠ 37 := fun hc => hx (hc ▸ List.mem_cons_self _ _)
    rw [List.flatMap_cons] at hf ⊢
    rcases escapeUnit_cases c with ⟨he, _⟩ | ⟨h, l, he, _, _, _, h3, h4, h5, _, _, _, _⟩
    · rw [he] at hf ⊢
      simp only [List.length_append, List.length_cons, List.length_nil] at hf
      obtain ⟨n, rfl⟩ : ∃ n, fuel = n + 1 := ⟨fuel - 1, by omega⟩
      show decodeLoop (n + 1) (c :: r.flatMap escapeUnit) = Res.ok (c :: r)
      rw [decodeLoop, decodeStep_cons_ne _ _ hc]
      simp only
      rw [hr n (by omega)]
      rfl
    · rw [he] at hf ⊢
      simp only [List.length_append, List.length_cons, List.length_nil] at hf
      obtain ⟨n, rfl⟩ : ∃ n, fuel = n + 1 := ⟨fuel - 1, by omega⟩
      show decodeLoop (n + 1) (37 :: h :: l :: r.flatMap escapeUnit) = Res.ok (c :: r)
      rw [decodeLoop, decodeStep_escape_ascii _ _ _ _ h3 h4 h5]
      simp only
      rw [hr n (by omega)]
      rfl

theorem decodeURI_flatMap_escapeUnit (x : Str) (hx : 37 ∉ x) :
    decodeURI (x.flatMap escapeUnit) = Res.ok x :=
  decodeLoop_flatMap_escapeUnit x hx _ (Nat.le_refl _)

/-- `safeDecodeURI` after `escapeString` on a string without `%`: the whole string is decoded
when the scan meets an escape, and nothing is decoded otherwise. -/
theorem safeDecodeURI_escapeString (x : Str) (hx : 37 ∉ x) :
    safeDecodeURI (escapeString x) =
      Res.ok (if decodeTriggered (escapeString x) then x else escapeString x) := by
  rw [escapeString_eq_flatMap]
  unfold safeDecodeURI decodeTriggered
  rw [safeDecodeLoop_noProtected _ (noProtected_flatMap_escapeUnit x hx) _ 1 false (by omega)]
  simp only [Bool.false_or]
  split
  · exact decodeURI_flatMap_escapeUnit x hx
  · rfl

/-- C10 (as amended): for a printable ASCII string `x` without `%`,
`safeDecodeURI(escapeString(x))` is `x` when the scan of `safeDecodeURI`, which starts at
index 1 of the escaped text and stops at `?`, `;` or `#`, meets an escape, and is the escaped
text itself otherwise. -/
theorem safeDecodeURI_escapeString_printable (x : Str) (_hp : Printable x) (hx : 37 ∉ x) :
    safeDecodeURI (escapeString x) =
      Res.ok (if decodeTriggered (escapeString x) then x else escapeString x) :=
  safeDecodeURI_escapeString x hx

theorem safeDecodeURI_escapeString_printable_witness :
    Printable (lit "a b") ∧ 37 ∉ lit "a b"
    ∧ decodeTriggered (escapeString (lit "a b")) = true
    ∧ safeDecodeURI (escapeString (lit "a b")) =
      Res.ok (if decodeTriggered (escapeString (lit "a b")) then lit "a b"
        else escapeString (lit "a b")) :=
  ⟨by decide, by decide, by decide,
    safeDecodeURI_escapeString_printable (lit "a b") (by decide) (by decide)⟩

/-- C10 (counterexample): the single space is printable and has no `%`, yet
`safeDecodeURI(escapeString(" "))` is `%20`; `a? ` comes back as `a?%20`. -/
theorem safeDecodeURI_escapeString_space :
    Printable (lit " ") ∧ 37 ∉ lit " "
    ∧ safeDecodeURI (escapeString (lit " ")) = Res.ok (lit "%20")
    ∧ safeDecodeURI (escapeString (lit "a? ")) = Res.ok (lit "a?%20") := by
  decide

/-! ## Outcomes -/

theorem Res.ok_bind {α β : Type} (a : α) (f : α → Res β) : (Res.ok a).bind f = f a := rfl

theorem Res.pure_eq {α : Type} (a : α) : (pure a : Res α) = Res.ok a := rfl

theorem Res.bind_eq {α β : Type} (r : Res α) (f : α → Res β) : (r >>= f) = r.bind f := rfl

/-! ## The registry of scheme handlers matters only at the key that is looked up -/

theorem serialize_noHandler (env : Env) (c : Components) (opts : Options)
    (h : env.schemes (schemeKey opts.scheme c.scheme) = none) :
    serialize env c opts = serialize noHandlers c opts := by
  unfold serialize
  simp only [h, noHandlers]

theorem parse_noHandler (env : Env) (uri : Str) (opts : Options)
    (h : env.schemes (schemeKey opts.scheme (uriParse (parseInput uri opts)).m1) = none)
    (hd : opts.domainHost = false) :
    parse env uri opts = parse noHandlers uri opts := by
  unfold parse
  simp only [h, noHandlers]
  have hc : ∀ host error, convertDomain env opts none host error
      = convertDomain { schemes := fun _ => none, domainToASCII := fun h => Except.ok h } opts
          none host error := by
    intro host error
    simp [convertDomain, hd]
  simp only [hc]

theorem resolveComponents_skip (env env1 : Env) (b r : Components) (opts : Options) :
    resolveComponents env b r opts true = resolveComponents env1 b r opts true := by
  rfl

theorem orElse_some_cons (c : Nat) (s : Str) (b : Option Str) : orElse (some (c :: s)) b = c :: s := by
  simp [orElse, truthy]

theorem orElse_none_right (p : Option Str) : orElse p none = p.getD [] := by
  cases p with
  | none => rfl
  | some s => cases s <;> rfl

theorem resolve_noHandler (env : Env) (baseURI relativeURI : Str)
    (h : env.schemes (lit "null") = none) :
    resolve env baseURI relativeURI {} = resolve noHandlers baseURI relativeURI {} := by
  have hk : ∀ b : Option Str, schemeKey (some (lit "null")) b = lit "null" := by
    intro b
    have : lit "null" = 110 :: [117, 108, 108] := by decide
    rw [schemeKey, this, orElse_some_cons]
    decide
  unfold resolve
  simp only [if_true]
  rw [parse_noHandler env baseURI _ (by rw [hk]; exact h) rfl,
    parse_noHandler env relativeURI _ (by rw [hk]; exact h) rfl]
  congr 1
  funext b
  congr 1
  funext r
  rw [resolveComponents_skip env noHandlers]
  congr 1
  funext c
  exact serialize_noHandler env c _ (by rw [hk]; exact h)

/-- C2: with the base `http://a/b/c/d;p?q`, default options and no handler registered under
the key `null` that `resolve` sets, the vectors of RFC 3986 §5.4 come out: `g` and `./g` give
`http://a/b/c/g`, `../../../g` gives `http://a/g`, `?y` gives `http://a/b/c/d;p?y` and the
empty reference gives `http://a/b/c/d;p?q`. -/
theorem resolve_rfc_vectors (env : Env) (h : env.schemes (lit "null") = none) :
    resolve env (lit "http://a/b/c/d;p?q") (lit "g") {} = Res.ok (lit "http://a/b/c/g")
    ∧ resolve env (lit "http://a/b/c/d;p?q") (lit "./g") {} = Res.ok (lit "http://a/b/c/g")
    ∧ resolve env (lit "http://a/b/c/d;p?q") (lit "../../../g") {} = Res.ok (lit "http://a/g")
    ∧ resolve env (lit "http://a/b/c/d;p?q") (lit "?y") {} = Res.ok (lit "http://a/b/c/d;p?y")
    ∧ resolve env (lit "http://a/b/c/d;p?q") (lit "") {} = Res.ok (lit "http://a/b/c/d;p?q") := by
  simp only [resolve_noHandler env _ _ h]
  refine ⟨?_, ?_, ?_, ?_, ?_⟩ <;> decide!

theorem resolve_rfc_vectors_witness :
    noHandlers.schemes (lit "null") = none
    ∧ resolve noHandlers (lit "http://a/b/c/d;p?q") (lit "../../../g") {}
        = Res.ok (lit "http://a/g") :=
  ⟨rfl, (resolve_rfc_vectors noHandlers rfl).2.2.1⟩

/-- C1: `x:#%2541` is a syntactically valid URI and `x` has no handler; `normalize` turns it
into `x:#%41`, and turns that into `x:#A`, so that a second normalisation changes the result
of the first.  The same happens to the host of `x://a%41` (`x://aA`, then `x://aa`). -/
theorem normalize_twice_differs :
    normalize noHandlers (UriInput.str (lit "x:#%2541")) {} = Res.ok (UriInput.str (lit "x:#%41"))
    ∧ normalize noHandlers (UriInput.str (lit "x:#%41")) {} = Res.ok (UriInput.str (lit "x:#A"))
    ∧ normalize noHandlers (UriInput.str (lit "x://a%41")) {} = Res.ok (UriInput.str (lit "x://aA"))
    ∧ normalize noHandlers (UriInput.str (lit "x://aA")) {} = Res.ok (UriInput.str (lit "x://aa")) := by
  refine ⟨?_, ?_, ?_, ?_⟩ <;> decide!

/-- C7 (counterexample): in tolerant mode the relative reference `b:x` resolved against a base
with the scheme `a` comes out with the scheme `a`, not with its own. -/
theorem resolveComponents_tolerant_scheme :
    resolveComponents noHandlers { scheme := some (lit "a") }
        { scheme := some (lit "b"), path := some (lit "x") } { tolerant := true } true
      = Res.ok { scheme := some (lit "a"), path := some (lit "x") } := by
  decide!

theorem Res.map_ok_inv {α β : Type} {r : Res α} {f : α → β} {b : β}
    (h : r.map f = Res.ok b) : ∃ a, r = Res.ok a ∧ f a = b := by
  cases r with
  | ok a =>
    simp only [Res.map, Res.ok.injEq] at h
    exact ⟨a, rfl, h⟩
  | throw e => cases h
  | diverge => cases h

/-- In tolerant mode the decision tree of `resolveComponents` does not read the scheme of the
relative record, and what it returns has the scheme of the base and the fragment of the
relative record. -/
theorem resolveTarget_tolerant (base relative : Components) (options : Options)
    (ht : options.tolerant = true) :
    resolveTarget base relative options
        = resolveTarget base { relative with scheme := none } options
    ∧ ∀ r, resolveTarget base relative options = Res.ok r →
        r.scheme = base.scheme ∧ r.fragment = relative.fragment := by
  refine ⟨?_, ?_⟩
  · unfold resolveTarget
    simp [ht, hasAuthority, mergePaths]
  · intro r hr
    unfold resolveTarget at hr
    simp only [ht, Bool.true_eq_false, false_and, if_false] at hr
    split at hr
    · obtain ⟨p, -, rfl⟩ := Res.map_ok_inv hr
      exact ⟨rfl, rfl⟩
    · split at hr
      · simp only [Res.pure_eq, Res.ok.injEq] at hr
        subst hr
        exact ⟨rfl, rfl⟩
      · split at hr
        · obtain ⟨p, -, rfl⟩ := Res.map_ok_inv hr
          exact ⟨rfl, rfl⟩
        · obtain ⟨p, -, rfl⟩ := Res.map_ok_inv hr
          exact ⟨rfl, rfl⟩

/-- C7 (as amended): for a relative record with a non-empty scheme and any base. When
`options.tolerant` is not set, `resolveComponents` (normalisation skipped) returns, whenever
`removeDotSegments` returns on the relative path, the record with the relative's scheme,
userinfo, host, port, query and fragment and with that result as path, whatever the base.
When `options.tolerant` is set, the scheme of the relative record is not used: the result is
that for the relative record without its scheme, and whenever `resolveComponents` returns,
the record has the scheme of the base and the fragment of the relative record. -/
theorem resolveComponents_relative_scheme (env : Env) (base relative : Components)
    (options : Options) (hs : truthy relative.scheme = true) :
    (options.tolerant = false →
      resolveComponents env base relative options true =
        (removeDotSegments (relative.path.getD [])).map (fun p =>
          ({ scheme := relative.scheme, userinfo := relative.userinfo, host := relative.host,
             port := relative.port, path := some p, query := relative.query,
             fragment := relative.fragment } : Components)))
    ∧ (options.tolerant = true →
      resolveComponents env base relative options true
          = resolveComponents env base { relative with scheme := none } options true
        ∧ ∀ r, resolveComponents env base relative options true = Res.ok r →
            r.scheme = base.scheme ∧ r.fragment = relative.fragment) := by
  refine ⟨fun ht => ?_, fun ht => ?_⟩
  · show resolveTarget base relative options = _
    unfold resolveTarget
    simp only [ht, hs, orElse_none_right, and_self, if_true]
  · exact resolveTarget_tolerant base relative options ht

theorem resolveComponents_relative_scheme_witness :
    truthy (some (lit "b")) = true
    ∧ resolveComponents noHandlers { scheme := some (lit "a"), path := some (lit "/p") }
        { scheme := some (lit "b"), path := some (lit "/x/../y"), fragment := some (lit "f") }
        { tolerant := false } true
      = Res.ok { scheme := some (lit "b"), path := some (lit "/y"), fragment := some (lit "f") }
    ∧ ∀ r, resolveComponents noHandlers { scheme := some (lit "a"), path := some (lit "/p") }
        { scheme := some (lit "b"), path := some (lit "/x/../y"), fragment := some (lit "f") }
        { tolerant := true } true = Res.ok r →
      r.scheme = some (lit "a") ∧ r.fragment = some (lit "f") :=
  ⟨by decide,
    ((resolveComponents_relative_scheme noHandlers _ _ { tolerant := false } (by decide)).1
      rfl).trans (by decide!),
    ((resolveComponents_relative_scheme noHandlers
      { scheme := some (lit "a"), path := some (lit "/p") }
      { scheme := some (lit "b"), path := some (lit "/x/../y"), fragment := some (lit "f") }
      { tolerant := true } (by decide)).2 rfl).2⟩

/-! ## Lists: runs of a character class -/

theorem takeWhile_all {p : Nat → Bool} {a : Str} (ha : ∀ c ∈ a, p c = true) :
    a.takeWhile p = a := by
  induction a with
  | nil => rfl
  | cons c r ih =>
    simp [List.takeWhile, ha c (List.mem_cons_self _ _),
      ih (fun d hd => ha d (List.mem_cons_of_mem _ hd))]

theorem dropWhile_all {p : Nat → Bool} {a : Str} (ha : ∀ c ∈ a, p c = true) :
    a.dropWhile p = [] := by
  induction a with
  | nil => rfl
  | cons c r ih =>
    simp [List.dropWhile, ha c (List.mem_cons_self _ _),
      ih (fun d hd => ha d (List.mem_cons_of_mem _ hd))]

theorem takeWhile_append_cons {p : Nat → Bool} {a : Str} (c : Nat) (r : Str)
    (ha : ∀ d ∈ a, p d = true) (hc : p c = false) : (a ++ c :: r).takeWhile p = a := by
  induction a with
  | nil => simp [List.takeWhile, hc]
  | cons d t ih =>
    simp [List.takeWhile, ha d (List.mem_cons_self _ _),
      ih (fun e he => ha e (List.mem_cons_of_mem _ he))]

theorem dropWhile_append_cons {p : Nat → Bool} {a : Str} (c : Nat) (r : Str)
    (ha : ∀ d ∈ a, p d = true) (hc : p c = false) : (a ++ c :: r).dropWhile p = c :: r := by
  induction a with
  | nil => simp [List.dropWhile, hc]
  | cons d t ih =>
    simp [List.dropWhile, ha d (List.mem_cons_self _ _),
      ih (fun e he => ha e (List.mem_cons_of_mem _ he))]

/-! ## Host normaliser: lemmas -/

theorem findToken_loop (str : Str) (token : Nat) (n : Nat) (hn : n ≤ str.length) :
    (List.range n).foldl (fun ind i => if str.get? i = some token then ind + 1 else ind) 0
      = (str.take n).count token := by
  induction n with
  | zero => simp
  | succ n ih =>
    have hlt : n < str.length := hn
    rw [List.range_succ, List.foldl_append, ih (Nat.le_of_succ_le hn), List.take_succ]
    simp only [List.foldl_cons, List.foldl_nil, List.get?_eq_getElem?,
      List.getElem?_eq_getElem hlt, Option.some.injEq, Option.toList_some, List.count_append]
    by_cases h : str[n] = token
    · simp [h]
    · simp [h, List.count_singleton]

theorem findToken_eq_count (str : Str) (token : Nat) : findToken str token = str.count token := by
  unfold findToken
  rw [findToken_loop str token str.length (Nat.le_refl _), List.take_length]

theorem normalizeIPv4_of_count {host : Str} (h : host.count 46 < 3) :
    normalizeIPv4 host = { host := host, isIPV4 := false } := by
  simp [normalizeIPv4, findToken_eq_count, h]

theorem normalizeIPv6_of_count {host : Str} (h : host.count 58 < 2) :
    normalizeIPv6 host = { host := host, escapedHost := none, isIPV6 := false } := by
  simp [normalizeIPv6, findToken_eq_count, h]

/-! ## Numbers -/

theorem decimalDigits_spec :
    ∀ (fuel n : Nat) (acc : Str), n < fuel →
      ∃ ds : Str, decimalDigits fuel n acc = ds ++ acc ∧ ds ≠ [] ∧ (∀ d ∈ ds, isDigit d = true)
        ∧ ∀ k, ds.foldl (fun m d => 10 * m + (d - 48)) k = k * 10 ^ ds.length + n := by
  intro fuel
  induction fuel with
  | zero => intro n acc h; omega
  | succ f ih =>
    intro n acc h
    unfold decimalDigits
    by_cases h10 : n < 10
    · refine ⟨[48 + n], by simp [h10], by simp, ?_, ?_⟩
      · intro d hd
        simp at hd
        subst hd
        simp [isDigit]
        omega
      · intro k
        simp
        omega
    · simp only [h10, if_false]
      obtain ⟨ds, h1, h2, h3, h4⟩ := ih (n / 10) ((48 + n % 10) :: acc) (by omega)
      refine ⟨ds ++ [48 + n % 10], by simp [h1], by simp, ?_, ?_⟩
      · intro d hd
        rcases List.mem_append.mp hd with hd | hd
        · exact h3 d hd
        · simp at hd
          subst hd
          simp [isDigit]
          omega
      · intro k
        rw [List.foldl_append, h4 k]
        simp only [List.foldl_cons, List.foldl_nil, List.length_append, List.length_singleton,
          Nat.add_sub_cancel_left]
        rw [pow_succ]
        have := Nat.div_add_mod n 10
        nlinarith [this]

theorem decimalString_spec (n : Nat) :
    decimalString n ≠ [] ∧ (∀ d ∈ decimalString n, isDigit d = true)
      ∧ (decimalString n).foldl (fun m d => 10 * m + (d - 48)) 0 = n := by
  obtain ⟨ds, h1, h2, h3, h4⟩ := decimalDigits_spec (n + 1) n [] (Nat.lt_succ_self _)
  have hds : decimalString n = ds := by simp [decimalString, h1]
  rw [hds]
  refine ⟨h2, h3, ?_⟩
  rw [h4 0]
  simp

theorem toDouble_small (n : Nat) (h : n < 2 ^ 53) : toDouble n = n := by
  unfold toDouble
  rw [if_pos h]

theorem numberToString_small (n : Nat) (h : n < 2 ^ 53) : numberToString n = decimalString n := by
  unfold numberToString
  rw [if_pos h]

theorem numberToString_spec (n : Nat) (h : n < 2 ^ 53) :
    numberToString n ≠ [] ∧ (∀ d ∈ numberToString n, isDigit d = true)
      ∧ parseInt10 (some (numberToString n)) = some n := by
  obtain ⟨h2, h3, h4⟩ := decimalString_spec n
  rw [numberToString_small n h]
  refine ⟨h2, h3, ?_⟩
  cases hds : decimalString n with
  | nil => exact absurd hds h2
  | cons c r =>
    simp only [parseInt10]
    rw [← hds, h4, toDouble_small n h]

/-! ## Strings without `%` -/

theorem noProtected_of_no_percent (s : Str) (h : 37 ∉ s) : noProtected s = true := by
  induction s with
  | nil => rfl
  | cons c r ih =>
    have hc : c ≠ 37 := fun hc => h (hc ▸ List.mem_cons_self _ _)
    simp [noProtected, hc, ih (fun hm => h (List.mem_cons_of_mem _ hm))]

theorem scanMeetsPercent_of_no_percent (s : Str) (h : 37 ∉ s) : scanMeetsPercent s = false := by
  induction s with
  | nil => rfl
  | cons c r ih =>
    have hc : c ≠ 37 := fun hc => h (hc ▸ List.mem_cons_self _ _)
    simp only [scanMeetsPercent, hc, if_false, ih (fun hm => h (List.mem_cons_of_mem _ hm))]
    split <;> rfl

theorem safeDecodeURI_of_no_percent (s : Str) (h : 37 ∉ s) : safeDecodeURI s = Res.ok s := by
  unfold safeDecodeURI
  rw [safeDecodeLoop_noProtected _ (noProtected_of_no_percent s h) _ 1 false (by omega)]
  have hs := scanMeetsPercent_of_no_percent (s.drop 1) (fun hm => h (List.mem_of_mem_drop hm))
  simp only [hs, Bool.or_self, Bool.false_eq_true, if_false]

theorem decodeLoop_of_no_percent (s : Str) (h : 37 ∉ s) :
    ∀ fuel, s.length ≤ fuel → decodeLoop fuel s = Res.ok s := by
  induction s with
  | nil => intro fuel _; cases fuel <;> rfl
  | cons c r ih =>
    intro fuel hf
    have hc : c ≠ 37 := fun hc => h (hc ▸ List.mem_cons_self _ _)
    obtain ⟨n, rfl⟩ : ∃ n, fuel = n + 1 := ⟨fuel - 1, by simp at hf; omega⟩
    rw [decodeLoop, decodeStep_cons_ne _ _ hc]
    simp only
    rw [ih (fun hm => h (List.mem_cons_of_mem _ hm)) n (by simp at hf; omega)]
    rfl

theorem decodeURI_of_no_percent (s : Str) (h : 37 ∉ s) : decodeURI s = Res.ok s :=
  decodeLoop_of_no_percent s h _ (Nat.le_refl _)

theorem decodeIf_false (x : Option Str) : decodeIf false x = Res.ok x := by
  cases x <;> rfl

theorem decodeIf_of_no_percent (b : Bool) (x : Option Str) (h : ∀ s, x = some s → 37 ∉ s) :
    decodeIf b x = Res.ok x := by
  cases x with
  | none => rfl
  | some s =>
    cases b with
    | false => rfl
    | true =>
      simp only [decodeIf, if_true]
      rw [safeDecodeURI_of_no_percent s (h s rfl)]
      rfl

theorem escapeString_id (s : Str) (h : ∀ c ∈ s, escapedChar c = []) : escapeString s = s := by
  rw [escapeString_eq_flatMap, flatMap_escapeUnit_id s h]

theorem splitJoin3A_of_no_percent (s : Str) (h : 37 ∉ s) : splitJoin3A s = s := by
  induction s using splitJoin3A.induct with
  | case1 => rfl
  | case2 c c2 c3 rest3 hc ih =>
    exact absurd (hc.1 ▸ List.mem_cons_self _ _) h
  | case3 c c2 c3 rest3 hc ih =>
    rw [splitJoin3A]
    simp only [hc, if_false]
    rw [ih (fun hm => h (List.mem_cons_of_mem _ hm))]
  | case4 c c2 => rfl
  | case5 c => rfl

theorem toLowerCase_id (s : Str) (h : ∀ c ∈ s, ¬ (65 ≤ c ∧ c ≤ 90)) : toLowerCase s = s := by
  unfold toLowerCase
  conv_rhs => rw [← List.map_id s]
  apply List.map_congr_left
  intro c hc
  simp [lowerUnit, h c hc]

/-! ## Dot-segment removal on paths without dots -/

theorem isPrefixOf_mem {p s : Str} (h : p.isPrefixOf s = true) {c : Nat} (hc : c ∈ p) : c ∈ s :=
  (List.isPrefixOf_iff_prefix.mp h).subset hc

theorem takeWhile_append_drop (p : Nat → Bool) (r : Str) :
    r.takeWhile p ++ r.drop (r.takeWhile p).length = r := by
  induction r with
  | nil => rfl
  | cons c t ih =>
    by_cases hc : p c = true
    · simp [List.takeWhile, hc, ih]
    · simp [List.takeWhile, hc]

theorem rfcLoop_of_no_dot (input : Str) (output : List Str) (h : 46 ∉ input) :
    rfcLoop input output = output.flatten ++ input := by
  induction input, output using rfcLoop.induct with
  | case1 output => simp [rfcLoop]
  | case2 input output hne h1 ih => exact absurd (isPrefixOf_mem h1 (by decide)) h
  | case3 input output hne h1 h2 ih => exact absurd (isPrefixOf_mem h2 (by decide)) h
  | case4 input output hne h1 h2 h3 ih => exact absurd (isPrefixOf_mem h3 (by decide)) h
  | case5 output _ _ _ _ ih => exact absurd (by decide) h
  | case6 input output hne h1 h2 h3 h4 h5 ih => exact absurd (isPrefixOf_mem h5 (by decide)) h
  | case7 output _ _ _ _ _ _ ih => exact absurd (by decide) h
  | case8 input output hne h1 h2 h3 h4 h5 h6 h7 ih =>
    rcases h7 with rfl | rfl <;> exact absurd (by decide) h
  | case9 input output hne h1 h2 h3 h4 h5 h6 h7 seg ih =>
    have hseg : seg ++ input.drop seg.length = input := by
      cases input with
      | nil => exact absurd rfl hne
      | cons c r =>
        have := takeWhile_append_drop (fun c => decide (c ≠ 47)) r
        simpa [seg] using this
    rw [rfcLoop]
    simp only [hne, h1, h2, h3, h4, h5, h6, h7, if_false, Bool.false_eq_true]
    rw [ih (fun hm => h (List.mem_of_mem_drop hm))]
    simp only [List.flatten_append, List.flatten_cons, List.flatten_nil, List.append_nil,
      List.append_assoc, hseg]

theorem removeDotSegments_of_no_dot (input : Str) (h : 46 ∉ input)
    (hc : ∀ c ∈ input, dotOrLF c = true) : removeDotSegments input = Res.ok input := by
  unfold removeDotSegments
  rw [rdsLoop_eq_rfcLoop input [] _ (Nat.lt_succ_self _) hc, rfcLoop_of_no_dot input [] h]
  rfl

/-! ## The groups of `URI_PARSE` consist of characters of the input -/

theorem takeWhile_sub (p : Nat → Bool) (l : Str) : l.takeWhile p ⊆ l :=
  (List.takeWhile_prefix p).subset

theorem dropWhile_sub (p : Nat → Bool) (l : Str) : l.dropWhile p ⊆ l :=
  (List.dropWhile_suffix p).subset

theorem tail_sub (l : Str) : l.tail ⊆ l := by
  cases l with
  | nil => simp
  | cons c r => simp

theorem stripStart_sub {p s a : Str} (h : stripStart p s = some a) : a ⊆ s := by
  rw [stripStart_eq] at h
  split at h
  · injection h with h
    subst h
    exact List.drop_subset _ _
  · cases h

theorem matchScheme_sub (uri : Str) :
    (∀ s, (matchScheme uri).1 = some s → s ⊆ uri) ∧ (matchScheme uri).2 ⊆ uri := by
  unfold matchScheme
  simp only
  split
  · refine ⟨?_, ?_⟩
    · intro s hs
      injection hs with hs
      subst hs
      exact takeWhile_sub _ _
    · exact (tail_sub _).trans (dropWhile_sub _ _)
  · exact ⟨(fun _ hs => nomatch hs), List.Subset.refl _⟩

theorem matchUserinfo_sub (s : Str) :
    (∀ u, (matchUserinfo s).1 = some u → u ⊆ s) ∧ (matchUserinfo s).2 ⊆ s := by
  unfold matchUserinfo
  simp only
  split
  · refine ⟨?_, ?_⟩
    · intro u hu
      injection hu with hu
      subst hu
      exact takeWhile_sub _ _
    · exact (tail_sub _).trans (dropWhile_sub _ _)
  · exact ⟨(fun _ hu => nomatch hu), List.Subset.refl _⟩

theorem bracketHost_sub {s h r : Str} (hb : bracketHost s = some (h, r)) : h ⊆ s ∧ r ⊆ s := by
  unfold bracketHost at hb
  split at hb
  · rename_i c t
    split at hb
    · rename_i h91
      simp only at hb
      split at hb
      · rename_i hrun
        injection hb with hb
        injection hb with h1 h2
        subst h1 h2
        have h93 : 93 ∈ t := by
          have := hrun.2
          cases hd : t.dropWhile (notIn [47, 63, 35, 93]) with
          | nil => rw [hd] at this; cases this
          | cons x y =>
            rw [hd] at this
            simp at this
            subst this
            exact dropWhile_sub _ _ (hd ▸ List.mem_cons_self _ _)
        refine ⟨?_, ?_⟩
        · intro x hx
          simp only [List.mem_append, List.mem_singleton] at hx
          rcases hx with (rfl | hx) | rfl
          · simp [h91]
          · exact List.mem_cons_of_mem _ (takeWhile_sub _ _ hx)
          · exact List.mem_cons_of_mem _ h93
        · exact ((tail_sub _).trans (dropWhile_sub _ _)).trans (List.subset_cons_self _ _)
      · cases hb
    · cases hb
  · cases hb

theorem matchHost_sub (s : Str) : (matchHost s).1 ⊆ s ∧ (matchHost s).2 ⊆ s := by
  unfold matchHost
  split
  · rename_i r hr
    exact bracketHost_sub (h := r.1) (r := r.2) (by simpa using hr)
  · exact ⟨takeWhile_sub _ _, dropWhile_sub _ _⟩

theorem matchPort_sub (s : Str) :
    (∀ p, (matchPort s).1 = some p → p ⊆ s) ∧ (matchPort s).2 ⊆ s := by
  unfold matchPort
  split
  · rename_i c r
    split
    · refine ⟨?_, (dropWhile_sub _ _).trans (List.subset_cons_self _ _)⟩
      intro p hp
      injection hp with hp
      subst hp
      exact (takeWhile_sub _ _).trans (List.subset_cons_self _ _)
    · exact ⟨(fun _ hp => nomatch hp), List.Subset.refl _⟩
  · exact ⟨(fun _ hp => nomatch hp), List.Subset.refl _⟩

theorem matchAuthority_sub (s : Str) :
    (∀ u, (matchAuthority s).1 = some u → u ⊆ s)
    ∧ (∀ h, (matchAuthority s).2.1 = some h → h ⊆ s)
    ∧ (∀ p, (matchAuthority s).2.2.1 = some p → p ⊆ s)
    ∧ (matchAuthority s).2.2.2 ⊆ s := by
  unfold matchAuthority
  split
  · rename_i a ha
    have h0 := stripStart_sub ha
    have h3 := matchUserinfo_sub a
    have h4 := matchHost_sub (matchUserinfo a).2
    have h5 := matchPort_sub (matchHost (matchUserinfo a).2).2
    simp only
    refine ⟨?_, ?_, ?_, ?_⟩
    · intro u hu
      exact (h3.1 u hu).trans h0
    · intro h hh
      injection hh with hh
      subst hh
      exact (h4.1.trans h3.2).trans h0
    · intro p hp
      exact (((h5.1 p hp).trans h4.2).trans h3.2).trans h0
    · exact ((h5.2.trans h4.2).trans h3.2).trans h0
  · exact ⟨(fun _ hu => nomatch hu), (fun _ hu => nomatch hu), (fun _ hu => nomatch hu),
      List.Subset.refl _⟩

theorem matchQuery_sub (s : Str) :
    (∀ q, (matchQuery s).1 = some q → q ⊆ s) ∧ (matchQuery s).2 ⊆ s := by
  unfold matchQuery
  split
  · rename_i c r
    split
    · refine ⟨?_, (dropWhile_sub _ _).trans (List.subset_cons_self _ _)⟩
      intro p hp
      injection hp with hp
      subst hp
      exact (takeWhile_sub _ _).trans (List.subset_cons_self _ _)
    · exact ⟨(fun _ hp => nomatch hp), List.Subset.refl _⟩
  · exact ⟨(fun _ hp => nomatch hp), List.Subset.refl _⟩

theorem matchFragment_sub (s : Str) : ∀ f, matchFragment s = some f → f ⊆ s := by
  unfold matchFragment
  split
  · rename_i c r
    split
    · intro p hp
      injection hp with hp
      subst hp
      exact (takeWhile_sub _ _).trans (List.subset_cons_self _ _)
    · intro p hp; cases hp
  · intro p hp; cases hp

/-- Every group of the match consists of characters of the input. -/
theorem uriParse_sub (uri : Str) :
    (∀ s, (uriParse uri).m1 = some s → s ⊆ uri)
    ∧ (∀ s, (uriParse uri).m3 = some s → s ⊆ uri)
    ∧ (∀ s, (uriParse uri).m4 = some s → s ⊆ uri)
    ∧ (∀ s, (uriParse uri).m5 = some s → s ⊆ uri)
    ∧ (uriParse uri).m6 ⊆ uri
    ∧ (∀ s, (uriParse uri).m7 = some s → s ⊆ uri)
    ∧ (∀ s, (uriParse uri).m8 = some s → s ⊆ uri) := by
  have h1 := matchScheme_sub uri
  have h2 := matchAuthority_sub (matchScheme uri).2
  have h6 : ((matchAuthority (matchScheme uri).2).2.2.2.dropWhile (notIn [63, 35])) ⊆ uri :=
    ((dropWhile_sub _ _).trans h2.2.2.2).trans h1.2
  have h7 := matchQuery_sub ((matchAuthority (matchScheme uri).2).2.2.2.dropWhile (notIn [63, 35]))
  have h8 := matchFragment_sub
    (matchQuery ((matchAuthority (matchScheme uri).2).2.2.2.dropWhile (notIn [63, 35]))).2
  unfold uriParse
  simp only
  refine ⟨h1.1, ?_, ?_, ?_, ?_, ?_, ?_⟩
  · intro s hs; exact (h2.1 s hs).trans h1.2
  · intro s hs; exact (h2.2.1 s hs).trans h1.2
  · intro s hs; exact (h2.2.2.1 s hs).trans h1.2
  · exact ((takeWhile_sub _ _).trans h2.2.2.2).trans h1.2
  · intro s hs; exact (h7.1 s hs).trans h6
  · intro s hs; exact ((h8 s hs).trans h7.2).trans h6

/-! ## `parse` on an input without `%`, default options, no handler -/

theorem escapeString_nil : escapeString [] = [] := rfl

theorem escape_if_length (p : Str) : (if p.length ≠ 0 then escapeString p else p) = escapeString p := by
  cases p with
  | nil => rfl
  | cons c r => simp

theorem normalizeParsed_of_no_percent (parsed : Components) (p : Str)
    (hp : parsed.path = some p) (hf : ∀ f, parsed.fragment = some f → 37 ∉ f) :
    normalizeParsed none false parsed =
      Res.ok { parsed with path := some (escapeString p),
                           fragment := parsed.fragment.map escapeString } := by
  unfold normalizeParsed
  simp only [decodeIf_false, if_true, hp, Option.map_some', escape_if_length]
  cases hfr : parsed.fragment with
  | none => rfl
  | some f =>
    have h37 := hf f hfr
    cases f with
    | nil => rfl
    | cons c r =>
      simp only [List.length_cons, ne_eq, Nat.add_one_ne_zero, not_false_eq_true, if_true]
      rw [decodeURI_of_no_percent _ h37]
      rfl

theorem parse_of_no_percent (env : Env) (uri : Str) (h37 : 37 ∉ uri)
    (hk : env.schemes (schemeKey none (uriParse uri).m1) = none) :
    parse env uri {} = Res.ok
      { scheme := (uriParse uri).m1, userinfo := (uriParse uri).m3,
        host := parseHost (uriParse uri).m4, port := parsePort (uriParse uri).m5,
        path := some (escapeString (uriParse uri).m6), query := (uriParse uri).m7,
        fragment := (uriParse uri).m8.map escapeString,
        reference := some (referenceKind (uriParse uri).m1 (uriParse uri).m3
          (parseHost (uriParse uri).m4) (parsePort (uriParse uri).m5) (uriParse uri).m6
          (uriParse uri).m7 (uriParse uri).m8),
        error := none } := by
  have hin : parseInput uri {} = uri := rfl
  have hg : uri.contains 37 = false := by simpa using h37
  have hfrag : ∀ f, (uriParse uri).m8 = some f → 37 ∉ f :=
    fun f hf hm => h37 ((uriParse_sub uri).2.2.2.2.2.2 f hf hm)
  unfold parse
  simp only [hin, hg, hk]
  have hc : ∀ host error, convertDomain env {} none host error = (host, error) := by
    intro host error
    simp [convertDomain]
  have he : ∀ r, referenceError {} r = none := by
    intro r
    simp [referenceError, truthy]
  simp only [hc, he]
  rw [Res.bind_eq, normalizeParsed_of_no_percent _ _ rfl hfrag]
  rfl

/-! ## The match of `URI_PARSE` on a recomposed string -/

theorem takeWhile_append_head {p : Nat → Bool} {a b : Str} (ha : ∀ d ∈ a, p d = true)
    (hb : ∀ c, b.head? = some c → p c = false) : (a ++ b).takeWhile p = a := by
  cases b with
  | nil => simpa using takeWhile_all ha
  | cons c r => exact takeWhile_append_cons c r ha (hb c rfl)

theorem dropWhile_append_head {p : Nat → Bool} {a b : Str} (ha : ∀ d ∈ a, p d = true)
    (hb : ∀ c, b.head? = some c → p c = false) : (a ++ b).dropWhile p = b := by
  cases b with
  | nil => simpa using dropWhile_all ha
  | cons c r => exact dropWhile_append_cons c r ha (hb c rfl)

theorem matchScheme_cons (scheme rest : Str) (hne : scheme ≠ [])
    (hs : ∀ c ∈ scheme, notIn [58, 47, 63, 35] c = true) :
    matchScheme (scheme ++ 58 :: rest) = (some scheme, rest) := by
  unfold matchScheme
  simp only [takeWhile_append_cons 58 rest hs (by decide),
    dropWhile_append_cons 58 rest hs (by decide)]
  simp [hne]

theorem matchUserinfo_cons (u rest : Str) (hu : ∀ c ∈ u, notIn [47, 63, 35, 64] c = true) :
    matchUserinfo (u ++ 64 :: rest) = (some u, rest) := by
  unfold matchUserinfo
  simp only [takeWhile_append_cons 64 rest hu (by decide),
    dropWhile_append_cons 64 rest hu (by decide)]
  simp

theorem bracketHost_of_head {s : Str} (h : s.head? ≠ some 91) : bracketHost s = none := by
  cases s with
  | nil => rfl
  | cons c r =>
    have : c ≠ 91 := fun hc => h (by simp [hc])
    simp [bracketHost, this]

theorem matchHost_append (host rest : Str) (hne : host ≠ [])
    (hh : ∀ c ∈ host, notIn [47, 63, 35, 58] c = true) (h91 : host.head? ≠ some 91)
    (hr : ∀ c, rest.head? = some c → notIn [47, 63, 35, 58] c = false) :
    matchHost (host ++ rest) = (host, rest) := by
  unfold matchHost
  have hb : bracketHost (host ++ rest) = none := by
    apply bracketHost_of_head
    cases host with
    | nil => exact absurd rfl hne
    | cons c r => simpa using h91
  rw [hb]
  simp only [takeWhile_append_head hh hr, dropWhile_append_head hh hr]

theorem matchPort_cons (digits rest : Str) (hd : ∀ c ∈ digits, isDigit c = true)
    (hr : ∀ c, rest.head? = some c → isDigit c = false) :
    matchPort (58 :: (digits ++ rest)) = (some digits, rest) := by
  simp [matchPort, takeWhile_append_head hd hr, dropWhile_append_head hd hr]

theorem matchQuery_cons (query rest : Str) (hq : ∀ c ∈ query, notIn [35] c = true)
    (hr : ∀ c, rest.head? = some c → notIn [35] c = false) :
    matchQuery (63 :: (query ++ rest)) = (some query, rest) := by
  simp [matchQuery, takeWhile_append_head hq hr, dropWhile_append_head hq hr]

theorem matchFragment_cons (fragment : Str) (hf : ∀ c ∈ fragment, dotOrNewline c = true) :
    matchFragment (35 :: fragment) = some fragment := by
  simp [matchFragment, takeWhile_all hf]

/-- The groups of the match on `scheme://userinfo@host:digits path?query#fragment`. -/
theorem uriParse_recomposed (scheme u host digits path query fragment : Str)
    (hne : scheme ≠ []) (hs : ∀ c ∈ scheme, notIn [58, 47, 63, 35] c = true)
    (hu : ∀ c ∈ u, notIn [47, 63, 35, 64] c = true)
    (hhne : host ≠ []) (hh : ∀ c ∈ host, notIn [47, 63, 35, 58] c = true)
    (h91 : host.head? ≠ some 91)
    (hd : ∀ c ∈ digits, isDigit c = true)
    (hp : ∀ c ∈ path, notIn [63, 35] c = true)
    (hp0 : ∀ c, path.head? = some c → isDigit c = false)
    (hq : ∀ c ∈ query, notIn [35] c = true)
    (hf : ∀ c ∈ fragment, dotOrNewline c = true) :
    uriParse (scheme ++ 58 :: 47 :: 47 :: (u ++ 64 :: (host ++ 58 :: (digits ++
        (path ++ 63 :: (query ++ 35 :: fragment))))))
      = { m1 := some scheme, m3 := some u, m4 := some host, m5 := some digits, m6 := path,
          m7 := some query, m8 := some fragment } := by
  have hrest : ∀ c, (path ++ 63 :: (query ++ 35 :: fragment)).head? = some c →
      isDigit c = false := by
    intro c hc
    cases path with
    | nil => simp at hc; subst hc; decide
    | cons d r => exact hp0 c (by simpa using hc)
  have hauth : matchAuthority (47 :: 47 :: (u ++ 64 :: (host ++ 58 :: (digits ++
        (path ++ 63 :: (query ++ 35 :: fragment))))))
      = (some u, some host, some digits, path ++ 63 :: (query ++ 35 :: fragment)) := by
    unfold matchAuthority
    have hst : stripStart [47, 47] (47 :: 47 :: (u ++ 64 :: (host ++ 58 :: (digits ++
        (path ++ 63 :: (query ++ 35 :: fragment))))))
        = some (u ++ 64 :: (host ++ 58 :: (digits ++ (path ++ 63 :: (query ++ 35 :: fragment))))) := by
      simp [stripStart_eq]
    rw [hst]
    simp only [matchUserinfo_cons _ _ hu]
    rw [matchHost_append host _ hhne hh h91 (by intro c hc; simp at hc; subst hc; decide)]
    simp only [matchPort_cons _ _ hd hrest]
  unfold uriParse
  simp only [matchScheme_cons _ _ hne hs, hauth,
    takeWhile_append_cons 63 _ hp (by decide), dropWhile_append_cons 63 _ hp (by decide),
    matchQuery_cons query (35 :: fragment) hq (by intro c hc; simp at hc; subst hc; decide),
    matchFragment_cons _ hf]

/-! ## Recomposition round trip -/

theorem lower_facts : ∀ c, c < 123 → 97 ≤ c →
    notIn [58, 47, 63, 35] c = true ∧ notIn [47, 63, 35, 64] c = true
    ∧ notIn [47, 63, 35, 58] c = true ∧ notIn [63, 35] c = true ∧ notIn [35] c = true
    ∧ dotOrNewline c = true ∧ dotOrLF c = true ∧ escapedChar c = [] ∧ c ≠ 37 ∧ c ≠ 46
    ∧ c ≠ 58 ∧ c ≠ 91 ∧ isDigit c = false ∧ ¬ (65 ≤ c ∧ c ≤ 90) := by
  intro c h1 h2
  interval_cases c <;> decide

theorem lower_fact {s : Str} (h : Lower s) (c : Nat) (hc : c ∈ s) :
    notIn [58, 47, 63, 35] c = true ∧ notIn [47, 63, 35, 64] c = true
    ∧ notIn [47, 63, 35, 58] c = true ∧ notIn [63, 35] c = true ∧ notIn [35] c = true
    ∧ dotOrNewline c = true ∧ dotOrLF c = true ∧ escapedChar c = [] ∧ c ≠ 37 ∧ c ≠ 46
    ∧ c ≠ 58 ∧ c ≠ 91 ∧ isDigit c = false ∧ ¬ (65 ≤ c ∧ c ≤ 90) :=
  lower_facts c (by have := h c hc; omega) (h c hc).1

theorem slash_facts :
    notIn [63, 35] 47 = true ∧ dotOrLF 47 = true ∧ escapedChar 47 = [] ∧ isDigit 47 = false := by
  decide

theorem digit_facts : ∀ c, c < 58 → 48 ≤ c → c ≠ 37 ∧ c ≠ 46 ∧ c ≠ 58 := by
  intro c h1 h2
  omega

theorem segments_mem {segments : List Str} (hseg : ∀ s ∈ segments, Lower s) (c : Nat)
    (hc : c ∈ segments.flatMap (fun s => 47 :: s)) : c = 47 ∨ (97 ≤ c ∧ c ≤ 122) := by
  rw [List.mem_flatMap] at hc
  obtain ⟨s, hs, hcs⟩ := hc
  rcases List.mem_cons.mp hcs with rfl | h
  · exact Or.inl rfl
  · exact Or.inr (hseg s hs c h)

theorem segments_head (segments : List Str) (c : Nat)
    (hc : (segments.flatMap (fun s => 47 :: s)).head? = some c) : c = 47 := by
  cases segments with
  | nil => simp at hc
  | cons s t => simpa using hc.symm

theorem count_eq_zero_of_lower {s : Str} (h : Lower s) (t : Nat) (ht : t < 97) : s.count t = 0 := by
  rw [List.count_eq_zero]
  intro hm
  have := h t hm
  omega

theorem authorityOf_plain (userinfo host : Str) (port : Nat) (hhost : Lower host) :
    authorityOf (some userinfo) (some host) (some (Port.num port)) =
      Res.ok (some (userinfo ++ [64] ++ host ++ [58] ++ numberToString port)) := by
  have h37 : 37 ∉ host := fun hm => (lower_fact hhost 37 hm).2.2.2.2.2.2.2.2.1 rfl
  unfold authorityOf
  simp only [Res.bind_eq, safeDecodeURI_of_no_percent host h37, Res.ok_bind,
    normalizeIPv4_of_count (show host.count 46 < 3 by
      rw [count_eq_zero_of_lower hhost 46 (by decide)]; decide),
    normalizeIPv6_of_count (show host.count 58 < 2 by
      rw [count_eq_zero_of_lower hhost 58 (by decide)]; decide)]
  simp [Res.pure_eq, Res.ok_bind, portToString]

theorem schemeKey_lower (scheme : Str) (hne : scheme ≠ []) (hl : Lower scheme) :
    schemeKey none (some scheme) = scheme := by
  cases scheme with
  | nil => exact absurd rfl hne
  | cons c r =>
    simp only [schemeKey, orElse, truthy, if_true, Bool.false_eq_true, if_false, Option.getD_some]
    exact toLowerCase_id _ (fun d hd => (lower_fact hl d hd).2.2.2.2.2.2.2.2.2.2.2.2.2)

theorem serialize_plain (env : Env) (c : Components)
    (scheme userinfo host query fragment : Str) (port : Nat) (segments : List Str)
    (hscheme : scheme ≠ [] ∧ Lower scheme) (hhost : Lower host)
    (hseg : ∀ s ∈ segments, Lower s)
    (hc : c.scheme = some scheme ∧ c.userinfo = some userinfo ∧ c.host = some host
      ∧ c.port = some (Port.num port) ∧ c.path = some (segments.flatMap (fun s => 47 :: s))
      ∧ c.query = some query ∧ c.fragment = some fragment)
    (hk : env.schemes scheme = none) :
    serialize env c {} = Res.ok (scheme ++ lit ":" ++ lit "//" ++ userinfo ++ lit "@" ++ host
      ++ lit ":" ++ numberToString port ++ segments.flatMap (fun s => 47 :: s) ++ lit "?"
      ++ query ++ lit "#" ++ fragment) := by
  obtain ⟨h1, h2, h3, h4, h5, h6, h7⟩ := hc
  have hpath := segments_mem hseg
  have hesc : escapeString (segments.flatMap (fun s => 47 :: s))
      = segments.flatMap (fun s => 47 :: s) := by
    apply escapeString_id
    intro d hd
    rcases hpath d hd with rfl | hl
    · exact slash_facts.2.2.1
    · exact (lower_facts d (by omega) hl.1).2.2.2.2.2.2.2.1
  have hp37 : 37 ∉ segments.flatMap (fun s => 47 :: s) := by
    intro hm
    rcases hpath 37 hm with h | h
    · cases h
    · omega
  have hp46 : 46 ∉ segments.flatMap (fun s => 47 :: s) := by
    intro hm
    rcases hpath 46 hm with h | h
    · cases h
    · omega
  have hcls : ∀ d ∈ segments.flatMap (fun s => 47 :: s), dotOrLF d = true := by
    intro d hd
    rcases hpath d hd with rfl | hl
    · rfl
    · exact (lower_facts d (by omega) hl.1).2.2.2.2.2.2.1
  have hhead : ¬ (truthy (some (segments.flatMap (fun s => 47 :: s))) = true
      ∧ (segments.flatMap (fun s => 47 :: s)).head? ≠ some 47) := by
    intro ⟨ht, hb⟩
    cases hs : segments with
    | nil => rw [hs] at ht; simp [truthy] at ht
    | cons s t => rw [hs] at hb; simp at hb
  unfold serialize
  simp only [h1, schemeKey_lower scheme hscheme.1 hscheme.2, hk, serializeHook, serializePath,
    h5, hesc, splitJoin3A_of_no_percent _ hp37, Res.bind_eq, Res.pure_eq, Res.ok_bind, ne_eq,
    not_false_eq_true, if_true, reduceCtorEq]
  simp only [recomposeAuthority, h2, h3, h4, authorityOf_plain userinfo host port hhost]
  simp only [Res.ok_bind, serializeTail, removeDotSegments_of_no_dot _ hp46 hcls, and_self,
    if_true, Res.bind_eq, Res.pure_eq, reduceCtorEq, if_false, serializeHead, hhead,
    serializeQueryFragment, h1, h6, h7]
  have ht : truthy (some scheme) = true := by
    cases scheme with
    | nil => exact absurd rfl hscheme.1
    | cons a b => rfl
  simp [ht, lit, utf16]
  intro h
  by_contra hb
  exact hhead ⟨h, hb⟩

theorem parseHost_lower (host : Str) (hne : host ≠ []) (hl : Lower host) :
    parseHost (some host) = some host := by
  have ht : truthy (some host) = true := by
    cases host with
    | nil => exact absurd rfl hne
    | cons a b => rfl
  unfold parseHost
  simp only [ht, if_true, Option.getD_some,
    normalizeIPv4_of_count (show host.count 46 < 3 by
      rw [count_eq_zero_of_lower hl 46 (by decide)]; decide),
    normalizeIPv6_of_count (show host.count 58 < 2 by
      rw [count_eq_zero_of_lower hl 58 (by decide)]; decide),
    toLowerCase_id _ (fun d hd => (lower_fact hl d hd).2.2.2.2.2.2.2.2.2.2.2.2.2)]

theorem parsePort_numberToString (n : Nat) (h : n < 2 ^ 53) :
    parsePort (some (numberToString n)) = some (Port.num n) := by
  simp [parsePort, (numberToString_spec n h).2.2]

theorem parse_plain (env : Env)
    (scheme userinfo host query fragment : Str) (port : Nat) (segments : List Str)
    (hscheme : scheme ≠ [] ∧ Lower scheme) (huser : Lower userinfo)
    (hhost : host ≠ [] ∧ Lower host) (hquery : Lower query) (hfrag : Lower fragment)
    (hseg : ∀ s ∈ segments, Lower s) (hport : port < 2 ^ 53)
    (hk : env.schemes scheme = none) :
    (parse env (scheme ++ lit ":" ++ lit "//" ++ userinfo ++ lit "@" ++ host
      ++ lit ":" ++ numberToString port ++ segments.flatMap (fun s => 47 :: s) ++ lit "?"
      ++ query ++ lit "#" ++ fragment) {}).map
        (fun r => (r.scheme, r.userinfo, r.host, r.port, r.path, r.query, r.fragment))
      = Res.ok (some scheme, some userinfo, some host, some (Port.num port),
          some (segments.flatMap (fun s => 47 :: s)), some query, some fragment) := by
  have hpath := segments_mem hseg
  have hdig := numberToString_spec port hport
  have hstr : scheme ++ lit ":" ++ lit "//" ++ userinfo ++ lit "@" ++ host
      ++ lit ":" ++ numberToString port ++ segments.flatMap (fun s => 47 :: s) ++ lit "?"
      ++ query ++ lit "#" ++ fragment
      = scheme ++ 58 :: 47 :: 47 :: (userinfo ++ 64 :: (host ++ 58 :: (numberToString port ++
        (segments.flatMap (fun s => 47 :: s) ++ 63 :: (query ++ 35 :: fragment))))) := by
    simp [lit, utf16]
  have hm := uriParse_recomposed scheme userinfo host (numberToString port)
    (segments.flatMap (fun s => 47 :: s)) query fragment hscheme.1
    (fun c hc => (lower_fact hscheme.2 c hc).1)
    (fun c hc => (lower_fact huser c hc).2.1)
    hhost.1
    (fun c hc => (lower_fact hhost.2 c hc).2.2.1)
    (by
      cases host with
      | nil => exact absurd rfl hhost.1
      | cons a b =>
        have := (lower_fact hhost.2 a (List.mem_cons_self _ _)).2.2.2.2.2.2.2.2.2.2.2.1
        simpa using this)
    hdig.2.1
    (by
      intro c hc
      rcases hpath c hc with rfl | hl
      · rfl
      · exact (lower_facts c (by omega) hl.1).2.2.2.1)
    (by
      intro c hc
      rw [segments_head segments c hc]
      rfl)
    (fun c hc => (lower_fact hquery c hc).2.2.2.2.1)
    (fun c hc => (lower_fact hfrag c hc).2.2.2.2.2.1)
  have h37 : 37 ∉ scheme ++ 58 :: 47 :: 47 :: (userinfo ++ 64 :: (host ++ 58 ::
      (numberToString port ++ (segments.flatMap (fun s => 47 :: s)
        ++ 63 :: (query ++ 35 :: fragment))))) := by
    simp only [List.mem_append, List.mem_cons, not_or]
    refine ⟨fun h => (lower_fact hscheme.2 37 h).2.2.2.2.2.2.2.2.1 rfl, by decide, by decide,
      by decide, fun h => (lower_fact huser 37 h).2.2.2.2.2.2.2.2.1 rfl, by decide,
      fun h => (lower_fact hhost.2 37 h).2.2.2.2.2.2.2.2.1 rfl, by decide, ?_, ?_, by decide,
      fun h => (lower_fact hquery 37 h).2.2.2.2.2.2.2.2.1 rfl, by decide,
      fun h => (lower_fact hfrag 37 h).2.2.2.2.2.2.2.2.1 rfl⟩
    · intro h
      have := hdig.2.1 37 h
      simp [isDigit] at this
    · intro h
      rcases hpath 37 h with h | h
      · cases h
      · omega
  rw [hstr, parse_of_no_percent env _ h37 (by rw [hm, schemeKey_lower _ hscheme.1 hscheme.2]; exact hk),
    hm]
  simp only [Res.map, parseHost_lower host hhost.1 hhost.2,
    parsePort_numberToString port hport, Option.map_some']
  have hesc : escapeString (segments.flatMap (fun s => 47 :: s))
      = segments.flatMap (fun s => 47 :: s) := by
    apply escapeString_id
    intro d hd
    rcases hpath d hd with rfl | hl
    · exact slash_facts.2.2.1
    · exact (lower_facts d (by omega) hl.1).2.2.2.2.2.2.2.1
  rw [hesc, escapeString_id fragment (fun d hd => (lower_fact hfrag d hd).2.2.2.2.2.2.2.1)]

/-- C6 (as amended): for a record whose scheme (without handler), userinfo, host, query and
fragment are non-empty strings of lowercase letters, whose port is a natural number below
`2 ^ 53` (where every natural is a Number value and prints as its decimal expansion) and
whose path is a sequence of `/`-prefixed lowercase segments, `serialize` gives
`scheme ":" "//" userinfo "@" host ":" port path "?" query "#" fragment`, and `parse` of that
string returns the same scheme, userinfo, host, port, path, query and fragment. -/
theorem serialize_parse_roundtrip (env : Env) (c : Components)
    (scheme userinfo host query fragment : Str) (port : Nat) (segments : List Str)
    (hscheme : scheme ≠ [] ∧ Lower scheme) (huser : userinfo ≠ [] ∧ Lower userinfo)
    (hhost : host ≠ [] ∧ Lower host) (hquery : query ≠ [] ∧ Lower query)
    (hfrag : fragment ≠ [] ∧ Lower fragment) (hseg : ∀ s ∈ segments, Lower s)
    (hport : port < 2 ^ 53)
    (hc : c.scheme = some scheme ∧ c.userinfo = some userinfo ∧ c.host = some host
      ∧ c.port = some (Port.num port) ∧ c.path = some (segments.flatMap (fun s => 47 :: s))
      ∧ c.query = some query ∧ c.fragment = some fragment)
    (hk : env.schemes scheme = none) :
    serialize env c {} = Res.ok (scheme ++ lit ":" ++ lit "//" ++ userinfo ++ lit "@" ++ host
      ++ lit ":" ++ decimalString port ++ segments.flatMap (fun s => 47 :: s) ++ lit "?"
      ++ query ++ lit "#" ++ fragment)
    ∧ (parse env (scheme ++ lit ":" ++ lit "//" ++ userinfo ++ lit "@" ++ host
      ++ lit ":" ++ decimalString port ++ segments.flatMap (fun s => 47 :: s) ++ lit "?"
      ++ query ++ lit "#" ++ fragment) {}).map
        (fun r => (r.scheme, r.userinfo, r.host, r.port, r.path, r.query, r.fragment))
      = Res.ok (c.scheme, c.userinfo, c.host, c.port, c.path, c.query, c.fragment) := by
  rw [← numberToString_small port hport]
  refine ⟨serialize_plain env c scheme userinfo host query fragment port segments hscheme
    hhost.2 hseg hc hk, ?_⟩
  obtain ⟨h1, h2, h3, h4, h5, h6, h7⟩ := hc
  rw [h1, h2, h3, h4, h5, h6, h7]
  exact parse_plain env scheme userinfo host query fragment port segments hscheme huser.2 hhost
    hquery.2 hfrag.2 hseg hport hk

theorem serialize_parse_roundtrip_witness :
    serialize noHandlers
        { scheme := some (lit "foo"), userinfo := some (lit "me"), host := some (lit "example"),
          port := some (Port.num 8042), path := some (lit "/over/there"),
          query := some (lit "name"), fragment := some (lit "nose") } {}
      = Res.ok (lit "foo://me@example:8042/over/there?name#nose")
    ∧ (parse noHandlers (lit "foo://me@example:8042/over/there?name#nose") {}).map
        (fun r => (r.scheme, r.userinfo, r.host, r.port, r.path, r.query, r.fragment))
      = Res.ok (some (lit "foo"), some (lit "me"), some (lit "example"), some (Port.num 8042),
          some (lit "/over/there"), some (lit "name"), some (lit "nose")) :=
  serialize_parse_roundtrip noHandlers
    { scheme := some (lit "foo"), userinfo := some (lit "me"), host := some (lit "example"),
      port := some (Port.num 8042), path := some (lit "/over/there"),
      query := some (lit "name"), fragment := some (lit "nose") }
    (lit "foo") (lit "me") (lit "example") (lit "name") (lit "nose") 8042
    [lit "over", lit "there"]
    (by decide) (by decide) (by decide) (by decide) (by decide) (by decide) (by decide)
    (by decide) rfl

/-! ## The host normaliser and the case of letters -/

theorem lowerUnit_eq_iff (c t : Nat) (ht : t < 65 ∨ (90 < t ∧ t < 97) ∨ 122 < t) :
    lowerUnit c = t ↔ c = t := by
  unfold lowerUnit
  split <;> omega

theorem lowerUnit_zero : lowerUnit 0 = 0 := rfl

theorem hexVal_lowerUnit (c : Nat) : hexVal (lowerUnit c) = none ↔ hexVal c = none := by
  unfold hexVal lowerUnit
  split_ifs <;> first | (exfalso; omega) | simp

theorem toLowerCase_append (a b : Str) : toLowerCase (a ++ b) = toLowerCase a ++ toLowerCase b := by
  simp [toLowerCase]

theorem hexStrippedLoop_lower (s : Str) :
    ∀ (acc : Str) (strip : Bool),
      hexStrippedLoop (toLowerCase s) (toLowerCase acc) strip
        = (hexStrippedLoop s acc strip).map toLowerCase := by
  induction s with
  | nil => intro acc strip; rfl
  | cons c r ih =>
    intro acc strip
    have h48 : (lowerUnit c ≠ 48) ↔ (c ≠ 48) := not_congr (lowerUnit_eq_iff c 48 (by omega))
    show hexStrippedLoop (lowerUnit c :: toLowerCase r) (toLowerCase acc) strip = _
    simp only [hexStrippedLoop, HEX, h48]
    generalize (if c ≠ 48 ∧ strip = true then false else strip) = strip1
    by_cases hh : hexVal c = none
    · simp [hh, (hexVal_lowerUnit c).mpr hh]
    · have hh2 : ¬ hexVal (lowerUnit c) = none := fun h => hh ((hexVal_lowerUnit c).mp h)
      simp only [hh, hh2, if_false]
      have : (if strip1 = false then toLowerCase acc ++ [lowerUnit c] else toLowerCase acc)
          = toLowerCase (if strip1 = false then acc ++ [c] else acc) := by
        split <;> simp [toLowerCase]
      rw [this]
      exact ih _ _

theorem stringToHexStripped_lower (s : Str) :
    stringToHexStripped (toLowerCase s) = (stringToHexStripped s).map toLowerCase :=
  hexStrippedLoop_lower s [] true

theorem toLowerCase_length (s : Str) : (toLowerCase s).length = s.length := by
  simp [toLowerCase]

theorem v6Consume_lower (st : V6State) :
    v6Consume st.lower = ((v6Consume st).1, (v6Consume st).2.lower) := by
  unfold v6Consume
  simp only [V6State.lower, toLowerCase_length]
  by_cases hb : st.buffer.length = 0
  · simp only [hb, ne_eq, not_true_eq_false, if_false]
  · simp only [hb, ne_eq, not_false_eq_true, if_true]
    by_cases hz : st.isZone = false
    · simp only [hz, if_true, stringToHexStripped_lower]
      cases stringToHexStripped st.buffer with
      | none => rfl
      | some hex => simp [toLowerCase]
    · simp [hz, toLowerCase]

theorem getD_toLowerCase (s : Str) (i : Nat) :
    (toLowerCase s).getD i 0 = lowerUnit (s.getD i 0) := by
  simp only [toLowerCase, List.getD_eq_getElem?_getD, List.getElem?_map]
  cases s[i]? <;> rfl

theorem get?_toLowerCase_eq (s : Str) (i t : Nat) (ht : t < 65 ∨ (90 < t ∧ t < 97) ∨ 122 < t) :
    (toLowerCase s).get? i = some t ↔ s.get? i = some t := by
  simp only [toLowerCase, List.get?_eq_getElem?, List.getElem?_map]
  cases s[i]? with
  | none => simp
  | some c => simp [lowerUnit_eq_iff c t ht]

theorem v6Colon_lower (b : Bool) (st : V6State) :
    v6Colon b st.lower = (v6Colon b st).lower := by
  unfold v6Colon
  have h1 : (if st.lower.endipv6Encountered = true then
        ({ st.lower with endIpv6 := true } : V6State) else st.lower)
      = (if st.endipv6Encountered = true then ({ st with endIpv6 := true } : V6State)
          else st).lower := by
    by_cases he : st.endipv6Encountered = true
    · simp [V6State.lower, he]
    · simp [V6State.lower, he]
  simp only [h1, v6Consume_lower]
  generalize v6Consume (if st.endipv6Encountered = true then
    ({ st with endIpv6 := true } : V6State) else st) = r
  by_cases hr : r.1 = false
  · simp [hr, V6State.lower]
  · simp only [hr, if_false]
    have ht : r.2.lower.tokenCount = r.2.tokenCount := rfl
    simp only [ht]
    by_cases h7 : r.2.tokenCount + 1 > 7
    · simp [h7, V6State.lower, toLowerCase, lowerUnit]
    · simp only [h7, if_false]
      cases b <;> simp [V6State.lower, toLowerCase, lowerUnit]

theorem v6Percent_lower (st : V6State) : v6Percent st.lower = (v6Percent st).lower := by
  unfold v6Percent
  simp only [v6Consume_lower]
  by_cases hr : (v6Consume st).1 = false
  · simp [hr, V6State.lower]
  · simp [hr, V6State.lower]

theorem v6Step_lower (input : Str) (st : V6State) (i : Nat) :
    v6Step (toLowerCase input) st.lower i = (v6Step input st i).lower := by
  unfold v6Step
  have hs : st.lower.stopped = st.stopped := rfl
  have eprev : decide (i ≥ 1 ∧ (toLowerCase input).get? (i - 1) = some 58)
      = decide (i ≥ 1 ∧ input.get? (i - 1) = some 58) :=
    decide_eq_decide.mpr (and_congr_right fun _ => get?_toLowerCase_eq input (i - 1) 58 (by omega))
  rw [hs, getD_toLowerCase, eprev]
  generalize input.getD i 0 = cur
  have e91 := lowerUnit_eq_iff cur 91 (by omega)
  have e93 := lowerUnit_eq_iff cur 93 (by omega)
  have e58 := lowerUnit_eq_iff cur 58 (by omega)
  have e37 := lowerUnit_eq_iff cur 37 (by omega)
  simp only [e91, e93, e58, e37, v6Colon_lower, v6Percent_lower]
  by_cases hst : st.stopped = true
  · simp [hst]
  · simp only [hst, Bool.false_eq_true, if_false]
    split
    · rfl
    · split
      · rfl
      · split
        · rfl
        · simp [V6State.lower, toLowerCase]

theorem v6Fold_lower (input : Str) (l : List Nat) (st : V6State) :
    l.foldl (v6Step (toLowerCase input)) st.lower = (l.foldl (v6Step input) st).lower := by
  induction l generalizing st with
  | nil => rfl
  | cons i r ih =>
    simp only [List.foldl_cons]
    rw [v6Step_lower, ih]

theorem flatten_map_toLowerCase (l : List Str) :
    (l.map toLowerCase).flatten = toLowerCase l.flatten := by
  induction l with
  | nil => rfl
  | cons a r ih => simp [toLowerCase_append, ih]

/-- `getIPV6` commutes with lower-casing. -/
theorem getIPV6_lower (input : Str) :
    getIPV6 (toLowerCase input) =
      { error := (getIPV6 input).error, address := toLowerCase (getIPV6 input).address,
        zone := toLowerCase (getIPV6 input).zone } := by
  have hf : (List.range (toLowerCase input).length).foldl (v6Step (toLowerCase input)) {}
      = ((List.range input.length).foldl (v6Step input) {}).lower := by
    rw [toLowerCase_length]
    exact v6Fold_lower input _ {}
  unfold getIPV6
  rw [hf]
  generalize (List.range input.length).foldl (v6Step input) {} = st
  simp only [V6State.lower, toLowerCase_length]
  by_cases hb : st.buffer.length = 0
  · simp [hb, flatten_map_toLowerCase]
  · simp only [hb, ne_eq, not_false_eq_true, if_true]
    by_cases hz : st.isZone = true
    · simp [hz, flatten_map_toLowerCase]
    · simp only [hz, Bool.false_eq_true, if_false]
      by_cases he : st.endIpv6 = true
      · simp [he, flatten_map_toLowerCase, toLowerCase_append]
      · simp only [he, Bool.false_eq_true, if_false, stringToHexStripped_lower]
        cases stringToHexStripped st.buffer with
        | none =>
          simp only [Option.map_none', Option.getD_none, List.flatten_append, List.flatten_cons,
            List.flatten_nil, List.append_nil, flatten_map_toLowerCase]
        | some x =>
          simp only [Option.map_some', Option.getD_some, List.flatten_append, List.flatten_cons,
            List.flatten_nil, List.append_nil, flatten_map_toLowerCase, toLowerCase_append]

theorem count_toLowerCase (s : Str) (t : Nat) (ht : t < 65 ∨ (90 < t ∧ t < 97) ∨ 122 < t) :
    (toLowerCase s).count t = s.count t := by
  induction s with
  | nil => rfl
  | cons c r ih =>
    show (lowerUnit c :: toLowerCase r).count t = _
    rw [List.count_cons, List.count_cons, ih]
    have := lowerUnit_eq_iff c t ht
    by_cases h : c = t
    · subst h
      simp [this.mpr rfl]
    · have h2 : ¬ lowerUnit c = t := fun e => h (this.mp e)
      simp [h, h2]

/-- `normalizeIPv6` commutes with lower-casing, as far as the host is concerned. -/
theorem normalizeIPv6_lower (h : Str) :
    (normalizeIPv6 (toLowerCase h)).host = toLowerCase (normalizeIPv6 h).host := by
  unfold normalizeIPv6
  rw [findToken_eq_count, findToken_eq_count, count_toLowerCase h 58 (by omega), getIPV6_lower]
  by_cases hc : h.count 58 < 2
  · simp [hc]
  · simp only [hc, if_false]
    by_cases he : (getIPV6 h).error = false
    · simp only [he, if_true]
      by_cases hz : (getIPV6 h).zone = []
      · simp [hz, toLowerCase]
      · have hz2 : toLowerCase (getIPV6 h).zone ≠ [] := by
          intro e
          apply hz
          have := congrArg List.length e
          rw [toLowerCase_length] at this
          exact List.length_eq_zero.mp this
        simp only [hz, hz2, ne_eq, not_false_eq_true, if_true, toLowerCase_append]
        rfl
    · simp [he]

/-! ## The IPv4 pattern matches digits and dots only -/

/-- Digits and dots. -/
theorem digitOptDigitRests_spec (s r : Str) (h : r ∈ digitOptDigitRests s) :
    ∃ pre, s = pre ++ r ∧ ∀ c ∈ pre, isDigit c = true := by
  unfold digitOptDigitRests at h
  split at h
  · rename_i d t
    split at h
    · rename_i hd
      split at h
      · rename_i d2 t2
        split at h
        · rename_i hd2
          simp only [List.mem_cons, List.mem_singleton, List.not_mem_nil, or_false] at h
          rcases h with rfl | rfl
          · exact ⟨[d, d2], rfl, by simp [hd, hd2]⟩
          · exact ⟨[d], rfl, by simp [hd]⟩
        · simp only [List.mem_singleton] at h
          subst h
          exact ⟨[d], rfl, by simp [hd]⟩
      · simp only [List.mem_singleton] at h
        subst h
        exact ⟨[d], rfl, by simp [hd]⟩
    · simp at h
  · simp at h

theorem octetRests_spec (s r : Str) (h : r ∈ octetRests s) :
    ∃ pre, s = pre ++ r ∧ ∀ c ∈ pre, isDigit c = true := by
  unfold octetRests at h
  simp only [List.mem_append] at h
  rcases h with ((h | h) | h) | h
  · split at h
    · rename_i a b c t
      split at h
      · rename_i hc
        simp only [List.mem_singleton] at h
        subst h
        refine ⟨[a, b, c], rfl, ?_⟩
        intro x hx
        simp only [List.mem_cons, List.mem_singleton, List.not_mem_nil, or_false] at hx
        simp only [isDigit, Bool.and_eq_true, decide_eq_true_eq]
        omega
      · simp at h
    · simp at h
  · split at h
    · rename_i a b c t
      split at h
      · rename_i hc
        simp only [List.mem_singleton] at h
        subst h
        refine ⟨[a, b, c], rfl, ?_⟩
        intro x hx
        simp only [List.mem_cons, List.mem_singleton, List.not_mem_nil, or_false] at hx
        have hcd := hc.2.2.2
        simp only [isDigit, Bool.and_eq_true, decide_eq_true_eq] at hcd ⊢
        omega
      · simp at h
    · simp at h
  · split at h
    · rename_i a t
      split at h
      · rename_i ha
        obtain ⟨pre, hp, hd⟩ := digitOptDigitRests_spec t r h
        refine ⟨a :: pre, by simp [hp], ?_⟩
        intro x hx
        rcases List.mem_cons.mp hx with rfl | hx
        · simp only [isDigit, Bool.and_eq_true, decide_eq_true_eq]
          omega
        · exact hd x hx
      · simp at h
    · simp at h
  · exact digitOptDigitRests_spec s r h

theorem dotOctetRests_spec (s r : Str) (h : r ∈ dotOctetRests s) :
    ∃ pre, s = pre ++ r ∧ ∀ c ∈ pre, isDigit c = true ∨ c = 46 := by
  unfold dotOctetRests at h
  split at h
  · rename_i c t
    split at h
    · rename_i hc
      obtain ⟨pre, hp, hd⟩ := octetRests_spec t r h
      refine ⟨c :: pre, by simp [hp], ?_⟩
      intro x hx
      rcases List.mem_cons.mp hx with rfl | hx
      · exact Or.inr hc
      · exact Or.inl (hd x hx)
    · simp at h
  · simp at h

theorem ipv4Regex_chars (host : Str) (h : ipv4Regex host = true) :
    ∀ c ∈ host, isDigit c = true ∨ c = 46 := by
  unfold ipv4Regex at h
  simp only [List.any_eq_true, List.mem_flatMap, List.isEmpty_iff] at h
  obtain ⟨r4, ⟨r3, ⟨r2, ⟨r1, h1, h2⟩, h3⟩, h4⟩, rfl⟩ := h
  obtain ⟨p1, e1, d1⟩ := octetRests_spec _ _ h1
  obtain ⟨p2, e2, d2⟩ := dotOctetRests_spec _ _ h2
  obtain ⟨p3, e3, d3⟩ := dotOctetRests_spec _ _ h3
  obtain ⟨p4, e4, d4⟩ := dotOctetRests_spec _ _ h4
  intro c hc
  rw [e1, e2, e3, e4] at hc
  simp only [List.mem_append, List.append_nil] at hc
  rcases hc with hc | hc | hc | hc
  · exact Or.inl (d1 c hc)
  · exact d2 c hc
  · exact d3 c hc
  · exact d4 c hc

theorem eq_of_toLowerCase_eq (a b : Str) (h : toLowerCase b = toLowerCase a)
    (ha : ∀ c ∈ a, c < 65) : b = a := by
  induction a generalizing b with
  | nil =>
    cases b with
    | nil => rfl
    | cons _ _ => cases h
  | cons x r ih =>
    cases b with
    | nil => cases h
    | cons y t =>
      have hx := ha x (List.mem_cons_self _ _)
      simp only [toLowerCase, List.map_cons, List.cons.injEq] at h
      have hlx : lowerUnit x = x := (lowerUnit_eq_iff x x (by omega)).mpr rfl
      have hy : y = x := (lowerUnit_eq_iff y x (by omega)).mp (h.1.trans hlx)
      rw [hy, ih t h.2 (fun c hc => ha c (List.mem_cons_of_mem _ hc))]

theorem digit_or_dot_lt (c : Nat) (h : isDigit c = true ∨ c = 46) : c < 65 := by
  rcases h with h | h
  · simp only [isDigit, Bool.and_eq_true, decide_eq_true_eq] at h
    omega
  · omega

/-- The host that `parse` stores depends on the matched host only up to the case of ASCII
letters. -/
theorem parseHost_lower_eq (ma mb : Option Str)
    (h : ma.map toLowerCase = mb.map toLowerCase) : parseHost ma = parseHost mb := by
  cases ma with
  | none =>
    cases mb with
    | none => rfl
    | some b => cases h
  | some a =>
    cases mb with
    | none => cases h
    | some b =>
      simp only [Option.map_some', Option.some.injEq] at h
      have hlen : a.length = b.length := by
        have := congrArg List.length h
        simpa [toLowerCase_length] using this
      by_cases h4 : ipv4Regex a = true ∨ ipv4Regex b = true
      · have hab : a = b := by
          rcases h4 with h4 | h4
          · exact (eq_of_toLowerCase_eq a b h.symm
              (fun c hc => digit_or_dot_lt c (ipv4Regex_chars a h4 c hc))).symm
          · exact eq_of_toLowerCase_eq b a h
              (fun c hc => digit_or_dot_lt c (ipv4Regex_chars b h4 c hc))
        rw [hab]
      · have ha : ipv4Regex a = false := by
          cases hr : ipv4Regex a
          · rfl
          · exact absurd (Or.inl hr) h4
        have hb : ipv4Regex b = false := by
          cases hr : ipv4Regex b
          · rfl
          · exact absurd (Or.inr hr) h4
        have hta : truthy (some a) = truthy (some b) := by
          cases a with
          | nil =>
            cases b with
            | nil => rfl
            | cons _ _ => simp at hlen
          | cons _ _ =>
            cases b with
            | nil => simp at hlen
            | cons _ _ => rfl
        have hna : normalizeIPv4 a = { host := a, isIPV4 := false } := by
          simp [normalizeIPv4, ha]
        have hnb : normalizeIPv4 b = { host := b, isIPV4 := false } := by
          simp [normalizeIPv4, hb]
        unfold parseHost
        simp only [hta, Option.getD_some, hna, hnb, if_true]
        rw [← normalizeIPv6_lower a, ← normalizeIPv6_lower b, h]
        split
        · rfl
        · rename_i hf
          cases b with
          | nil =>
            cases a with
            | nil => rfl
            | cons _ _ => simp at hlen
          | cons _ _ => exact absurd rfl hf

/-! ## The host normaliser does not introduce a `%` -/

theorem foldl_invariant {σ : Type} (P : σ → Prop) (f : σ → Nat → σ) (l : List Nat) (s0 : σ)
    (h0 : P s0) (hstep : ∀ s i, i ∈ l → P s → P (f s i)) : P (l.foldl f s0) := by
  induction l generalizing s0 with
  | nil => exact h0
  | cons i r ih =>
    exact ih (f s0 i) (hstep s0 i (List.mem_cons_self _ _) h0)
      (fun s j hj hs => hstep s j (List.mem_cons_of_mem _ hj) hs)

theorem getD_mem_of_lt (s : Str) (i : Nat) (h : i < s.length) : s.getD i 0 ∈ s := by
  rw [List.getD_eq_getElem?_getD, List.getElem?_eq_getElem h]
  exact List.getElem_mem h

theorem hexStrippedLoop_sub (s : Str) :
    ∀ (acc : Str) (strip : Bool) (r : Str), hexStrippedLoop s acc strip = some r →
      ∀ c ∈ r, c ∈ acc ∨ c ∈ s := by
  induction s with
  | nil =>
    intro acc strip r h c hc
    simp only [hexStrippedLoop, Option.some.injEq] at h
    subst h
    exact Or.inl hc
  | cons d t ih =>
    intro acc strip r h c hc
    simp only [hexStrippedLoop] at h
    generalize (if d ≠ 48 ∧ strip = true then false else strip) = strip1 at h
    split at h
    · cases h
    · rcases ih _ _ r h c hc with h1 | h1
      · by_cases hs : strip1 = false
        · simp only [hs, if_true] at h1
          rcases List.mem_append.mp h1 with h2 | h2
          · exact Or.inl h2
          · simp only [List.mem_singleton] at h2
            subst h2
            exact Or.inr (List.mem_cons_self _ _)
        · simp only [hs, if_false] at h1
          exact Or.inl h1
      · exact Or.inr (List.mem_cons_of_mem _ h1)

theorem stringToHexStripped_sub (s r : Str) (h : stringToHexStripped s = some r) : r ⊆ s := by
  intro c hc
  rcases hexStrippedLoop_sub s [] true r h c hc with h1 | h1
  · cases h1
  · exact h1

theorem v6Consume_clean (st : V6State) (h : V6Clean st) : V6Clean (v6Consume st).2 := by
  obtain ⟨h1, h2, h3, h4⟩ := h
  unfold v6Consume
  by_cases hb : st.buffer.length = 0
  · simp only [hb, ne_eq, not_true_eq_false, if_false]
    exact ⟨h1, h2, h3, h4⟩
  · simp only [hb, ne_eq, not_false_eq_true, if_true, h1]
    split
    · rename_i hex hs
      refine ⟨rfl, h2, by simp, ?_⟩
      intro s hs2
      rcases List.mem_append.mp hs2 with hs2 | hs2
      · exact h4 s hs2
      · simp only [List.mem_singleton] at hs2
        subst hs2
        exact fun hm => h3 (stringToHexStripped_sub _ _ hs hm)
    · exact ⟨rfl, h2, h3, h4⟩

theorem v6Colon_clean (b : Bool) (st : V6State) (h : V6Clean st) : V6Clean (v6Colon b st) := by
  have h1 : V6Clean (if st.endipv6Encountered = true then
      ({ st with endIpv6 := true } : V6State) else st) := by
    split
    · exact h
    · exact h
  have h2 := v6Consume_clean _ h1
  unfold v6Colon
  simp only
  generalize v6Consume (if st.endipv6Encountered = true then
    ({ st with endIpv6 := true } : V6State) else st) = r at h2
  obtain ⟨a1, a2, a3, a4⟩ := h2
  have hadd : ∀ s ∈ r.2.address ++ [[58]], 37 ∉ s := by
    intro s hs
    rcases List.mem_append.mp hs with hs | hs
    · exact a4 s hs
    · simp only [List.mem_singleton] at hs
      subst hs
      decide
  split
  · exact ⟨a1, a2, a3, a4⟩
  · split
    · exact ⟨a1, a2, a3, hadd⟩
    · split
      · exact ⟨a1, a2, a3, hadd⟩
      · exact ⟨a1, a2, a3, hadd⟩

theorem v6Step_clean (input : Str) (h37 : 37 ∉ input) (st : V6State) (i : Nat)
    (hi : i ∈ List.range input.length) (h : V6Clean st) : V6Clean (v6Step input st i) := by
  have hlt : i < input.length := List.mem_range.mp hi
  have hcur : input.getD i 0 ≠ 37 := fun e => h37 (e ▸ getD_mem_of_lt input i hlt)
  unfold v6Step
  simp only [hcur, if_false]
  split
  · exact h
  · split
    · exact h
    · split
      · exact v6Colon_clean _ st h
      · obtain ⟨a1, a2, a3, a4⟩ := h
        refine ⟨a1, a2, ?_, a4⟩
        intro hm
        rcases List.mem_append.mp hm with hm | hm
        · exact a3 hm
        · simp only [List.mem_singleton] at hm
          exact hcur hm.symm

theorem getIPV6_no_percent (input : Str) (h37 : 37 ∉ input) :
    (getIPV6 input).zone = [] ∧ 37 ∉ (getIPV6 input).address := by
  have hinv : V6Clean ((List.range input.length).foldl (v6Step input) {}) :=
    foldl_invariant V6Clean (v6Step input) _ {} ⟨rfl, rfl, by simp, by simp⟩
      (fun s i hi hs => v6Step_clean input h37 s i hi hs)
  unfold getIPV6
  simp only
  generalize (List.range input.length).foldl (v6Step input) {} = st at hinv
  obtain ⟨a1, a2, a3, a4⟩ := hinv
  have hflat : 37 ∉ st.address.flatten := by
    intro hm
    obtain ⟨s, hs, hc⟩ := List.mem_flatten.mp hm
    exact a4 s hs hc
  by_cases hb : st.buffer.length = 0
  · simp only [hb, ne_eq, not_true_eq_false, if_false]
    exact ⟨a2, hflat⟩
  · simp only [hb, ne_eq, not_false_eq_true, if_true, a1, Bool.false_eq_true, if_false]
    split
    · refine ⟨a2, ?_⟩
      simp only [List.flatten_append, List.flatten_cons, List.flatten_nil, List.append_nil,
        List.mem_append, not_or]
      exact ⟨hflat, a3⟩
    · refine ⟨a2, ?_⟩
      simp only [List.flatten_append, List.flatten_cons, List.flatten_nil, List.append_nil,
        List.mem_append, not_or]
      refine ⟨hflat, ?_⟩
      cases hs : stringToHexStripped st.buffer with
      | none => simp
      | some x => exact fun hm => a3 (stringToHexStripped_sub _ _ hs hm)

theorem normalizeIPv6_no_percent (h : Str) (h37 : 37 ∉ h) : 37 ∉ (normalizeIPv6 h).host := by
  obtain ⟨hz, ha⟩ := getIPV6_no_percent h h37
  unfold normalizeIPv6
  simp only [hz, ne_eq, not_true_eq_false, if_false]
  by_cases hc : findToken h 58 < 2
  · simp only [hc, if_true]
    exact h37
  · simp only [hc, if_false]
    by_cases he : (getIPV6 h).error = false
    · simp only [he, if_true]
      exact ha
    · simp only [he, if_false]
      exact h37

theorem stripLeadingZeros_sub (str : Str) (token : Nat) : stripLeadingZeros str token ⊆ str := by
  unfold stripLeadingZeros
  refine foldl_invariant (fun st : Str × Bool => st.1 ⊆ str) (stripZerosStep str token) _ ([], true)
    (by simp) ?_
  intro st i hi hst
  have hlt : i < str.length := List.mem_range.mp hi
  have hmem := getD_mem_of_lt str i hlt
  unfold stripZerosStep
  simp only
  split
  · split
    · intro c hc
      rcases List.mem_append.mp hc with hc | hc
      · exact hst hc
      · simp only [List.mem_singleton] at hc
        exact hc ▸ hmem
    · exact hst
  · intro c hc
    rcases List.mem_append.mp hc with hc | hc
    · exact hst hc
    · simp only [List.mem_singleton] at hc
      exact hc ▸ hmem

theorem toLowerCase_no_percent (s : Str) (h : 37 ∉ s) : 37 ∉ toLowerCase s := by
  intro hm
  simp only [toLowerCase, List.mem_map] at hm
  obtain ⟨c, hc, he⟩ := hm
  exact h (((lowerUnit_eq_iff c 37 (by omega)).mp he) ▸ hc)

theorem parseHost_no_percent (m4 : Option Str) (h : ∀ s, m4 = some s → 37 ∉ s) :
    ∀ s, parseHost m4 = some s → 37 ∉ s := by
  intro s hs
  unfold parseHost at hs
  split at hs
  · cases m4 with
    | none => simp [truthy] at *
    | some a =>
      have ha := h a rfl
      simp only [Option.getD_some] at hs
      split at hs
      · rename_i hv4
        injection hs with hs
        subst hs
        apply toLowerCase_no_percent
        apply normalizeIPv6_no_percent
        unfold normalizeIPv4 at hv4 ⊢
        split
        · exact ha
        · split
          · rename_i h1 h2
            simp [h1, h2] at hv4
          · exact ha
      · injection hs with hs
        subst hs
        unfold normalizeIPv4
        split
        · exact ha
        · split
          · exact fun hm => ha (stripLeadingZeros_sub _ _ hm)
          · exact ha
  · exact h s hs

/-! ## `equal` on strings without `%` -/

theorem Res.map_eq_bind {α β : Type} (f : α → β) (r : Res α) :
    r.map f = r.bind (fun a => Res.ok (f a)) := by
  cases r <;> rfl

/-- With `skipEscape` and without a handler, `serialize` writes the scheme in front of what it
writes for the record without scheme. -/
theorem serialize_skip_scheme (env : Env) (c : Components)
    (hk : env.schemes (schemeKey none c.scheme) = none) :
    serialize env c { skipEscape := true }
      = (serialize noHandlers (schemeless c) { skipEscape := true }).map
          (fun X => schemePart c.scheme ++ X) := by
  rw [serialize_noHandler env c _ hk]
  unfold serialize
  simp only [noHandlers, serializeHook, serializePath, schemeless, Res.bind_eq, Res.pure_eq,
    recomposeAuthority, Bool.true_eq_false, if_false]
  cases hp : c.path with
  | none =>
    simp only [Res.ok_bind]
    cases authorityOf c.userinfo c.host c.port with
    | throw e => rfl
    | diverge => rfl
    | ok A =>
      simp only [Res.ok_bind, serializeTail, Res.pure_eq, Res.map, serializeHead, schemePart,
        serializeQueryFragment, truthy, List.append_assoc]
      cases A <;> simp
  | some p =>
    dsimp only
    cases safeDecodeURI p with
    | throw e => rfl
    | diverge => rfl
    | ok p1 =>
      simp only [Res.map, Res.ok_bind]
      cases authorityOf c.userinfo c.host c.port with
      | throw e => rfl
      | diverge => rfl
      | ok A =>
        simp only [Res.ok_bind, serializeTail, Res.bind_eq, Res.pure_eq, and_self, if_true]
        cases removeDotSegments p1 with
        | throw e => rfl
        | diverge => rfl
        | ok t =>
          simp only [Res.ok_bind, Res.map, serializeHead, schemePart, serializeQueryFragment,
            truthy, List.append_assoc]
          cases A <;> simp

theorem authorityOf_ok (userinfo host : Option Str) (port : Option Port)
    (h : ∀ s, host = some s → 37 ∉ s) : ∃ A, authorityOf userinfo host port = Res.ok A := by
  unfold authorityOf
  cases host with
  | none => exact ⟨_, rfl⟩
  | some s =>
    simp only [Res.bind_eq, safeDecodeURI_of_no_percent s (h s rfl), Res.ok_bind]
    split
    · exact ⟨_, rfl⟩
    · split
      · exact ⟨_, rfl⟩
      · exact ⟨_, rfl⟩

theorem dotOrLF_flatMap_escapeUnit (x : Str) (h : ∀ c ∈ x, dotOrLF c = true) :
    ∀ c ∈ x.flatMap escapeUnit, dotOrLF c = true := by
  intro c hc
  obtain ⟨d, hd, hcd⟩ := List.mem_flatMap.mp hc
  rcases escapeUnit_cases d with ⟨he, _⟩ | ⟨hh, l, he, _, _, _, _, _, _, _, _, h8, h9⟩
  · rw [he] at hcd
    simp only [List.mem_singleton] at hcd
    exact hcd ▸ h d hd
  · rw [he] at hcd
    simp only [List.mem_cons, List.mem_singleton, List.not_mem_nil, or_false] at hcd
    rcases hcd with rfl | rfl | rfl
    · rfl
    · exact h8
    · exact h9

theorem decodedEscape_class (x : Str) (h : ∀ c ∈ x, dotOrLF c = true) :
    ∀ c ∈ decodedEscape x, dotOrLF c = true := by
  unfold decodedEscape
  split
  · exact h
  · rw [escapeString_eq_flatMap]
    exact dotOrLF_flatMap_escapeUnit x h

theorem safeDecodeURI_decodedEscape (x : Str) (h : 37 ∉ x) :
    safeDecodeURI (decodedEscape x) = Res.ok (decodedEscape x) := by
  unfold decodedEscape
  by_cases ht : decodeTriggered (escapeString x) = true
  · simp only [ht, if_true]
    exact safeDecodeURI_of_no_percent x h
  · simp only [ht, Bool.false_eq_true, if_false]
    rw [safeDecodeURI_escapeString x h]
    simp [ht]

/-- The record that `equal` serialises is serialised without error. -/
theorem serialize_equalBody_ok (a : Str) (h37 : 37 ∉ a) (hcls : ∀ c ∈ a, dotOrLF c = true) :
    ∃ X, serialize noHandlers (equalBody (uriParse a)) { skipEscape := true } = Res.ok X := by
  have hsub := uriParse_sub a
  have hm6 : 37 ∉ (uriParse a).m6 := fun hm => h37 (hsub.2.2.2.2.1 hm)
  have hhost : ∀ s, parseHost (uriParse a).m4 = some s → 37 ∉ s :=
    parseHost_no_percent _ (fun s hs hm => h37 (hsub.2.2.1 s hs hm))
  obtain ⟨A, hA⟩ := authorityOf_ok (uriParse a).m3 (parseHost (uriParse a).m4)
    (parsePort (uriParse a).m5) hhost
  have hclass := decodedEscape_class _ (fun c hc => hcls c (hsub.2.2.2.2.1 hc))
  unfold serialize
  simp only [noHandlers, serializeHook, serializePath, equalBody, Res.bind_eq, Res.pure_eq,
    recomposeAuthority, Bool.true_eq_false, if_false, safeDecodeURI_decodedEscape _ hm6, Res.map,
    Res.ok_bind, hA, serializeTail, and_self, if_true,
    rdsLoop_eq_rfcLoop _ [] _ (Nat.lt_succ_self _) hclass, removeDotSegments]
  exact ⟨_, rfl⟩

theorem normalizeComponentEncoding_parsed (r : Components) (x : Str)
    (frag : Option Str) (hx : 37 ∉ x) (hfrag : ∀ f, frag = some f → 37 ∉ f)
    (hs : ∀ s, r.scheme = some s → 37 ∉ s) (hu : ∀ s, r.userinfo = some s → 37 ∉ s)
    (hh : ∀ s, r.host = some s → 37 ∉ s) (hq : ∀ s, r.query = some s → 37 ∉ s)
    (hp : r.path = some (escapeString x)) (hf : r.fragment = frag.map escapeString) :
    normalizeComponentEncoding r true
      = Res.ok { r with path := some (decodedEscape x), fragment := frag.map decodedEscape } := by
  unfold normalizeComponentEncoding
  simp only [if_true, Res.bind_eq, decodeIf_of_no_percent true r.scheme hs,
    decodeIf_of_no_percent true r.userinfo hu, decodeIf_of_no_percent true r.host hh,
    decodeIf_of_no_percent true r.query hq, Res.ok_bind, hp, hf]
  have h1 : decodeIf true (some (escapeString x)) = Res.ok (some (decodedEscape x)) := by
    simp only [decodeIf, if_true, safeDecodeURI_escapeString x hx]
    rfl
  have h2 : decodeIf true (frag.map escapeString) = Res.ok (frag.map decodedEscape) := by
    cases frag with
    | none => rfl
    | some f =>
      simp only [Option.map_some', decodeIf, if_true, safeDecodeURI_escapeString f (hfrag f rfl)]
      rfl
  simp only [h1, h2, Res.ok_bind, Res.pure_eq]

/-- The comparison form of a string without `%` whose scheme has no handler. -/
theorem equalForm_of_no_percent (env : Env) (a : Str) (h37 : 37 ∉ a)
    (hk : env.schemes (schemeKey none (uriParse a).m1) = none) :
    equalForm env (UriInput.str a) {}
      = (serialize noHandlers (equalBody (uriParse a)) { skipEscape := true }).map
          (fun X => schemePart (uriParse a).m1 ++ X) := by
  have hsub := uriParse_sub a
  unfold equalForm
  simp only [Res.bind_eq, safeDecodeURI_of_no_percent a h37, Res.ok_bind,
    parse_of_no_percent env a h37 hk]
  rw [normalizeComponentEncoding_parsed _ (uriParse a).m6 (uriParse a).m8
    (fun hm => h37 (hsub.2.2.2.2.1 hm))
    (fun f hf hm => h37 (hsub.2.2.2.2.2.2 f hf hm))
    (fun s hs hm => h37 (hsub.1 s hs hm))
    (fun s hs hm => h37 (hsub.2.1 s hs hm))
    (parseHost_no_percent _ (fun s hs hm => h37 (hsub.2.2.1 s hs hm)))
    (fun s hs hm => h37 (hsub.2.2.2.2.2.1 s hs hm))
    rfl rfl]
  simp only [Res.ok_bind]
  exact serialize_skip_scheme env _ hk

theorem schemeKey_none (s : Option Str) : schemeKey none s = (s.map toLowerCase).getD [] := by
  cases s with
  | none => rfl
  | some x =>
    cases x with
    | nil => rfl
    | cons c r => rfl

theorem toLowerCase_schemePart (s : Option Str) :
    toLowerCase (schemePart s) = schemePart (s.map toLowerCase) := by
  cases s with
  | none => rfl
  | some x =>
    cases x with
    | nil => rfl
    | cons c r =>
      simp [schemePart, truthy, toLowerCase, lowerUnit]

/-- C9: two printable strings without `%` whose matches by `URI_PARSE` agree in userinfo,
port, path, query and fragment and, up to the case of ASCII letters, in scheme (group 1) and
host (group 4) are equal for `equal`, when the scheme has no handler. -/
theorem equal_case_insensitive (env : Env) (a b : Str)
    (ha : Printable a) (_hb : Printable b) (hpa : 37 ∉ a) (hpb : 37 ∉ b)
    (hscheme : (uriParse a).m1.map toLowerCase = (uriParse b).m1.map toLowerCase)
    (hhost : (uriParse a).m4.map toLowerCase = (uriParse b).m4.map toLowerCase)
    (hrest : (uriParse a).m3 = (uriParse b).m3 ∧ (uriParse a).m5 = (uriParse b).m5
      ∧ (uriParse a).m6 = (uriParse b).m6 ∧ (uriParse a).m7 = (uriParse b).m7
      ∧ (uriParse a).m8 = (uriParse b).m8)
    (hk : env.schemes (schemeKey none (uriParse a).m1) = none) :
    equal env (UriInput.str a) (UriInput.str b) {} = Res.ok true := by
  have hkb : env.schemes (schemeKey none (uriParse b).m1) = none := by
    rw [schemeKey_none, ← hscheme, ← schemeKey_none]
    exact hk
  have hbody : equalBody (uriParse b) = equalBody (uriParse a) := by
    unfold equalBody
    rw [parseHost_lower_eq _ _ hhost, hrest.1, hrest.2.1, hrest.2.2.1, hrest.2.2.2.1,
      hrest.2.2.2.2]
  have hcls : ∀ c ∈ a, dotOrLF c = true := by
    intro c hc
    have := ha c hc
    simp only [dotOrLF, Bool.and_eq_true, decide_eq_true_eq]
    omega
  obtain ⟨X, hX⟩ := serialize_equalBody_ok a hpa hcls
  unfold equal
  simp only [Res.bind_eq, equalForm_of_no_percent env a hpa hk,
    equalForm_of_no_percent env b hpb hkb, hbody, hX, Res.map, Res.ok_bind, Res.pure_eq,
    toLowerCase_append, toLowerCase_schemePart, hscheme]
  simp

theorem equal_case_insensitive_witness :
    Printable (lit "http://a") ∧ Printable (lit "http://A")
    ∧ equal noHandlers (UriInput.str (lit "http://a")) (UriInput.str (lit "http://A")) {}
        = Res.ok true :=
  ⟨by decide, by decide,
    equal_case_insensitive noHandlers (lit "http://a") (lit "http://A") (by decide) (by decide)
      (by decide) (by decide) (by decide) (by decide) (by decide) rfl⟩

/-! ## An escaped tilde -/

theorem pathChar_facts : ∀ c, c < 127 → isPathChar c = true →
    c ≠ 37 ∧ c ≠ 63 ∧ c ≠ 35 ∧ 32 ≤ c := by
  intro c h1 h2
  interval_cases c <;> first | (exact absurd h2 (by decide)) | decide

theorem pathChar_lt (c : Nat) (h : isPathChar c = true) : c < 127 := by
  by_contra hc
  simp only [isPathChar, Bool.or_eq_true, Bool.and_eq_true, decide_eq_true_eq,
    List.contains_eq_any_beq, List.any_cons, beq_iff_eq, List.any_nil, Bool.or_false] at h
  omega

theorem pathChar_fact (c : Nat) (h : isPathChar c = true) :
    c ≠ 37 ∧ c ≠ 63 ∧ c ≠ 35 ∧ 32 ≤ c ∧ c ≤ 126 := by
  have hl := pathChar_lt c h
  obtain ⟨h1, h2, h3, h4⟩ := pathChar_facts c hl h
  exact ⟨h1, h2, h3, h4, by omega⟩

theorem noProtected_tilde (x y : Str) (hx : 37 ∉ x) (hy : 37 ∉ y) :
    noProtected (x ++ 37 :: 55 :: 69 :: y) = true := by
  induction x with
  | nil =>
    have := noProtected_of_no_percent y hy
    simp [noProtected, this, decodeComponentChar]
  | cons c r ih =>
    have hc : c ≠ 37 := fun hc => hx (hc ▸ List.mem_cons_self _ _)
    simp [noProtected, hc, ih (fun hm => hx (List.mem_cons_of_mem _ hm))]

theorem scanMeetsPercent_append (x rest : Str) (hx : ∀ c ∈ x, c ≠ 63 ∧ c ≠ 59 ∧ c ≠ 35) :
    scanMeetsPercent (x ++ 37 :: rest) = true := by
  induction x with
  | nil => simp [scanMeetsPercent]
  | cons c r ih =>
    have hc := hx c (List.mem_cons_self _ _)
    show scanMeetsPercent (c :: (r ++ 37 :: rest)) = true
    rw [scanMeetsPercent]
    simp only [hc.1, hc.2.1, hc.2.2, or_self, if_false]
    split
    · rfl
    · exact ih (fun d hd => hx d (List.mem_cons_of_mem _ hd))

theorem decodeLoop_tilde (x y : Str) (hx : 37 ∉ x) (hy : 37 ∉ y) :
    ∀ fuel, (x ++ 37 :: 55 :: 69 :: y).length ≤ fuel →
      decodeLoop fuel (x ++ 37 :: 55 :: 69 :: y) = Res.ok (x ++ 126 :: y) := by
  induction x with
  | nil =>
    intro fuel hf
    obtain ⟨n, rfl⟩ : ∃ n, fuel = n + 1 := ⟨fuel - 1, by simp at hf; omega⟩
    show decodeLoop (n + 1) (37 :: 55 :: 69 :: y) = _
    rw [decodeLoop, decodeStep_escape_ascii 55 69 126 y (by decide) (by decide) (by decide)]
    simp only
    rw [decodeLoop_of_no_percent y hy n (by simp at hf; omega)]
    rfl
  | cons c r ih =>
    intro fuel hf
    have hc : c ≠ 37 := fun hc => hx (hc ▸ List.mem_cons_self _ _)
    obtain ⟨n, rfl⟩ : ∃ n, fuel = n + 1 := ⟨fuel - 1, by simp at hf; omega⟩
    show decodeLoop (n + 1) (c :: (r ++ 37 :: 55 :: 69 :: y)) = _
    rw [decodeLoop, decodeStep_cons_ne _ _ hc]
    simp only
    rw [ih (fun hm => hx (List.mem_cons_of_mem _ hm)) n (by simp at hf ⊢; omega)]
    rfl

/-- `safeDecodeURI` replaces the escape `%7E` by `~` when no `?`, `;`, `#` or `%` stands
between index 1 and the escape. -/
theorem safeDecodeURI_tilde (c0 : Nat) (x y : Str) (h0 : c0 ≠ 37)
    (hx : ∀ c ∈ x, c ≠ 37 ∧ c ≠ 63 ∧ c ≠ 59 ∧ c ≠ 35) (hy : 37 ∉ y) :
    safeDecodeURI (c0 :: (x ++ 37 :: 55 :: 69 :: y)) = Res.ok (c0 :: (x ++ 126 :: y)) := by
  have h37 : 37 ∉ c0 :: x := by
    intro hm
    rcases List.mem_cons.mp hm with h | h
    · exact h0 h.symm
    · exact (hx 37 h).1 rfl
  have hnp : noProtected (c0 :: (x ++ 37 :: 55 :: 69 :: y)) = true :=
    noProtected_tilde (c0 :: x) y h37 hy
  have hs : scanMeetsPercent ((c0 :: (x ++ 37 :: 55 :: 69 :: y)).drop 1) = true := by
    simp only [List.drop_succ_cons, List.drop_zero]
    exact scanMeetsPercent_append x _ (fun c hc => (hx c hc).2)
  have hl := safeDecodeLoop_noProtected _ hnp (c0 :: (x ++ 37 :: 55 :: 69 :: y)).length 1 false
    (by omega)
  simp only [safeDecodeURI, hl, hs, Bool.or_true, if_true, decodeURI]
  exact decodeLoop_tilde (c0 :: x) y h37 hy _ (Nat.le_refl _)

/-- C8 (as amended): for strings `p` and `q` of path characters (pchar other than escapes,
and `/`), `p` without `;`, and with no handler for `http`,
`equal("http://example.com/" + p + "%7E" + q, "http://example.com/" + p + "~" + q)` holds. -/
theorem equal_escaped_tilde (env : Env) (p q : Str)
    (hp : ∀ c ∈ p, isPathChar c = true ∧ c ≠ 59) (hq : ∀ c ∈ q, isPathChar c = true)
    (hk : env.schemes (lit "http") = none) :
    equal env (UriInput.str (lit "http://example.com/" ++ p ++ lit "%7E" ++ q))
      (UriInput.str (lit "http://example.com/" ++ p ++ lit "~" ++ q)) {} = Res.ok true := by
  have hlit : lit "http://example.com/" = 104 :: lit "ttp://example.com/" := by decide
  have hA : lit "http://example.com/" ++ p ++ lit "%7E" ++ q
      = 104 :: ((lit "ttp://example.com/" ++ p) ++ 37 :: 55 :: 69 :: q) := by
    rw [hlit]
    simp [lit, utf16]
  have hB : lit "http://example.com/" ++ p ++ lit "~" ++ q
      = 104 :: ((lit "ttp://example.com/" ++ p) ++ 126 :: q) := by
    rw [hlit]
    simp [lit, utf16]
  have hpre : ∀ c ∈ lit "ttp://example.com/", c ≠ 37 ∧ c ≠ 63 ∧ c ≠ 59 ∧ c ≠ 35
      ∧ 32 ≤ c ∧ c ≤ 126 := by decide
  have hx : ∀ c ∈ lit "ttp://example.com/" ++ p, c ≠ 37 ∧ c ≠ 63 ∧ c ≠ 59 ∧ c ≠ 35 := by
    intro c hc
    rcases List.mem_append.mp hc with hc | hc
    · exact ⟨(hpre c hc).1, (hpre c hc).2.1, (hpre c hc).2.2.1, (hpre c hc).2.2.2.1⟩
    · have := pathChar_fact c (hp c hc).1
      exact ⟨this.1, this.2.1, (hp c hc).2, this.2.2.1⟩
  have hq37 : 37 ∉ q := fun hm => (pathChar_fact 37 (hq 37 hm)).1 rfl
  have hdecA := safeDecodeURI_tilde 104 _ q (by decide) hx hq37
  have hB37 : 37 ∉ 104 :: ((lit "ttp://example.com/" ++ p) ++ 126 :: q) := by
    simp only [List.mem_cons, List.mem_append, not_or]
    exact ⟨by decide, ⟨fun h => (hx 37 (List.mem_append.mpr (Or.inl h))).1 rfl,
      fun h => (hx 37 (List.mem_append.mpr (Or.inr h))).1 rfl⟩, by decide, hq37⟩
  have hBcls : ∀ c ∈ 104 :: ((lit "ttp://example.com/" ++ p) ++ 126 :: q),
      dotOrLF c = true := by
    intro c hc
    have hr : 32 ≤ c ∧ c ≤ 126 := by
      simp only [List.mem_cons, List.mem_append] at hc
      rcases hc with rfl | (hc | hc) | rfl | hc
      · omega
      · exact (hpre c hc).2.2.2.2
      · exact (pathChar_fact c (hp c hc).1).2.2.2
      · omega
      · exact (pathChar_fact c (hq c hc)).2.2.2
    simp only [dotOrLF, Bool.and_eq_true, decide_eq_true_eq]
    omega
  have hm1 : (uriParse (104 :: ((lit "ttp://example.com/" ++ p) ++ 126 :: q))).m1
      = some (lit "http") := by
    have : 104 :: ((lit "ttp://example.com/" ++ p) ++ 126 :: q)
        = lit "http" ++ 58 :: (lit "//example.com/" ++ p ++ 126 :: q) := by
      simp [lit, utf16]
    rw [this]
    unfold uriParse
    simp only [matchScheme_cons (lit "http") _ (by decide) (by decide)]
  have hkB : env.schemes (schemeKey none
      (uriParse (104 :: ((lit "ttp://example.com/" ++ p) ++ 126 :: q))).m1) = none := by
    rw [hm1]
    exact hk
  obtain ⟨X, hX⟩ := serialize_equalBody_ok _ hB37 hBcls
  have hformB := equalForm_of_no_percent env _ hB37 hkB
  have hformA : equalForm env (UriInput.str (104 :: ((lit "ttp://example.com/" ++ p)
      ++ 37 :: 55 :: 69 :: q))) {}
      = equalForm env (UriInput.str (104 :: ((lit "ttp://example.com/" ++ p)
          ++ 126 :: q))) {} := by
    simp only [equalForm, Res.bind_eq, hdecA, safeDecodeURI_of_no_percent _ hB37]
  rw [hA, hB]
  unfold equal
  simp only [Res.bind_eq, hformA, hformB, hX, Res.map, Res.ok_bind, Res.pure_eq, decide_True]

theorem equal_escaped_tilde_witness :
    noHandlers.schemes (lit "http") = none
    ∧ equal noHandlers (UriInput.str (lit "http://example.com/" ++ [] ++ lit "%7E" ++ lit "joe"))
        (UriInput.str (lit "http://example.com/" ++ [] ++ lit "~" ++ lit "joe")) {} = Res.ok true
    ∧ lit "http://example.com/" ++ [] ++ lit "%7E" ++ lit "joe" = lit "http://example.com/%7Ejoe"
    ∧ lit "http://example.com/" ++ [] ++ lit "~" ++ lit "joe" = lit "http://example.com/~joe" :=
  ⟨rfl, equal_escaped_tilde noHandlers [] (lit "joe") (by decide) (by decide) rfl,
    by decide, by decide⟩

/-- C8 (counterexample): `;` is a path character, and
`equal("http://example.com/;%7E", "http://example.com/;~")` is `false`: the scan of
`safeDecodeURI` stops at the `;` and the escape stays. -/
theorem equal_escaped_tilde_semicolon :
    (∀ c ∈ lit ";", isPathChar c = true)
    ∧ equal noHandlers (UriInput.str (lit "http://example.com/" ++ lit ";" ++ lit "%7E" ++ []))
        (UriInput.str (lit "http://example.com/" ++ lit ";" ++ lit "~" ++ [])) {}
      = Res.ok false := by
  refine ⟨by decide, by decide!⟩

/-! ## Clamping of excess `..` segments on segments inside the class of `RDS5` -/

theorem rfcLoop_dotdot (n : Nat) (x : Str) (out : List Str) :
    rfcLoop ((List.replicate n [46, 46, 47]).flatten ++ x) out = rfcLoop x out := by
  induction n with
  | zero => simp
  | succ n ih =>
    rw [List.replicate_succ, List.flatten_cons, List.append_assoc, rfcLoop]
    simpa [List.isPrefixOf] using ih

theorem rfcLoop_segment (s : Str) (out : List Str) (hne : s ≠ []) (h47 : 47 ∉ s)
    (h1 : s ≠ [46]) (h2 : s ≠ [46, 46]) : rfcLoop s out = out.flatten ++ s := by
  have hp : ∀ p : Str, 47 ∈ p → p.isPrefixOf s = false := by
    intro p hp
    cases h : p.isPrefixOf s with
    | false => rfl
    | true => exact absurd (isPrefixOf_mem h hp) h47
  have he : ∀ p : Str, 47 ∈ p → s ≠ p := fun p hp h => h47 (h ▸ hp)
  rw [rfcLoop]
  simp only [hne, hp [46, 46, 47] (by decide), hp [46, 47] (by decide),
    hp [47, 46, 47] (by decide), hp [47, 46, 46, 47] (by decide), he [47, 46] (by decide),
    he [47, 46, 46] (by decide), h1, h2, or_self, if_false, Bool.false_eq_true]
  cases s with
  | nil => exact absurd rfl hne
  | cons c r =>
    have hr : r.takeWhile (fun c => decide (c ≠ 47)) = r :=
      takeWhile_all (fun d hd => by
        have : d ≠ 47 := fun h => h47 (h ▸ List.mem_cons_of_mem _ hd)
        simpa using this)
    have hd : (c :: r).drop ([c] ++ r).length = [] := by simp
    simp only [List.take, List.drop, hr, hd]
    rw [rfcLoop]
    simp

theorem rfcLoop_push (a rest : Str) (out : List Str) (hne : a ≠ []) (h47 : 47 ∉ a)
    (h1 : a ≠ [46]) (h2 : a ≠ [46, 46]) (hrest : rest = [] ∨ ∃ t, rest = 47 :: t) :
    rfcLoop (47 :: (a ++ rest)) out = rfcLoop rest (out ++ [47 :: a]) := by
  have c1 : [46, 46, 47].isPrefixOf (47 :: (a ++ rest)) = false := by simp [List.isPrefixOf]
  have c2 : [46, 47].isPrefixOf (47 :: (a ++ rest)) = false := by simp [List.isPrefixOf]
  have c3 : [47, 46, 47].isPrefixOf (47 :: (a ++ rest)) = false := by
    rcases a with _ | ⟨c, _ | ⟨d, r⟩⟩ <;> rcases hrest with rfl | ⟨t, rfl⟩ <;>
      simp_all [List.isPrefixOf]
    all_goals omega
  have c4 : 47 :: (a ++ rest) ≠ [47, 46] := by
    rcases a with _ | ⟨c, _ | ⟨d, r⟩⟩ <;> rcases hrest with rfl | ⟨t, rfl⟩ <;> simp_all
  have c5 : [47, 46, 46, 47].isPrefixOf (47 :: (a ++ rest)) = false := by
    rcases a with _ | ⟨c, _ | ⟨d, _ | ⟨e, r⟩⟩⟩ <;> rcases hrest with rfl | ⟨t, rfl⟩ <;>
      simp_all [List.isPrefixOf]
    all_goals omega
  have c6 : 47 :: (a ++ rest) ≠ [47, 46, 46] := by
    rcases a with _ | ⟨c, _ | ⟨d, _ | ⟨e, r⟩⟩⟩ <;> rcases hrest with rfl | ⟨t, rfl⟩ <;> simp_all
  have c7 : ¬ (47 :: (a ++ rest) = [46] ∨ 47 :: (a ++ rest) = [46, 46]) := by simp
  have htw : (a ++ rest).takeWhile (fun c => decide (c ≠ 47)) = a := by
    have ha : ∀ c ∈ a, decide (c ≠ 47) = true := fun d hd => by
      have : d ≠ 47 := fun h => h47 (h ▸ hd)
      simpa using this
    rcases hrest with rfl | ⟨t, rfl⟩
    · rw [List.append_nil]; exact takeWhile_all ha
    · exact takeWhile_append_cons 47 t ha (by simp)
  rw [rfcLoop]
  simp only [c1, c2, c3, c4, c5, c6, c7, if_false, Bool.false_eq_true, reduceCtorEq]
  have hd : (47 :: (a ++ rest)).drop ([47] ++ a).length = rest := by simp
  simp only [List.take_succ_cons, List.take_zero, List.drop_succ_cons, List.drop_zero, htw]
  rw [hd]
  rfl

theorem rfcLoop_pop (t : Str) (out : List Str) :
    rfcLoop (47 :: 46 :: 46 :: 47 :: t) out = rfcLoop (47 :: t) out.dropLast := by
  rw [rfcLoop]
  simp [List.isPrefixOf]

theorem dotdots_head (n : Nat) (t : Str) :
    ∃ u, (List.replicate n [47, 46, 46]).flatten ++ 47 :: t = 47 :: u := by
  cases n with
  | zero => exact ⟨t, rfl⟩
  | succ n => exact ⟨_, rfl⟩

theorem rfcLoop_pops (n : Nat) (t : Str) :
    ∀ out : List Str, out.length ≤ n →
      rfcLoop ((List.replicate n [47, 46, 46]).flatten ++ 47 :: t) out = rfcLoop (47 :: t) [] := by
  induction n with
  | zero =>
    intro out h
    have : out = [] := List.length_eq_zero.mp (Nat.le_zero.mp h)
    subst this
    rfl
  | succ n ih =>
    intro out h
    obtain ⟨u, hu⟩ := dotdots_head n t
    have hin : (List.replicate (n + 1) [47, 46, 46]).flatten ++ 47 :: t
        = 47 :: 46 :: 46 :: 47 :: u := by
      rw [List.replicate_succ, List.flatten_cons, List.append_assoc, hu]
      rfl
    rw [hin, rfcLoop_pop, ← hu]
    exact ih _ (by rw [List.length_dropLast]; omega)

theorem segments_head_slash (segs : List Str) (rest : Str)
    (hrest : rest = [] ∨ ∃ t, rest = 47 :: t) :
    (segs.map (47 :: ·)).flatten ++ rest = [] ∨
      ∃ t, (segs.map (47 :: ·)).flatten ++ rest = 47 :: t := by
  cases segs with
  | nil => simpa using hrest
  | cons a r => exact Or.inr ⟨_, rfl⟩

theorem rfcLoop_pushes (segs : List Str) (rest : Str)
    (hrest : rest = [] ∨ ∃ t, rest = 47 :: t) :
    (∀ a ∈ segs, a ≠ [] ∧ 47 ∉ a ∧ a ≠ [46] ∧ a ≠ [46, 46]) →
    ∀ out : List Str,
      rfcLoop ((segs.map (47 :: ·)).flatten ++ rest) out
        = rfcLoop rest (out ++ segs.map (47 :: ·)) := by
  induction segs with
  | nil => intro _ out; simp
  | cons a r ih =>
    intro h out
    obtain ⟨ha1, ha2, ha3, ha4⟩ := h a (List.mem_cons_self _ _)
    have hin : ((a :: r).map (47 :: ·)).flatten ++ rest
        = 47 :: (a ++ ((r.map (47 :: ·)).flatten ++ rest)) := by simp
    rw [hin, rfcLoop_push a _ out ha1 ha2 ha3 ha4 (segments_head_slash r rest hrest),
      ih (fun b hb => h b (List.mem_cons_of_mem _ hb))]
    simp

/-- On segments inside the class of `RDS5` the excess `..` segments are clamped: for `m ≤ n`
ordinary segments `a1..am` and an ordinary segment `s`, `"../"` repeated `n` times before `s`
gives `s`, and `/a1../am` followed by `n` times `/..` and by `/s` gives `/s`. -/
theorem removeDotSegments_clamp (n : Nat) (segs : List Str) (s : Str) (hm : segs.length ≤ n)
    (hs : s ≠ [] ∧ 47 ∉ s ∧ s ≠ [46] ∧ s ≠ [46, 46]) (hsc : ∀ c ∈ s, dotOrLF c = true)
    (hsegs : ∀ a ∈ segs, a ≠ [] ∧ 47 ∉ a ∧ a ≠ [46] ∧ a ≠ [46, 46])
    (hsegsc : ∀ a ∈ segs, ∀ c ∈ a, dotOrLF c = true) :
    removeDotSegments ((List.replicate n [46, 46, 47]).flatten ++ s) = Res.ok s
    ∧ removeDotSegments
        ((segs.map (47 :: ·)).flatten ++ ((List.replicate n [47, 46, 46]).flatten ++ 47 :: s))
      = Res.ok (47 :: s) := by
  obtain ⟨hs1, hs2, hs3, hs4⟩ := hs
  have hrep : ∀ (k : Nat) (w : Str), (∀ c ∈ w, dotOrLF c = true) →
      ∀ c ∈ (List.replicate k w).flatten, dotOrLF c = true := by
    intro k w hw c hc
    obtain ⟨l, hl, hcl⟩ := List.mem_flatten.mp hc
    rw [List.eq_of_mem_replicate hl] at hcl
    exact hw c hcl
  constructor
  · unfold removeDotSegments
    rw [rdsLoop_eq_rfcLoop _ [] _ (Nat.lt_succ_self _), rfcLoop_dotdot,
      rfcLoop_segment s [] hs1 hs2 hs3 hs4]
    · rfl
    · intro c hc
      rcases List.mem_append.mp hc with h | h
      · exact hrep n _ (by decide) c h
      · exact hsc c h
  · unfold removeDotSegments
    rw [rdsLoop_eq_rfcLoop _ [] _ (Nat.lt_succ_self _),
      rfcLoop_pushes segs _ (Or.inr (dotdots_head n s)) hsegs,
      rfcLoop_pops n s _ (by simpa using hm)]
    · have := rfcLoop_push s [] [] hs1 hs2 hs3 hs4 (Or.inl rfl)
      rw [List.append_nil] at this
      rw [this, rfcLoop]
      simp
    · intro c hc
      rcases List.mem_append.mp hc with h | h
      · obtain ⟨l, hl, hcl⟩ := List.mem_flatten.mp h
        obtain ⟨a, ha, rfl⟩ := List.mem_map.mp hl
        rcases List.mem_cons.mp hcl with rfl | h2
        · decide
        · exact hsegsc a ha c h2
      · rcases List.mem_append.mp h with h | h
        · exact hrep n _ (by decide) c h
        · rcases List.mem_cons.mp h with rfl | h2
          · decide
          · exact hsc c h2

theorem removeDotSegments_clamp_example :
    removeDotSegments (lit "../../a") = Res.ok (lit "a")
    ∧ removeDotSegments (lit "/a/b/../../../c") = Res.ok (lit "/c") := by
  have h := removeDotSegments_clamp 2 [lit "a"] (lit "a") (by decide) (by decide) (by decide)
    (by decide) (by decide)
  have h2 := removeDotSegments_clamp 3 [lit "a", lit "b"] (lit "c") (by decide) (by decide)
    (by decide) (by decide) (by decide)
  exact ⟨h.1, h2.2⟩

/-! ## The fuel of the decoding loops is enough -/

theorem decodeStep_length {s : Str} {r : Str × Str} (h : decodeStep s = some r) :
    r.2.length < s.length := by
  unfold decodeStep at h
  repeat' split at h
  all_goals (try simp only at h)
  all_goals (repeat' split at h)
  all_goals first
    | (cases h; simp only [List.length_cons]; omega)
    | cases h

theorem decodeLoop_returns (fuel : Nat) :
    ∀ s : Str, s.length ≤ fuel → decodeLoop fuel s ≠ Res.diverge := by
  induction fuel with
  | zero =>
    intro s h
    have : s = [] := List.length_eq_zero.mp (Nat.le_zero.mp h)
    subst this
    simp [decodeLoop]
  | succ fuel ih =>
    intro s h
    cases s with
    | nil => simp [decodeLoop]
    | cons c rest =>
      rw [decodeLoop]
      cases hstep : decodeStep (c :: rest) with
      | none => simp
      | some r =>
        have hl := decodeStep_length hstep
        have := ih r.2 (by simp only [List.length_cons] at hl h; omega)
        simp only
        cases hr : decodeLoop fuel r.2 with
        | ok v => simp [Res.map]
        | throw e => simp [Res.map]
        | diverge => exact absurd hr this

theorem decodeURI_returns (s : Str) : decodeURI s ≠ Res.diverge :=
  decodeLoop_returns s.length s (Nat.le_refl _)

theorem safeDecodeLoop_fuel (fuel : Nat) :
    ∀ (path : Str) (i : Nat) (b : Bool), path.length - i ≤ fuel →
      safeDecodeLoop (fuel + 1) path i b = safeDecodeLoop fuel path i b := by
  induction fuel with
  | zero =>
    intro path i b h
    have : ¬ i < path.length := by omega
    simp [safeDecodeLoop, this]
  | succ fuel ih =>
    intro path i b h
    rw [safeDecodeLoop]
    conv_rhs => rw [safeDecodeLoop]
    by_cases hi : i < path.length
    · simp only [hi, if_true]
      have h1 := ih path (i + 1) true (by omega)
      have h2 := ih path (i + 1) b (by omega)
      have h3 := ih path (i + 2 + 1) b (by omega)
      have h4 := ih (slice path 0 (i + 1) ++ [50, 53] ++ path.drop (i + 1)) (i + 2 + 2 + 1) true
        (by simp [slice]; omega)
      rw [h1, h2, h3, h4]
    · simp only [hi, if_false]

theorem safeDecodeURI_returns (path : Str) : safeDecodeURI path ≠ Res.diverge := by
  unfold safeDecodeURI
  simp only
  split
  · exact decodeURI_returns _
  · simp

/-! ## An escaped percent sign -/

/-- C11: in `%25%25` and in `a%25?%25` every `%` starts the escape `%25`, yet `safeDecodeURI`
gives `%%25` and `a%25?%`: the escape at index 0, which the scan skips, and the escape behind
the `?`, where the scan stops, are decoded without having been doubled.  The example `%2525`
of the claim comes back unchanged. -/
theorem safeDecodeURI_collapses_percent :
    onlyEscapedPercent (lit "%25%25") = true
    ∧ safeDecodeURI (lit "%25%25") = Res.ok (lit "%%25")
    ∧ onlyEscapedPercent (lit "a%25?%25") = true
    ∧ safeDecodeURI (lit "a%25?%25") = Res.ok (lit "a%25?%")
    ∧ safeDecodeURI (lit "%2525") = Res.ok (lit "%2525") := by
  refine ⟨by decide, by decide, by decide, by decide, by decide⟩

/-! ## The table of `escapeString` -/

theorem escapeUnit_table (c : Nat) :
    escapeUnit c = if c ∈ escapedSet then hexTable c else [c] := by
  by_cases h : c < 126
  · interval_cases c <;> decide
  · have h1 : escapedChar c = [] := escapedChar_of_le (by omega)
    have h2 : c ∉ escapedSet := by
      intro hm
      simp only [escapedSet, List.mem_cons, List.mem_singleton, List.not_mem_nil, or_false] at hm
      omega
    simp [escapeUnit, h1, h2]

/-- C12 (counterexample): the control characters U+0000 and U+001F and the characters U+007F
and U+0080 are copied by `escapeString`, not replaced by `%00`, `%1F`, `%7F`, `%80`. -/
theorem escapeString_keeps_controls :
    escapeString [0] = [0] ∧ escapeString [31] = [31] ∧ escapeString [127] = [127]
    ∧ escapeString [128] = [128] ∧ hexTable 0 = lit "%00" ∧ hexTable 127 = lit "%7F" := by
  refine ⟨by decide, by decide, by decide, by decide, by decide, by decide⟩

/-- C12 (as amended): `escapeString` replaces the code units 9, 10, 13, the space, `"`, `'`,
`<`, `>`, `\`, `^`, the backtick, `{`, `|`, `}` by their uppercase-hex percent form and
copies every other code unit, the other control characters and all code units from `0x7E`
on included, unchanged and in order. -/
theorem escapeString_table (s : Str) :
    escapeString s = s.flatMap (fun c => if c ∈ escapedSet then hexTable c else [c]) := by
  rw [escapeString_eq_flatMap]
  congr 1
  funext c
  exact escapeUnit_table c

theorem doublePercent_cons_ne (c : Nat) (t : Str) (hc : c ≠ 37) :
    doublePercent (c :: t) = c :: doublePercent t := by
  simp [doublePercent, hc]

theorem doublePercent_cons_percent (t : Str) :
    doublePercent (37 :: t) = 37 :: 50 :: 53 :: doublePercent t := by
  simp [doublePercent]

theorem doublePercent_of_no_percent (t : Str) (h : 37 ∉ t) : doublePercent t = t := by
  induction t with
  | nil => rfl
  | cons c r ih =>
    have hc : c ≠ 37 := fun hc => h (hc ▸ List.mem_cons_self _ _)
    rw [doublePercent_cons_ne c r hc, ih (fun hm => h (List.mem_cons_of_mem _ hm))]

theorem charCodeAt_append (pre t : Str) (k : Nat) :
    charCodeAt (pre ++ t) (pre.length + k) = t.get? k := by
  simp [charCodeAt, List.getElem?_append_right]

/-- The scan of `safeDecodeURI` over a stretch without `?`, `;`, `#` in which every `%` starts
`%25`: every escape is doubled. -/
theorem safeDecodeLoop_doubles :
    ∀ (fuel : Nat) (t pre : Str) (b : Bool), onlyEscapedPercent t = true →
      (∀ c ∈ t, c ≠ 63 ∧ c ≠ 59 ∧ c ≠ 35) → t.length ≤ fuel →
      safeDecodeLoop fuel (pre ++ t) pre.length b
        = (pre ++ doublePercent t, b || t.contains 37) := by
  intro fuel
  induction fuel with
  | zero =>
    intro t pre b _ _ hl
    have : t = [] := List.length_eq_zero.mp (Nat.le_zero.mp hl)
    subst this
    simp [safeDecodeLoop, doublePercent]
  | succ n ih =>
    intro t pre b hp hb hl
    cases t with
    | nil => simp [safeDecodeLoop, doublePercent]
    | cons c t1 =>
      have hlt : pre.length < (pre ++ c :: t1).length := by simp
      have h0 : charCodeAt (pre ++ c :: t1) pre.length = some c := by
        simpa using charCodeAt_append pre (c :: t1) 0
      rw [safeDecodeLoop]
      simp only [hlt, if_true, h0, Option.some.injEq]
      by_cases hc : c = 37
      · subst hc
        simp only [onlyEscapedPercent, ne_eq, not_true_eq_false, decide_False, Bool.false_or,
          Bool.and_eq_true, decide_eq_true_eq] at hp
        obtain ⟨⟨hh, hl2⟩, hp1⟩ := hp
        obtain ⟨t2, rfl⟩ : ∃ t2, t1 = 50 :: 53 :: t2 := by
          rcases t1 with _ | ⟨a, _ | ⟨b2, t2⟩⟩
          · simp at hh
          · simp at hl2
          · simp at hh hl2; exact ⟨t2, by rw [hh, hl2]⟩
        have h1 : charCodeAt (pre ++ 37 :: 50 :: 53 :: t2) (pre.length + 1) = some 50 := by
          simpa using charCodeAt_append pre (37 :: 50 :: 53 :: t2) 1
        have h2 : charCodeAt (pre ++ 37 :: 50 :: 53 :: t2) (pre.length + 2) = some 53 := by
          simpa using charCodeAt_append pre (37 :: 50 :: 53 :: t2) 2
        have hd : decodeComponentChar (some 50) (some 53) ≠ none := by decide
        have hpath : slice (pre ++ 37 :: 50 :: 53 :: t2) 0 (pre.length + 1) ++ [50, 53]
            ++ (pre ++ 37 :: 50 :: 53 :: t2).drop (pre.length + 1)
            = (pre ++ [37, 50, 53, 50, 53]) ++ t2 := by
          simp [slice, List.take_append, List.drop_append]
        have hi : pre.length + 2 + 2 + 1 = (pre ++ [37, 50, 53, 50, 53]).length := by simp
        have hp2 : onlyEscapedPercent t2 = true := by
          simp only [onlyEscapedPercent, Bool.and_eq_true] at hp1
          exact hp1.2.2
        simp only [h1, h2, hd, if_false, true_and, and_self, if_true, hpath, hi]
        rw [ih t2 _ true hp2
          (fun d hd => hb d (by simp only [List.mem_cons]; exact Or.inr (Or.inr (Or.inr hd))))
          (by simp only [List.length_cons] at hl; omega)]
        simp [doublePercent_cons_percent, doublePercent_cons_ne]
      · obtain ⟨b1, b2, b3⟩ := hb c (List.mem_cons_self _ _)
        have hp1 : onlyEscapedPercent t1 = true := by
          simp only [onlyEscapedPercent, Bool.and_eq_true] at hp
          exact hp.2
        have hpath : pre ++ c :: t1 = (pre ++ [c]) ++ t1 := by simp
        have hi : pre.length + 1 = (pre ++ [c]).length := by simp
        simp only [hc, b1, b2, b3, or_self, if_false]
        rw [hpath, hi, ih t1 _ b hp1 (fun d hd => hb d (List.mem_cons_of_mem _ hd))
          (by simp only [List.length_cons] at hl; omega)]
        have hc2 : ¬ 37 = c := fun h => hc h.symm
        simp [doublePercent_cons_ne c t1 hc, hc2]

theorem decodeLoop_doublePercent :
    ∀ (fuel : Nat) (t : Str), onlyEscapedPercent t = true → (doublePercent t).length ≤ fuel →
      decodeLoop fuel (doublePercent t) = Res.ok t := by
  intro fuel
  induction fuel with
  | zero =>
    intro t _ hl
    have h0 : doublePercent t = [] := List.length_eq_zero.mp (Nat.le_zero.mp hl)
    cases t with
    | nil => rfl
    | cons c r => simp [doublePercent] at h0; split at h0 <;> simp at h0
  | succ n ih =>
    intro t hp hl
    cases t with
    | nil => rfl
    | cons c t1 =>
      have hp1 : onlyEscapedPercent t1 = true := by
        simp only [onlyEscapedPercent, Bool.and_eq_true] at hp
        exact hp.2
      by_cases hc : c = 37
      · subst hc
        simp only [onlyEscapedPercent, ne_eq, not_true_eq_false, decide_False, Bool.false_or,
          Bool.and_eq_true, decide_eq_true_eq] at hp
        obtain ⟨⟨hh, hl2⟩, -⟩ := hp
        obtain ⟨t2, rfl⟩ : ∃ t2, t1 = 50 :: 53 :: t2 := by
          rcases t1 with _ | ⟨a, _ | ⟨b2, t2⟩⟩
          · simp at hh
          · simp at hl2
          · simp at hh hl2; exact ⟨t2, by rw [hh, hl2]⟩
        rw [doublePercent_cons_percent] at hl ⊢
        rw [decodeLoop, decodeStep_escape_ascii 50 53 37 _ (by decide) (by decide) (by decide)]
        simp only
        rw [ih _ hp1 (by simp only [List.length_cons] at hl; omega)]
        rfl
      · rw [doublePercent_cons_ne c t1 hc] at hl ⊢
        rw [decodeLoop, decodeStep_cons_ne _ _ hc]
        simp only
        rw [ih _ hp1 (by simp only [List.length_cons] at hl; omega)]
        rfl

/-- Where the scan of `safeDecodeURI` reaches every `%`, an encoded percent sign is kept: a
string that does not start with `%`, has no `?`, `;`, `#` behind its first code unit and in
which every `%` starts `%25` comes back unchanged. -/
theorem safeDecodeURI_keeps_percent (c0 : Nat) (t : Str) (h0 : c0 ≠ 37)
    (hp : onlyEscapedPercent t = true) (hb : ∀ c ∈ t, c ≠ 63 ∧ c ≠ 59 ∧ c ≠ 35) :
    safeDecodeURI (c0 :: t) = Res.ok (c0 :: t) := by
  have hl := safeDecodeLoop_doubles (c0 :: t).length t [c0] false hp hb (by simp)
  simp only [List.singleton_append, List.length_singleton, Bool.false_or] at hl
  unfold safeDecodeURI
  simp only [hl]
  by_cases h37 : t.contains 37 = true
  · simp only [h37, if_true, decodeURI]
    have hd := decodeLoop_doublePercent (doublePercent t).length t hp (Nat.le_refl _)
    rw [List.length_cons, decodeLoop, decodeStep_cons_ne _ _ h0]
    simp only
    rw [hd]
    rfl
  · have : 37 ∉ t := by simpa using h37
    simp only [h37, doublePercent_of_no_percent t this]
    rfl

/-! ## An IPv6 zone through `parse` and `serialize` -/

/-- C15: without scheme handler, `parse` of `http://[fe80::1%25eth0]/` yields the host
`fe80::1%25eth0`, not `fe80::1%eth0`: `normalizeIPv6` takes everything behind the `%` for the
zone.  Serialising that record yields the authority `[fe80::1%2525eth0]`, in which the zone
has grown, and the string `http://[fe80::1%2525eth0]/`. -/
theorem parse_zone_grows :
    (parse noHandlers (lit "http://[fe80::1%25eth0]/") {}).map (fun r => r.host)
      = Res.ok (some (lit "fe80::1%25eth0"))
    ∧ (parse noHandlers (lit "http://[fe80::1%25eth0]/") {}).bind recomposeAuthority
      = Res.ok (some (lit "[fe80::1%2525eth0]"))
    ∧ (parse noHandlers (lit "http://[fe80::1%25eth0]/") {}).bind
        (fun r => serialize noHandlers r {}) = Res.ok (lit "http://[fe80::1%2525eth0]/")
    ∧ (parse noHandlers (lit "//[fe80::1%25eth0]/") {}).bind
        (fun r => serialize noHandlers r {}) = Res.ok (lit "//[fe80::1%2525eth0]/") := by
  refine ⟨by decide, by decide, by decide, by decide⟩

/-! ## A malformed last group of an IPv6 literal -/

/-- C16: the host `1::zz` has two `:` and its last colon-delimited group `zz` is not
hexadecimal, yet `normalizeIPv6` reports `isIPV6 = true` and returns the host `1::`: the last
group is pushed without the check that `consume` makes, and `join` renders the `undefined` as
the empty string.  Behind a second `:` after `::` the last group is not even looked at:
`1::2:zz` is reported as IPv6 as it stands.  A malformed group in front of a `:` is
rejected. -/
theorem normalizeIPv6_accepts_bad_group :
    normalizeIPv6 (lit "1::zz")
      = { host := lit "1::", escapedHost := some (lit "1::"), isIPV6 := true }
    ∧ normalizeIPv6 (lit "1:2:zz")
      = { host := lit "1:2:", escapedHost := some (lit "1:2:"), isIPV6 := true }
    ∧ normalizeIPv6 (lit "1::2:zz")
      = { host := lit "1::2:zz", escapedHost := some (lit "1::2:zz"), isIPV6 := true }
    ∧ normalizeIPv6 (lit "1:zz:2")
      = { host := lit "1:zz:2", escapedHost := none, isIPV6 := false } := by
  refine ⟨by decide, by decide, by decide, by decide⟩

/-! ## The port in the authority -/

/-- C18 (counterexample): for a record whose only component is the empty string as port,
`recomposeAuthority` returns `:` and not `undefined`; and the port `8a`, which has a
non-digit, is written behind the host. -/
theorem recomposeAuthority_empty_port :
    recomposeAuthority { port := some (Port.str []) } = Res.ok (some (lit ":"))
    ∧ recomposeAuthority { host := some (lit "h"), port := some (Port.str (lit "8a")) }
      = Res.ok (some (lit "h:8a")) := by
  refine ⟨by decide, by decide⟩

/-- C18 (as amended): `recomposeAuthority` writes `:` and the port behind userinfo and host
whenever the port is a string, whatever its characters, the empty string included: the
result for a record with the string port `p` is the result for the record without port (the
empty string when that is `undefined`) followed by `:` and `p`. -/
theorem recomposeAuthority_string_port (c : Components) (p : Str)
    (hp : c.port = some (Port.str p)) :
    recomposeAuthority c
      = (recomposeAuthority { c with port := none }).map
          (fun a => some (a.getD [] ++ [58] ++ p)) := by
  unfold recomposeAuthority authorityOf
  simp only [hp, portToString, Res.bind_eq, Res.pure_eq]
  cases c.host with
  | none =>
    cases c.userinfo <;> simp [Res.bind, Res.map]
  | some h =>
    simp only [Res.bind_eq, Res.pure_eq]
    cases safeDecodeURI h with
    | ok d =>
      simp only [Res.bind]
      by_cases h4 : (normalizeIPv4 d).isIPV4 = true
      · cases c.userinfo <;> simp [h4, Res.bind, Res.map]
      · by_cases h6 : (normalizeIPv6 (normalizeIPv4 d).host).isIPV6 = true
        · cases c.userinfo <;> simp [h4, h6, Res.bind, Res.map]
        · cases c.userinfo <;> simp [h4, h6, Res.bind, Res.map]
    | throw e => simp [Res.bind, Res.map]
    | diverge => simp [Res.bind, Res.map]

theorem recomposeAuthority_string_port_witness :
    recomposeAuthority { host := some (lit "a"), port := some (Port.str []) }
      = Res.ok (some (lit "a:")) :=
  (recomposeAuthority_string_port { host := some (lit "a"), port := some (Port.str []) } []
    rfl).trans (by decide)

/-! ## Malformed percent escapes in `parse` -/

/-- C20: with default options and no scheme handler `parse` raises `URIError` on a malformed
percent escape in the host (`//a%`), in the userinfo (`//u%@h`), in the scheme (`x%:`) and in
the fragment (`#%`); no record is returned. -/
theorem parse_raises_uriError :
    parse noHandlers (lit "//a%") {} = Res.throw Exn.uriError
    ∧ parse noHandlers (lit "//u%@h") {} = Res.throw Exn.uriError
    ∧ parse noHandlers (lit "x%:") {} = Res.throw Exn.uriError
    ∧ parse noHandlers (lit "#%") {} = Res.throw Exn.uriError := by
  refine ⟨by decide, by decide, by decide, by decide⟩

/-! ## The reference kind -/

theorem Res.bind_ok_inv {α β : Type} {r : Res α} {f : α → Res β} {b : β}
    (h : r.bind f = Res.ok b) : ∃ a, r = Res.ok a ∧ f a = Res.ok b := by
  cases r with
  | ok a => exact ⟨a, rfl, h⟩
  | throw e => cases h
  | diverge => cases h

theorem normalizeParsed_reference (g : Bool) (parsed r : Components)
    (h : normalizeParsed none g parsed = Res.ok r) : r.reference = parsed.reference := by
  unfold normalizeParsed at h
  simp only [if_true, Res.bind_eq, Res.pure_eq] at h
  obtain ⟨a1, -, h⟩ := Res.bind_ok_inv h
  obtain ⟨a2, -, h⟩ := Res.bind_ok_inv h
  obtain ⟨a3, -, h⟩ := Res.bind_ok_inv h
  obtain ⟨a4, -, h⟩ := Res.bind_ok_inv h
  cases h
  rfl

theorem parse_reference (env : Env) (s : Str) (r : Components)
    (hk : env.schemes (schemeKey none (uriParse s).m1) = none)
    (h : parse env s {} = Res.ok r) :
    r.reference = some (referenceKind (uriParse s).m1 (uriParse s).m3
      (parseHost (uriParse s).m4) (parsePort (uriParse s).m5) (uriParse s).m6
      (uriParse s).m7 (uriParse s).m8) := by
  have hin : parseInput s {} = s := rfl
  unfold parse at h
  simp only [hin, hk] at h
  have hc : ∀ host error, convertDomain env {} none host error = (host, error) := by
    intro host error
    simp [convertDomain]
  simp only [hc, Res.bind_eq, Res.pure_eq] at h
  obtain ⟨a, ha, h⟩ := Res.bind_ok_inv h
  cases h
  rw [show parseHook none a {} = a from rfl, normalizeParsed_reference _ _ _ ha]

theorem dropWhile_head_not {p : Nat → Bool} (l : Str) (c : Nat)
    (h : (l.dropWhile p).head? = some c) : p c = false := by
  induction l with
  | nil => simp at h
  | cons d t ih =>
    by_cases hd : p d = true
    · rw [List.dropWhile_cons_of_pos hd] at h
      exact ih h
    · rw [List.dropWhile_cons_of_neg hd] at h
      simp only [List.head?_cons, Option.some.injEq] at h
      subst h
      simpa using hd

theorem takeWhile_notIn_hash (cs : List Nat) (hcs : 35 ∈ cs) (l : Str) :
    35 ∉ l.takeWhile (notIn cs) := by
  intro hm
  have := List.mem_takeWhile_imp hm
  simp [notIn, hcs] at this

theorem matchScheme_iff (s : Str) : (matchScheme s).1 ≠ none ↔ HasScheme s := by
  unfold matchScheme HasScheme
  simp only
  constructor
  · intro h
    split at h
    · rename_i hc
      obtain ⟨hne, hh⟩ := hc
      refine ⟨_, (s.dropWhile (notIn [58, 47, 63, 35])).tail, hne, ?_, ?_⟩
      · intro c hc
        have := List.mem_takeWhile_imp hc
        simpa [notIn, not_or] using this
      · have hsplit := (List.takeWhile_append_dropWhile (notIn [58, 47, 63, 35]) s).symm
        cases hd : s.dropWhile (notIn [58, 47, 63, 35]) with
        | nil => rw [hd] at hh; simp at hh
        | cons d t =>
          rw [hd] at hh hsplit
          simp only [List.head?_cons, Option.some.injEq] at hh
          subst hh
          exact hsplit
    · exact absurd rfl h
  · rintro ⟨p, r, hne, hp, rfl⟩
    have hall : ∀ c ∈ p, notIn [58, 47, 63, 35] c = true := by
      intro c hc
      obtain ⟨h1, h2, h3, h4⟩ := hp c hc
      simp [notIn, h1, h2, h3, h4]
    rw [takeWhile_append_cons 58 r hall (by decide), dropWhile_append_cons 58 r hall (by decide)]
    simp [hne]

theorem matchScheme_none (s : Str) (h : (matchScheme s).1 = none) : (matchScheme s).2 = s := by
  unfold matchScheme at h ⊢
  simp only at h ⊢
  split
  · rename_i hc; rw [if_pos hc] at h; cases h
  · rfl

theorem matchScheme_split (s : Str) : ∃ pre, s = pre ++ (matchScheme s).2 ∧ 35 ∉ pre := by
  unfold matchScheme
  simp only
  split
  · rename_i hc
    have hsplit := (List.takeWhile_append_dropWhile (notIn [58, 47, 63, 35]) s).symm
    cases hd : s.dropWhile (notIn [58, 47, 63, 35]) with
    | nil => rw [hd] at hc; simp at hc
    | cons d t =>
      rw [hd] at hc hsplit
      have hd58 : d = 58 := by simpa using hc.2
      subst hd58
      refine ⟨s.takeWhile (notIn [58, 47, 63, 35]) ++ [58], by simpa using hsplit, ?_⟩
      have := takeWhile_notIn_hash [58, 47, 63, 35] (by decide) s
      simpa using this
  · exact ⟨[], rfl, by simp⟩

theorem matchUserinfo_split (s : Str) : ∃ pre, s = pre ++ (matchUserinfo s).2 ∧ 35 ∉ pre := by
  unfold matchUserinfo
  simp only
  split
  · rename_i hc
    have hsplit := (List.takeWhile_append_dropWhile (notIn [47, 63, 35, 64]) s).symm
    cases hd : s.dropWhile (notIn [47, 63, 35, 64]) with
    | nil => rw [hd] at hc; simp at hc
    | cons d t =>
      rw [hd] at hc hsplit
      have hd64 : d = 64 := by simpa using hc
      subst hd64
      refine ⟨s.takeWhile (notIn [47, 63, 35, 64]) ++ [64], by simpa using hsplit, ?_⟩
      have := takeWhile_notIn_hash [47, 63, 35, 64] (by decide) s
      simpa using this
  · exact ⟨[], rfl, by simp⟩

theorem bracketHost_split (s : Str) (r : Str × Str) (h : bracketHost s = some r) :
    s = r.1 ++ r.2 ∧ 35 ∉ r.1 := by
  unfold bracketHost at h
  split at h
  · rename_i c t
    split at h
    · rename_i hc
      subst hc
      simp only at h
      split at h
      · rename_i hcond
        cases h
        have hsplit := (List.takeWhile_append_dropWhile (notIn [47, 63, 35, 93]) t).symm
        cases hd : t.dropWhile (notIn [47, 63, 35, 93]) with
        | nil => rw [hd] at hcond; simp at hcond
        | cons d u =>
          rw [hd] at hcond hsplit
          have hd93 : d = 93 := by simpa using hcond.2
          subst hd93
          have := takeWhile_notIn_hash [47, 63, 35, 93] (by decide) t
          constructor
          · simp only [List.tail_cons, List.singleton_append, List.cons_append,
              List.append_assoc, List.cons.injEq, true_and]
            exact hsplit
          · simpa using this
      · cases h
    · cases h
  · cases h

theorem matchHost_split (s : Str) : s = (matchHost s).1 ++ (matchHost s).2 ∧ 35 ∉ (matchHost s).1 := by
  unfold matchHost
  cases hb : bracketHost s with
  | some r => exact bracketHost_split s r hb
  | none =>
    exact ⟨(List.takeWhile_append_dropWhile (notIn [47, 63, 35, 58]) s).symm,
      takeWhile_notIn_hash [47, 63, 35, 58] (by decide) s⟩

theorem matchPort_split (s : Str) : ∃ pre, s = pre ++ (matchPort s).2 ∧ 35 ∉ pre := by
  unfold matchPort
  split
  · rename_i c r
    split
    · rename_i hc
      subst hc
      refine ⟨58 :: r.takeWhile isDigit, ?_, ?_⟩
      · simp
      · intro hm
        rcases List.mem_cons.mp hm with h | h
        · cases h
        · have := List.mem_takeWhile_imp h
          simp [isDigit] at this
    · exact ⟨[], rfl, by simp⟩
  · exact ⟨[], rfl, by simp⟩

theorem matchAuthority_split (s : Str) :
    ∃ pre, s = pre ++ (matchAuthority s).2.2.2 ∧ 35 ∉ pre := by
  unfold matchAuthority
  cases hs : stripStart [47, 47] s with
  | none => exact ⟨[], rfl, by simp⟩
  | some a =>
    simp only
    obtain ⟨p3, e3, h3⟩ := matchUserinfo_split a
    obtain ⟨e4, h4⟩ := matchHost_split (matchUserinfo a).2
    obtain ⟨p5, e5, h5⟩ := matchPort_split (matchHost (matchUserinfo a).2).2
    have hsa : s = [47, 47] ++ a := by
      unfold stripStart at hs
      split at hs
      · rename_i hp
        cases hs
        have := List.isPrefixOf_iff_prefix.mp hp
        obtain ⟨t, rfl⟩ := this
        simp
      · cases hs
    refine ⟨[47, 47] ++ p3 ++ (matchHost (matchUserinfo a).2).1 ++ p5, ?_, ?_⟩
    · rw [hsa]
      simp only [List.append_assoc]
      rw [← e5, ← e4, ← e3]
    · simp only [List.mem_append, not_or]
      exact ⟨⟨⟨by decide, h3⟩, h4⟩, h5⟩

theorem matchQuery_split (s : Str) (hs : s = [] ∨ s.head? = some 63 ∨ s.head? = some 35) :
    ∃ pre, s = pre ++ (matchQuery s).2 ∧ 35 ∉ pre
      ∧ ((matchQuery s).2 = [] ∨ (matchQuery s).2.head? = some 35) := by
  unfold matchQuery
  split
  · rename_i c r
    split
    · rename_i hc
      subst hc
      refine ⟨63 :: r.takeWhile (notIn [35]), ?_, ?_, ?_⟩
      · simp
      · intro hm
        rcases List.mem_cons.mp hm with h | h
        · cases h
        · exact takeWhile_notIn_hash [35] (by decide) r h
      · cases hd : r.dropWhile (notIn [35]) with
        | nil => exact Or.inl rfl
        | cons d u =>
          have := dropWhile_head_not r d (by rw [hd]; rfl)
          have hd35 : d = 35 := by simpa [notIn] using this
          exact Or.inr (by simp [hd35])
    · rename_i hc
      refine ⟨[], rfl, by simp, ?_⟩
      rcases hs with h | h | h
      · cases h
      · simp at h; exact absurd h hc
      · exact Or.inr h
  · exact ⟨[], rfl, by simp, Or.inl rfl⟩

/-- Group 8 of `URI_PARSE` takes part in the match exactly when the input has a `#`. -/
theorem uriParse_fragment_iff (s : Str) : (uriParse s).m8 ≠ none ↔ 35 ∈ s := by
  obtain ⟨p1, e1, h1⟩ := matchScheme_split s
  obtain ⟨p2, e2, h2⟩ := matchAuthority_split (matchScheme s).2
  have e6 := (List.takeWhile_append_dropWhile (notIn [63, 35])
    (matchAuthority (matchScheme s).2).2.2.2).symm
  have h6 := takeWhile_notIn_hash [63, 35] (by decide) (matchAuthority (matchScheme s).2).2.2.2
  have hr6 : ∀ l : Str, l.dropWhile (notIn [63, 35]) = []
      ∨ (l.dropWhile (notIn [63, 35])).head? = some 63
      ∨ (l.dropWhile (notIn [63, 35])).head? = some 35 := by
    intro l
    cases hd : l.dropWhile (notIn [63, 35]) with
    | nil => exact Or.inl rfl
    | cons d u =>
      have := dropWhile_head_not l d (by rw [hd]; rfl)
      have hd2 : d = 63 ∨ d = 35 := by
        simp only [notIn, List.contains_cons, List.contains_nil, Bool.or_false, Bool.not_eq_false',
          Bool.or_eq_true, beq_iff_eq] at this
        exact this
      rcases hd2 with rfl | rfl
      · exact Or.inr (Or.inl rfl)
      · exact Or.inr (Or.inr rfl)
  obtain ⟨p7, e7, h7, hrest⟩ := matchQuery_split _ (hr6 (matchAuthority (matchScheme s).2).2.2.2)
  have hs : s = p1 ++ p2 ++ (matchAuthority (matchScheme s).2).2.2.2.takeWhile (notIn [63, 35])
      ++ p7 ++ (matchQuery ((matchAuthority (matchScheme s).2).2.2.2.dropWhile
        (notIn [63, 35]))).2 := by
    simp only [List.append_assoc]
    rw [← e7, ← e6, ← e2, ← e1]
  have hm8 : (uriParse s).m8 = matchFragment (matchQuery
      ((matchAuthority (matchScheme s).2).2.2.2.dropWhile (notIn [63, 35]))).2 := rfl
  rw [hm8]
  generalize (matchQuery ((matchAuthority (matchScheme s).2).2.2.2.dropWhile
    (notIn [63, 35]))).2 = rest at hs hrest
  have hin : 35 ∈ s ↔ 35 ∈ rest := by
    rw [hs]
    simp only [List.mem_append]
    constructor
    · rintro ((((h | h) | h) | h) | h)
      · exact absurd h h1
      · exact absurd h h2
      · exact absurd h h6
      · exact absurd h h7
      · exact h
    · exact fun h => Or.inr h
  rw [hin]
  rcases hrest with rfl | h
  · simp [matchFragment]
  · cases rest with
    | nil => simp at h
    | cons d u =>
      simp only [List.head?_cons, Option.some.injEq] at h
      subst h
      simp [matchFragment]

theorem parseHost_none (m4 : Option Str) (h : parseHost m4 = none) : m4 = none := by
  unfold parseHost at h
  split at h
  · simp only at h
    split at h <;> cases h
  · exact h

/-- No group but the fragment takes part in the match exactly when the input is empty or
starts with `#`. -/
theorem uriParse_sameDocument_iff (s : Str) :
    ((uriParse s).m1 = none ∧ (uriParse s).m3 = none ∧ parseHost (uriParse s).m4 = none
      ∧ parsePort (uriParse s).m5 = none ∧ (uriParse s).m6 = [] ∧ (uriParse s).m7 = none)
    ↔ (s = [] ∨ s.head? = some 35) := by
  constructor
  · rintro ⟨h1, -, h4, -, h6, h7⟩
    cases s with
    | nil => exact Or.inl rfl
    | cons c t =>
      right
      have e1 : (matchScheme (c :: t)).2 = c :: t := matchScheme_none _ h1
      have h4n : (uriParse (c :: t)).m4 = none := parseHost_none _ h4
      have hss : stripStart [47, 47] (c :: t) = none := by
        cases hs : stripStart [47, 47] (c :: t) with
        | none => rfl
        | some a =>
          have : (uriParse (c :: t)).m4 ≠ none := by
            simp [uriParse, e1, matchAuthority, hs]
          exact absurd h4n this
      have e2 : (matchAuthority (c :: t)).2.2.2 = c :: t := by
        simp [matchAuthority, hss]
      have h6a : (c :: t).takeWhile (notIn [63, 35]) = [] := by
        have : (uriParse (c :: t)).m6 = (c :: t).takeWhile (notIn [63, 35]) := by
          simp [uriParse, e1, e2]
        rw [← this]; exact h6
      have hc : notIn [63, 35] c = false := by
        by_contra hn
        rw [List.takeWhile_cons_of_pos (by simpa using hn)] at h6a
        cases h6a
      have hd : (c :: t).dropWhile (notIn [63, 35]) = c :: t :=
        List.dropWhile_cons_of_neg (by simp [hc])
      have hc2 : c = 63 ∨ c = 35 := by
        have : ¬ c = 63 → c = 35 := by simpa [notIn] using hc
        by_cases h63 : c = 63
        · exact Or.inl h63
        · exact Or.inr (this h63)
      rcases hc2 with rfl | rfl
      · have : (uriParse (63 :: t)).m7 ≠ none := by
          simp [uriParse, e1, e2, hd, matchQuery]
        exact absurd h7 this
      · rfl
  · rintro (rfl | h)
    · decide
    · cases s with
      | nil => simp at h
      | cons c t =>
        simp only [List.head?_cons, Option.some.injEq] at h
        subst h
        have e1 : matchScheme (35 :: t) = (none, 35 :: t) := by
          simp [matchScheme, notIn]
        have e2 : matchAuthority (35 :: t) = (none, none, none, 35 :: t) := by
          simp [matchAuthority, stripStart, List.isPrefixOf]
        simp [uriParse, e1, e2, notIn, matchQuery, parseHost, parsePort, parseInt10, truthy]

theorem hasScheme_head {s : Str} (h : HasScheme s) : ¬ (s = [] ∨ s.head? = some 35) := by
  obtain ⟨p, r, hne, hp, rfl⟩ := h
  cases p with
  | nil => exact absurd rfl hne
  | cons c q =>
    have := (hp c (List.mem_cons_self _ _)).2.2.2
    simp [this]

/-- The reference kind that `parse` stores, whenever it returns: `same-document` for the
empty input and an input that starts with `#`, else `relative` without scheme part, else
`absolute` without `#` and `uri` with one. -/
theorem parse_reference_kind (env : Env) (s : Str) (r : Components)
    (hk : env.schemes (schemeKey none (uriParse s).m1) = none)
    (h : parse env s {} = Res.ok r) :
    (r.reference = some (lit "same-document") ↔ (s = [] ∨ s.head? = some 35))
    ∧ (r.reference = some (lit "relative")
        ↔ (¬ (s = [] ∨ s.head? = some 35) ∧ ¬ HasScheme s))
    ∧ (r.reference = some (lit "absolute") ↔ (HasScheme s ∧ 35 ∉ s))
    ∧ (r.reference = some (lit "uri") ↔ (HasScheme s ∧ 35 ∈ s)) := by
  rw [parse_reference env s r hk h]
  have hsd := uriParse_sameDocument_iff s
  have hsc := matchScheme_iff s
  have hfr := uriParse_fragment_iff s
  have hm1 : (uriParse s).m1 = (matchScheme s).1 := rfl
  rw [← hm1] at hsc
  have hd1 : lit "same-document" ≠ lit "relative" := by decide
  have hd2 : lit "same-document" ≠ lit "absolute" := by decide
  have hd3 : lit "same-document" ≠ lit "uri" := by decide
  have hd4 : lit "relative" ≠ lit "absolute" := by decide
  have hd5 : lit "relative" ≠ lit "uri" := by decide
  have hd6 : lit "absolute" ≠ lit "uri" := by decide
  unfold referenceKind
  by_cases c1 : (uriParse s).m1 = none ∧ (uriParse s).m3 = none
      ∧ parseHost (uriParse s).m4 = none ∧ parsePort (uriParse s).m5 = none
      ∧ (uriParse s).m6 = [] ∧ (uriParse s).m7 = none
  · have hs := hsd.mp c1
    have hns : ¬ HasScheme s := fun hh => hasScheme_head hh hs
    simp only [c1, and_self, if_true, Option.some.injEq, hs, not_true_eq_false, false_and,
      hns, true_iff, iff_false]
    exact ⟨trivial, hd1, hd2, hd3⟩
  · have hs : ¬ (s = [] ∨ s.head? = some 35) := fun hh => c1 (hsd.mpr hh)
    rw [if_neg c1]
    by_cases c2 : (uriParse s).m1 = none
    · have hns : ¬ HasScheme s := fun hh => (hsc.mpr hh) c2
      simp only [c2, if_true, Option.some.injEq, hs, hns, not_false_eq_true, and_self,
        false_and, iff_false, iff_true]
      exact ⟨hd1.symm, trivial, hd4, hd5⟩
    · have hhs : HasScheme s := hsc.mp c2
      rw [if_neg c2]
      by_cases c3 : (uriParse s).m8 = none
      · have h35 : 35 ∉ s := fun hm => (hfr.mpr hm) c3
        simp only [c3, if_true, Option.some.injEq, hs, hhs, h35, not_true_eq_false,
          not_false_eq_true, and_self, and_false, iff_false, iff_true]
        exact ⟨hd2.symm, hd4.symm, trivial, hd6⟩
      · have h35 : 35 ∈ s := hfr.mp c3
        simp only [c3, if_false, Option.some.injEq, hs, hhs, h35, not_true_eq_false,
          and_false, and_self, iff_false, iff_true]
        exact ⟨hd3.symm, hd5.symm, hd6.symm, trivial⟩

/-- C19: the inputs `#%zz`, `//a%zz`, `x%zz:a` and `x:#%zz` are, by the rule of the claim, a
same-document reference, a relative reference, an absolute URI and a URI with fragment; with
default options and no scheme handler `parse` raises `URIError` on each of them, so that
there is no record and no reference kind. -/
theorem parse_reference_lost :
    parse noHandlers (lit "#%zz") {} = Res.throw Exn.uriError
    ∧ parse noHandlers (lit "//a%zz") {} = Res.throw Exn.uriError
    ∧ parse noHandlers (lit "x%zz:a") {} = Res.throw Exn.uriError
    ∧ parse noHandlers (lit "x:#%zz") {} = Res.throw Exn.uriError
    ∧ (lit "#%zz").head? = some 35 ∧ ¬ HasScheme (lit "//a%zz")
    ∧ HasScheme (lit "x%zz:a") ∧ HasScheme (lit "x:#%zz") := by
  refine ⟨by decide, by decide, by decide, by decide, by decide, ?_, ?_, ?_⟩
  · rintro ⟨p, r, hne, hp, he⟩
    cases p with
    | nil => exact hne rfl
    | cons c q =>
      have hc : c = 47 := by
        have := congrArg List.head? he
        simpa [lit, utf16] using this.symm
      exact (hp c (List.mem_cons_self _ _)).2.1 hc
  · exact ⟨lit "x%zz", lit "a", by decide, by decide, by decide⟩
  · exact ⟨lit "x", lit "#%zz", by decide, by decide, by decide⟩

/-! ## The path behind an absent authority -/

theorem guardDoubleSlash_not_slashes (s q : Str) (hq : q.head? ≠ some 47) :
    ¬ [47, 47] <+: guardDoubleSlash s ++ q := by
  unfold guardDoubleSlash
  cases hs : stripStart [47, 47] s with
  | some rest =>
    rintro ⟨t, ht⟩
    have : lit "/%2F" = [47, 37, 50, 70] := by decide
    simp [this] at ht
  | none =>
    simp only
    rintro ⟨t, ht⟩
    have hnp : ¬ [47, 47].isPrefixOf s = true := by
      intro hp
      simp [stripStart, hp] at hs
    rcases s with _ | ⟨a, _ | ⟨b, s2⟩⟩
    · simp only [List.nil_append] at ht
      rw [← ht] at hq
      simp at hq
    · simp only [List.cons_append, List.nil_append, List.cons.injEq] at ht
      obtain ⟨-, ht2⟩ := ht
      rw [← ht2] at hq
      simp at hq
    · simp only [List.cons_append, List.cons.injEq] at ht
      obtain ⟨rfl, rfl, -⟩ := ht
      simp [List.isPrefixOf] at hnp

theorem serializeQueryFragment_head (c : Components) :
    (serializeQueryFragment c).head? ≠ some 47 := by
  unfold serializeQueryFragment
  cases c.query <;> cases c.fragment <;> simp

/-- Without handler and without authority, `serialize` writes the scheme part, the guarded
path and the query and fragment. -/
theorem serialize_no_authority (env : Env) (c : Components) (o : Options) (out : Str)
    (hu : c.userinfo = none) (hh : c.host = none) (hp : c.port = none)
    (hk : env.schemes (schemeKey o.scheme c.scheme) = none)
    (hs : serialize env c o = Res.ok out) :
    ∃ tail : Str,
      out = (if o.reference ≠ some (lit "suffix") ∧ truthy c.scheme then c.scheme.getD [] ++ [58]
          else []) ++ tail ++ serializeQueryFragment c
      ∧ ¬ [47, 47] <+: tail ++ serializeQueryFragment c
      ∧ (∀ p1 t, serializePath c o = Res.ok (some p1) →
          (if o.absolutePath = false then removeDotSegments p1 else Res.ok p1)
            = Res.ok (47 :: 47 :: t) → tail = lit "/%2F" ++ t) := by
  unfold serialize at hs
  simp only [hk, serializeHook, Res.bind_eq, Res.pure_eq] at hs
  obtain ⟨path1, hpath, hs⟩ := Res.bind_ok_inv hs
  have hauth : ∀ p1 : Option Str, recomposeAuthority
      { scheme := c.scheme, userinfo := c.userinfo, host := c.host, port := c.port, path := p1,
        query := c.query, fragment := c.fragment, reference := c.reference, error := some [],
        nid := c.nid, nss := c.nss, uuid := c.uuid, resourceName := c.resourceName,
        secure := c.secure } = Res.ok none := by
    intro p1
    simp [recomposeAuthority, authorityOf, hu, hh, hp]
    rfl
  rw [hauth path1, Res.ok_bind] at hs
  obtain ⟨tail, htail, hs⟩ := Res.bind_ok_inv hs
  cases hs
  refine ⟨tail, ?_, ?_, ?_⟩
  · simp [serializeHead, serializeQueryFragment]
  · unfold serializeTail at htail
    simp only at htail
    cases path1 with
    | none =>
      cases htail
      have := guardDoubleSlash_not_slashes [] (serializeQueryFragment c)
        (serializeQueryFragment_head c)
      simpa [guardDoubleSlash, stripStart, List.isPrefixOf] using this
    | some p1 =>
      simp only [Res.bind_eq, Res.pure_eq] at htail
      have key : ∀ r : Res Str,
          (r.bind fun y => Res.ok (if True then guardDoubleSlash y else y)) = Res.ok tail →
          ¬ [47, 47] <+: tail ++ serializeQueryFragment c := by
        intro r hr
        obtain ⟨s1, -, hr⟩ := Res.bind_ok_inv hr
        cases hr
        simp only [if_true]
        exact guardDoubleSlash_not_slashes s1 (serializeQueryFragment c)
          (serializeQueryFragment_head c)
      split at htail
      · exact key _ htail
      · exact key _ htail
  · intro p1 t hpp hrd
    have hsame : serializePath c o = Res.ok path1 := hpath
    rw [hpp] at hsame
    cases hsame
    unfold serializeTail at htail
    by_cases hab : o.absolutePath = false
    · rw [if_pos hab] at hrd
      simp only [hab, and_self, if_true, Res.bind_eq, Res.pure_eq] at htail
      rw [hrd, Res.ok_bind] at htail
      cases htail
      simp [guardDoubleSlash, stripStart, List.isPrefixOf]
    · rw [if_neg hab] at hrd
      cases hrd
      simp only [hab, false_and, if_false, Res.bind_eq, Res.pure_eq, Res.ok_bind] at htail
      cases htail
      simp [guardDoubleSlash, stripStart, List.isPrefixOf]

/-- In suffix mode, and for an empty scheme, `serialize` writes no scheme: the whole output
is the path part. The record with scheme `a` and path `a://x` is written as `a://x` in suffix
mode, and the record with the empty scheme and the path `://x` as `://x`; neither begins with
`//`. -/
theorem serialize_suffix_scheme :
    serialize noHandlers { scheme := some (lit "a"), path := some (lit "a://x") }
      { reference := some (lit "suffix") } = Res.ok (lit "a://x")
    ∧ ¬ [47, 47] <+: lit "a://x"
    ∧ serialize noHandlers { scheme := some [], path := some (lit "://x") } {}
      = Res.ok (lit "://x")
    ∧ ¬ [47, 47] <+: lit "://x" := by
  refine ⟨by decide, by decide, by decide, by decide⟩

/-- C17: for a record without userinfo, host and port, every options value and no scheme
handler, whenever `serialize` returns: the output is the scheme part that `serialize` writes
(the scheme and `:`, unless the mode is suffix or the scheme absent or empty), the path part
and the query and fragment, and what follows the scheme part never begins with `//`. So
without a scheme written the output does not start with `//`, and with the scheme `s` written
it does not start with `s://`. A path that starts with `//` once it is escaped (or decoded,
under `skipEscape`) and its dot segments are removed (unless `absolutePath` is set) is
written with its second slash as `%2F`. -/
theorem serialize_path_guard (env : Env) (c : Components) (o : Options) (out : Str)
    (hu : c.userinfo = none) (hh : c.host = none) (hp : c.port = none)
    (hk : env.schemes (schemeKey o.scheme c.scheme) = none)
    (hs : serialize env c o = Res.ok out) :
    (∃ pathPart : Str,
      out = (if o.reference ≠ some (lit "suffix") ∧ truthy c.scheme
          then c.scheme.getD [] ++ [58] else []) ++ pathPart ++ serializeQueryFragment c
      ∧ ¬ [47, 47] <+: pathPart ++ serializeQueryFragment c)
    ∧ ((o.reference = some (lit "suffix") ∨ truthy c.scheme = false) → ¬ [47, 47] <+: out)
    ∧ (∀ s, o.reference ≠ some (lit "suffix") → c.scheme = some s → s ≠ [] →
        ¬ s ++ lit "://" <+: out)
    ∧ (∀ p1 t, serializePath c o = Res.ok (some p1) →
        (if o.absolutePath = false then removeDotSegments p1 else Res.ok p1)
          = Res.ok (47 :: 47 :: t) →
        out = (if o.reference ≠ some (lit "suffix") ∧ truthy c.scheme
            then c.scheme.getD [] ++ [58] else []) ++ lit "/%2F" ++ t
          ++ serializeQueryFragment c) := by
  obtain ⟨tail, hout, hns, hesc⟩ := serialize_no_authority env c o out hu hh hp hk hs
  refine ⟨⟨tail, hout, hns⟩, ?_, ?_, ?_⟩
  · intro hcase
    have hcond : ¬ (o.reference ≠ some (lit "suffix") ∧ truthy c.scheme = true) := by
      rintro ⟨h1, h2⟩
      rcases hcase with h | h
      · exact h1 h
      · rw [h] at h2; cases h2
    rw [hout, if_neg hcond]
    simpa using hns
  · intro s hr hsch hne
    have ht : truthy c.scheme = true := by
      rw [hsch]
      cases s with
      | nil => exact absurd rfl hne
      | cons a b => rfl
    rw [hout, if_pos ⟨hr, ht⟩, hsch]
    have h3 : lit "://" = [58, 47, 47] := by decide
    simp only [Option.getD_some, h3, List.append_assoc, List.prefix_append_right_inj,
      List.singleton_append]
    intro hpre
    have := (List.cons_prefix_cons.mp hpre).2
    exact hns (by simpa using this)
  · intro p1 t hpp hrd
    rw [hout, hesc p1 t hpp hrd]
    simp only [List.append_assoc]

theorem serialize_path_guard_witness :
    serialize noHandlers { scheme := some (lit "s"), path := some (lit "/.//x") } {}
      = Res.ok (lit "s:/%2Fx")
    ∧ ¬ lit "s" ++ lit "://" <+: lit "s:/%2Fx" :=
  ⟨by decide,
    (serialize_path_guard noHandlers { scheme := some (lit "s"), path := some (lit "/.//x") } {}
      (lit "s:/%2Fx") rfl rfl rfl rfl (by decide)).2.2.1 (lit "s") (by decide) rfl (by decide)⟩

/-- The guard under `skipEscape` and `absolutePath`: the path `//x` is written `/%2Fx`, behind
a scheme and without one, and the path `/.//x`, whose dot segment stays, is written as it
is. -/
theorem serialize_path_guard_options :
    serialize noHandlers { scheme := some (lit "s"), path := some (lit "//x") }
        { skipEscape := true, absolutePath := true } = Res.ok (lit "s:/%2Fx")
    ∧ serialize noHandlers { path := some (lit "//x") }
        { skipEscape := true, absolutePath := true } = Res.ok (lit "/%2Fx")
    ∧ serialize noHandlers { path := some (lit "//x") } { absolutePath := true }
        = Res.ok (lit "/%2Fx")
    ∧ serialize noHandlers { path := some (lit "/.//x") } { absolutePath := true }
        = Res.ok (lit "/.//x")
    ∧ serialize noHandlers { path := some (lit "/.//x") } { skipEscape := true }
        = Res.ok (lit "/%2Fx") := by
  refine ⟨by decide, by decide, by decide, by decide, by decide⟩

/-! ## Dotted IPv4 addresses -/

theorem stripZeros_fold (token : Nat) (suf : Str) :
    ∀ (pre : Str) (st : Str × Bool),
      (List.range' pre.length suf.length).foldl (stripZerosStep (pre ++ suf) token) st
        = stripRun token suf st := by
  induction suf with
  | nil => intro pre st; rfl
  | cons c rest ih =>
    intro pre st
    have hstep : stripZerosStep (pre ++ c :: rest) token st pre.length
        = (if c = 48 ∧ st.2 = true then
            if rest.head? = some token ∨ rest = [] then (st.1 ++ [c], false) else st
          else (st.1 ++ [c], if c = token then true else false)) := by
      unfold stripZerosStep
      have h0 : (pre ++ c :: rest).getD pre.length 0 = c := by
        rw [List.getD_eq_getElem?_getD, List.getElem?_append_right (Nat.le_refl _)]
        simp
      have h1 : (pre ++ c :: rest).get? (pre.length + 1) = rest.head? := by
        rw [List.get?_eq_getElem?, List.getElem?_append_right (by omega)]
        simp [List.head?_eq_getElem?]
      have h2 : (pre.length + 1 = (pre ++ c :: rest).length) ↔ rest = [] := by
        simp only [List.length_append, List.length_cons]
        constructor
        · intro h; exact List.length_eq_zero.mp (by omega)
        · intro h; subst h; rfl
      simp only [h0, h1, h2]
    have hpre : pre ++ c :: rest = (pre ++ [c]) ++ rest := by simp
    have hlen : pre.length + 1 = (pre ++ [c]).length := by simp
    rw [List.length_cons, List.range'_succ, List.foldl_cons, hstep, stripRun]
    rw [hpre, hlen]
    exact ih (pre ++ [c]) _

theorem stripLeadingZeros_eq_run (str : Str) (token : Nat) :
    stripLeadingZeros str token = (stripRun token str ([], true)).1 := by
  unfold stripLeadingZeros
  rw [List.range_eq_range']
  have := stripZeros_fold token str [] ([], true)
  simp only [List.nil_append, List.length_nil] at this
  rw [this]

theorem stripRun_digits (g rest : Str) (out : Str) (hg : ∀ c ∈ g, isDigit c = true) :
    stripRun 46 (g ++ rest) (out, false) = stripRun 46 rest (out ++ g, false) := by
  induction g generalizing out with
  | nil => simp
  | cons c g ih =>
    have hc := hg c (List.mem_cons_self _ _)
    have hc46 : c ≠ 46 := by
      simp only [isDigit, Bool.and_eq_true, decide_eq_true_eq] at hc
      omega
    rw [List.cons_append, stripRun]
    simp only [Bool.false_eq_true, and_false, if_false, hc46]
    rw [ih (out ++ [c]) (fun d hd => hg d (List.mem_cons_of_mem _ hd))]
    simp

theorem stripGroup_zero_cons (g : Str) : stripGroup (48 :: g) = stripGroup g := by
  simp [stripGroup, List.dropWhile]

theorem stripGroup_cons_ne (c : Nat) (g : Str) (hc : c ≠ 48) : stripGroup (c :: g) = c :: g := by
  simp [stripGroup, List.dropWhile, hc]

/-- A group of digits in front of a `.` or of the end loses its leading zeros. -/
theorem stripRun_group (g rest : Str) (out : Str) (hne : g ≠ [])
    (hg : ∀ c ∈ g, isDigit c = true) (hrest : rest = [] ∨ rest.head? = some 46) :
    stripRun 46 (g ++ rest) (out, true) = stripRun 46 rest (out ++ stripGroup g, false) := by
  induction g with
  | nil => exact absurd rfl hne
  | cons c g ih =>
    have hgd : ∀ d ∈ g, isDigit d = true := fun d hd => hg d (List.mem_cons_of_mem _ hd)
    have hc := hg c (List.mem_cons_self _ _)
    have hc46 : c ≠ 46 := by
      simp only [isDigit, Bool.and_eq_true, decide_eq_true_eq] at hc
      omega
    rw [List.cons_append, stripRun]
    by_cases h48 : c = 48
    · subst h48
      cases g with
      | nil =>
        have hcond : (([] : Str) ++ rest).head? = some 46 ∨ ([] : Str) ++ rest = [] := by
          rcases hrest with h | h
          · exact Or.inr (by simp [h])
          · exact Or.inl (by simpa using h)
        simp only [and_self, if_true, hcond]
        simp [stripGroup, List.dropWhile]
      | cons d g2 =>
        have hd := hgd d (List.mem_cons_self _ _)
        have hd46 : d ≠ 46 := by
          simp only [isDigit, Bool.and_eq_true, decide_eq_true_eq] at hd
          omega
        have hcond : ¬ ((d :: g2 ++ rest).head? = some 46 ∨ d :: g2 ++ rest = []) := by
          simp [hd46]
        simp only [and_self, if_true, hcond, if_false]
        rw [ih (by simp) hgd, stripGroup_zero_cons]
    · simp only [h48, false_and, if_false, hc46]
      rw [stripRun_digits g rest _ hgd, stripGroup_cons_ne c g h48]
      simp

theorem stripRun_dot (rest : Str) (out : Str) (b : Bool) :
    stripRun 46 (46 :: rest) (out, b) = stripRun 46 rest (out ++ [46], true) := by
  rw [stripRun]
  simp

/-- On four groups of digits `stripLeadingZeros` strips every group. -/
theorem stripLeadingZeros_dotted (g1 g2 g3 g4 : Str)
    (h1 : g1 ≠ [] ∧ ∀ c ∈ g1, isDigit c = true) (h2 : g2 ≠ [] ∧ ∀ c ∈ g2, isDigit c = true)
    (h3 : g3 ≠ [] ∧ ∀ c ∈ g3, isDigit c = true) (h4 : g4 ≠ [] ∧ ∀ c ∈ g4, isDigit c = true) :
    stripLeadingZeros (dotted g1 g2 g3 g4) 46
      = dotted (stripGroup g1) (stripGroup g2) (stripGroup g3) (stripGroup g4) := by
  rw [stripLeadingZeros_eq_run]
  have e : dotted g1 g2 g3 g4 = g1 ++ (46 :: (g2 ++ (46 :: (g3 ++ (46 :: (g4 ++ [])))))) := by
    simp [dotted]
  rw [e, stripRun_group g1 (46 :: _) _ h1.1 h1.2 (Or.inr rfl), stripRun_dot,
    stripRun_group g2 (46 :: _) _ h2.1 h2.2 (Or.inr rfl), stripRun_dot,
    stripRun_group g3 (46 :: _) _ h3.1 h3.2 (Or.inr rfl), stripRun_dot,
    stripRun_group g4 [] _ h4.1 h4.2 (Or.inl rfl)]
  simp [stripRun, dotted]

theorem digitOptDigitRests_iff (s r : Str) :
    r ∈ digitOptDigitRests s ↔
      ∃ g, (g.length = 1 ∨ g.length = 2) ∧ (∀ c ∈ g, isDigit c = true) ∧ s = g ++ r := by
  constructor
  · intro h
    unfold digitOptDigitRests at h
    split at h
    · rename_i d t
      split at h
      · rename_i hd
        split at h
        · rename_i d2 t2
          split at h
          · rename_i hd2
            simp only [List.mem_cons, List.mem_singleton, List.not_mem_nil, or_false] at h
            rcases h with rfl | rfl
            · exact ⟨[d, d2], Or.inr rfl, by simp [hd, hd2], rfl⟩
            · exact ⟨[d], Or.inl rfl, by simp [hd], rfl⟩
          · simp only [List.mem_singleton] at h
            subst h
            exact ⟨[d], Or.inl rfl, by simp [hd], rfl⟩
        · simp only [List.mem_singleton] at h
          subst h
          exact ⟨[d], Or.inl rfl, by simp [hd], rfl⟩
      · simp at h
    · simp at h
  · rintro ⟨g, hl, hg, rfl⟩
    rcases g with _ | ⟨d, _ | ⟨d2, _ | ⟨d3, g⟩⟩⟩
    · simp at hl
    · have hd := hg d (List.mem_cons_self _ _)
      unfold digitOptDigitRests
      cases r with
      | nil => simp [hd]
      | cons e r2 => by_cases he : isDigit e = true <;> simp [hd, he]
    · have hd := hg d (List.mem_cons_self _ _)
      have hd2 := hg d2 (by simp)
      simp [digitOptDigitRests, hd, hd2]
    · simp at hl

theorem octetRests_iff (s r : Str) : r ∈ octetRests s ↔ ∃ g, IsOctet g ∧ s = g ++ r := by
  constructor
  · intro h
    unfold octetRests at h
    simp only [List.mem_append] at h
    rcases h with ((h | h) | h) | h
    · split at h
      · rename_i a b c t
        split at h
        · rename_i hc
          simp only [List.mem_singleton] at h
          subst h
          obtain ⟨rfl, rfl, h1, h2⟩ := hc
          refine ⟨[50, 53, c], ⟨by simp, by simp, ?_, ?_⟩, rfl⟩
          · intro x hx
            simp only [List.mem_cons, List.mem_singleton, List.not_mem_nil, or_false] at hx
            simp only [isDigit, Bool.and_eq_true, decide_eq_true_eq]
            omega
          · simp only [decVal, List.foldl_cons, List.foldl_nil]
            omega
        · simp at h
      · simp at h
    · split at h
      · rename_i a b c t
        split at h
        · rename_i hc
          simp only [List.mem_singleton] at h
          subst h
          obtain ⟨rfl, h1, h2, h3⟩ := hc
          simp only [isDigit, Bool.and_eq_true, decide_eq_true_eq] at h3
          refine ⟨[50, b, c], ⟨by simp, by simp, ?_, ?_⟩, rfl⟩
          · intro x hx
            simp only [List.mem_cons, List.mem_singleton, List.not_mem_nil, or_false] at hx
            simp only [isDigit, Bool.and_eq_true, decide_eq_true_eq]
            omega
          · simp only [decVal, List.foldl_cons, List.foldl_nil]
            omega
        · simp at h
      · simp at h
    · split at h
      · rename_i a t
        split at h
        · rename_i ha
          obtain ⟨g, hl, hg, rfl⟩ := (digitOptDigitRests_iff t r).mp h
          refine ⟨a :: g, ⟨by simp, by simp only [List.length_cons]; omega, ?_, ?_⟩, rfl⟩
          · intro x hx
            rcases List.mem_cons.mp hx with rfl | hx
            · simp only [isDigit, Bool.and_eq_true, decide_eq_true_eq]
              omega
            · exact hg x hx
          · rcases g with _ | ⟨d, _ | ⟨d2, _ | ⟨d3, g⟩⟩⟩
            · simp at hl
            · have hd := hg d (List.mem_cons_self _ _)
              simp only [isDigit, Bool.and_eq_true, decide_eq_true_eq] at hd
              simp only [decVal, List.foldl_cons, List.foldl_nil]
              omega
            · have hd := hg d (List.mem_cons_self _ _)
              have hd2 := hg d2 (by simp)
              simp only [isDigit, Bool.and_eq_true, decide_eq_true_eq] at hd hd2
              simp only [decVal, List.foldl_cons, List.foldl_nil]
              omega
            · simp at hl
        · simp at h
      · simp at h
    · obtain ⟨g, hl, hg, rfl⟩ := (digitOptDigitRests_iff s r).mp h
      refine ⟨g, ⟨by omega, by omega, hg, ?_⟩, rfl⟩
      rcases g with _ | ⟨d, _ | ⟨d2, _ | ⟨d3, g⟩⟩⟩
      · simp at hl
      · have hd := hg d (List.mem_cons_self _ _)
        simp only [isDigit, Bool.and_eq_true, decide_eq_true_eq] at hd
        simp only [decVal, List.foldl_cons, List.foldl_nil]
        omega
      · have hd := hg d (List.mem_cons_self _ _)
        have hd2 := hg d2 (by simp)
        simp only [isDigit, Bool.and_eq_true, decide_eq_true_eq] at hd hd2
        simp only [decVal, List.foldl_cons, List.foldl_nil]
        omega
      · simp at hl
  · rintro ⟨g, ⟨hl1, hl2, hg, hv⟩, rfl⟩
    unfold octetRests
    simp only [List.mem_append]
    rcases g with _ | ⟨d, _ | ⟨d2, _ | ⟨d3, _ | ⟨d4, g⟩⟩⟩⟩
    · simp at hl1
    · right
      exact (digitOptDigitRests_iff _ r).mpr ⟨[d], Or.inl rfl, hg, rfl⟩
    · right
      exact (digitOptDigitRests_iff _ r).mpr ⟨[d, d2], Or.inr rfl, hg, rfl⟩
    · have hd := hg d (List.mem_cons_self _ _)
      have hd2 := hg d2 (by simp)
      have hd3 := hg d3 (by simp)
      have hd2b := hd2
      have hd3b := hd3
      simp only [isDigit, Bool.and_eq_true, decide_eq_true_eq] at hd hd2 hd3
      simp only [decVal, List.foldl_cons, List.foldl_nil] at hv
      by_cases h01 : d = 48 ∨ d = 49
      · left; right
        simp only [List.cons_append, List.nil_append, h01, if_true]
        exact (digitOptDigitRests_iff _ r).mpr
          ⟨[d2, d3], Or.inr rfl, by simp [hd2b, hd3b], rfl⟩
      · have hd50 : d = 50 := by omega
        subst hd50
        by_cases h5 : d2 = 53
        · left; left; left
          subst h5
          have : 48 ≤ d3 ∧ d3 ≤ 53 := by omega
          simp [this]
        · left; left; right
          have : 48 ≤ d2 ∧ d2 ≤ 52 := by omega
          simp [this, hd3b]
    · simp at hl2

theorem dotOctetRests_iff (s r : Str) :
    r ∈ dotOctetRests s ↔ ∃ g, IsOctet g ∧ s = 46 :: (g ++ r) := by
  unfold dotOctetRests
  constructor
  · intro h
    split at h
    · rename_i c t
      split at h
      · rename_i hc
        subst hc
        obtain ⟨g, hg, rfl⟩ := (octetRests_iff t r).mp h
        exact ⟨g, hg, rfl⟩
      · simp at h
    · simp at h
  · rintro ⟨g, hg, rfl⟩
    simp only [if_true]
    exact (octetRests_iff _ r).mpr ⟨g, hg, rfl⟩

/-- The pattern of `normalizeIPv4` matches exactly the strings of four groups. -/
theorem ipv4Regex_iff (host : Str) :
    ipv4Regex host = true ↔
      ∃ g1 g2 g3 g4, IsOctet g1 ∧ IsOctet g2 ∧ IsOctet g3 ∧ IsOctet g4
        ∧ host = dotted g1 g2 g3 g4 := by
  unfold ipv4Regex
  simp only [List.any_eq_true, List.mem_flatMap, List.isEmpty_iff]
  constructor
  · rintro ⟨r4, ⟨r3, ⟨r2, ⟨r1, h1, h2⟩, h3⟩, h4⟩, rfl⟩
    obtain ⟨g1, o1, rfl⟩ := (octetRests_iff _ _).mp h1
    obtain ⟨g2, o2, rfl⟩ := (dotOctetRests_iff _ _).mp h2
    obtain ⟨g3, o3, rfl⟩ := (dotOctetRests_iff _ _).mp h3
    obtain ⟨g4, o4, rfl⟩ := (dotOctetRests_iff _ _).mp h4
    exact ⟨g1, g2, g3, g4, o1, o2, o3, o4, by simp [dotted]⟩
  · rintro ⟨g1, g2, g3, g4, o1, o2, o3, o4, rfl⟩
    refine ⟨[], ⟨46 :: (g4 ++ []), ⟨46 :: (g3 ++ 46 :: (g4 ++ [])),
      ⟨46 :: (g2 ++ 46 :: (g3 ++ 46 :: (g4 ++ []))), ?_, ?_⟩, ?_⟩, ?_⟩, rfl⟩
    · exact (octetRests_iff _ _).mpr ⟨g1, o1, by simp [dotted]⟩
    · exact (dotOctetRests_iff _ _).mpr ⟨g2, o2, rfl⟩
    · exact (dotOctetRests_iff _ _).mpr ⟨g3, o3, rfl⟩
    · exact (dotOctetRests_iff _ _).mpr ⟨g4, o4, rfl⟩

theorem decVal_zero_cons (g : Str) : decVal (48 :: g) = decVal g := by
  simp [decVal]

theorem decVal_stripGroup (g : Str) : decVal (stripGroup g) = decVal g := by
  induction g with
  | nil => rfl
  | cons c g ih =>
    by_cases hc : c = 48
    · subst hc
      rw [stripGroup_zero_cons, decVal_zero_cons, ih]
    · rw [stripGroup_cons_ne c g hc]

theorem stripGroup_length (g : Str) (hne : g ≠ []) :
    1 ≤ (stripGroup g).length ∧ (stripGroup g).length ≤ g.length := by
  induction g with
  | nil => exact absurd rfl hne
  | cons c g ih =>
    by_cases hc : c = 48
    · subst hc
      rw [stripGroup_zero_cons]
      cases g with
      | nil => simp [stripGroup]
      | cons d g2 =>
        have := ih (by simp)
        simp only [List.length_cons] at this ⊢
        omega
    · rw [stripGroup_cons_ne c g hc]
      simp

theorem stripGroup_digits (g : Str) (hg : ∀ c ∈ g, isDigit c = true) :
    ∀ c ∈ stripGroup g, isDigit c = true := by
  induction g with
  | nil => intro c hc; simp [stripGroup] at hc; subst hc; rfl
  | cons d g ih =>
    by_cases hd : d = 48
    · subst hd
      rw [stripGroup_zero_cons]
      exact ih (fun c hc => hg c (List.mem_cons_of_mem _ hc))
    · rw [stripGroup_cons_ne d g hd]
      exact hg

theorem stripGroup_idem (g : Str) : stripGroup (stripGroup g) = stripGroup g := by
  induction g with
  | nil => rfl
  | cons d g ih =>
    by_cases hd : d = 48
    · subst hd
      rw [stripGroup_zero_cons, ih]
    · rw [stripGroup_cons_ne d g hd, stripGroup_cons_ne d g hd]

theorem isOctet_stripGroup {g : Str} (h : IsOctet g) : IsOctet (stripGroup g) := by
  obtain ⟨h1, h2, h3, h4⟩ := h
  have hne : g ≠ [] := by
    intro h0
    subst h0
    simp at h1
  have hl := stripGroup_length g hne
  exact ⟨hl.1, by omega, stripGroup_digits g h3, by rw [decVal_stripGroup]; exact h4⟩

theorem isOctet_ne_nil {g : Str} (h : IsOctet g) : g ≠ [] ∧ ∀ c ∈ g, isDigit c = true := by
  refine ⟨?_, h.2.2.1⟩
  intro h0
  subst h0
  have := h.1
  simp at this

theorem count_dot_digits (g : Str) (hg : ∀ c ∈ g, isDigit c = true) : g.count 46 = 0 := by
  rw [List.count_eq_zero]
  intro hm
  have := hg 46 hm
  simp [isDigit] at this

theorem count_dot_dotted (g1 g2 g3 g4 : Str) (h1 : IsOctet g1) (h2 : IsOctet g2)
    (h3 : IsOctet g3) (h4 : IsOctet g4) : (dotted g1 g2 g3 g4).count 46 = 3 := by
  simp [dotted, List.count_append, count_dot_digits _ h1.2.2.1, count_dot_digits _ h2.2.2.1,
    count_dot_digits _ h3.2.2.1, count_dot_digits _ h4.2.2.1]

theorem normalizeIPv4_dotted (g1 g2 g3 g4 : Str) (h1 : IsOctet g1) (h2 : IsOctet g2)
    (h3 : IsOctet g3) (h4 : IsOctet g4) :
    normalizeIPv4 (dotted g1 g2 g3 g4)
      = { host := dotted (stripGroup g1) (stripGroup g2) (stripGroup g3) (stripGroup g4),
          isIPV4 := true } := by
  have hre : ipv4Regex (dotted g1 g2 g3 g4) = true :=
    (ipv4Regex_iff _).mpr ⟨g1, g2, g3, g4, h1, h2, h3, h4, rfl⟩
  have hne : dotted g1 g2 g3 g4 ≠ [] := by
    have := (isOctet_ne_nil h1).1
    cases g1 with
    | nil => exact absurd rfl this
    | cons c r => simp [dotted]
  unfold normalizeIPv4
  rw [findToken_eq_count, count_dot_dotted g1 g2 g3 g4 h1 h2 h3 h4]
  simp only [Nat.lt_irrefl, if_false, hre, hne, ne_eq, not_false_eq_true, and_self, if_true]
  rw [stripLeadingZeros_dotted g1 g2 g3 g4 (isOctet_ne_nil h1) (isOctet_ne_nil h2)
    (isOctet_ne_nil h3) (isOctet_ne_nil h4)]

theorem normalizeIPv4_false (h : Str) (hf : (normalizeIPv4 h).isIPV4 = false) :
    (normalizeIPv4 h).host = h := by
  unfold normalizeIPv4 at hf ⊢
  split
  · rfl
  · rename_i h3
    rw [if_neg h3] at hf
    split
    · rename_i hre
      rw [if_pos hre] at hf
      cases hf
    · rfl

/-- C13: `normalizeIPv4(h)` reports `isIPV4 = true` exactly when `h` consists of four groups
of one to three decimal digits with a value of at most 255, separated by `.`; the host is
then the four groups with their leading zeros removed (an all-zero group becoming `0`), each
of the same numeric value as before; in every other case, a host with fewer than three `.`
included, the host is returned unchanged with `isIPV4 = false`.  `192.068.001.1` gives
`192.68.1.1`, and `1.2.3` is unchanged. -/
theorem normalizeIPv4_spec (h : Str) :
    ((normalizeIPv4 h).isIPV4 = true ↔
      ∃ g1 g2 g3 g4, IsOctet g1 ∧ IsOctet g2 ∧ IsOctet g3 ∧ IsOctet g4
        ∧ h = dotted g1 g2 g3 g4)
    ∧ (∀ g1 g2 g3 g4, IsOctet g1 → IsOctet g2 → IsOctet g3 → IsOctet g4 →
        h = dotted g1 g2 g3 g4 →
        normalizeIPv4 h
          = { host := dotted (stripGroup g1) (stripGroup g2) (stripGroup g3) (stripGroup g4),
              isIPV4 := true }
        ∧ decVal (stripGroup g1) = decVal g1 ∧ decVal (stripGroup g2) = decVal g2
        ∧ decVal (stripGroup g3) = decVal g3 ∧ decVal (stripGroup g4) = decVal g4)
    ∧ ((normalizeIPv4 h).isIPV4 = false → normalizeIPv4 h = { host := h, isIPV4 := false })
    ∧ (h.count 46 < 3 → normalizeIPv4 h = { host := h, isIPV4 := false })
    ∧ normalizeIPv4 (lit "192.068.001.1") = { host := lit "192.68.1.1", isIPV4 := true }
    ∧ normalizeIPv4 (lit "1.2.3") = { host := lit "1.2.3", isIPV4 := false } := by
  refine ⟨⟨?_, ?_⟩, ?_, ?_, ?_, by decide, by decide⟩
  · intro ht
    apply (ipv4Regex_iff h).mp
    unfold normalizeIPv4 at ht
    split at ht
    · cases ht
    · split at ht
      · rename_i hre
        exact hre.1
      · cases ht
  · rintro ⟨g1, g2, g3, g4, h1, h2, h3, h4, rfl⟩
    rw [normalizeIPv4_dotted g1 g2 g3 g4 h1 h2 h3 h4]
  · rintro g1 g2 g3 g4 h1 h2 h3 h4 rfl
    exact ⟨normalizeIPv4_dotted g1 g2 g3 g4 h1 h2 h3 h4, decVal_stripGroup g1,
      decVal_stripGroup g2, decVal_stripGroup g3, decVal_stripGroup g4⟩
  · intro hf
    have hh := normalizeIPv4_false h hf
    cases hn : normalizeIPv4 h with
    | mk host is4 =>
      rw [hn] at hf hh
      simp only at hf hh
      rw [hf, hh]
  · exact fun hc => normalizeIPv4_of_count hc

theorem normalizeIPv4_spec_witness :
    IsOctet (lit "010") ∧ IsOctet (lit "0") ∧ IsOctet (lit "000") ∧ IsOctet (lit "255")
    ∧ normalizeIPv4 (lit "010.0.000.255") = { host := lit "10.0.0.255", isIPV4 := true }
    ∧ decVal (lit "10") = decVal (lit "010") :=
  have h := (normalizeIPv4_spec (lit "010.0.000.255")).2.1 (lit "010") (lit "0") (lit "000")
    (lit "255") (by decide) (by decide) (by decide) (by decide) (by decide)
  ⟨by decide, by decide, by decide, by decide, h.1.trans (by decide), h.2.1⟩

/-! ## The loop of `getIPV6` as a recursion -/

theorem v6Step_eq_char (pre : Str) (c : Nat) (rest : Str) (st : V6State) :
    v6Step (pre ++ c :: rest) st pre.length = v6Char (decide (pre.getLast? = some 58)) c st := by
  have h0 : (pre ++ c :: rest).getD pre.length 0 = c := by
    rw [List.getD_eq_getElem?_getD, List.getElem?_append_right (Nat.le_refl _)]
    simp
  have h1 : (pre.length ≥ 1 ∧ (pre ++ c :: rest).get? (pre.length - 1) = some 58)
      ↔ pre.getLast? = some 58 := by
    cases hp : pre.length with
    | zero =>
      have : pre = [] := List.length_eq_zero.mp hp
      subst this
      simp
    | succ n =>
      have hlt : n < pre.length := by omega
      rw [List.get?_eq_getElem?, List.getLast?_eq_getElem?, hp]
      simp only [Nat.add_sub_cancel, ge_iff_le, Nat.le_add_left, true_and]
      rw [List.getElem?_append_left hlt]
  unfold v6Step v6Char
  simp only [h0, h1]

theorem v6Fold_eq_run (suf : Str) :
    ∀ (pre : Str) (st : V6State),
      (List.range' pre.length suf.length).foldl (v6Step (pre ++ suf)) st
        = v6Run pre.getLast? suf st := by
  induction suf with
  | nil => intro pre st; rfl
  | cons c rest ih =>
    intro pre st
    have hpre : pre ++ c :: rest = (pre ++ [c]) ++ rest := by simp
    have hlen : pre.length + 1 = (pre ++ [c]).length := by simp
    rw [List.length_cons, List.range'_succ, List.foldl_cons, v6Step_eq_char, v6Run]
    rw [hpre, hlen, ih (pre ++ [c]) _]
    simp

theorem v6Run_stopped (s : Str) : ∀ (p : Option Nat) (st : V6State), st.stopped = true →
    v6Run p s st = st := by
  induction s with
  | nil => intro p st _; rfl
  | cons c rest ih =>
    intro p st h
    rw [v6Run]
    have : v6Char (decide (p = some 58)) c st = st := by simp [v6Char, h]
    rw [this]
    exact ih _ st h

/-- A state of `getIPV6` that has met no error, and its live part. -/
theorem v6Consume_live (st : V6State) :
    match liveConsume st.live with
    | some m => (v6Consume st).1 = true ∧ (v6Consume st).2.live = m
        ∧ (v6Consume st).2.stopped = st.stopped ∧ (v6Consume st).2.error = st.error
        ∧ (v6Consume st).2.zone = st.zone
    | none => (v6Consume st).1 = false ∧ (v6Consume st).2.error = true := by
  unfold liveConsume v6Consume
  simp only [V6State.live]
  by_cases hb : st.buffer = []
  · simp [hb]
  · have hb2 : st.buffer.length ≠ 0 := fun h => hb (List.length_eq_zero.mp h)
    by_cases hz : st.isZone = false
    · simp only [hb, hz, ne_eq, not_false_eq_true, and_self, if_true, hb2]
      cases stringToHexStripped st.buffer with
      | none => simp
      | some hex => simp
    · simp [hb, hz, hb2]

theorem v6Char_live (a : Bool) (c : Nat) (st : V6State) (hs : st.stopped = false)
    (he : st.error = false) (hz : st.zone = []) :
    match liveChar a c st.live with
    | some m => (v6Char a c st).live = m ∧ (v6Char a c st).stopped = false
        ∧ (v6Char a c st).error = false ∧ (v6Char a c st).zone = []
    | none => (v6Char a c st).stopped = true ∧ (v6Char a c st).error = true := by
  unfold liveChar v6Char
  simp only [hs, Bool.false_eq_true, if_false]
  by_cases hbr : c = 91 ∨ c = 93
  · simp [hbr, hs, he, hz]
  · simp only [hbr, if_false]
    by_cases h58 : c = 58
    · simp only [h58, if_true]
      unfold v6Colon
      simp only
      have hc := v6Consume_live
        (if st.endipv6Encountered = true then { st with endIpv6 := true } else st)
      have hlive : (if st.endipv6Encountered = true then { st with endIpv6 := true } else st).live
          = { st.live with endIpv6 := st.live.endIpv6 || st.live.endipv6Encountered } := by
        by_cases hE : st.endipv6Encountered = true <;> simp [V6State.live, hE]
      have hst : (if st.endipv6Encountered = true then { st with endIpv6 := true } else st).stopped
          = false := by
        by_cases hE : st.endipv6Encountered = true <;> simp [hE, hs]
      have her : (if st.endipv6Encountered = true then { st with endIpv6 := true } else st).error
          = false := by
        by_cases hE : st.endipv6Encountered = true <;> simp [hE, he]
      have hzo : (if st.endipv6Encountered = true then { st with endIpv6 := true } else st).zone
          = [] := by
        by_cases hE : st.endipv6Encountered = true <;> simp [hE, hz]
      rw [hlive] at hc
      generalize (if st.endipv6Encountered = true then { st with endIpv6 := true } else st)
        = st1 at hc hst her hzo
      cases hl : liveConsume
          { st.live with endIpv6 := st.live.endIpv6 || st.live.endipv6Encountered } with
      | none =>
        rw [hl] at hc
        simp [hc.1, hc.2]
      | some m1 =>
        rw [hl] at hc
        obtain ⟨c1, c2, c3, c4, c5⟩ := hc
        subst c2
        simp only [c1, Bool.true_eq_false, if_false, Option.bind_some]
        by_cases h7 : (v6Consume st1).2.tokenCount + 1 > 7
        · have h7b : 7 < (v6Consume st1).2.tokenCount + 1 := h7
          simp [V6State.live, h7b]
        · have h7b : ¬ 7 < (v6Consume st1).2.tokenCount + 1 := h7
          by_cases ha : a = true
          · simp [ha, V6State.live, c3, c4, c5, hst, her, hzo, h7b]
          · simp [ha, V6State.live, c3, c4, c5, hst, her, hzo, h7b]
    · simp only [h58, if_false]
      by_cases h37 : c = 37
      · simp only [h37, if_true]
        unfold v6Percent
        simp only
        have hc := v6Consume_live st
        cases hl : liveConsume st.live with
        | none =>
          rw [hl] at hc
          simp [hc.1, hc.2]
        | some m1 =>
          rw [hl] at hc
          obtain ⟨c1, c2, c3, c4, c5⟩ := hc
          simp only [c1, Bool.true_eq_false, if_false, Option.map_some']
          rw [← c2]
          simp [V6State.live, c3, c4, c5, hs, he, hz]
      · simp [h37, V6State.live, hs, he, hz]

theorem v6Run_live (s : Str) :
    ∀ (p : Option Nat) (st : V6State), st.stopped = false → st.error = false → st.zone = [] →
      match liveRun p s st.live with
      | some m => (v6Run p s st).live = m ∧ (v6Run p s st).stopped = false
          ∧ (v6Run p s st).error = false ∧ (v6Run p s st).zone = []
      | none => (v6Run p s st).error = true := by
  induction s with
  | nil => intro p st hs he hz; exact ⟨rfl, hs, he, hz⟩
  | cons c rest ih =>
    intro p st hs he hz
    rw [liveRun, v6Run]
    have hc := v6Char_live (decide (p = some 58)) c st hs he hz
    cases hl : liveChar (decide (p = some 58)) c st.live with
    | none =>
      rw [hl] at hc
      rw [v6Run_stopped rest _ _ hc.1]
      exact hc.2
    | some m1 =>
      rw [hl] at hc
      obtain ⟨c1, c2, c3, c4⟩ := hc
      have := ih (some c) _ c2 c3 c4
      rw [c1] at this
      simpa using this

/-- The result of `getIPV6` in terms of the run on live states. -/
theorem getIPV6_live (input : Str) :
    match liveRun none input V6Live.start with
    | some m => getIPV6 input
        = { error := false, address := (liveFinish m).1, zone := (liveFinish m).2 }
    | none => (getIPV6 input).error = true := by
  have hfold : (List.range input.length).foldl (v6Step input) {} = v6Run none input {} := by
    rw [List.range_eq_range']
    have := v6Fold_eq_run input [] {}
    simpa using this
  have hrun := v6Run_live input none {} rfl rfl rfl
  have hstart : ({} : V6State).live = V6Live.start := rfl
  rw [hstart] at hrun
  unfold getIPV6
  rw [hfold]
  cases hl : liveRun none input V6Live.start with
  | none =>
    rw [hl] at hrun
    simp only at hrun ⊢
    split <;> (try split) <;> (try split) <;> simp [hrun]
  | some m =>
    rw [hl] at hrun
    obtain ⟨c1, c2, c3, c4⟩ := hrun
    simp only
    generalize v6Run none input {} = st at c1 c2 c3 c4
    subst c1
    unfold liveFinish
    simp only [V6State.live]
    by_cases hb : st.buffer = []
    · simp [hb, c3, c4]
    · have hb2 : st.buffer.length ≠ 0 := fun h => hb (List.length_eq_zero.mp h)
      simp only [hb2, ne_eq, not_false_eq_true, if_true, hb]
      by_cases hz : st.isZone = true
      · simp [hz, c3]
      · by_cases hF : st.endIpv6 = true
        · simp [hz, hF, c3, c4]
        · simp [hz, hF, c3, c4]

/-! ## `stringToHexStripped` in closed form -/

theorem hexStrippedLoop_spec (s : Str) :
    ∀ (acc : Str) (strip : Bool),
      hexStrippedLoop s acc strip
        = if ∀ c ∈ s, HEX c ≠ none then
            some (acc ++ if strip then s.dropWhile (fun c => c = 48) else s)
          else none := by
  induction s with
  | nil => intro acc strip; cases strip <;> simp [hexStrippedLoop]
  | cons d t ih =>
    intro acc strip
    rw [hexStrippedLoop]
    by_cases hd : HEX d = none
    · simp [hd]
    · simp only [hd, if_false, List.mem_cons, forall_eq_or_imp, ne_eq, not_false_eq_true, true_and]
      rw [ih]
      by_cases hall : ∀ c ∈ t, HEX c ≠ none
      · simp only [hall, ne_eq, not_false_eq_true, implies_true, if_true]
        cases strip with
        | false => simp
        | true =>
          by_cases h48 : d = 48
          · simp [h48, List.dropWhile]
          · simp [h48, List.dropWhile]
      · simp only [ne_eq] at hall
        simp [hall]

theorem stringToHexStripped_spec (b : Str) :
    stringToHexStripped b
      = if ∀ c ∈ b, HEX c ≠ none then some (b.dropWhile (fun c => c = 48)) else none := by
  unfold stringToHexStripped
  rw [hexStrippedLoop_spec]
  simp

theorem dropWhile_dropWhile (p : Nat → Bool) (l : Str) :
    (l.dropWhile p).dropWhile p = l.dropWhile p := by
  induction l with
  | nil => rfl
  | cons c t ih =>
    by_cases hc : p c = true
    · rw [List.dropWhile_cons_of_pos hc, ih]
    · rw [List.dropWhile_cons_of_neg hc, List.dropWhile_cons_of_neg hc]

/-- A stripped group is its own stripped form. -/
theorem stringToHexStripped_idem (b x : Str) (h : stringToHexStripped b = some x) :
    stringToHexStripped x = some x := by
  rw [stringToHexStripped_spec] at h
  split at h
  · rename_i hall
    cases h
    rw [stringToHexStripped_spec]
    have hsub : ∀ c ∈ b.dropWhile (fun c => c = 48), HEX c ≠ none :=
      fun c hc => hall c (dropWhile_sub _ _ hc)
    rw [if_pos hsub, dropWhile_dropWhile]
  · cases h

theorem hex_plain (c : Nat) (h : HEX c ≠ none) : v6Plain c := by
  unfold HEX hexVal at h
  unfold v6Plain
  split_ifs at h <;> first | omega | exact absurd rfl h

theorem stringToHexStripped_plain (b x : Str) (h : stringToHexStripped b = some x) :
    ∀ c ∈ x, v6Plain c := by
  rw [stringToHexStripped_spec] at h
  split at h
  · rename_i hall
    cases h
    exact fun c hc => hex_plain c (hall c (dropWhile_sub _ _ hc))
  · cases h

/-! ## Runs on live states -/

theorem prevOf_none (x : Str) : prevOf none x = x.getLast? := by
  unfold prevOf
  cases x.getLast? <;> rfl

theorem prevOf_cons (p : Option Nat) (c : Nat) (x : Str) :
    prevOf p (c :: x) = prevOf (some c) x := by
  unfold prevOf
  cases x with
  | nil => rfl
  | cons d t =>
    rw [List.getLast?_cons_cons]
    cases h : (d :: t).getLast? with
    | some e => rfl
    | none => simp at h

theorem prevOf_append (p : Option Nat) (x y : Str) :
    prevOf p (x ++ y) = prevOf (prevOf p x) y := by
  induction x generalizing p with
  | nil => rfl
  | cons c t ih => rw [List.cons_append, prevOf_cons, prevOf_cons, ih]

theorem liveRun_append (x y : Str) :
    ∀ (p : Option Nat) (m : V6Live),
      liveRun p (x ++ y) m = (liveRun p x m).bind (liveRun (prevOf p x) y) := by
  induction x with
  | nil => intro p m; rfl
  | cons c t ih =>
    intro p m
    rw [List.cons_append, liveRun, liveRun, prevOf_cons]
    cases liveChar (decide (p = some 58)) c m with
    | none => rfl
    | some m1 => exact ih _ _

theorem liveChar_plain (a : Bool) (c : Nat) (m : V6Live) (hc : v6Plain c) :
    liveChar a c m = some { m with buffer := m.buffer ++ [c] } := by
  obtain ⟨h1, h2, h3, h4⟩ := hc
  simp [liveChar, h1, h2, h3, h4]

theorem liveRun_plain (x : Str) :
    ∀ (p : Option Nat) (m : V6Live), (∀ c ∈ x, v6Plain c) →
      liveRun p x m = some { m with buffer := m.buffer ++ x } := by
  induction x with
  | nil => intro p m _; simp [liveRun]
  | cons c t ih =>
    intro p m h
    rw [liveRun, liveChar_plain _ c m (h c (List.mem_cons_self _ _))]
    show liveRun (some c) t _ = _
    rw [ih _ _ (fun d hd => h d (List.mem_cons_of_mem _ hd))]
    simp

theorem liveConsume_valid (m : V6Live) (hz : m.isZone = false)
    (hb : stringToHexStripped m.buffer = some m.buffer) :
    liveConsume m = some { m with address := m.address ++ m.buffer, buffer := [] } := by
  unfold liveConsume
  by_cases hne : m.buffer = []
  · simp [hne]
  · simp [hne, hz, hb]

theorem liveChar_colon_valid (a : Bool) (m : V6Live) (hz : m.isZone = false)
    (hb : stringToHexStripped m.buffer = some m.buffer) (htc : m.tokenCount + 1 ≤ 7) :
    liveChar a 58 m = some
      { tokenCount := m.tokenCount + 1, address := m.address ++ m.buffer ++ [58], buffer := [],
        isZone := false, endipv6Encountered := m.endipv6Encountered || a,
        endIpv6 := m.endIpv6 || m.endipv6Encountered } := by
  unfold liveChar
  have hc := liveConsume_valid { m with endIpv6 := m.endIpv6 || m.endipv6Encountered } hz hb
  have h7 : ¬ 7 < m.tokenCount + 1 := by omega
  simp only [hc] at *
  simp [hc, h7, hz]

theorem liveChar_percent_valid (a : Bool) (m : V6Live) (hz : m.isZone = false)
    (hb : stringToHexStripped m.buffer = some m.buffer) :
    liveChar a 37 m = some { m with address := m.address ++ m.buffer, buffer := [],
                                    isZone := true } := by
  unfold liveChar
  simp [liveConsume_valid m hz hb]

/-- What `consume` pushes in a run that goes on. -/
theorem liveConsume_some (m mc : V6Live) (h : liveConsume m = some mc) :
    ∃ k : Str, mc = { m with address := m.address ++ k, buffer := [] }
      ∧ ((m.buffer ≠ [] ∧ m.isZone = false ∧ stringToHexStripped m.buffer = some k)
        ∨ ((m.buffer = [] ∨ m.isZone = true) ∧ k = [])) := by
  unfold liveConsume at h
  split at h
  · rename_i hc
    cases hs : stringToHexStripped m.buffer with
    | none => rw [hs] at h; cases h
    | some hex =>
      rw [hs] at h
      simp only [Option.map_some', Option.some.injEq] at h
      exact ⟨hex, h.symm, Or.inl ⟨hc.1, hc.2, rfl⟩⟩
  · rename_i hc
    simp only [Option.some.injEq] at h
    refine ⟨[], by simp [← h], Or.inr ⟨?_, rfl⟩⟩
    by_cases hb : m.buffer = []
    · exact Or.inl hb
    · right
      by_contra hz
      exact hc ⟨hb, by simpa using hz⟩

theorem option_bind_some_inv {α β : Type} {o : Option α} {f : α → Option β} {b : β}
    (h : o.bind f = some b) : ∃ a, o = some a ∧ f a = some b := by
  cases o with
  | none => cases h
  | some a => exact ⟨a, rfl, h⟩

/-- One iteration of the first run is matched by the second run on what the iteration adds
to the address. -/
theorem live_step (m1 m2 m1' : V6Live) (p1 : Option Nat) (c : Nat)
    (hsim : V6Sim m1 p1 m2) (hrun : liveRun none m1.address V6Live.start = some m2)
    (hstep : liveChar (decide (p1 = some 58)) c m1 = some m1') :
    ∃ m2', liveRun none m1'.address V6Live.start = some m2' ∧ V6Sim m1' (some c) m2' := by
  obtain ⟨i3, i4, i5, i6, i7, i8e, i8f, i9, i10, i11⟩ := hsim
  have hvalid : ∀ k : Str,
      ((m1.buffer ≠ [] ∧ m1.isZone = false ∧ stringToHexStripped m1.buffer = some k)
        ∨ ((m1.buffer = [] ∨ m1.isZone = true) ∧ k = [])) →
      (∀ d ∈ k, v6Plain d)
      ∧ stringToHexStripped (m2.buffer ++ k) = some (m2.buffer ++ k) := by
    intro k hk
    rcases hk with ⟨-, hz, hs⟩ | ⟨-, rfl⟩
    · refine ⟨stringToHexStripped_plain _ _ hs, ?_⟩
      rw [i6 hz, List.nil_append]
      exact stringToHexStripped_idem _ _ hs
    · exact ⟨by simp, by simpa using i5⟩
  by_cases hbr : c = 91 ∨ c = 93
  · have : m1' = m1 := by
      simp only [liveChar, hbr, if_true, Option.some.injEq] at hstep
      exact hstep.symm
    subst this
    refine ⟨m2, hrun, i3, i4, i5, i6, i7, i8e, i8f, ?_, i10, i11⟩
    intro h
    simp only [Option.some.injEq] at h
    omega
  · by_cases h58 : c = 58
    · subst h58
      simp only [liveChar, hbr, if_false, if_true] at hstep
      obtain ⟨mc, hcons, hmc⟩ := option_bind_some_inv hstep
      obtain ⟨k, hk, hcase⟩ := liveConsume_some _ _ hcons
      subst hk
      simp only at hmc hcase
      split at hmc
      · cases hmc
      · rename_i h7
        simp only [Option.some.injEq] at hmc
        subst hmc
        obtain ⟨hkp, hkv⟩ := hvalid k hcase
        have htc : m2.tokenCount + 1 ≤ 7 := by rw [i7]; omega
        have hr2 : liveRun none (m1.address ++ k ++ [58]) V6Live.start = some
            { tokenCount := m2.tokenCount + 1,
              address := m2.address ++ (m2.buffer ++ k) ++ [58], buffer := [],
              isZone := false,
              endipv6Encountered := m2.endipv6Encountered
                || decide (prevOf (prevOf none m1.address) k = some 58),
              endIpv6 := m2.endIpv6 || m2.endipv6Encountered } := by
          rw [List.append_assoc, liveRun_append, hrun, Option.some_bind, liveRun_append,
            liveRun_plain k _ _ hkp, Option.some_bind, liveRun]
          rw [liveChar_colon_valid _ { m2 with buffer := m2.buffer ++ k } i3 hkv htc]
          rfl
        refine ⟨_, hr2, rfl, ?_, rfl, fun _ => rfl, by simpa using i7, ?_, ?_, ?_, ?_, ?_⟩
        · simp only [List.append_nil, List.append_assoc]
          rw [← i4]
          simp
        · intro hE
          simp only [Bool.or_eq_true, decide_eq_true_eq] at hE ⊢
          rcases hE with hE | ha
          · exact Or.inl (i8e hE)
          · right
            obtain ⟨hlast, hbuf⟩ := i9 ha
            have hk0 : k = [] := by
              rcases hcase with ⟨hne, -, -⟩ | ⟨-, h0⟩
              · exact absurd hbuf hne
              · exact h0
            subst hk0
            rw [prevOf_none]
            exact hlast
        · intro hF
          simp only [Bool.or_eq_true] at hF ⊢
          rcases hF with hF | hE
          · exact Or.inl (i8f hF)
          · exact Or.inr (i8e hE)
        · intro _
          exact ⟨by simp, rfl⟩
        · intro d hd
          cases hd
        · intro _
          simp
    · by_cases h37 : c = 37
      · subst h37
        simp only [liveChar, hbr, h58, if_false, if_true] at hstep
        cases hcons : liveConsume m1 with
        | none => rw [hcons] at hstep; cases hstep
        | some mc =>
          rw [hcons] at hstep
          simp only [Option.map_some', Option.some.injEq] at hstep
          subst hstep
          obtain ⟨k, hk, hcase⟩ := liveConsume_some _ _ hcons
          subst hk
          obtain ⟨hkp, hkv⟩ := hvalid k hcase
          have hr2 : liveRun none (m1.address ++ k) V6Live.start
              = some { m2 with buffer := m2.buffer ++ k } := by
            rw [liveRun_append, hrun, Option.some_bind, liveRun_plain k _ _ hkp]
          refine ⟨_, hr2, i3, ?_, hkv, ?_, i7, i8e, i8f, ?_, ?_, ?_⟩
          · simp only
            rw [← i4]
            simp
          · intro hz
            cases hz
          · intro h
            cases h
          · intro d hd
            cases hd
          · intro h1
            exact List.mem_append_left _ (i11 h1)
      · have hp : v6Plain c := by
          refine ⟨h58, h37, ?_, ?_⟩
          · exact fun h => hbr (Or.inl h)
          · exact fun h => hbr (Or.inr h)
        rw [liveChar_plain _ c m1 hp] at hstep
        simp only [Option.some.injEq] at hstep
        subst hstep
        refine ⟨m2, hrun, i3, i4, i5, i6, i7, i8e, i8f, ?_, ?_, i11⟩
        · intro h
          simp only [Option.some.injEq] at h
          exact absurd h h58
        · intro d hd
          rcases List.mem_append.mp hd with hd | hd
          · exact i10 d hd
          · simp only [List.mem_singleton] at hd
            exact hd ▸ hp

/-- The second run follows the first through the whole input. -/
theorem live_sim (s : Str) :
    ∀ (p1 : Option Nat) (m1 m2 mf : V6Live), V6Sim m1 p1 m2 →
      liveRun none m1.address V6Live.start = some m2 → liveRun p1 s m1 = some mf →
      ∃ m2f, liveRun none mf.address V6Live.start = some m2f ∧ V6Sim mf (prevOf p1 s) m2f := by
  induction s with
  | nil =>
    intro p1 m1 m2 mf hsim hrun hs
    simp only [liveRun, Option.some.injEq] at hs
    subst hs
    exact ⟨m2, hrun, hsim⟩
  | cons c rest ih =>
    intro p1 m1 m2 mf hsim hrun hs
    rw [liveRun] at hs
    obtain ⟨m1', hstep, hrest⟩ := option_bind_some_inv hs
    obtain ⟨m2', hrun', hsim'⟩ := live_step m1 m2 m1' p1 c hsim hrun hstep
    rw [prevOf_cons]
    exact ih (some c) m1' m2' mf hsim' hrun' hrest

theorem live_sim_start : V6Sim V6Live.start none V6Live.start := by
  refine ⟨rfl, rfl, rfl, fun _ => rfl, rfl, fun h => h, fun h => h, ?_, ?_, ?_⟩
  · intro h; cases h
  · intro c hc; cases hc
  · intro h; simp [V6Live.start] at h

theorem liveChar_tokenCount (a : Bool) (c : Nat) (m m' : V6Live)
    (h : liveChar a c m = some m') :
    m'.tokenCount = m.tokenCount + (if c = 58 then 1 else 0) := by
  unfold liveChar at h
  by_cases hbr : c = 91 ∨ c = 93
  · have hc : c ≠ 58 := by omega
    simp only [hbr, if_true, Option.some.injEq] at h
    subst h
    simp [hc]
  · simp only [hbr, if_false] at h
    by_cases h58 : c = 58
    · simp only [h58, if_true] at h ⊢
      obtain ⟨mc, hcons, hmc⟩ := option_bind_some_inv h
      obtain ⟨k, hk, -⟩ := liveConsume_some _ _ hcons
      subst hk
      split at hmc
      · cases hmc
      · simp only [Option.some.injEq] at hmc
        subst hmc
        rfl
    · simp only [h58, if_false] at h ⊢
      by_cases h37 : c = 37
      · simp only [h37, if_true] at h
        cases hcons : liveConsume m with
        | none => rw [hcons] at h; cases h
        | some mc =>
          rw [hcons] at h
          obtain ⟨k, hk, -⟩ := liveConsume_some _ _ hcons
          subst hk
          simp only [Option.map_some', Option.some.injEq] at h
          subst h
          rfl
      · simp only [h37, if_false, Option.some.injEq] at h
        subst h
        rfl

theorem liveRun_tokenCount (s : Str) :
    ∀ (p : Option Nat) (m mf : V6Live), liveRun p s m = some mf →
      mf.tokenCount = m.tokenCount + s.count 58 := by
  induction s with
  | nil =>
    intro p m mf h
    simp only [liveRun, Option.some.injEq] at h
    subst h
    simp
  | cons c rest ih =>
    intro p m mf h
    rw [liveRun] at h
    obtain ⟨m', hstep, hrest⟩ := option_bind_some_inv h
    rw [ih _ _ _ hrest, liveChar_tokenCount _ _ _ _ hstep, List.count_cons]
    by_cases hc : c = 58
    · simp [hc]; omega
    · simp [hc]

theorem liveFinish_fst (m : V6Live) : ∃ t, (liveFinish m).1 = m.address ++ t := by
  unfold liveFinish
  split
  · split
    · exact ⟨[], by simp⟩
    · split
      · exact ⟨_, rfl⟩
      · exact ⟨_, rfl⟩
  · exact ⟨[], by simp⟩

theorem hostOf_mem (m : V6Live) (c : Nat) (h : c ∈ m.address) : c ∈ hostOf (liveFinish m) := by
  obtain ⟨t, ht⟩ := liveFinish_fst m
  unfold hostOf
  split
  · rw [ht]; simp [h]
  · rw [ht]; simp [h]

/-- The second run, continued over what `getIPV6` appends behind its loop, composes the same
host. -/
theorem live_finish (mf m2f : V6Live) (p : Option Nat) (hsim : V6Sim mf p m2f)
    (hrun : liveRun none mf.address V6Live.start = some m2f) :
    ∃ m3, liveRun none (hostOf (liveFinish mf)) V6Live.start = some m3
      ∧ hostOf (liveFinish m3) = hostOf (liveFinish mf) := by
  obtain ⟨i3, i4, i5, i6, i7, i8e, i8f, i9, i10, i11⟩ := hsim
  have hs2 : (stringToHexStripped m2f.buffer).getD [] = m2f.buffer := by rw [i5]; rfl
  by_cases hb : mf.buffer = []
  · -- nothing is left in the buffer
    have hout : hostOf (liveFinish mf) = mf.address := by simp [hostOf, liveFinish, hb]
    rw [hout]
    refine ⟨m2f, hrun, ?_⟩
    unfold liveFinish hostOf
    by_cases hb2 : m2f.buffer = []
    · simp [hb2, ← i4]
    · by_cases hF : m2f.endIpv6 = true
      · simp [hb2, i3, hF, i4]
      · simp [hb2, i3, hF, hs2, i4]
  · by_cases hz : mf.isZone = true
    · -- the buffer is the zone
      have hout : hostOf (liveFinish mf) = mf.address ++ (37 :: mf.buffer) := by
        simp [hostOf, liveFinish, hb, hz]
      rw [hout]
      have hr3 : liveRun none (mf.address ++ (37 :: mf.buffer)) V6Live.start = some
          { m2f with address := m2f.address ++ m2f.buffer, buffer := mf.buffer,
                     isZone := true } := by
        rw [liveRun_append, hrun, Option.some_bind, liveRun,
          liveChar_percent_valid _ m2f i3 i5, Option.some_bind, liveRun_plain _ _ _ i10]
        simp
      refine ⟨_, hr3, ?_⟩
      simp [hostOf, liveFinish, hb, i4]
    · -- the buffer is the last group
      have hz2 : mf.isZone = false := by simpa using hz
      have hb2 : m2f.buffer = [] := i6 hz2
      have ha2 : m2f.address = mf.address := by rw [← i4, hb2]; simp
      have key : ∀ last : Str, (∀ c ∈ last, v6Plain c) →
          (last ≠ [] → m2f.endIpv6 = false → stringToHexStripped last = some last) →
          hostOf (liveFinish mf) = mf.address ++ last →
          ∃ m3, liveRun none (hostOf (liveFinish mf)) V6Live.start = some m3
            ∧ hostOf (liveFinish m3) = hostOf (liveFinish mf) := by
        intro last hplain hvalid hout
        rw [hout]
        have hr3 : liveRun none (mf.address ++ last) V6Live.start
            = some { m2f with buffer := m2f.buffer ++ last } := by
          rw [liveRun_append, hrun, Option.some_bind, liveRun_plain _ _ _ hplain]
        refine ⟨_, hr3, ?_⟩
        unfold liveFinish hostOf
        simp only [hb2, List.nil_append, i3, Bool.false_eq_true, if_false, ha2]
        by_cases hl : last = []
        · simp [hl]
        · by_cases hF : m2f.endIpv6 = true
          · simp [hl, hF]
          · have hF2 : m2f.endIpv6 = false := by simpa using hF
            simp [hl, hF, hvalid hl hF2]
      by_cases hF : mf.endIpv6 = true
      · refine key mf.buffer i10 ?_ (by simp [hostOf, liveFinish, hb, hz, hF])
        intro _ hF2
        rw [i8f hF] at hF2
        cases hF2
      · cases hs : stringToHexStripped mf.buffer with
        | none =>
          refine key [] (by simp) (fun h => absurd rfl h) ?_
          simp [hostOf, liveFinish, hb, hz, hF, hs]
        | some x =>
          refine key x (stringToHexStripped_plain _ _ hs)
            (fun _ _ => stringToHexStripped_idem _ _ hs) ?_
          simp [hostOf, liveFinish, hb, hz, hF, hs]

theorem normalizeIPv6_of_live (x : Str) (m : V6Live)
    (h : liveRun none x V6Live.start = some m) :
    (normalizeIPv6 x).host = x ∨ (normalizeIPv6 x).host = hostOf (liveFinish m) := by
  unfold normalizeIPv6
  split
  · exact Or.inl rfl
  · right
    have hg := getIPV6_live x
    rw [h] at hg
    simp only at hg
    rw [hg]
    unfold hostOf
    by_cases hz : (liveFinish m).2 = []
    · simp [hz]
    · simp [hz]

theorem normalizeIPv6_true (h : Str) (h6 : (normalizeIPv6 h).isIPV6 = true) :
    2 ≤ h.count 58 ∧ ∃ m, liveRun none h V6Live.start = some m
      ∧ (normalizeIPv6 h).host = hostOf (liveFinish m) := by
  have hcount : 2 ≤ h.count 58 := by
    by_contra hlt
    rw [normalizeIPv6_of_count (by omega)] at h6
    cases h6
  refine ⟨hcount, ?_⟩
  have hg := getIPV6_live h
  cases hl : liveRun none h V6Live.start with
  | none =>
    rw [hl] at hg
    simp only at hg
    unfold normalizeIPv6 at h6
    rw [findToken_eq_count] at h6
    simp [show ¬ h.count 58 < 2 by omega, hg] at h6
  | some m =>
    refine ⟨m, rfl, ?_⟩
    rw [hl] at hg
    simp only at hg
    unfold normalizeIPv6
    rw [findToken_eq_count]
    simp only [show ¬ h.count 58 < 2 by omega, if_false, hg]
    unfold hostOf
    by_cases hz : (liveFinish m).2 = []
    · simp [hz]
    · simp [hz]

/-- A host that `normalizeIPv6` has composed is left as it is by `normalizeIPv6`, and it
has a `:`. -/
theorem normalizeIPv6_idem (h : Str) (h6 : (normalizeIPv6 h).isIPV6 = true) :
    (normalizeIPv6 (normalizeIPv6 h).host).host = (normalizeIPv6 h).host
    ∧ 58 ∈ (normalizeIPv6 h).host := by
  obtain ⟨hcount, mf, hrun, hhost⟩ := normalizeIPv6_true h h6
  obtain ⟨m2f, hrun2, hsim⟩ :=
    live_sim h none V6Live.start V6Live.start mf live_sim_start rfl hrun
  obtain ⟨m3, hrun3, hout⟩ := live_finish mf m2f _ hsim hrun2
  have htc := liveRun_tokenCount h none V6Live.start mf hrun
  have h58 : 58 ∈ mf.address := by
    obtain ⟨-, -, -, -, -, -, -, -, -, i11⟩ := hsim
    apply i11
    rw [htc]
    simp only [V6Live.start]
    omega
  rw [hhost]
  refine ⟨?_, hostOf_mem mf 58 h58⟩
  rcases normalizeIPv6_of_live _ m3 hrun3 with hh | hh
  · exact hh
  · rw [hh, hout]

theorem normalizeIPv6_false (h : Str) (h6 : (normalizeIPv6 h).isIPV6 = false) :
    (normalizeIPv6 h).host = h := by
  unfold normalizeIPv6 at h6 ⊢
  split
  · rfl
  · rename_i hc
    rw [if_neg hc] at h6
    simp only at h6 ⊢
    split
    · rename_i he
      rw [if_pos he] at h6
      split at h6 <;> cases h6
    · rfl

theorem normalizeIPv4_regex (x : Str) (h : (normalizeIPv4 x).isIPV4 = true) :
    ipv4Regex x = true := by
  unfold normalizeIPv4 at h
  split at h
  · cases h
  · split at h
    · rename_i hre
      exact hre.1
    · cases h

theorem normalizeIPv4_no_colon (x : Str) (h : (normalizeIPv4 x).isIPV4 = true) : 58 ∉ x := by
  intro hm
  rcases ipv4Regex_chars x (normalizeIPv4_regex x h) 58 hm with hd | hd
  · simp [isDigit] at hd
  · cases hd

/-- C14: the host normaliser is idempotent: for every string `h`, normalising the host that
the normaliser produces for `h` (that of `normalizeIPv4` when it reports an IPv4 address,
that of `normalizeIPv6` otherwise) yields the same host again. -/
theorem normalizeHost_idempotent (h : Str) :
    normalizeHost (normalizeHost h) = normalizeHost h := by
  by_cases h4 : (normalizeIPv4 h).isIPV4 = true
  · obtain ⟨g1, g2, g3, g4, o1, o2, o3, o4, rfl⟩ := (ipv4Regex_iff h).mp (normalizeIPv4_regex h h4)
    have e1 := normalizeIPv4_dotted g1 g2 g3 g4 o1 o2 o3 o4
    have e2 := normalizeIPv4_dotted _ _ _ _ (isOctet_stripGroup o1) (isOctet_stripGroup o2)
      (isOctet_stripGroup o3) (isOctet_stripGroup o4)
    have hn : normalizeHost (dotted g1 g2 g3 g4)
        = dotted (stripGroup g1) (stripGroup g2) (stripGroup g3) (stripGroup g4) := by
      simp [normalizeHost, e1]
    rw [hn]
    simp [normalizeHost, e2, stripGroup_idem]
  · have hn : normalizeHost h = (normalizeIPv6 h).host := by
      simp [normalizeHost, h4]
    by_cases h6 : (normalizeIPv6 h).isIPV6 = true
    · obtain ⟨hid, h58⟩ := normalizeIPv6_idem h h6
      rw [hn]
      have h4b : ¬ (normalizeIPv4 (normalizeIPv6 h).host).isIPV4 = true :=
        fun hh => normalizeIPv4_no_colon _ hh h58
      simp only [normalizeHost, h4b, if_false]
      exact hid
    · have h6b : (normalizeIPv6 h).isIPV6 = false := by simpa using h6
      have hh : normalizeHost h = h := by rw [hn, normalizeIPv6_false h h6b]
      rw [hh, hh]

/-! ## What `normalizeIPv6` rejects -/

theorem normalizeIPv6_of_none (h : Str) (hl : liveRun none h V6Live.start = none) :
    normalizeIPv6 h = { host := h, escapedHost := none, isIPV6 := false } := by
  have hg := getIPV6_live h
  rw [hl] at hg
  simp only at hg
  unfold normalizeIPv6
  split
  · rfl
  · simp [hg]

theorem liveChar_colon_le (a : Bool) (m m' : V6Live) (h : liveChar a 58 m = some m') :
    m.tokenCount + 1 ≤ 7 := by
  simp only [liveChar, show ¬ (58 = 91 ∨ 58 = 93) by omega, if_false, if_true] at h
  obtain ⟨mc, hcons, hmc⟩ := option_bind_some_inv h
  obtain ⟨k, hk, -⟩ := liveConsume_some _ _ hcons
  subst hk
  split at hmc
  · cases hmc
  · rename_i h7
    simp only at h7
    omega

theorem liveRun_le (s : Str) :
    ∀ (p : Option Nat) (m mf : V6Live), m.tokenCount ≤ 7 → liveRun p s m = some mf →
      mf.tokenCount ≤ 7 := by
  induction s with
  | nil =>
    intro p m mf hm h
    simp only [liveRun, Option.some.injEq] at h
    subst h
    exact hm
  | cons c rest ih =>
    intro p m mf hm h
    rw [liveRun] at h
    obtain ⟨m', hstep, hrest⟩ := option_bind_some_inv h
    refine ih _ m' mf ?_ hrest
    have htc := liveChar_tokenCount _ _ _ _ hstep
    by_cases hc : c = 58
    · subst hc
      have := liveChar_colon_le _ _ _ hstep
      simp only [if_true] at htc
      omega
    · simp only [hc, if_false] at htc
      omega

/-- A host with more than seven `:` is rejected. -/
theorem normalizeIPv6_many_colons (h : Str) (hc : 7 < h.count 58) :
    normalizeIPv6 h = { host := h, escapedHost := none, isIPV6 := false } := by
  apply normalizeIPv6_of_none
  cases hl : liveRun none h V6Live.start with
  | none => rfl
  | some m =>
    have h1 := liveRun_tokenCount h none _ m hl
    have h2 := liveRun_le h none _ m (by simp [V6Live.start]) hl
    simp only [V6Live.start] at h1
    omega

theorem liveChar_noZone (a : Bool) (c : Nat) (m m' : V6Live) (hc : c ≠ 37)
    (h : liveChar a c m = some m') : m'.isZone = m.isZone := by
  unfold liveChar at h
  by_cases hbr : c = 91 ∨ c = 93
  · simp only [hbr, if_true, Option.some.injEq] at h
    subst h
    rfl
  · simp only [hbr, if_false, hc] at h
    by_cases h58 : c = 58
    · simp only [h58, if_true] at h
      obtain ⟨mc, hcons, hmc⟩ := option_bind_some_inv h
      obtain ⟨k, hk, -⟩ := liveConsume_some _ _ hcons
      subst hk
      split at hmc
      · cases hmc
      · simp only [Option.some.injEq] at hmc
        subst hmc
        rfl
    · simp only [h58, if_false, Option.some.injEq] at h
      subst h
      rfl

theorem liveRun_noZone (s : Str) :
    ∀ (p : Option Nat) (m mf : V6Live), 37 ∉ s → liveRun p s m = some mf →
      mf.isZone = m.isZone := by
  induction s with
  | nil =>
    intro p m mf _ h
    simp only [liveRun, Option.some.injEq] at h
    subst h
    rfl
  | cons c rest ih =>
    intro p m mf h37 h
    rw [liveRun] at h
    obtain ⟨m', hstep, hrest⟩ := option_bind_some_inv h
    have hc : c ≠ 37 := fun hc => h37 (hc ▸ List.mem_cons_self _ _)
    rw [ih _ m' mf (fun hm => h37 (List.mem_cons_of_mem _ hm)) hrest,
      liveChar_noZone _ c m m' hc hstep]

theorem liveChar_colon_buffer (a : Bool) (m m' : V6Live) (h : liveChar a 58 m = some m') :
    m'.buffer = [] := by
  simp only [liveChar, show ¬ (58 = 91 ∨ 58 = 93) by omega, if_false, if_true] at h
  obtain ⟨mc, hcons, hmc⟩ := option_bind_some_inv h
  obtain ⟨k, hk, -⟩ := liveConsume_some _ _ hcons
  subst hk
  split at hmc
  · cases hmc
  · simp only [Option.some.injEq] at hmc
    subst hmc
    rfl

/-- A group with a character that is not a hexadecimal digit, in front of a `:` or a `%` and
not behind a `%`, makes `normalizeIPv6` reject the host. -/
theorem normalizeIPv6_bad_group (pre g rest : Str) (d : Nat)
    (hpre : pre = [] ∨ ∃ q, pre = q ++ [58]) (h37 : 37 ∉ pre)
    (hg : ∀ c ∈ g, v6Plain c) (hbad : ∃ c ∈ g, HEX c = none) (hd : d = 58 ∨ d = 37) :
    normalizeIPv6 (pre ++ (g ++ d :: rest))
      = { host := pre ++ (g ++ d :: rest), escapedHost := none, isIPV6 := false } := by
  apply normalizeIPv6_of_none
  rw [liveRun_append]
  cases hl : liveRun none pre V6Live.start with
  | none => rfl
  | some m =>
    have hz : m.isZone = false := liveRun_noZone pre none _ m h37 hl
    have hb : m.buffer = [] := by
      rcases hpre with rfl | ⟨q, rfl⟩
      · simp only [liveRun, Option.some.injEq] at hl
        subst hl
        rfl
      · rw [liveRun_append] at hl
        obtain ⟨mq, -, hlast⟩ := option_bind_some_inv hl
        rw [liveRun] at hlast
        obtain ⟨m', hstep, hnil⟩ := option_bind_some_inv hlast
        simp only [liveRun, Option.some.injEq] at hnil
        subst hnil
        exact liveChar_colon_buffer _ _ _ hstep
    have hgne : g ≠ [] := by
      obtain ⟨c, hc, -⟩ := hbad
      exact List.ne_nil_of_mem hc
    have hs : stringToHexStripped g = none := by
      rw [stringToHexStripped_spec]
      obtain ⟨c, hc, hx⟩ := hbad
      exact if_neg (fun hall => hall c hc hx)
    rw [Option.some_bind, liveRun_append, liveRun_plain g _ _ hg, Option.some_bind, liveRun]
    have hstep : ∀ a, liveChar a d { m with buffer := m.buffer ++ g } = none := by
      intro a
      rcases hd with rfl | rfl
      · simp [liveChar, liveConsume, hb, hgne, hz, hs]
      · simp [liveChar, liveConsume, hb, hgne, hz, hs]
    rw [hstep]
    rfl

/-! ## `parse` returns or raises `URIError` -/

theorem decodeLoop_throw (fuel : Nat) :
    ∀ (s : Str) (e : Exn), decodeLoop fuel s = Res.throw e → e = Exn.uriError := by
  induction fuel with
  | zero =>
    intro s e h
    cases s with
    | nil => cases h
    | cons c r => cases h
  | succ n ih =>
    intro s e h
    cases s with
    | nil => cases h
    | cons c r =>
      rw [decodeLoop] at h
      cases hstep : decodeStep (c :: r) with
      | none =>
        rw [hstep] at h
        simp only [Res.throw.injEq] at h
        exact h.symm
      | some q =>
        rw [hstep] at h
        simp only at h
        cases hr : decodeLoop n q.2 with
        | ok v => rw [hr] at h; cases h
        | throw e2 =>
          rw [hr] at h
          simp only [Res.map, Res.throw.injEq] at h
          exact h ▸ ih _ _ hr
        | diverge => rw [hr] at h; cases h

theorem safeDecodeURI_throw (path : Str) (e : Exn) (h : safeDecodeURI path = Res.throw e) :
    e = Exn.uriError := by
  unfold safeDecodeURI at h
  simp only at h
  split at h
  · exact decodeLoop_throw _ _ _ h
  · cases h

theorem decodeIf_total (cond : Bool) (x : Option Str) :
    decodeIf cond x ≠ Res.diverge ∧ ∀ e, decodeIf cond x = Res.throw e → e = Exn.uriError := by
  unfold decodeIf
  cases x with
  | none => exact ⟨by simp [Res.pure_eq], fun e h => by cases h⟩
  | some v =>
    simp only
    split
    · have h1 := safeDecodeURI_returns v
      cases hs : safeDecodeURI v with
      | ok d => exact ⟨by simp [Res.map], fun e h => by cases h⟩
      | throw e2 =>
        refine ⟨by simp [Res.map], fun e h => ?_⟩
        simp only [Res.map, Res.throw.injEq] at h
        exact h ▸ safeDecodeURI_throw v e2 hs
      | diverge => exact absurd hs h1
    · exact ⟨by simp [Res.pure_eq], fun e h => by cases h⟩

theorem Res.bind_total {α β : Type} (r : Res α) (f : α → Res β)
    (hr : r ≠ Res.diverge ∧ ∀ e, r = Res.throw e → e = Exn.uriError)
    (hf : ∀ a, f a ≠ Res.diverge ∧ ∀ e, f a = Res.throw e → e = Exn.uriError) :
    r.bind f ≠ Res.diverge ∧ ∀ e, r.bind f = Res.throw e → e = Exn.uriError := by
  cases r with
  | ok a => exact hf a
  | throw e2 =>
    refine ⟨by simp [Res.bind], fun e h => ?_⟩
    simp only [Res.bind, Res.throw.injEq] at h
    exact h ▸ hr.2 e2 rfl
  | diverge => exact absurd rfl hr.1

/-- With default options and no scheme handler `parse` returns a record or raises
`URIError`; it raises only on an input with a `%`. -/
theorem parse_returns_or_raises (env : Env) (s : Str)
    (hk : env.schemes (schemeKey none (uriParse s).m1) = none) :
    parse env s {} ≠ Res.diverge
    ∧ (∀ e, parse env s {} = Res.throw e → e = Exn.uriError ∧ 37 ∈ s) := by
  have hin : parseInput s {} = s := rfl
  have key : parse env s {} ≠ Res.diverge
      ∧ ∀ e, parse env s {} = Res.throw e → e = Exn.uriError := by
    unfold parse
    simp only [hin, hk, Res.bind_eq, Res.pure_eq]
    refine Res.bind_total _ _ ?_ (fun a => ⟨by simp, fun e h => by cases h⟩)
    unfold normalizeParsed
    simp only [if_true, Res.bind_eq, Res.pure_eq]
    refine Res.bind_total _ _ (decodeIf_total _ _) (fun a1 => ?_)
    refine Res.bind_total _ _ (decodeIf_total _ _) (fun a2 => ?_)
    refine Res.bind_total _ _ (decodeIf_total _ _) (fun a3 => ?_)
    refine Res.bind_total _ _ ?_ (fun a4 => ⟨by simp, fun e h => by cases h⟩)
    split
    · split
      · rename_i f _ _
        have h1 := decodeURI_returns f
        cases hd : decodeURI f with
        | ok d => exact ⟨by simp [Res.map], fun e h => by cases h⟩
        | throw e2 =>
          refine ⟨by simp [Res.map], fun e h => ?_⟩
          simp only [Res.map, Res.throw.injEq] at h
          exact h ▸ decodeLoop_throw _ _ _ hd
        | diverge => exact absurd hd h1
      · exact ⟨by simp, fun e h => by cases h⟩
    · exact ⟨by simp, fun e h => by cases h⟩
  refine ⟨key.1, fun e h => ⟨key.2 e h, ?_⟩⟩
  by_contra h37
  rw [parse_of_no_percent env s h37 hk] at h
  cases h

/-! ## The segments of a string -/

theorem splitSlash_ne_nil (s : Str) : splitSlash s ≠ [] := by
  induction s with
  | nil => simp [splitSlash]
  | cons c r ih =>
    rw [splitSlash]
    split
    · simp
    · split <;> simp

theorem splitSlash_of_no_slash (a : Str) (h : 47 ∉ a) : splitSlash a = [a] := by
  induction a with
  | nil => rfl
  | cons c r ih =>
    have hc : c ≠ 47 := fun hc => h (hc ▸ List.mem_cons_self _ _)
    rw [splitSlash, if_neg hc, ih (fun hm => h (List.mem_cons_of_mem _ hm))]

theorem splitSlash_append_slash (x b : Str) :
    splitSlash (x ++ 47 :: b) = splitSlash x ++ splitSlash b := by
  induction x with
  | nil => simp [splitSlash]
  | cons c t ih =>
    rw [List.cons_append, splitSlash, splitSlash, ih]
    by_cases hc : c = 47
    · simp [hc]
    · simp only [hc, if_false]
      cases hs : splitSlash t with
      | nil => exact absurd hs (splitSlash_ne_nil t)
      | cons s ss => rfl

theorem splitSlash_slash_cons (b : Str) : splitSlash (47 :: b) = [] :: splitSlash b := by
  rw [splitSlash, if_pos rfl]

/-- The segments of a string followed by elements that all start with `/`. -/
theorem splitSlash_flatten (l : List Str) :
    ∀ x : Str, (∀ o ∈ l, ∃ s, o = 47 :: s ∧ 47 ∉ s) →
      splitSlash (x ++ l.flatten) = splitSlash x ++ l.map List.tail := by
  induction l with
  | nil => intro x _; simp
  | cons o rest ih =>
    intro x h
    obtain ⟨s, rfl, hs⟩ := h _ (List.mem_cons_self _ _)
    have hrest := ih s (fun o ho => h o (List.mem_cons_of_mem _ ho))
    rw [List.flatten_cons, List.cons_append, splitSlash_append_slash, hrest,
      splitSlash_of_no_slash s hs]
    simp

theorem cleanOut_noDot (l : List Str) (h : CleanOut l) : NoDotSegment l.flatten := by
  obtain ⟨h1, h2⟩ := h
  cases l with
  | nil => intro x hx; simp [splitSlash] at hx; subst hx; simp
  | cons e rest =>
    have hrest : ∀ o ∈ rest, ∃ s, o = 47 :: s ∧ 47 ∉ s := by
      intro o ho
      obtain ⟨s, hs, hn, -, -⟩ := h1 o (List.mem_cons_of_mem _ ho)
      have hh := h2 o ho
      rcases hs with rfl | rfl
      · cases o with
        | nil => simp at hh
        | cons c t =>
          simp only [List.head?_cons, Option.some.injEq] at hh
          subst hh
          exact absurd (List.mem_cons_self _ _) hn
      · exact ⟨s, rfl, hn⟩
    intro x hx
    rw [List.flatten_cons, splitSlash_flatten rest e hrest] at hx
    rcases List.mem_append.mp hx with hx | hx
    · obtain ⟨s, hs, hn, d1, d2⟩ := h1 e (List.mem_cons_self _ _)
      rcases hs with rfl | rfl
      · rw [splitSlash_of_no_slash _ hn] at hx
        simp only [List.mem_singleton] at hx
        subst hx
        exact ⟨d1, d2⟩
      · rw [splitSlash_slash_cons, splitSlash_of_no_slash _ hn] at hx
        simp only [List.mem_cons, List.mem_singleton, List.not_mem_nil, or_false] at hx
        rcases hx with rfl | rfl
        · simp
        · exact ⟨d1, d2⟩
    · obtain ⟨o, ho, rfl⟩ := List.mem_map.mp hx
      obtain ⟨s, hs, hn, d1, d2⟩ := h1 o (List.mem_cons_of_mem _ ho)
      obtain ⟨s2, rfl, hn2⟩ := hrest o ho
      rcases hs with hs | hs
      · subst hs
        exact absurd (List.mem_cons_self _ _) hn
      · simp only [List.cons.injEq, true_and] at hs
        subst hs
        exact ⟨d1, d2⟩

theorem cleanOut_dropLast (l : List Str) (h : CleanOut l) : CleanOut l.dropLast := by
  obtain ⟨h1, h2⟩ := h
  refine ⟨fun o ho => h1 o (List.dropLast_subset l ho), ?_⟩
  intro o ho
  apply h2
  rw [← List.drop_one] at ho ⊢
  have : (l.dropLast).drop 1 = (l.drop 1).dropLast := by
    rw [List.dropLast_eq_take, List.dropLast_eq_take, List.drop_take]
    simp
  rw [this] at ho
  exact List.dropLast_subset _ ho

/-! ## The first segment of the input -/

theorem drop_takeWhile_head (p : Nat → Bool) (r : Str) (d : Nat)
    (h : (r.drop (r.takeWhile p).length).head? = some d) : p d = false := by
  induction r with
  | nil => simp at h
  | cons c t ih =>
    by_cases hc : p c = true
    · rw [List.takeWhile_cons_of_pos hc] at h
      exact ih (by simpa using h)
    · rw [List.takeWhile_cons_of_neg hc] at h
      simp only [List.length_nil, List.drop_zero, List.head?_cons, Option.some.injEq] at h
      subst h
      simpa using hc

/-- The segment that step 5 moves to the output, and what it leaves. -/
theorem firstSegment_eq (c : Nat) (r : Str) :
    (c :: r).take 1 ++ ((c :: r).drop 1).takeWhile (fun c => c ≠ 47)
      = c :: r.takeWhile (fun c => c ≠ 47) := rfl

theorem firstSegment_rest (c : Nat) (r : Str) :
    (c :: r).drop (c :: r.takeWhile (fun c => c ≠ 47)).length
      = r.drop (r.takeWhile (fun c => c ≠ 47)).length := rfl

theorem firstSegment_facts (r : Str) :
    r = r.takeWhile (fun c => c ≠ 47) ++ r.drop (r.takeWhile (fun c => c ≠ 47)).length
    ∧ (r.drop (r.takeWhile (fun c => c ≠ 47)).length = []
        ∨ (r.drop (r.takeWhile (fun c => c ≠ 47)).length).head? = some 47)
    ∧ 47 ∉ r.takeWhile (fun c => c ≠ 47) := by
  refine ⟨(takeWhile_append_drop _ r).symm, ?_, ?_⟩
  · cases hd : r.drop (r.takeWhile (fun c => decide (c ≠ 47))).length with
    | nil => exact Or.inl rfl
    | cons d t =>
      right
      have := drop_takeWhile_head (fun c => decide (c ≠ 47)) r d (by rw [hd]; rfl)
      have hd47 : d = 47 := by simpa using this
      simp [hd47]
  · intro hm
    have := List.mem_takeWhile_imp hm
    simp at this

/-- Step 5 moves a segment other than `.` and `..`. -/
theorem firstSegment_clean (input : Str) (hne : input ≠ [])
    (h1 : ¬ [46, 46, 47].isPrefixOf input = true) (h2 : ¬ [46, 47].isPrefixOf input = true)
    (h3 : ¬ [47, 46, 47].isPrefixOf input = true) (h4 : ¬ input = [47, 46])
    (h5 : ¬ [47, 46, 46, 47].isPrefixOf input = true) (h6 : ¬ input = [47, 46, 46])
    (h7 : ¬ (input = [46] ∨ input = [46, 46])) :
    ∃ s, (input.take 1 ++ (input.drop 1).takeWhile (fun c => c ≠ 47) = s
          ∨ input.take 1 ++ (input.drop 1).takeWhile (fun c => c ≠ 47) = 47 :: s)
      ∧ 47 ∉ s ∧ s ≠ [46] ∧ s ≠ [46, 46]
      ∧ (input.head? = some 47 →
          (input.take 1 ++ (input.drop 1).takeWhile (fun c => c ≠ 47)).head? = some 47) := by
  cases input with
  | nil => exact absurd rfl hne
  | cons c r =>
    obtain ⟨hsplit0, hrest, hno⟩ := firstSegment_facts r
    rw [firstSegment_eq]
    generalize r.drop (r.takeWhile (fun c => decide (c ≠ 47))).length = rest at hsplit0 hrest
    generalize r.takeWhile (fun c => decide (c ≠ 47)) = tw at hsplit0 hno
    have hsplit : c :: r = c :: (tw ++ rest) := by rw [← hsplit0]
    have hpre : ∀ p : Str, p <+: c :: r → p.isPrefixOf (c :: r) = true :=
      fun p hp => List.isPrefixOf_iff_prefix.mpr hp
    by_cases hc : c = 47
    · subst hc
      refine ⟨tw, Or.inr rfl, hno, ?_, ?_, fun _ => rfl⟩
      · rintro rfl
        rcases hrest with rfl | hh
        · exact h4 (by simpa using hsplit)
        · cases rest with
          | nil => simp at hh
          | cons d t =>
            simp only [List.head?_cons, Option.some.injEq] at hh
            subst hh
            exact h3 (hpre _ ⟨t, by rw [hsplit]; rfl⟩)
      · rintro rfl
        rcases hrest with rfl | hh
        · exact h6 (by simpa using hsplit)
        · cases rest with
          | nil => simp at hh
          | cons d t =>
            simp only [List.head?_cons, Option.some.injEq] at hh
            subst hh
            exact h5 (hpre _ ⟨t, by rw [hsplit]; rfl⟩)
    · have hno2 : 47 ∉ c :: tw := by
        intro hm
        rcases List.mem_cons.mp hm with h | h
        · exact hc h.symm
        · exact hno h
      refine ⟨c :: tw, Or.inl rfl, hno2, ?_, ?_, ?_⟩
      · intro he
        simp only [List.cons.injEq] at he
        obtain ⟨rfl, rfl⟩ := he
        rcases hrest with rfl | hh
        · exact h7 (Or.inl (by simpa using hsplit))
        · cases rest with
          | nil => simp at hh
          | cons d t =>
            simp only [List.head?_cons, Option.some.injEq] at hh
            subst hh
            exact h2 (hpre _ ⟨t, by rw [hsplit]; rfl⟩)
      · intro he
        simp only [List.cons.injEq] at he
        obtain ⟨rfl, rfl⟩ := he
        rcases hrest with rfl | hh
        · exact h7 (Or.inr (by simpa using hsplit))
        · cases rest with
          | nil => simp at hh
          | cons d t =>
            simp only [List.head?_cons, Option.some.injEq] at hh
            subst hh
            exact h1 (hpre _ ⟨t, by rw [hsplit]; rfl⟩)
      · intro hh
        simp only [List.head?_cons, Option.some.injEq] at hh
        exact absurd hh hc

/-! ## The result of the dot-segment procedure -/

/-- The procedure yields no dot segment. -/
theorem rfcLoop_noDot (input : Str) (output : List Str) :
    CleanOut output → (output ≠ [] → input = [] ∨ input.head? = some 47) →
      NoDotSegment (rfcLoop input output) := by
  induction input, output using rfcLoop.induct with
  | case1 output =>
    intro hc _
    rw [rfcLoop]
    simpa using cleanOut_noDot output hc
  | case2 input output hne h1 ih =>
    intro hc ho
    have hout : output = [] := by
      by_contra hn
      rcases ho hn with h | h
      · exact hne h
      · have := List.isPrefixOf_iff_prefix.mp h1
        obtain ⟨t, rfl⟩ := this
        simp at h
    rw [rfcLoop]
    simp only [hne, h1, if_true, if_false]
    exact ih hc (fun hn => absurd hout hn)
  | case3 input output hne h1 h2 ih =>
    intro hc ho
    have hout : output = [] := by
      by_contra hn
      rcases ho hn with h | h
      · exact hne h
      · have := List.isPrefixOf_iff_prefix.mp h2
        obtain ⟨t, rfl⟩ := this
        simp at h
    rw [rfcLoop]
    simp only [hne, h1, h2, if_true, if_false]
    exact ih hc (fun hn => absurd hout hn)
  | case4 input output hne h1 h2 h3 ih =>
    intro hc _
    rw [rfcLoop]
    simp only [hne, h1, h2, h3, if_true, if_false]
    exact ih hc (fun _ => Or.inr rfl)
  | case5 output _ _ _ _ ih =>
    intro hc _
    rw [rfcLoop]
    simpa [List.isPrefixOf] using ih hc (fun _ => Or.inr rfl)
  | case6 input output hne h1 h2 h3 h4 h5 ih =>
    intro hc _
    rw [rfcLoop]
    simp only [hne, h1, h2, h3, h4, h5, if_true, if_false]
    exact ih (cleanOut_dropLast output hc) (fun _ => Or.inr rfl)
  | case7 output _ _ _ _ _ _ ih =>
    intro hc _
    rw [rfcLoop]
    simpa [List.isPrefixOf] using ih (cleanOut_dropLast output hc) (fun _ => Or.inr rfl)
  | case8 input output hne h1 h2 h3 h4 h5 h6 h7 ih =>
    intro hc _
    rw [rfcLoop]
    simp only [hne, h1, h2, h3, h4, h5, h6, h7, if_true, if_false]
    exact ih hc (fun _ => Or.inl rfl)
  | case9 input output hne h1 h2 h3 h4 h5 h6 h7 seg ih =>
    intro hc ho
    rw [rfcLoop]
    simp only [hne, h1, h2, h3, h4, h5, h6, h7, if_false]
    obtain ⟨s, hs, hn, d1, d2, hhead⟩ := firstSegment_clean input hne h1 h2 h3 h4 h5 h6 h7
    refine ih ⟨?_, ?_⟩ (fun _ => ?_)
    · intro o ho2
      rcases List.mem_append.mp ho2 with ho2 | ho2
      · exact hc.1 o ho2
      · simp only [List.mem_singleton] at ho2
        subst ho2
        exact ⟨s, hs, hn, d1, d2⟩
    · intro o ho2
      cases hout : output with
      | nil => rw [hout] at ho2; simp at ho2
      | cons e rest =>
        rw [hout] at ho2
        simp only [List.cons_append, List.tail_cons] at ho2
        rcases List.mem_append.mp ho2 with ho2 | ho2
        · apply hc.2
          rw [hout]
          exact ho2
        · simp only [List.mem_singleton] at ho2
          subst ho2
          rcases ho (by rw [hout]; simp) with h | h
          · exact absurd h hne
          · exact hhead h
    · cases input with
      | nil => exact absurd rfl hne
      | cons c r =>
        show (c :: r).drop seg.length = [] ∨ ((c :: r).drop seg.length).head? = some 47
        exact (firstSegment_facts r).2.1

/-- The characters of the result are among those of the input and of the output. -/
theorem rfcLoop_sub (input : Str) (output : List Str) :
    ∀ c ∈ rfcLoop input output, c ∈ input ∨ c ∈ output.flatten := by
  induction input, output using rfcLoop.induct with
  | case1 output =>
    intro c hc
    rw [rfcLoop] at hc
    exact Or.inr (by simpa using hc)
  | case2 input output hne h1 ih =>
    intro c hc
    rw [rfcLoop] at hc
    simp only [hne, h1, if_true, if_false] at hc
    rcases ih c hc with h | h
    · exact Or.inl (List.mem_of_mem_drop h)
    · exact Or.inr h
  | case3 input output hne h1 h2 ih =>
    intro c hc
    rw [rfcLoop] at hc
    simp only [hne, h1, h2, if_true, if_false] at hc
    rcases ih c hc with h | h
    · exact Or.inl (List.mem_of_mem_drop h)
    · exact Or.inr h
  | case4 input output hne h1 h2 h3 ih =>
    intro c hc
    rw [rfcLoop] at hc
    simp only [hne, h1, h2, h3, if_true, if_false] at hc
    rcases ih c hc with h | h
    · rcases List.mem_cons.mp h with rfl | h
      · exact Or.inl (isPrefixOf_mem h3 (by decide))
      · exact Or.inl (List.mem_of_mem_drop h)
    · exact Or.inr h
  | case5 output _ _ _ _ ih =>
    intro c hc
    rw [rfcLoop] at hc
    simp only [List.isPrefixOf, reduceCtorEq, if_false, if_true] at hc
    have := ih c (by simpa [List.isPrefixOf] using hc)
    rcases this with h | h
    · simp only [List.mem_singleton] at h
      subst h
      exact Or.inl (by decide)
    · exact Or.inr h
  | case6 input output hne h1 h2 h3 h4 h5 ih =>
    intro c hc
    rw [rfcLoop] at hc
    simp only [hne, h1, h2, h3, h4, h5, if_true, if_false] at hc
    rcases ih c hc with h | h
    · rcases List.mem_cons.mp h with rfl | h
      · exact Or.inl (isPrefixOf_mem h5 (by decide))
      · exact Or.inl (List.mem_of_mem_drop h)
    · right
      obtain ⟨l, hl, hcl⟩ := List.mem_flatten.mp h
      exact List.mem_flatten.mpr ⟨l, List.dropLast_subset _ hl, hcl⟩
  | case7 output _ _ _ _ _ _ ih =>
    intro c hc
    rw [rfcLoop] at hc
    have := ih c (by simpa [List.isPrefixOf] using hc)
    rcases this with h | h
    · simp only [List.mem_singleton] at h
      subst h
      exact Or.inl (by decide)
    · right
      obtain ⟨l, hl, hcl⟩ := List.mem_flatten.mp h
      exact List.mem_flatten.mpr ⟨l, List.dropLast_subset _ hl, hcl⟩
  | case8 input output hne h1 h2 h3 h4 h5 h6 h7 ih =>
    intro c hc
    rw [rfcLoop] at hc
    simp only [hne, h1, h2, h3, h4, h5, h6, h7, if_true, if_false] at hc
    rcases ih c hc with h | h
    · cases h
    · exact Or.inr h
  | case9 input output hne h1 h2 h3 h4 h5 h6 h7 seg ih =>
    intro c hc
    rw [rfcLoop] at hc
    simp only [hne, h1, h2, h3, h4, h5, h6, h7, if_false] at hc
    rcases ih c hc with h | h
    · exact Or.inl (List.mem_of_mem_drop h)
    · simp only [List.flatten_append, List.flatten_cons, List.flatten_nil, List.append_nil,
        List.mem_append] at h
      rcases h with h | h
      · exact Or.inr h
      · left
        rcases List.mem_append.mp h with h | h
        · exact List.mem_of_mem_take h
        · exact List.mem_of_mem_drop (takeWhile_sub _ _ h)

theorem dotSegment_of_start (p : Str) (input : Str) (hp : ¬ NoDotSegment p)
    (h : (p ++ [47]).isPrefixOf input = true) : ¬ NoDotSegment input := by
  obtain ⟨t, rfl⟩ := List.isPrefixOf_iff_prefix.mp h
  intro hn
  apply hp
  intro x hx
  apply hn x
  rw [List.append_assoc, List.singleton_append, splitSlash_append_slash]
  exact List.mem_append_left _ hx

/-- The procedure is the identity on a string without dot segment. -/
theorem rfcLoop_of_noDot (input : Str) (output : List Str) (h : NoDotSegment input) :
    rfcLoop input output = output.flatten ++ input := by
  induction input, output using rfcLoop.induct with
  | case1 output => simp [rfcLoop]
  | case2 input output hne h1 ih =>
    exact absurd h (dotSegment_of_start [46, 46] input (by decide) h1)
  | case3 input output hne h1 h2 ih =>
    exact absurd h (dotSegment_of_start [46] input (by decide) h2)
  | case4 input output hne h1 h2 h3 ih =>
    exact absurd h (dotSegment_of_start [47, 46] input (by decide) h3)
  | case5 output _ _ _ _ ih => exact absurd h (by decide)
  | case6 input output hne h1 h2 h3 h4 h5 ih =>
    exact absurd h (dotSegment_of_start [47, 46, 46] input (by decide) h5)
  | case7 output _ _ _ _ _ _ ih => exact absurd h (by decide)
  | case8 input output hne h1 h2 h3 h4 h5 h6 h7 ih =>
    rcases h7 with rfl | rfl <;> exact absurd h (by decide)
  | case9 input output hne h1 h2 h3 h4 h5 h6 h7 seg ih =>
    cases input with
    | nil => exact absurd rfl hne
    | cons c r =>
      obtain ⟨hsplit, hrest, -⟩ := firstSegment_facts r
      have hseg : seg = c :: r.takeWhile (fun c => c ≠ 47) := rfl
      have hdrop : (c :: r).drop seg.length = r.drop (r.takeWhile (fun c => c ≠ 47)).length :=
        rfl
      have hnd : NoDotSegment ((c :: r).drop seg.length) := by
        rw [hdrop]
        rcases hrest with h0 | hh
        · rw [h0]; decide
        · cases hd : r.drop (r.takeWhile (fun c => decide (c ≠ 47))).length with
          | nil => decide
          | cons d t =>
            rw [hd] at hh hsplit
            simp only [List.head?_cons, Option.some.injEq] at hh
            subst hh
            intro x hx
            rw [splitSlash_slash_cons] at hx
            rcases List.mem_cons.mp hx with rfl | hx
            · simp
            · apply h x
              rw [hsplit, ← List.cons_append, splitSlash_append_slash]
              exact List.mem_append_right _ hx
      rw [rfcLoop]
      simp only [hne, h1, h2, h3, h4, h5, h6, h7, if_false, Bool.false_eq_true]
      rw [ih hnd]
      simp only [List.flatten_append, List.flatten_cons, List.flatten_nil, List.append_nil,
        List.append_assoc]
      congr 1
      show seg ++ (c :: r).drop seg.length = c :: r
      rw [hdrop, hseg, List.cons_append, ← hsplit]

/-! ## `removeDotSegments` returns only on inputs inside the class of `RDS5` -/

theorem stripStart_some {p s rest : Str} (h : stripStart p s = some rest) : s = p ++ rest := by
  rw [stripStart_eq] at h
  split at h
  · rename_i hp
    obtain ⟨t, rfl⟩ := List.isPrefixOf_iff_prefix.mp hp
    simp only [List.drop_left', Option.some.injEq] at h
    rw [← h]
  · cases h

theorem lazySegment_some (x : Str) :
    ∀ s, lazySegment x = some s → s <+: x ∧ ∀ c ∈ s, dotOrLF c = true := by
  induction x with
  | nil =>
    intro s h
    simp only [lazySegment, Option.some.injEq] at h
    subst h
    exact ⟨List.nil_prefix, by simp⟩
  | cons c r ih =>
    intro s h
    rw [lazySegment] at h
    split at h
    · simp only [Option.some.injEq] at h
      subst h
      exact ⟨List.nil_prefix, by simp⟩
    · split at h
      · rename_i hcl
        cases hr : lazySegment r with
        | none => rw [hr] at h; cases h
        | some t =>
          rw [hr] at h
          simp only [Option.map_some', Option.some.injEq] at h
          subst h
          obtain ⟨hp, hc⟩ := ih t hr
          refine ⟨(List.cons_prefix_cons).mpr ⟨rfl, hp⟩, ?_⟩
          intro d hd
          rcases List.mem_cons.mp hd with rfl | hd
          · exact hcl
          · exact hc d hd
      · cases h

theorem matchRDS5_some (input s : Str) (h : matchRDS5 input = some s) :
    s <+: input ∧ ∀ c ∈ s, dotOrLF c = true := by
  unfold matchRDS5 at h
  split at h
  · rename_i c rest
    split at h
    · rename_i hc
      subst hc
      split at h
      · rename_i t ht
        simp only [Option.some.injEq] at h
        subst h
        obtain ⟨hp, hcl⟩ := lazySegment_some rest t ht
        refine ⟨(List.cons_prefix_cons).mpr ⟨rfl, hp⟩, ?_⟩
        intro d hd
        rcases List.mem_cons.mp hd with rfl | hd
        · decide
        · exact hcl d hd
      · exact lazySegment_some _ s h
    · exact lazySegment_some _ s h
  · exact lazySegment_some _ s h

theorem rdsLoop_returns_class (fuel : Nat) :
    ∀ (input : Str) (output : List Str) (r : Str), rdsLoop fuel input output = Res.ok r →
      ∀ c ∈ input, dotOrLF c = true := by
  induction fuel with
  | zero => intro input output r h; cases h
  | succ n ih =>
    intro input output r h
    have hpre : ∀ (p rest : Str), input = p ++ rest → (∀ c ∈ p, dotOrLF c = true) →
        (∀ c ∈ rest, dotOrLF c = true) → ∀ c ∈ input, dotOrLF c = true := by
      intro p rest he hp hr c hc
      rw [he] at hc
      rcases List.mem_append.mp hc with hc | hc
      · exact hp c hc
      · exact hr c hc
    rw [rdsLoop] at h
    split at h
    · rename_i hl
      have : input = [] := List.length_eq_zero.mp hl
      subst this
      simp
    · split at h
      · rename_i rest h1
        have hrest := ih _ _ _ h
        unfold matchRDS1 at h1
        split at h1
        · rename_i rest2 hs
          cases h1
          exact hpre _ _ (stripStart_some hs) (by decide) hrest
        · exact hpre _ _ (stripStart_some h1) (by decide) hrest
      · split at h
        · rename_i rest h2
          have hrest := ih _ _ _ h
          have hrest2 : ∀ c ∈ rest, dotOrLF c = true :=
            fun c hc => hrest c (List.mem_cons_of_mem _ hc)
          unfold matchRDS2 at h2
          split at h2
          · rename_i rest2 hs
            cases h2
            exact hpre _ _ (stripStart_some hs) (by decide) hrest2
          · split at h2
            · rename_i he
              rw [he]
              decide
            · cases h2
        · split at h
          · rename_i rest h3
            have hrest := ih _ _ _ h
            have hrest2 : ∀ c ∈ rest, dotOrLF c = true :=
              fun c hc => hrest c (List.mem_cons_of_mem _ hc)
            unfold matchRDS3 at h3
            split at h3
            · rename_i rest2 hs
              cases h3
              exact hpre _ _ (stripStart_some hs) (by decide) hrest2
            · split at h3
              · rename_i he
                rw [he]
                decide
              · cases h3
          · split at h
            · rename_i he
              rcases he with rfl | rfl <;> decide
            · split at h
              · rename_i s h5
                have hrest := ih _ _ _ h
                obtain ⟨⟨t, ht⟩, hcl⟩ := matchRDS5_some input s h5
                have hd : input.drop s.length = t := by rw [← ht]; simp
                rw [hd] at hrest
                exact hpre s t ht.symm hcl hrest
              · cases h

theorem removeDotSegments_eq_rfc (input r : Str) (h : removeDotSegments input = Res.ok r) :
    (∀ c ∈ input, dotOrLF c = true) ∧ r = rfcLoop input [] := by
  have hc := rdsLoop_returns_class _ input [] r h
  refine ⟨hc, ?_⟩
  unfold removeDotSegments at h
  rw [rdsLoop_eq_rfcLoop input [] _ (Nat.lt_succ_self _) hc] at h
  exact (Res.ok.inj h).symm

/-- C25: whenever `removeDotSegments` returns, no `/`-delimited segment of the result is `.`
or `..`. -/
theorem removeDotSegments_noDot (input r : Str) (h : removeDotSegments input = Res.ok r) :
    NoDotSegment r := by
  obtain ⟨-, rfl⟩ := removeDotSegments_eq_rfc input r h
  exact rfcLoop_noDot input [] ⟨by simp, by simp⟩ (fun hn => absurd rfl hn)

theorem removeDotSegments_noDot_witness :
    removeDotSegments (lit "a/./b/../../..") = Res.ok (lit "/")
    ∧ NoDotSegment (lit "/") :=
  ⟨by decide, removeDotSegments_noDot (lit "a/./b/../../..") (lit "/") (by decide)⟩

/-- On an input inside the class of `RDS5` without dot segment `removeDotSegments` is the
identity. -/
theorem removeDotSegments_identity (p : Str) (hc : ∀ c ∈ p, dotOrLF c = true)
    (h : NoDotSegment p) : removeDotSegments p = Res.ok p := by
  unfold removeDotSegments
  rw [rdsLoop_eq_rfcLoop p [] _ (Nat.lt_succ_self _) hc, rfcLoop_of_noDot p [] h]
  rfl

/-- Whenever `removeDotSegments` returns, it returns its result unchanged when applied to
it. -/
theorem removeDotSegments_idempotent (p r : Str) (h : removeDotSegments p = Res.ok r) :
    removeDotSegments r = Res.ok r := by
  have hnd : NoDotSegment r := by
    obtain ⟨-, rfl⟩ := removeDotSegments_eq_rfc p r h
    exact rfcLoop_noDot p [] ⟨by simp, by simp⟩ (fun hn => absurd rfl hn)
  obtain ⟨hc, rfl⟩ := removeDotSegments_eq_rfc p r h
  refine removeDotSegments_identity _ (fun c hcr => ?_) hnd
  rcases rfcLoop_sub p [] c hcr with h1 | h1
  · exact hc c h1
  · cases h1

/-- C26: the strings `\r` and `/\r` have no dot segment, yet `removeDotSegments` is not the
identity on them: on the first it raises 'Unexpected dot segment condition', on the second
it does not return. -/
theorem removeDotSegments_identity_fails :
    NoDotSegment (lit "\r") ∧ removeDotSegments (lit "\r") = Res.throw Exn.dotSegment
    ∧ NoDotSegment (lit "/\r") ∧ removeDotSegments (lit "/\r") = Res.diverge
    ∧ NoDotSegment (lit "a/\r") ∧ removeDotSegments (lit "a/\r") = Res.diverge := by
  refine ⟨by decide, by decide, by decide, by decide, by decide, by decide⟩

/-! ## The case of the host -/

/-- C21: with default options and no scheme handler `parse` of `//a%41` yields the host `aA`,
which has an uppercase letter: the host is lower-cased before its escapes are decoded. -/
theorem parse_host_uppercase :
    (parse noHandlers (lit "//a%41") {}).map (fun r => r.host) = Res.ok (some (lit "aA"))
    ∧ (parse noHandlers (lit "x://a%5A.example/") {}).map (fun r => r.host)
      = Res.ok (some (lit "aZ.example")) := by
  refine ⟨by decide, by decide⟩

theorem toLowerCase_no_upper (s : Str) : ∀ c ∈ toLowerCase s, ¬ (65 ≤ c ∧ c ≤ 90) := by
  intro c hc
  simp only [toLowerCase, List.mem_map] at hc
  obtain ⟨d, -, rfl⟩ := hc
  unfold lowerUnit
  split <;> omega

theorem parseHost_no_upper (m4 : Option Str) (h : Str) (hh : parseHost m4 = some h) :
    ∀ c ∈ h, ¬ (65 ≤ c ∧ c ≤ 90) := by
  unfold parseHost at hh
  split at hh
  · simp only at hh
    split at hh
    · simp only [Option.some.injEq] at hh
      subst hh
      exact toLowerCase_no_upper _
    · rename_i h4
      have h4t : (normalizeIPv4 (m4.getD [])).isIPV4 = true := by simpa using h4
      simp only [Option.some.injEq] at hh
      subst hh
      have hre := normalizeIPv4_regex _ h4t
      intro c hc
      have hsub : c ∈ m4.getD [] := by
        unfold normalizeIPv4 at hc
        split at hc
        · exact hc
        · split at hc
          · exact stripLeadingZeros_sub _ _ hc
          · exact hc
      rcases ipv4Regex_chars _ hre c hsub with hd | hd
      · simp only [isDigit, Bool.and_eq_true, decide_eq_true_eq] at hd
        omega
      · omega
  · rename_i ht
    subst hh
    cases h with
    | nil => simp
    | cons c t => simp [truthy] at ht

/-- On an input without `%` the host that `parse` returns has no uppercase letter. -/
theorem parse_host_lower (env : Env) (s : Str) (h37 : 37 ∉ s)
    (hk : env.schemes (schemeKey none (uriParse s).m1) = none) :
    ∃ r, parse env s {} = Res.ok r ∧ ∀ h, r.host = some h → ∀ c ∈ h, ¬ (65 ≤ c ∧ c ≤ 90) := by
  refine ⟨_, parse_of_no_percent env s h37 hk, ?_⟩
  intro h hh
  exact parseHost_no_upper _ h hh

/-! ## IPv6 groups and their leading zeros -/

theorem hextet_hex {g : Str} (h : IsHextet g) : g ≠ [] ∧ ∀ c ∈ g, HEX c ≠ none := by
  obtain ⟨h1, _, h3⟩ := h
  refine ⟨?_, ?_⟩
  · intro hg
    rw [hg] at h1
    simp at h1
  · intro c hc
    unfold HEX hexVal
    rcases h3 c hc with ⟨a, b⟩ | ⟨a, b⟩
    · simp [a, b]
    · have h1 : ¬ (48 ≤ c ∧ c ≤ 57) := by omega
      have h2 : ¬ (65 ≤ c ∧ c ≤ 70) := by omega
      simp [h1, h2, a, b]

theorem hex_ne_colon {c : Nat} (h : HEX c ≠ none) : c ≠ 58 := (hex_plain c h).1

theorem prevOf_hex (p : Option Nat) (g : Str) (hne : g ≠ []) (hg : ∀ c ∈ g, HEX c ≠ none) :
    decide (prevOf p g = some 58) = false := by
  unfold prevOf
  cases hl : g.getLast? with
  | none =>
    rw [List.getLast?_eq_none_iff] at hl
    exact absurd hl hne
  | some d =>
    have hd : d ∈ g := List.mem_of_getLast?_eq_some hl
    have := hex_ne_colon (hg d hd)
    simp [this]

theorem liveChar_colon_group (a : Bool) (k : Nat) (A g : Str) (hne : g ≠ [])
    (hg : ∀ c ∈ g, HEX c ≠ none) (hk : k + 1 ≤ 7) :
    liveChar a 58 ⟨k, A, g, false, false, false⟩
      = some ⟨k + 1, A ++ dropZeros g ++ [58], [], false, a, false⟩ := by
  have hs := stringToHexStripped_spec g
  rw [if_pos hg] at hs
  have hk2 : ¬ (k + 1 > 7) := by omega
  simp [liveChar, liveConsume, hne, hs, hk2, dropZeros]

theorem liveRun_groups (gs : List Str) :
    gs ≠ [] → (∀ g ∈ gs, g ≠ [] ∧ ∀ c ∈ g, HEX c ≠ none) →
    ∀ (p : Option Nat) (k : Nat) (A : Str), k + gs.length ≤ 8 →
      ∃ X B, liveRun p (colonJoin gs) ⟨k, A, [], false, false, false⟩
          = some ⟨k + (gs.length - 1), A ++ X, B, false, false, false⟩
        ∧ B ≠ [] ∧ (∀ c ∈ B, HEX c ≠ none)
        ∧ X ++ dropZeros B = colonJoin (gs.map dropZeros) := by
  induction gs with
  | nil => intro h; exact absurd rfl h
  | cons g rest ih =>
    intro _ hall p k A hk
    have hg := hall g (List.mem_cons_self _ _)
    cases rest with
    | nil =>
      refine ⟨[], g, ?_, hg.1, hg.2, ?_⟩
      · show liveRun p g _ = _
        rw [liveRun_plain g p _ (fun c hc => hex_plain c (hg.2 c hc))]
        simp
      · simp [colonJoin]
    | cons g2 rest2 =>
      have hall2 : ∀ x ∈ g2 :: rest2, x ≠ [] ∧ ∀ c ∈ x, HEX c ≠ none :=
        fun x hx => hall x (List.mem_cons_of_mem _ hx)
      have hlen : k + 1 + (g2 :: rest2).length ≤ 8 := by
        simp only [List.length_cons] at hk ⊢
        omega
      have hk7 : k + 1 ≤ 7 := by
        simp only [List.length_cons] at hk
        omega
      obtain ⟨X, B, hrun, hB, hBh, hX⟩ :=
        ih (by simp) hall2 (some 58) (k + 1) (A ++ dropZeros g ++ [58]) hlen
      refine ⟨dropZeros g ++ [58] ++ X, B, ?_, hB, hBh, ?_⟩
      · show liveRun p (g ++ 58 :: colonJoin (g2 :: rest2)) _ = _
        rw [liveRun_append, liveRun_plain g p _ (fun c hc => hex_plain c (hg.2 c hc))]
        simp only [List.nil_append, Option.some_bind]
        rw [liveRun, prevOf_hex p g hg.1 hg.2, liveChar_colon_group false k A g hg.1 hg.2 hk7]
        simp only [Option.some_bind]
        rw [hrun]
        simp [Nat.add_assoc, Nat.add_comm 1]
      · simp only [List.map_cons, colonJoin, List.append_assoc] at hX ⊢
        rw [hX]
        simp

/-- What `normalizeIPv6` makes of three to eight groups of hexadecimal digits joined by
single colons: every group loses its leading zeros, and a group of zeros only loses them
all. -/
theorem normalizeIPv6_groups (gs : List Str) (h3 : 3 ≤ gs.length) (h8 : gs.length ≤ 8)
    (hall : ∀ g ∈ gs, g ≠ [] ∧ ∀ c ∈ g, HEX c ≠ none) :
    normalizeIPv6 (colonJoin gs)
      = { host := colonJoin (gs.map dropZeros),
          escapedHost := some (colonJoin (gs.map dropZeros)), isIPV6 := true } := by
  have hne : gs ≠ [] := by
    intro h
    rw [h] at h3
    simp at h3
  obtain ⟨X, B, hrun, hB, hBh, hX⟩ := liveRun_groups gs hne hall none 0 [] (by omega)
  have hcount := liveRun_tokenCount _ _ _ _ hrun
  simp only [Nat.zero_add] at hcount
  have hg := getIPV6_live (colonJoin gs)
  have hstart : V6Live.start = ⟨0, [], [], false, false, false⟩ := rfl
  rw [hstart, hrun] at hg
  simp only at hg
  have hs := stringToHexStripped_spec B
  rw [if_pos hBh] at hs
  have hfin : liveFinish ⟨0 + (gs.length - 1), [] ++ X, B, false, false, false⟩
      = (colonJoin (gs.map dropZeros), []) := by
    simp [liveFinish, hB, hs, ← hX, dropZeros]
  rw [hfin] at hg
  unfold normalizeIPv6
  rw [findToken_eq_count, ← hcount, if_neg (by omega)]
  simp [hg]

theorem hexValue_dropZeros (g : Str) : hexValue (dropZeros g) = hexValue g := by
  induction g with
  | nil => rfl
  | cons c t ih =>
    by_cases hc : c = 48
    · subst hc
      have h1 : dropZeros (48 :: t) = dropZeros t := by simp [dropZeros]
      have h2 : hexValue (48 :: t) = hexValue t := by
        simp [hexValue, hexVal]
      rw [h1, h2, ih]
    · have h1 : dropZeros (c :: t) = c :: t := by simp [dropZeros, hc]
      rw [h1]

theorem dropZeros_ne_nil (g : Str) (h : ∃ c ∈ g, c ≠ 48) : dropZeros g ≠ [] := by
  obtain ⟨c, hc, hne⟩ := h
  unfold dropZeros
  intro he
  rw [List.dropWhile_eq_nil_iff] at he
  have := he c hc
  simp [hne] at this

/-- Eight groups of one to four lowercase hexadecimal digits none of which is all zeros:
`normalizeIPv6` accepts the host and returns the groups without their leading zeros, each
non-empty and of the value of the group it comes from. -/
theorem normalizeIPv6_hextets (gs : List Str) (h8 : gs.length = 8)
    (hall : ∀ g ∈ gs, IsHextet g ∧ ∃ c ∈ g, c ≠ 48) :
    (normalizeIPv6 (colonJoin gs)).isIPV6 = true
    ∧ (normalizeIPv6 (colonJoin gs)).host = colonJoin (gs.map dropZeros)
    ∧ ∀ g ∈ gs, dropZeros g ≠ [] ∧ hexValue (dropZeros g) = hexValue g := by
  have h := normalizeIPv6_groups gs (by omega) (by omega) (fun g hg => hextet_hex (hall g hg).1)
  rw [h]
  exact ⟨rfl, rfl, fun g hg => ⟨dropZeros_ne_nil g (hall g hg).2, hexValue_dropZeros g⟩⟩

/-- C27 fails: the host `1:0:0:0:0:0:0:2` is eight groups of one lowercase hexadecimal digit
joined by single colons, `normalizeIPv6` accepts it, and the host it returns is `1:::::::2`,
whose six inner groups are empty instead of `0`; likewise `0:0:0:0:0:0:0:1` becomes
`:::::::1`. -/
theorem normalizeIPv6_zero_group :
    (∀ g ∈ [lit "1", lit "0", lit "0", lit "0", lit "0", lit "0", lit "0", lit "2"], IsHextet g)
    ∧ colonJoin [lit "1", lit "0", lit "0", lit "0", lit "0", lit "0", lit "0", lit "2"]
        = lit "1:0:0:0:0:0:0:2"
    ∧ normalizeIPv6 (lit "1:0:0:0:0:0:0:2")
        = { host := lit "1:::::::2", escapedHost := some (lit "1:::::::2"), isIPV6 := true }
    ∧ lit "1:::::::2" = colonJoin [lit "1", [], [], [], [], [], [], lit "2"]
    ∧ normalizeIPv6 (lit "0:0:0:0:0:0:0:1")
        = { host := lit ":::::::1", escapedHost := some (lit ":::::::1"), isIPV6 := true } := by
  decide

/-! ## `encodeStr`: the loops as a recursion on the code units -/

theorem unitAt_append (pre : Str) (c : Nat) (suf : Str) :
    unitAt (pre ++ c :: suf) pre.length = c := by
  have h := charCodeAt_append pre (c :: suf) 0
  simp only [Nat.add_zero] at h
  simp [unitAt, h]

theorem slice_prefix (pre suf : Str) (a : Nat) :
    slice (pre ++ suf) a pre.length = pre.drop a := by
  simp [slice]

theorem flushSlice_inv {pre : Str} (suf : Str) {st : EncState} {acc : Str}
    (h : EncInv pre st acc) : flushSlice (pre ++ suf) st = acc := by
  obtain ⟨hi, hl, _, ha⟩ := h
  unfold flushSlice
  by_cases hlt : st.lastPos < st.i
  · rw [if_pos hlt, hi, slice_prefix, ha]
  · rw [if_neg hlt]
    have he : st.lastPos = pre.length := by omega
    rw [he] at ha
    simpa using ha

theorem encodeReturn_inv {str : Str} {st : EncState} {acc : Str}
    (h : EncInv str st acc) : encodeReturn str st = acc := by
  obtain ⟨hi, hl, h0, ha⟩ := h
  unfold encodeReturn
  by_cases hz : st.lastPos = 0
  · rw [if_pos hz]
    rw [h0 hz, hz] at ha
    simpa using ha
  · rw [if_neg hz]
    by_cases hlt : st.lastPos < str.length
    · rw [if_pos hlt]
      have := slice_prefix str [] st.lastPos
      rw [List.append_nil] at this
      rw [this, ha]
    · rw [if_neg hlt]
      have he : st.lastPos = str.length := by omega
      rw [he] at ha
      simpa using ha

theorem encInv_escape {pre : Str} {st : EncState} {acc : Str} (c : Nat) (x : Str)
    (h : EncInv pre st acc) :
    EncInv (pre ++ [c]) { i := st.i + 1, lastPos := st.i + 1, out := acc ++ x } (acc ++ x) := by
  obtain ⟨hi, _, _, _⟩ := h
  refine ⟨by simp [hi], Nat.le_refl _, fun h0 => by simp at h0, ?_⟩
  simp [hi]

theorem encInv_keep {pre : Str} {st : EncState} {acc : Str} (c : Nat)
    (h : EncInv pre st acc) :
    EncInv (pre ++ [c]) { st with i := st.i + 1 } (acc ++ [c]) := by
  obtain ⟨hi, hl, h0, ha⟩ := h
  refine ⟨by simp [hi], by simp; omega, h0, ?_⟩
  show st.out ++ (pre ++ [c]).drop st.lastPos = acc ++ [c]
  rw [List.drop_append_of_le_length (by omega), ← List.append_assoc, ha]

/-- The inner loop of `encodeStr` reads the code units below `0x80` in front of it. -/
theorem asciiLoop_run (tbl : Nat → Nat) (hexT : Nat → Str) (suf : Str) :
    ∀ (pre : Str) (c : Nat) (st : EncState) (acc : Str) (fuel : Nat),
      EncInv pre st acc → suf.length < fuel →
      ∃ st1, EncInv (pre ++ (c :: suf).takeWhile (fun x => decide (x < 128))) st1
            (acc ++ ((c :: suf).takeWhile (fun x => decide (x < 128))).flatMap
              (asciiUnit tbl hexT))
        ∧ asciiLoop (pre ++ c :: suf) tbl hexT fuel c st
            = some (st1, ((c :: suf).dropWhile (fun x => decide (x < 128))).head?) := by
  induction suf with
  | nil =>
    intro pre c st acc fuel hinv hf
    obtain ⟨f, rfl⟩ : ∃ f, fuel = f + 1 := ⟨fuel - 1, by simp at hf; omega⟩
    by_cases hc : c < 128
    · have hlen : st.i + 1 = (pre ++ [c]).length := by simp [hinv.1]
      by_cases ht : tbl c = 1
      · refine ⟨{ st with i := st.i + 1 }, ?_, ?_⟩
        · simpa [hc, asciiUnit, ht] using encInv_keep c hinv
        · simp [asciiLoop, hc, ht, hlen]
      · refine ⟨{ i := st.i + 1, lastPos := st.i + 1, out := acc ++ hexT c }, ?_, ?_⟩
        · simpa [hc, asciiUnit, ht] using encInv_escape c (hexT c) hinv
        · have hfl := flushSlice_inv [c] hinv
          simp [asciiLoop, hc, ht, hlen, hfl]
    · refine ⟨st, ?_, ?_⟩
      · simpa [hc] using hinv
      · simp [asciiLoop, hc]
  | cons d rest ih =>
    intro pre c st acc fuel hinv hf
    obtain ⟨f, rfl⟩ : ∃ f, fuel = f + 1 := ⟨fuel - 1, by simp at hf; omega⟩
    have hf2 : rest.length < f := by simp at hf; omega
    by_cases hc : c < 128
    · have hlen : ¬ st.i + 1 = (pre ++ c :: d :: rest).length := by simp [hinv.1]
      have hstr : pre ++ c :: d :: rest = (pre ++ [c]) ++ d :: rest := by simp
      have hunit : unitAt (pre ++ c :: d :: rest) (st.i + 1) = d := by
        rw [hstr]
        have := unitAt_append (pre ++ [c]) d rest
        simpa [hinv.1] using this
      by_cases ht : tbl c = 1
      · obtain ⟨st1, hinv1, hrun⟩ := ih (pre ++ [c]) d { st with i := st.i + 1 } (acc ++ [c]) f
          (encInv_keep c hinv) hf2
        refine ⟨st1, ?_, ?_⟩
        · simpa [hc, asciiUnit, ht, List.takeWhile_cons] using hinv1
        · rw [asciiLoop]
          simp only [hc, ht, if_true, ne_eq, not_true_eq_false, if_false, hlen, hunit]
          rw [hstr, hrun]
          simp [List.dropWhile_cons, hc]
      · obtain ⟨st1, hinv1, hrun⟩ := ih (pre ++ [c]) d
          { i := st.i + 1, lastPos := st.i + 1, out := acc ++ hexT c } (acc ++ hexT c) f
          (encInv_escape c (hexT c) hinv) hf2
        have hfl := flushSlice_inv (c :: d :: rest) hinv
        refine ⟨st1, ?_, ?_⟩
        · simpa [hc, asciiUnit, ht, List.takeWhile_cons] using hinv1
        · rw [asciiLoop]
          simp only [hc, ht, if_true, ne_eq, not_false_eq_true, hlen, if_false, hunit, hfl]
          rw [hstr, hrun]
          simp [List.dropWhile_cons, hc]
    · refine ⟨st, ?_, ?_⟩
      · simpa [hc] using hinv
      · simp [asciiLoop, hc]

theorem encUnits_ascii (tbl : Nat → Nat) (hexT : Nat → Str) (c : Nat) (r : Str)
    (hc : c < 128) :
    encUnits tbl hexT (c :: r) = (encUnits tbl hexT r).map (fun x => asciiUnit tbl hexT c ++ x) := by
  cases r with
  | nil => simp [encUnits, hc, Res.map]
  | cons d t => simp [encUnits, hc]

theorem encUnits_two (tbl : Nat → Nat) (hexT : Nat → Str) (c : Nat) (r : Str)
    (h1 : ¬ c < 128) (h2 : c < 2048) :
    encUnits tbl hexT (c :: r) = (encUnits tbl hexT r).map (fun x => twoBytes hexT c ++ x) := by
  cases r with
  | nil => simp [encUnits, h1, h2, Res.map]
  | cons d t => simp [encUnits, h1, h2]

theorem encUnits_three (tbl : Nat → Nat) (hexT : Nat → Str) (c : Nat) (r : Str)
    (h1 : ¬ c < 128) (h2 : ¬ c < 2048) (h3 : c < 55296 ∨ c ≥ 57344) :
    encUnits tbl hexT (c :: r) = (encUnits tbl hexT r).map (fun x => threeBytes hexT c ++ x) := by
  cases r with
  | nil => simp [encUnits, h1, h2, h3, Res.map]
  | cons d t => simp [encUnits, h1, h2, h3]

theorem encUnits_four (tbl : Nat → Nat) (hexT : Nat → Str) (c d : Nat) (r : Str)
    (h1 : ¬ c < 128) (h2 : ¬ c < 2048) (h3 : ¬ (c < 55296 ∨ c ≥ 57344)) :
    encUnits tbl hexT (c :: d :: r)
      = (encUnits tbl hexT r).map (fun x => fourBytes hexT c d ++ x) := by
  simp [encUnits, h1, h2, h3]

theorem encUnits_last (tbl : Nat → Nat) (hexT : Nat → Str) (c : Nat)
    (h1 : ¬ c < 128) (h2 : ¬ c < 2048) (h3 : ¬ (c < 55296 ∨ c ≥ 57344)) :
    encUnits tbl hexT [c] = Res.throw Exn.invalidURI := by
  simp [encUnits, h1, h2, h3]

theorem Res.map_map {α β γ : Type} (f : α → β) (g : β → γ) (r : Res α) :
    (r.map f).map g = r.map (fun x => g (f x)) := by
  cases r <;> rfl

theorem encUnits_run (tbl : Nat → Nat) (hexT : Nat → Str) (a r : Str)
    (ha : ∀ c ∈ a, c < 128) :
    encUnits tbl hexT (a ++ r)
      = (encUnits tbl hexT r).map (fun x => a.flatMap (asciiUnit tbl hexT) ++ x) := by
  induction a with
  | nil =>
    rw [List.nil_append]
    cases h : encUnits tbl hexT r <;> simp [Res.map]
  | cons c t ih =>
    rw [List.cons_append, encUnits_ascii tbl hexT c _ (ha c (List.mem_cons_self _ _)),
      ih (fun x hx => ha x (List.mem_cons_of_mem _ hx)), Res.map_map]
    simp

theorem takeWhile_ascii (s : Str) : ∀ c ∈ s.takeWhile (fun x => decide (x < 128)), c < 128 := by
  intro c hc
  have := List.mem_takeWhile_imp hc
  simpa using this

theorem dropWhile_ascii_head (s : Str) (d : Nat) (t : Str)
    (h : s.dropWhile (fun x => decide (x < 128)) = d :: t) : ¬ d < 128 := by
  have := List.head_dropWhile_not (fun x => decide (x < 128)) s (by rw [h]; simp)
  simp only [h, List.head_cons] at this
  simpa using this

/-- The outer loop of `encodeStr` is the recursion `encUnits` on what is left to read. -/
theorem encodeLoop_units (tbl : Nat → Nat) (hexT : Nat → Str) (n : Nat) :
    ∀ (suf pre : Str) (st : EncState) (acc : Str) (fuel : Nat),
      suf.length ≤ n → EncInv pre st acc → suf.length < fuel →
      encodeLoop (pre ++ suf) tbl hexT fuel st
        = (encUnits tbl hexT suf).map (fun x => acc ++ x) := by
  induction n with
  | zero =>
    intro suf pre st acc fuel hn hinv hf
    have hs : suf = [] := List.length_eq_zero.mp (by omega)
    subst hs
    obtain ⟨f, rfl⟩ : ∃ f, fuel = f + 1 := ⟨fuel - 1, by omega⟩
    rw [List.append_nil] at *
    have hi : ¬ st.i < pre.length := by rw [hinv.1]; omega
    rw [encodeLoop, if_neg hi, encodeReturn_inv hinv]
    simp [encUnits, Res.map]
  | succ n ih =>
    intro suf pre st acc fuel hn hinv hf
    obtain ⟨f, rfl⟩ : ∃ f, fuel = f + 1 := ⟨fuel - 1, by omega⟩
    cases suf with
    | nil =>
      rw [List.append_nil] at *
      have hi : ¬ st.i < pre.length := by rw [hinv.1]; omega
      rw [encodeLoop, if_neg hi, encodeReturn_inv hinv]
      simp [encUnits, Res.map]
    | cons c suf1 =>
      have hi : st.i < (pre ++ c :: suf1).length := by rw [hinv.1]; simp
      obtain ⟨st1, hinv1, hrun⟩ := asciiLoop_run tbl hexT suf1 pre c st acc
        ((pre ++ c :: suf1).length + 1) hinv (by simp; omega)
      have hunit : unitAt (pre ++ c :: suf1) st.i = c := by
        rw [hinv.1]; exact unitAt_append pre c suf1
      rw [encodeLoop, if_pos hi, hunit, hrun]
      have hsplit := List.takeWhile_append_dropWhile (fun x => decide (x < 128)) (c :: suf1)
      have hlen : ((c :: suf1).takeWhile (fun x => decide (x < 128))).length
          + ((c :: suf1).dropWhile (fun x => decide (x < 128))).length = suf1.length + 1 := by
        rw [← List.length_append, hsplit]; simp
      generalize hA : (c :: suf1).takeWhile (fun x => decide (x < 128)) = A at *
      generalize hR : (c :: suf1).dropWhile (fun x => decide (x < 128)) = R at *
      have hasc : ∀ x ∈ A, x < 128 := by
        rw [← hA]; exact takeWhile_ascii _
      rw [← hsplit, encUnits_run tbl hexT A R hasc]
      have hstr : pre ++ (A ++ R) = (pre ++ A) ++ R := by simp
      rw [hstr]
      cases R with
      | nil =>
        simp only [List.head?_nil, List.append_nil] at *
        rw [encodeReturn_inv hinv1]
        simp [encUnits, Res.map]
      | cons d R1 =>
        have hd : ¬ d < 128 := dropWhile_ascii_head _ d R1 hR
        have hfl := flushSlice_inv (d :: R1) hinv1
        simp only [List.head?_cons]
        simp only [hfl]
        have hR1 : R1.length ≤ n := by
          simp only [List.length_cons] at hlen hn
          omega
        have hf1 : R1.length < f := by
          simp only [List.length_cons] at hlen hf
          omega
        have hstr2 : (pre ++ A) ++ d :: R1 = (pre ++ A ++ [d]) ++ R1 := by simp
        by_cases h2 : d < 2048
        · rw [if_pos h2, encUnits_two tbl hexT d R1 hd h2, hstr2,
            ih R1 _ _ _ f hR1 (encInv_escape d (twoBytes hexT d) hinv1) hf1]
          simp [Res.map_map]
        · rw [if_neg h2]
          by_cases h3 : d < 55296 ∨ d ≥ 57344
          · rw [if_pos h3, encUnits_three tbl hexT d R1 hd h2 h3, hstr2,
              ih R1 _ _ _ f hR1 (encInv_escape d (threeBytes hexT d) hinv1) hf1]
            simp [Res.map_map]
          · rw [if_neg h3]
            cases R1 with
            | nil =>
              have hge : st1.i + 1 ≥ (pre ++ A ++ [d]).length := by
                rw [hinv1.1]; simp; omega
              simp only [hge, if_true]
              rw [encUnits_last tbl hexT d hd h2 h3]
              rfl
            | cons e R2 =>
              have hlt : ¬ st1.i + 1 ≥ (pre ++ A ++ d :: e :: R2).length := by
                rw [hinv1.1]; simp; omega
              have hue : unitAt (pre ++ A ++ d :: e :: R2) (st1.i + 1) = e := by
                have := unitAt_append (pre ++ A ++ [d]) e R2
                simpa [hinv1.1] using this
              simp only [hlt, if_false, hue]
              have hstr3 : pre ++ A ++ d :: e :: R2 = (pre ++ A ++ [d] ++ [e]) ++ R2 := by simp
              have hinv2 : EncInv (pre ++ A ++ [d] ++ [e])
                  { i := st1.i + 1 + 1, lastPos := st1.i + 1 + 1,
                    out := acc ++ A.flatMap (asciiUnit tbl hexT) ++ fourBytes hexT d e }
                  (acc ++ A.flatMap (asciiUnit tbl hexT) ++ fourBytes hexT d e) := by
                have hl2 : st1.i + 1 + 1 = (pre ++ A ++ [d] ++ [e]).length := by
                  rw [hinv1.1]; simp; omega
                refine ⟨hl2, Nat.le_refl _, fun h0 => by simp at h0, ?_⟩
                show _ ++ (pre ++ A ++ [d] ++ [e]).drop (st1.i + 1 + 1) = _
                rw [hl2, List.drop_length, List.append_nil]
              have hR2 : R2.length ≤ n := by
                simp only [List.length_cons] at hR1
                omega
              have hf2 : R2.length < f := by
                simp only [List.length_cons] at hf1
                omega
              rw [encUnits_four tbl hexT d e R2 hd h2 h3, hstr3, ih R2 _ _ _ f hR2 hinv2 hf2]
              simp [Res.map_map]

/-- The function `encodeStr` is the recursion `encUnits` on its input, for every input and
tables: in particular it never runs out of fuel. -/
theorem encodeStr_units (str : Str) (tbl : Nat → Nat) (hexT : Nat → Str) :
    encodeStr str tbl hexT = encUnits tbl hexT str := by
  unfold encodeStr
  by_cases h0 : str.length = 0
  · rw [if_pos h0, List.length_eq_zero.mp h0]
    rfl
  · rw [if_neg h0]
    have hinv : EncInv [] { i := 0, lastPos := 0, out := [] } [] := by
      refine ⟨rfl, Nat.le_refl _, fun _ => rfl, rfl⟩
    have h := encodeLoop_units tbl hexT str.length str [] _ [] (str.length + 1)
      (Nat.le_refl _) hinv (Nat.lt_succ_self _)
    rw [List.nil_append] at h
    rw [h]
    cases encUnits tbl hexT str <;> simp [Res.map]

/-! ## `encodeStr`: the escapes are those of the UTF-8 bytes -/

theorem hexTable_pct (b : Nat) (hb : b < 256) : hexTable b = pctByte b := by
  unfold hexTable pctByte
  by_cases h : b < 16
  · have h1 : b / 16 = 0 := by omega
    have h2 : b % 16 = b := by omega
    simp [h, h1, h2, upperHexDigit]
  · simp [h]

theorem and_63 (c : Nat) : c &&& 63 = c % 64 := Nat.and_pow_two_sub_one_eq_mod c 6

theorem and_1023 (c : Nat) : c &&& 1023 = c % 1024 := Nat.and_pow_two_sub_one_eq_mod c 10

theorem shr_6 (c : Nat) : c >>> 6 = c / 64 := Nat.shiftRight_eq_div_pow c 6

theorem shr_12 (c : Nat) : c >>> 12 = c / 4096 := Nat.shiftRight_eq_div_pow c 12

theorem shr_18 (c : Nat) : c >>> 18 = c / 262144 := Nat.shiftRight_eq_div_pow c 18

theorem or_128 : ∀ x, x < 64 → 128 ||| x = 128 + x := by decide

theorem or_192 : ∀ x, x < 32 → 192 ||| x = 192 + x := by decide

theorem or_224 : ∀ x, x < 16 → 224 ||| x = 224 + x := by decide

theorem or_240 : ∀ x, x < 8 → 240 ||| x = 240 + x := by decide

theorem shl_or (x y : Nat) (hy : y < 1024) : (x <<< 10) ||| y = x * 1024 + y := by
  rw [Nat.shiftLeft_eq]
  have := @Nat.mul_add_lt_is_or 10 y hy x
  rw [Nat.mul_comm x (2 ^ 10), ← this]

theorem twoBytes_utf8 (c : Nat) (h1 : ¬ c < 128) (h2 : c < 2048) :
    twoBytes hexTable c = (utf8Bytes c).flatMap pctByte := by
  have ha : 192 ||| (c >>> 6) = 192 + c / 64 := by
    rw [shr_6]; exact or_192 _ (by omega)
  have hb : 128 ||| (c &&& 63) = 128 + c % 64 := by
    rw [and_63]; exact or_128 _ (by omega)
  unfold twoBytes utf8Bytes
  simp only [h1, h2, if_true, if_false]
  rw [ha, hb, hexTable_pct _ (by omega), hexTable_pct _ (by omega)]
  simp

theorem threeBytes_utf8 (c : Nat) (h2 : ¬ c < 2048) (h3 : c < 65536) :
    threeBytes hexTable c = (utf8Bytes c).flatMap pctByte := by
  have h1 : ¬ c < 128 := by omega
  have ha : 224 ||| (c >>> 12) = 224 + c / 4096 := by
    rw [shr_12]; exact or_224 _ (by omega)
  have hb : 128 ||| ((c >>> 6) &&& 63) = 128 + c / 64 % 64 := by
    rw [shr_6, and_63]; exact or_128 _ (by omega)
  have hc : 128 ||| (c &&& 63) = 128 + c % 64 := by
    rw [and_63]; exact or_128 _ (by omega)
  unfold threeBytes utf8Bytes
  simp only [h1, h2, h3, if_true, if_false]
  rw [ha, hb, hc, hexTable_pct _ (by omega), hexTable_pct _ (by omega),
    hexTable_pct _ (by omega)]
  simp

theorem fourBytes_utf8 (c d : Nat) (hc : IsHigh c) (hd : IsLow d) :
    fourBytes hexTable c d
      = (utf8Bytes (0x10000 + (c - 0xD800) * 0x400 + (d - 0xDC00))).flatMap pctByte := by
  obtain ⟨hc1, hc2⟩ := hc
  obtain ⟨hd1, hd2⟩ := hd
  have hcp : 65536 + (((c &&& 1023) <<< 10) ||| (d &&& 1023))
      = 65536 + (c - 55296) * 1024 + (d - 56320) := by
    rw [and_1023, and_1023, shl_or _ _ (by omega)]
    have e1 : c % 1024 = c - 55296 := by omega
    have e2 : d % 1024 = d - 56320 := by omega
    rw [e1, e2, Nat.add_assoc]
  unfold fourBytes
  simp only [hcp]
  generalize hp : 65536 + (c - 55296) * 1024 + (d - 56320) = cp
  have hlo : 65536 ≤ cp := by omega
  have hhi : cp < 1114112 := by omega
  have ha : 240 ||| (cp >>> 18) = 240 + cp / 262144 := by
    rw [shr_18]; exact or_240 _ (by omega)
  have hb : 128 ||| ((cp >>> 12) &&& 63) = 128 + cp / 4096 % 64 := by
    rw [shr_12, and_63]; exact or_128 _ (by omega)
  have hc3 : 128 ||| ((cp >>> 6) &&& 63) = 128 + cp / 64 % 64 := by
    rw [shr_6, and_63]; exact or_128 _ (by omega)
  have hd3 : 128 ||| (cp &&& 63) = 128 + cp % 64 := by
    rw [and_63]; exact or_128 _ (by omega)
  have n1 : ¬ cp < 128 := by omega
  have n2 : ¬ cp < 2048 := by omega
  have n3 : ¬ cp < 65536 := by omega
  unfold utf8Bytes
  simp only [n1, n2, n3, if_false]
  rw [ha, hb, hc3, hd3, hexTable_pct _ (by omega), hexTable_pct _ (by omega),
    hexTable_pct _ (by omega), hexTable_pct _ (by omega)]
  simp

theorem asciiUnit_point (tbl : Nat → Nat) (c : Nat) (hc : c < 128) :
    asciiUnit tbl hexTable c = encodePoint tbl c := by
  unfold asciiUnit encodePoint utf8Bytes
  by_cases ht : tbl c = 1
  · simp [ht, hc]
  · simp [ht, hc, hexTable_pct c (by omega)]

theorem encodePoint_multi (tbl : Nat → Nat) (cp : Nat) (h : ¬ cp < 128) :
    encodePoint tbl cp = (utf8Bytes cp).flatMap pctByte := by
  unfold encodePoint
  simp [h]

theorem wellFormed_scalar (c : Nat) (r : Str) (hc : IsScalarUnit c) :
    wellFormed (c :: r) = wellFormed r := by
  cases r with
  | nil => simp [wellFormed, hc]
  | cons d t => simp [wellFormed, hc]

theorem wellFormed_pair (c : Nat) (r : Str) (hc : ¬ IsScalarUnit c)
    (h : wellFormed (c :: r) = true) :
    ∃ d t, r = d :: t ∧ IsHigh c ∧ IsLow d ∧ wellFormed t = true := by
  cases r with
  | nil => simp [wellFormed, hc] at h
  | cons d t =>
    simp only [wellFormed, hc, if_false, Bool.and_eq_true, decide_eq_true_eq] at h
    exact ⟨d, t, rfl, h.1.1, h.1.2, h.2⟩

theorem codePoints_scalar (c : Nat) (r : Str) (hc : ¬ IsHigh c) :
    codePoints (c :: r) = c :: codePoints r := by
  cases r with
  | nil => simp [codePoints]
  | cons d t => simp [codePoints, hc]

theorem codePoints_pair (c d : Nat) (t : Str) (hc : IsHigh c) (hd : IsLow d) :
    codePoints (c :: d :: t)
      = (0x10000 + (c - 0xD800) * 0x400 + (d - 0xDC00)) :: codePoints t := by
  simp [codePoints, hc, hd]

/-- On a well-formed string the recursion `encUnits` with the table `hexTable` of the module
returns the UTF-8 percent-encoding. -/
theorem encUnits_utf8 (tbl : Nat → Nat) (n : Nat) :
    ∀ s : Str, s.length ≤ n → wellFormed s = true →
      encUnits tbl hexTable s = Res.ok (utf8PercentEncode tbl s) := by
  induction n with
  | zero =>
    intro s hn _
    have hs : s = [] := List.length_eq_zero.mp (by omega)
    subst hs
    rfl
  | succ n ih =>
    intro s hn hw
    cases s with
    | nil => rfl
    | cons c r =>
      have hr : r.length ≤ n := by simp only [List.length_cons] at hn; omega
      by_cases hs : IsScalarUnit c
      · rw [wellFormed_scalar c r hs] at hw
        have hnh : ¬ IsHigh c := by
          unfold IsScalarUnit at hs
          unfold IsHigh
          omega
        have hcp : utf8PercentEncode tbl (c :: r)
            = encodePoint tbl c ++ utf8PercentEncode tbl r := by
          unfold utf8PercentEncode
          rw [codePoints_scalar c r hnh]
          simp
        rw [hcp]
        unfold IsScalarUnit at hs
        by_cases h1 : c < 128
        · rw [encUnits_ascii tbl hexTable c r h1, ih r hr hw, asciiUnit_point tbl c h1]
          rfl
        · rw [encodePoint_multi tbl c h1]
          by_cases h2 : c < 2048
          · rw [encUnits_two tbl hexTable c r h1 h2, ih r hr hw, twoBytes_utf8 c h1 h2]
            rfl
          · rw [encUnits_three tbl hexTable c r h1 h2 (by omega), ih r hr hw,
              threeBytes_utf8 c h2 (by omega)]
            rfl
      · obtain ⟨d, t, rfl, hc, hd, hwt⟩ := wellFormed_pair c r hs hw
        have ht : t.length ≤ n := by simp only [List.length_cons] at hr; omega
        have hc1 := hc.1
        have hc2 := hc.2
        have hcp : utf8PercentEncode tbl (c :: d :: t)
            = encodePoint tbl (0x10000 + (c - 0xD800) * 0x400 + (d - 0xDC00))
              ++ utf8PercentEncode tbl t := by
          unfold utf8PercentEncode
          rw [codePoints_pair c d t hc hd]
          simp
        rw [hcp, encUnits_four tbl hexTable c d t (by omega) (by omega) (by omega), ih t ht hwt,
          encodePoint_multi tbl _ (by omega), fourBytes_utf8 c d hc hd]
        rfl

/-- A well-formed string followed by one surrogate: the recursion `encUnits` raises. -/
theorem encUnits_trailing (tbl : Nat → Nat) (hexT : Nat → Str) (u : Nat)
    (hu : 0xD800 ≤ u ∧ u ≤ 0xDFFF) (n : Nat) :
    ∀ w : Str, w.length ≤ n → wellFormed w = true →
      encUnits tbl hexT (w ++ [u]) = Res.throw Exn.invalidURI := by
  induction n with
  | zero =>
    intro w hn _
    have hs : w = [] := List.length_eq_zero.mp (by omega)
    subst hs
    exact encUnits_last tbl hexT u (by omega) (by omega) (by omega)
  | succ n ih =>
    intro w hn hw
    cases w with
    | nil => exact encUnits_last tbl hexT u (by omega) (by omega) (by omega)
    | cons c r =>
      have hr : r.length ≤ n := by simp only [List.length_cons] at hn; omega
      by_cases hs : IsScalarUnit c
      · rw [wellFormed_scalar c r hs] at hw
        unfold IsScalarUnit at hs
        rw [List.cons_append]
        by_cases h1 : c < 128
        · rw [encUnits_ascii tbl hexT c _ h1, ih r hr hw]
          rfl
        · by_cases h2 : c < 2048
          · rw [encUnits_two tbl hexT c _ h1 h2, ih r hr hw]
            rfl
          · rw [encUnits_three tbl hexT c _ h1 h2 (by omega), ih r hr hw]
            rfl
      · obtain ⟨d, t, rfl, hc, hd, hwt⟩ := wellFormed_pair c r hs hw
        have ht : t.length ≤ n := by simp only [List.length_cons] at hr; omega
        have hc1 := hc.1
        have hc2 := hc.2
        rw [List.cons_append, List.cons_append,
          encUnits_four tbl hexT c d _ (by omega) (by omega) (by omega), ih t ht hwt]
        rfl

/-- C22: `encodeStr` with the table `hexTable` of the module is a UTF-8 percent-encoder. For
every string of code units whose surrogates are all well-formed pairs and every no-escape
table it returns the concatenation, over the code points of the string in order, of the
character itself when it is ASCII and the table marks it unescaped, else of the uppercase
escapes `%XX` of the UTF-8 bytes of the code point; and a surrogate pair alone yields four
escapes, the first of a lead byte `F0`–`F7` of a four-byte sequence. -/
theorem encodeStr_utf8 (s : Str) (tbl : Nat → Nat) (h : wellFormed s = true) :
    encodeStr s tbl hexTable = Res.ok (utf8PercentEncode tbl s)
    ∧ ∀ hi lo, IsHigh hi → IsLow lo →
        ∃ b1 b2 b3 b4, encodeStr [hi, lo] tbl hexTable
            = Res.ok (pctByte b1 ++ pctByte b2 ++ pctByte b3 ++ pctByte b4)
          ∧ 240 ≤ b1 ∧ b1 < 248 := by
  refine ⟨?_, ?_⟩
  · rw [encodeStr_units]
    exact encUnits_utf8 tbl s.length s (Nat.le_refl _) h
  · intro hi lo hhi hlo
    have h1 := hhi.1
    have h2 := hhi.2
    have h3 := hlo.1
    have h4 := hlo.2
    rw [encodeStr_units, encUnits_four tbl hexTable hi lo [] (by omega) (by omega) (by omega),
      fourBytes_utf8 hi lo hhi hlo]
    generalize hp : 0x10000 + (hi - 0xD800) * 0x400 + (lo - 0xDC00) = cp
    have n1 : ¬ cp < 128 := by omega
    have n2 : ¬ cp < 2048 := by omega
    have n3 : ¬ cp < 65536 := by omega
    refine ⟨0xF0 + cp / 262144, 0x80 + cp / 4096 % 64, 0x80 + cp / 64 % 64, 0x80 + cp % 64,
      ?_, by omega, by omega⟩
    simp [utf8Bytes, n1, n2, n3, encUnits, Res.map]

/-- Witness of C22: the string `a b/é€😀z` (one character of each length in UTF-8), with a
table that marks the lowercase letters and `/` unescaped. -/
theorem encodeStr_utf8_witness :
    wellFormed (lit "a b/é€😀z") = true
    ∧ (encodeStr (lit "a b/é€😀z") (fun c => if (97 ≤ c ∧ c ≤ 122) ∨ c = 47 then 1 else 0)
          hexTable
        = Res.ok (utf8PercentEncode (fun c => if (97 ≤ c ∧ c ≤ 122) ∨ c = 47 then 1 else 0)
            (lit "a b/é€😀z"))
      ∧ ∀ hi lo, IsHigh hi → IsLow lo →
        ∃ b1 b2 b3 b4, encodeStr [hi, lo] (fun c => if (97 ≤ c ∧ c ≤ 122) ∨ c = 47 then 1 else 0)
              hexTable
            = Res.ok (pctByte b1 ++ pctByte b2 ++ pctByte b3 ++ pctByte b4)
          ∧ 240 ≤ b1 ∧ b1 < 248) :=
  ⟨by decide, encodeStr_utf8 _ _ (by decide)⟩

/-- The encoding of the string of the witness of C22, written out. -/
theorem encodeStr_example :
    encodeStr (lit "a b/é€😀z") (fun c => if (97 ≤ c ∧ c ≤ 122) ∨ c = 47 then 1 else 0) hexTable
      = Res.ok (lit "a%20b/%C3%A9%E2%82%AC%F0%9F%98%80z") := by
  decide

/-- C23 fails: the strings `\uDC00a` and `a\uDC00bc` contain a low surrogate that no high
surrogate precedes, and `encodeStr` returns for both: it combines the low surrogate with the
code unit behind it into four escapes. -/
theorem encodeStr_lone_low_returns :
    IsLow 0xDC00
    ∧ encodeStr [0xDC00, 97] (fun _ => 0) hexTable = Res.ok (lit "%F0%90%81%A1")
    ∧ encodeStr [97, 0xDC00, 98, 99] (fun _ => 1) hexTable = Res.ok (lit "a%F0%90%81%A2c") := by
  decide

/-- C23 as the code has it: `encodeStr` raises `Invalid URI` when the scan meets a surrogate
(high or low) as the last code unit; so for every string whose surrogates are all well-formed
pairs, followed by one surrogate. -/
theorem encodeStr_trailing_surrogate (w : Str) (u : Nat) (tbl : Nat → Nat) (hexT : Nat → Str)
    (hw : wellFormed w = true) (hu : 0xD800 ≤ u ∧ u ≤ 0xDFFF) :
    encodeStr (w ++ [u]) tbl hexT = Res.throw Exn.invalidURI := by
  rw [encodeStr_units]
  exact encUnits_trailing tbl hexT u hu w.length w (Nat.le_refl _) hw

/-- Witness of the amended C23: `a😀` followed by a low surrogate. -/
theorem encodeStr_trailing_surrogate_witness :
    wellFormed (lit "a😀") = true ∧ (0xD800 ≤ 0xDC00 ∧ 0xDC00 ≤ 0xDFFF)
    ∧ encodeStr (lit "a😀" ++ [0xDC00]) (fun _ => 1) hexTable = Res.throw Exn.invalidURI :=
  ⟨by decide, by decide, encodeStr_trailing_surrogate _ _ _ _ (by decide) (by decide)⟩

/-! ## The accessor `userinfo` of the class `URI` -/

/-- A step of the constructor that only appends to `href` and leaves the offsets of scheme
and userinfo alone. -/
theorem contextHost_keeps (c c1 : URIContext) (host : Option Str)
    (h : contextHost c host = Res.ok c1) :
    c1.schemeEnd = c.schemeEnd ∧ c1.userinfoEnd = c.userinfoEnd
      ∧ ∃ t, c1.href = c.href ++ t := by
  cases host with
  | none =>
    have : c1 = c := by
      simp only [contextHost, Res.pure_eq, Res.ok.injEq] at h
      exact h.symm
    subst this
    exact ⟨rfl, rfl, [], by simp⟩
  | some x =>
    simp only [contextHost, Res.bind_eq] at h
    obtain ⟨d, _, h2⟩ := Res.bind_ok_inv h
    split at h2
    · simp only [Res.pure_eq, Res.ok.injEq] at h2
      subst h2
      exact ⟨rfl, rfl, _, rfl⟩
    · split at h2
      · simp only [Res.pure_eq, Res.ok.injEq] at h2
        subst h2
        exact ⟨rfl, rfl, _, rfl⟩
      · simp only [Res.pure_eq, Res.ok.injEq] at h2
        subst h2
        exact ⟨rfl, rfl, _, rfl⟩

theorem contextPort_keeps (c : URIContext) (port : Option Str) :
    (contextPort c port).schemeEnd = c.schemeEnd
      ∧ (contextPort c port).userinfoEnd = c.userinfoEnd
      ∧ ∃ t, (contextPort c port).href = c.href ++ t := by
  cases port with
  | none => exact ⟨rfl, rfl, [], by simp [contextPort]⟩
  | some p => exact ⟨rfl, rfl, [58] ++ p, by simp [contextPort]⟩

theorem contextPath_keeps (c : URIContext) (path s : Str) :
    (contextPath c path s).schemeEnd = c.schemeEnd
      ∧ (contextPath c path s).userinfoEnd = c.userinfoEnd
      ∧ ∃ t, (contextPath c path s).href = c.href ++ t := by
  unfold contextPath
  simp only []
  split <;> split <;> refine ⟨rfl, rfl, ?_⟩ <;>
    first
      | exact ⟨s, rfl⟩
      | exact ⟨[47] ++ s, by simp⟩

theorem contextQuery_keeps (c : URIContext) (query : Option Str) :
    (contextQuery c query).schemeEnd = c.schemeEnd
      ∧ (contextQuery c query).userinfoEnd = c.userinfoEnd
      ∧ ∃ t, (contextQuery c query).href = c.href ++ t := by
  cases query with
  | none => exact ⟨rfl, rfl, [], by simp [contextQuery]⟩
  | some p => exact ⟨rfl, rfl, [63] ++ p, by simp [contextQuery]⟩

theorem contextFragment_keeps (c : URIContext) (fragment : Option Str) :
    (contextFragment c fragment).schemeEnd = c.schemeEnd
      ∧ (contextFragment c fragment).userinfoEnd = c.userinfoEnd
      ∧ ∃ t, (contextFragment c fragment).href = c.href ++ t := by
  cases fragment with
  | none => exact ⟨rfl, rfl, [], by simp [contextFragment]⟩
  | some p => exact ⟨rfl, rfl, [35] ++ p, by simp [contextFragment]⟩

theorem contextTail_keeps (options : Options) (sh : Option SchemeHandler) (c c1 : URIContext)
    (port : Option Str) (path : Str) (query fragment : Option Str)
    (h : contextTail options sh c port path query fragment = Res.ok c1) :
    c1.schemeEnd = c.schemeEnd ∧ c1.userinfoEnd = c.userinfoEnd
      ∧ ∃ t, c1.href = c.href ++ t := by
  have hs : ∃ s, c1
      = contextFragment (contextQuery (contextPath (contextPort c port) path s) query)
          fragment := by
    simp only [contextTail, Res.bind_eq] at h
    split at h
    · obtain ⟨s, _, h2⟩ := Res.bind_ok_inv h
      simp only [Res.pure_eq, Res.ok.injEq] at h2
      exact ⟨s, h2.symm⟩
    · obtain ⟨s, _, h2⟩ := Res.bind_ok_inv h
      simp only [Res.pure_eq, Res.ok.injEq] at h2
      exact ⟨s, h2.symm⟩
  obtain ⟨s, rfl⟩ := hs
  obtain ⟨a1, a2, t1, a3⟩ := contextPort_keeps c port
  obtain ⟨b1, b2, t2, b3⟩ := contextPath_keeps (contextPort c port) path s
  obtain ⟨c1, c2, t3, c3⟩ := contextQuery_keeps (contextPath (contextPort c port) path s) query
  obtain ⟨d1, d2, t4, d3⟩ := contextFragment_keeps
    (contextQuery (contextPath (contextPort c port) path s) query) fragment
  refine ⟨by rw [d1, c1, b1, a1], by rw [d2, c2, b2, a2], t1 ++ t2 ++ t3 ++ t4, ?_⟩
  rw [d3, c3, b3, a3]
  simp

theorem contextHead_none (options : Options) (scheme host : Option Str) :
    (contextHead options scheme none host).userinfoEnd = omitted := by
  unfold contextHead
  simp only []
  split <;> split <;> rfl

theorem contextHead_scheme (options : Options) (scheme host : Option Str) (ui : Str)
    (hs : options.reference ≠ some (lit "suffix")) (ht : truthy scheme = true) :
    (contextHead options scheme (some ui) host).href
        = scheme.getD [] ++ lit "://" ++ ui ++ [64]
      ∧ (contextHead options scheme (some ui) host).schemeEnd = (scheme.getD []).length
      ∧ (contextHead options scheme (some ui) host).userinfoEnd
          = (scheme.getD [] ++ lit "://" ++ ui).length := by
  have hl : lit "://" = [58, 47, 47] := by decide
  unfold contextHead
  simp [hs, ht, hl]

theorem contextHead_no_scheme (options : Options) (scheme host : Option Str) (ui : Str)
    (hs : options.reference ≠ some (lit "suffix")) (ht : truthy scheme = false) :
    (contextHead options scheme (some ui) host).href = lit "//" ++ ui ++ [64]
      ∧ (contextHead options scheme (some ui) host).schemeEnd = omitted
      ∧ (contextHead options scheme (some ui) host).userinfoEnd = (lit "//" ++ ui).length := by
  have hl : lit "//" = [47, 47] := by decide
  unfold contextHead
  simp [hs, ht, hl]

/-- What the constructor returns: `href` starts with the head of scheme, `//` and userinfo,
and the offsets of scheme and userinfo are those of the head. -/
theorem URI_new_head (env : Env) (s : Str) (opts : Options) (u : URI)
    (h : URI.new env s opts = Res.ok u) :
    ∃ scheme userinfo host t,
      u.context.schemeEnd = (contextHead opts scheme userinfo host).schemeEnd
      ∧ u.context.userinfoEnd = (contextHead opts scheme userinfo host).userinfoEnd
      ∧ u.context.href = (contextHead opts scheme userinfo host).href ++ t := by
  simp only [URI.new, Res.bind_eq] at h
  obtain ⟨scheme, _, h⟩ := Res.bind_ok_inv h
  obtain ⟨userinfo, _, h⟩ := Res.bind_ok_inv h
  obtain ⟨host, _, h⟩ := Res.bind_ok_inv h
  obtain ⟨path1, _, h⟩ := Res.bind_ok_inv h
  obtain ⟨query, _, h⟩ := Res.bind_ok_inv h
  obtain ⟨fragment, _, h⟩ := Res.bind_ok_inv h
  obtain ⟨path, _, h⟩ := Res.bind_ok_inv h
  obtain ⟨c4, h4, h⟩ := Res.bind_ok_inv h
  obtain ⟨c, h5, h⟩ := Res.bind_ok_inv h
  simp only [Res.pure_eq, Res.ok.injEq] at h
  subst h
  obtain ⟨a1, a2, t1, a3⟩ := contextHost_keeps _ _ _ h4
  obtain ⟨b1, b2, t2, b3⟩ := contextTail_keeps _ _ _ _ _ _ _ _ h5
  refine ⟨scheme, userinfo, host, t1 ++ t2, ?_, ?_, ?_⟩
  · show c.schemeEnd = _
    rw [b1, a1]
  · show c.userinfoEnd = _
    rw [b2, a2]
  · show c.href = _
    rw [b3, a3, List.append_assoc]

theorem slice_middle (a x t : Str) : slice (a ++ x ++ t) a.length (a ++ x).length = x := by
  unfold slice
  rw [List.take_left', List.drop_left']
  · rfl
  · rfl

/-- The accessor `userinfo` on what the constructor returns (outside suffix mode, `href`
shorter than `2 ^ 32 - 1`), when a userinfo has been written: behind a scheme the accessor
is the text between `://` and the `@` that the constructor wrote behind the userinfo;
without a scheme `href` starts with `//`, the userinfo and `@`, and the accessor is empty. -/
theorem URI_userinfo_getter (env : Env) (s : Str) (opts : Options) (u : URI)
    (h : URI.new env s opts = Res.ok u) (hs : opts.reference ≠ some (lit "suffix"))
    (hlen : u.toString.length < omitted) (hu : u.context.hasUserinfo = true) :
    (u.context.hasScheme = true →
      ∃ sc ui t, u.toString = sc ++ lit "://" ++ ui ++ 64 :: t ∧ u.scheme = sc ∧ u.userinfo = ui)
    ∧ (u.context.hasScheme = false →
      ∃ ui t, u.toString = lit "//" ++ ui ++ 64 :: t ∧ u.userinfo = []) := by
  obtain ⟨scheme, userinfo, host, t, e1, e2, e3⟩ := URI_new_head env s opts u h
  have hue : u.context.userinfoEnd ≠ omitted := by
    simpa [URIContext.hasUserinfo] using hu
  cases userinfo with
  | none =>
    rw [contextHead_none] at e2
    exact absurd e2 hue
  | some ui =>
    by_cases ht : truthy scheme = true
    · obtain ⟨f1, f2, f3⟩ := contextHead_scheme opts scheme host ui hs ht
      rw [f1] at e3
      rw [f2] at e1
      rw [f3] at e2
      have hhref : u.toString = scheme.getD [] ++ lit "://" ++ ui ++ 64 :: t := by
        show u.context.href = _
        rw [e3]; simp
      refine ⟨fun _ => ⟨scheme.getD [], ui, t, hhref, ?_, ?_⟩, fun hn => ?_⟩
      · unfold URI.scheme
        have hsc : u.context.hasScheme = true := by
          have : u.context.schemeEnd ≠ omitted := by
            rw [e1]
            have : (scheme.getD []).length ≤ u.toString.length := by
              rw [hhref]; simp
            omega
          simpa [URIContext.hasScheme] using this
        rw [hsc]
        simp only [Bool.true_eq_false, if_false]
        rw [e1]
        show slice u.toString 0 _ = _
        rw [hhref]
        simp [slice]
      · unfold URI.userinfo
        rw [hu]
        simp only [Bool.true_eq_false, if_false]
        rw [e1, e2]
        show slice u.toString _ _ = _
        rw [hhref]
        have hl3 : (scheme.getD []).length + 3 = (scheme.getD [] ++ lit "://").length := by
          have : (lit "://").length = 3 := by decide
          simp [this]
        rw [hl3]
        have := slice_middle (scheme.getD [] ++ lit "://") ui (64 :: t)
        simpa using this
      · exfalso
        have hsl : u.context.schemeEnd = omitted := by
          simpa [URIContext.hasScheme] using hn
        rw [e1] at hsl
        have : (scheme.getD []).length ≤ u.toString.length := by
          rw [hhref]; simp
        omega
    · have ht2 : truthy scheme = false := by simpa using ht
      obtain ⟨f1, f2, f3⟩ := contextHead_no_scheme opts scheme host ui hs ht2
      rw [f1] at e3
      rw [f2] at e1
      rw [f3] at e2
      have hhref : u.toString = lit "//" ++ ui ++ 64 :: t := by
        show u.context.href = _
        rw [e3]; simp
      refine ⟨fun hy => ?_, fun _ => ⟨ui, t, hhref, ?_⟩⟩
      · exfalso
        have : u.context.schemeEnd ≠ omitted := by
          simpa [URIContext.hasScheme] using hy
        exact this e1
      · unfold URI.userinfo
        rw [hu]
        simp only [Bool.true_eq_false, if_false]
        rw [e1, e2]
        unfold slice
        apply List.drop_eq_nil_of_le
        have h1 : (lit "//" ++ ui).length ≤ u.toString.length := by
          rw [hhref]; simp
        have h2 : (List.take (lit "//" ++ ui).length u.context.href).length
            ≤ (lit "//" ++ ui).length := List.length_take_le _ _
        omega

/-- C24 fails without a scheme: `new URI("//user@host")` has `toString()` `//user@host`, where
`user` stands between the `//` and the `@`, and its accessor `userinfo` is the empty string;
likewise for `//u:p@example.com:80/p`. With a scheme the accessor is right:
`new URI("x://user@host/a/../b?q#f")` has `toString()` `x://user@host/b?q#f` and `userinfo`
`user`. -/
theorem URI_userinfo_without_scheme :
    (URI.new noHandlers (lit "//user@host") {}).map (fun u => (u.toString, u.userinfo))
        = Res.ok (lit "//user@host", [])
    ∧ (URI.new noHandlers (lit "//u:p@example.com:80/p") {}).map
          (fun u => (u.toString, u.userinfo))
        = Res.ok (lit "//u:p@example.com:80/p", [])
    ∧ (URI.new noHandlers (lit "x://user@host/a/../b?q#f") {}).map
          (fun u => (u.toString, u.userinfo))
        = Res.ok (lit "x://user@host/b?q#f", lit "user") := by
  decide

/-- C6 fails for a large port: the record with the port `10 ^ 21` is written with the port
text `1e+21`, not with the digits of the port, and `parse` of what `serialize` wrote returns
the port `1` and the path `e+21/d`. Besides, `parse` rounds the digits of a port to a Number
value: the text `9007199254740993` gives the port `9007199254740992`. -/
theorem serialize_port_exponent :
    serialize noHandlers
        { scheme := some (lit "a"), userinfo := some (lit "b"), host := some (lit "c"),
          port := some (Port.num (10 ^ 21)), path := some (lit "/d"),
          query := some (lit "e"), fragment := some (lit "f") } {}
      = Res.ok (lit "a://b@c:1e+21/d?e#f")
    ∧ lit "a://b@c:1e+21/d?e#f" ≠ lit "a://b@c:1000000000000000000000/d?e#f"
    ∧ (parse noHandlers (lit "a://b@c:1e+21/d?e#f") {}).map (fun r => (r.host, r.port, r.path))
      = Res.ok (some (lit "c"), some (Port.num 1), some (lit "e+21/d"))
    ∧ (parse noHandlers (lit "a://b@c:9007199254740993/d?e#f") {}).map (fun r => r.port)
      = Res.ok (some (Port.num 9007199254740992)) := by
  refine ⟨by decide!, by decide, by decide, by decide!⟩

/-- The conversions on some values: `String` of `2 ^ 53 - 1`, `2 ^ 53`, `2 ^ 63`, `10 ^ 21`
and `2 ^ 70`, and the Number values of `2 ^ 53 + 1` and `2 ^ 53 + 3`, which are ties. -/
theorem numberToString_examples :
    numberToString (2 ^ 53 - 1) = lit "9007199254740991"
    ∧ numberToString (2 ^ 53) = lit "9007199254740992"
    ∧ numberToString (2 ^ 63) = lit "9223372036854776000"
    ∧ numberToString (10 ^ 21) = lit "1e+21"
    ∧ numberToString (2 ^ 70) = lit "1.1805916207174113e+21"
    ∧ toDouble (2 ^ 53 + 1) = 2 ^ 53 ∧ toDouble (2 ^ 53 + 3) = 2 ^ 53 + 4 := by
  refine ⟨by decide!, by decide!, by decide!, by decide!, by decide!, by decide!, by decide!⟩

end Uri
